import Mathlib

/-!
Iron Shot League: tournament-format engines

A shallow embedding of the format engines under `src/lib` (round robin, single
elimination, Swiss, ladder, Killer) together with the properties of the
specification that concern them.

Conventions of the embedding.

* Player names and winner tags are JavaScript strings, hence `String`; a slot that
  holds `null` is `none`.
* Counters, ranks, seeds and scores are JavaScript numbers that only ever hold
  integers in these modules, hence `Int` (or `Nat` for lengths, indices and round
  numbers, which the code only ever increments from zero).
* Ambient sources (`crypto.randomUUID()`, `Math.random()`, `new Date()`) are passed in
  explicitly as arguments.
-/

namespace IronShot

/-! ## Round robin (`src/lib/roundrobin.js`) -/

/-- A match of the round-robin and Swiss engines:
`{id, round, player1, player2, score1, score2, winner, completed}`. -/
structure Match where
  id : String
  round : Nat
  player1 : Option String
  player2 : Option String
  score1 : Option Int
  score2 : Option Int
  winner : Option String
  completed : Bool
deriving DecidableEq, Repr

/-- A round `{number, matches}`. -/
structure Round where
  number : Nat
  matchList : List Match
deriving DecidableEq, Repr

/-- The value `{rounds, matches}` returned by `generateRoundRobinSchedule`. -/
structure Schedule where
  rounds : List Round
  matchList : List Match
deriving DecidableEq, Repr

/-- Indexing `xs[i]` into an array of nullable names. (Every index used by the
engines is in range; JavaScript would give `undefined` outside the array.) -/
def nameAt (xs : List (Option String)) (i : Nat) : Option String :=
  xs.getD i none

/-- The statement `rotating.unshift(rotating.pop())`: the last element moves to the
front. -/
def rotateLastToFront (rotating : List (Option String)) : List (Option String) :=
  match rotating.getLast? with
  | none => rotating
  | some x => x :: rotating.dropLast

/-- The object literal of a freshly scheduled match. -/
def newMatch (id : String) (round : Nat) (player1 player2 : Option String) : Match :=
  { id := id, round := round, player1 := player1, player2 := player2,
    score1 := none, score2 := none, winner := none, completed := false }

/-- The body of one iteration of the outer loop of `generateRoundRobinSchedule`,
up to `rounds.push`: the matches of round `round` (0-based), given the fixed first
participant and the current `rotating` array. `uuid round i` is the identifier that
`crypto.randomUUID()` returns for the match built in round `round` at fold index `i`
(`0` for the first match). -/
def roundMatches (uuid : Nat → Nat → String) (round : Nat) (first : Option String)
    (rotating : List (Option String)) (halfSize : Nat) : List Match :=
  let firstMatch := newMatch (uuid round 0) (round + 1) first (nameAt rotating 0)
  (if firstMatch.player1 ≠ none ∧ firstMatch.player2 ≠ none then [firstMatch] else []) ++
  (List.range' 1 (halfSize - 1)).filterMap (fun i =>
    let player1 := nameAt rotating i
    let player2 := nameAt rotating (rotating.length - i)
    if player1 ≠ none ∧ player2 ≠ none then
      some (newMatch (uuid round i) (round + 1) player1 player2)
    else none)

/-- The outer loop `for (let round = 0; round < numRounds; round++)`, with
`remaining = numRounds - round` iterations still to run; it returns the rounds pushed
from here on. -/
def roundsLoop (uuid : Nat → Nat → String) (first : Option String) (halfSize : Nat) :
    Nat → Nat → List (Option String) → List Round
  | 0, _, _ => []
  | remaining + 1, round, rotating =>
    { number := round + 1, matchList := roundMatches uuid round first rotating halfSize } ::
      roundsLoop uuid first halfSize remaining (round + 1) (rotateLastToFront rotating)

/-- The function `generateRoundRobinSchedule(players)`. Every match pushed to a round
is pushed to `allMatches` at the same moment, so `matches` is the concatenation of
the rounds. -/
def generateRoundRobinSchedule (uuid : Nat → Nat → String) (players : List String) :
    Schedule :=
  if players.length < 2 then { rounds := [], matchList := [] }
  else
    let n := players.length
    let isOdd := n % 2 = 1
    let participants : List (Option String) :=
      if isOdd then players.map some ++ [none] else players.map some
    let numRounds := participants.length - 1
    let halfSize := participants.length / 2
    let rotating := participants.drop 1
    let rounds := roundsLoop uuid (nameAt participants 0) halfSize numRounds 0 rotating
    { rounds := rounds, matchList := rounds.flatMap (fun r => r.matchList) }

/-- The test that a match is the meeting of the unordered pair `{a, b}`. -/
def Match.isBetween (a b : String) (m : Match) : Bool :=
  (m.player1 = some a && m.player2 = some b) || (m.player1 = some b && m.player2 = some a)

/-- The two participants that meet at slot `i` of a round: slot `0` is the first match
(the fixed participant against `rotating[0]`), slot `i ≥ 1` is the fold pair
`rotating[i]`, `rotating[rotating.length - i]`. -/
def slotPair (first : Option String) (rotating : List (Option String)) (i : Nat) :
    Option String × Option String :=
  if i = 0 then (first, nameAt rotating 0)
  else (nameAt rotating i, nameAt rotating (rotating.length - i))

/-- The match that `roundMatches` pushes for slot `i`, if any. -/
def slotMatch (uuid : Nat → Nat → String) (round : Nat) (first : Option String)
    (rotating : List (Option String)) (i : Nat) : Option Match :=
  if (slotPair first rotating i).1 ≠ none ∧ (slotPair first rotating i).2 ≠ none then
    some (newMatch (uuid round i) (round + 1) (slotPair first rotating i).1
      (slotPair first rotating i).2)
  else none

/-! ## Single elimination (`src/lib/brackets.js`) -/

/-- The inner loop of `generate`: for each `v` of the previous order push `v`, then
`numSeeds + 1 - v`. -/
def interleave (numSeeds : Int) : List Int → List Int
  | [] => []
  | v :: rest => v :: (numSeeds + 1 - v) :: interleave numSeeds rest

/-- The recursive helper `generate(round)` of `generateBracketSeedOrder`. The recursion
stops only at `round === 1`, so it is run with a bound `fuel` on the depth of the call
stack; `none` means the bound was hit. -/
def generate : Nat → Int → Option (List Int)
  | 0, _ => none
  | fuel + 1, round =>
    if round = 1 then some [1, 2]
    else (generate fuel (round - 1)).map (interleave (2 ^ round.toNat))

/-- Halving loop behind `mathLog2`. -/
def log2Loop : Nat → Nat → Nat
  | 0, _ => 0
  | fuel + 1, x => if x ≤ 1 then 0 else log2Loop fuel (x / 2) + 1

/-- The library call `Math.log2(bracketSize)`. The engine only ever applies it to a
power of two (at least `1`), where it is the exact exponent; that is the value computed
here (by halving). -/
def mathLog2 (bracketSize : Nat) : Nat :=
  log2Loop bracketSize bracketSize

/-- The function `generateBracketSeedOrder(bracketSize)`. -/
def generateBracketSeedOrder (fuel : Nat) (bracketSize : Nat) : Option (List Int) :=
  generate fuel (mathLog2 bracketSize)

/-- The loop `while (bracketSize < n) bracketSize *= 2`, run for at most `fuel`
iterations. -/
def growBracketSize (n : Nat) : Nat → Nat → Nat
  | 0, bracketSize => bracketSize
  | fuel + 1, bracketSize =>
    if bracketSize < n then growBracketSize n fuel (bracketSize * 2) else bracketSize

/-- The destructuring swap `[result[i], result[j]] = [result[j], result[i]]`. -/
def swapAt (result : List String) (i j : Nat) : List String :=
  match result[i]?, result[j]? with
  | some a, some b => (result.set i b).set j a
  | _, _ => result

/-- The loop of `shuffleArray`, from index `i` down to `1`; `rand i` stands for the
value of `Math.random()` drawn at index `i`, already scaled, so that
`Math.floor(Math.random() * (i + 1))` is `rand i % (i + 1)`. -/
def shuffleLoop (rand : Nat → Nat) : Nat → List String → List String
  | 0, result => result
  | i + 1, result => shuffleLoop rand i (swapAt result (i + 1) (rand (i + 1) % (i + 2)))

/-- The function `shuffleArray(array)` (Fisher-Yates). -/
def shuffleArray (rand : Nat → Nat) (array : List String) : List String :=
  shuffleLoop rand (array.length - 1) array

/-- A match of an elimination bracket. The identifier `match-${k}` is represented by
its number `k`. -/
structure BracketMatch where
  id : Nat
  round : Nat
  position : Nat
  player1 : Option String
  player2 : Option String
  score1 : Option Int
  score2 : Option Int
  winner : Option String
  completed : Bool
  nextMatchId : Option Nat
  sourceMatch1 : Option Nat
  sourceMatch2 : Option Nat
deriving DecidableEq, Repr

/-- A bracket round `{number, name, matches}`. -/
structure BracketRound where
  number : Nat
  name : String
  matchList : List BracketMatch
deriving DecidableEq, Repr

/-- The value returned by `generateSingleElimination`. -/
structure Bracket where
  type : String
  bracketSize : Nat
  numRounds : Nat
  rounds : List BracketRound
  players : List String
deriving DecidableEq, Repr

/-- The function `getRoundName(totalRounds, currentRound)`. -/
def getRoundName (totalRounds currentRound : Nat) : String :=
  let remaining : Int := (totalRounds : Int) - currentRound
  if remaining = 0 then "Final"
  else if remaining = 1 then "Semifinals"
  else if remaining = 2 then "Quarterfinals"
  else "Round " ++ toString currentRound

/-- The loop that maps `seedOrder` to players or `null` (a bye). Seed numbers are at least
`1`, so `seededPlayers[seedNum - 1]` is always read inside the array. -/
def seedSlots (seededPlayers : List String) (seedOrder : List Int) : List (Option String) :=
  seedOrder.map (fun (seedNum : Int) =>
    if seedNum ≤ (seededPlayers.length : Int) then seededPlayers[(seedNum - 1).toNat]?
    else none)

/-- The expression `player || 'BYE'`: `null` and the empty string are falsy. -/
def orBye (player : Option String) : String :=
  match player with
  | none => "BYE"
  | some p => if p = "" then "BYE" else p

/-- The body of the first-round loop at index `i`; the match gets the id `i + 1`. The
array `bracket` has `bracketSize` entries, so both reads are inside it. -/
def firstRoundMatch (bracket : List (Option String)) (i : Nat) : BracketMatch :=
  let player1 := (bracket[i * 2]?).join
  let player2 := (bracket[i * 2 + 1]?).join
  let wc : Option String × Bool :=
    if player1 = none then (some "player2", true)
    else if player2 = none then (some "player1", true)
    else (none, false)
  { id := i + 1, round := 1, position := i,
    player1 := some (orBye player1), player2 := some (orBye player2),
    score1 := none, score2 := none, winner := wc.1, completed := wc.2,
    nextMatchId := none, sourceMatch1 := none, sourceMatch2 := none }

/-- The first-round loop `for (let i = 0; i < bracketSize / 2; i++)`. -/
def firstRound (bracket : List (Option String)) (bracketSize : Nat) : List BracketMatch :=
  (List.range (bracketSize / 2)).map (firstRoundMatch bracket)

/-- The matches pushed for round `roundNum`, whose ids start at `matchId`. -/
def nextRoundMatches (previousRoundMatches : List BracketMatch) (roundNum matchId : Nat) :
    List BracketMatch :=
  (List.range (previousRoundMatches.length / 2)).map (fun i =>
    { id := matchId + i, round := roundNum, position := i,
      player1 := none, player2 := none, score1 := none, score2 := none,
      winner := none, completed := false, nextMatchId := none,
      sourceMatch1 := (previousRoundMatches[i * 2]?).map (fun m => m.id),
      sourceMatch2 := (previousRoundMatches[i * 2 + 1]?).map (fun m => m.id) })

/-- The effect of the two assignments `previousRoundMatches[i * 2].nextMatchId = ...`
and `previousRoundMatches[i * 2 + 1].nextMatchId = ...` over the whole inner loop:
the match at index `j < 2 * matchesInRound` is linked to the new match `j / 2`. -/
def linkPrevious (previousRoundMatches : List BracketMatch) (matchId : Nat) :
    List BracketMatch :=
  previousRoundMatches.mapIdx (fun j m =>
    if j < 2 * (previousRoundMatches.length / 2) then
      { m with nextMatchId := some (matchId + j / 2) }
    else m)

/-- The loop `for (let roundNum = 2; roundNum <= numRounds; roundNum++)`. The state is
the list of rounds pushed so far (the last of them holds `previousRoundMatches`, which
the loop body mutates) and the counter `matchId`; `remaining` iterations are left. -/
def laterRounds (numRounds : Nat) :
    Nat → Nat → Nat → List BracketRound → BracketRound → List BracketRound
  | 0, _, _, done, previous => done ++ [previous]
  | remaining + 1, roundNum, matchId, done, previous =>
    let roundMatches := nextRoundMatches previous.matchList roundNum matchId
    let linked := { previous with matchList := linkPrevious previous.matchList matchId }
    laterRounds numRounds remaining (roundNum + 1) (matchId + roundMatches.length)
      (done ++ [linked])
      { number := roundNum, name := getRoundName numRounds roundNum, matchList := roundMatches }

/-- The innermost loops of `advanceByeWinners`: every match whose id is `nextMatchId`
receives `winnerName` in the slot chosen by the parity of `position`. -/
def placeWinner (rounds : List BracketRound) (nextMatchId : Nat) (winnerName : Option String)
    (position : Nat) : List BracketRound :=
  rounds.map (fun round =>
    { round with matchList := round.matchList.map (fun nextMatch =>
        if nextMatch.id = nextMatchId then
          if position % 2 = 0 then { nextMatch with player1 := winnerName }
          else { nextMatch with player2 := winnerName }
        else nextMatch) })

/-- One iteration of `for (const match of firstRound)` in `advanceByeWinners`, for the
match at index `j` of the first round as it stands at that moment. -/
def advanceByeStep (rounds : List BracketRound) (j : Nat) : List BracketRound :=
  match rounds.head? with
  | none => rounds
  | some first =>
    match first.matchList[j]? with
    | none => rounds
    | some m =>
      match m.nextMatchId with
      | none => rounds
      | some next =>
        if m.completed then
          let winnerName := if m.winner = some "player1" then m.player1 else m.player2
          if winnerName ≠ some "BYE" then placeWinner rounds next winnerName m.position
          else rounds
        else rounds

/-- The function `advanceByeWinners(rounds)`. -/
def advanceByeWinners (rounds : List BracketRound) : List BracketRound :=
  match rounds.head? with
  | none => rounds
  | some first => (List.range first.matchList.length).foldl advanceByeStep rounds

/-- The function `generateSingleElimination(players, seeded)`. `rand` feeds the shuffle
and `fuel` bounds the recursion of the seed-order generator; the result is `none` when
that recursion does not come back. -/
def generateSingleElimination (rand : Nat → Nat) (fuel : Nat) (players : List String)
    (seeded : Bool) : Option Bracket :=
  let n := players.length
  let bracketSize := growBracketSize n n 1
  let seededPlayers := if seeded then players else shuffleArray rand players
  match generateBracketSeedOrder fuel bracketSize with
  | none => none
  | some seedOrder =>
    let bracket := seedSlots seededPlayers seedOrder
    let numRounds := mathLog2 bracketSize
    let first : BracketRound :=
      { number := 1, name := getRoundName numRounds 1, matchList := firstRound bracket bracketSize }
    let rounds := laterRounds numRounds (numRounds - 1) 2 (bracketSize / 2 + 1) [] first
    some { type := "single_elimination", bracketSize := bracketSize, numRounds := numRounds,
           rounds := advanceByeWinners rounds, players := seededPlayers }

/-- The nested loops shared by `updateMatch` and `advanceToMatch`: the rounds are scanned in
order, each round's matches in order, and the scan stops at the first match whose id is
`matchId`, after that match has been changed by `change`. The result is the match as it
was found, with the rounds after the change; `none` when no match has that id. -/
def atFirstMatch (matchId : Nat) (change : BracketMatch → BracketMatch) :
    List BracketRound → Option (BracketMatch × List BracketRound)
  | [] => none
  | round :: rest =>
    match round.matchList.find? (fun m => m.id = matchId) with
    | some m =>
      some (m, { round with
        matchList := round.matchList.modify change
          (round.matchList.findIdx (fun m => m.id = matchId)) } :: rest)
    | none =>
      match atFirstMatch matchId change rest with
      | some (m, rest') => some (m, round :: rest')
      | none => none

/-- The function `advanceToMatch(bracket, matchId, playerName, sourcePosition)`, acting on
`bracket.rounds`. -/
def advanceToMatch (rounds : List BracketRound) (matchId : Nat) (playerName : Option String)
    (sourcePosition : Nat) : List BracketRound :=
  match atFirstMatch matchId (fun m =>
      if sourcePosition % 2 = 0 then { m with player1 := playerName }
      else { m with player2 := playerName }) rounds with
  | some (_, rounds') => rounds'
  | none => rounds

/-- The function `updateMatch(bracket, matchId, score1, score2, winner)` on a
single-elimination bracket (whose `rounds` field is set). A `nextMatchId` that is set is
an id `match-k`, a non-empty string, hence truthy. -/
def updateMatch (bracket : Bracket) (matchId : Nat) (score1 score2 : Option Int)
    (winner : Option String) : Bracket :=
  match atFirstMatch matchId (fun m =>
      { m with score1 := score1, score2 := score2, winner := winner, completed := true })
      bracket.rounds with
  | none => bracket
  | some (m, rounds) =>
    match m.nextMatchId with
    | none => { bracket with rounds := rounds }
    | some next =>
      let winnerName := if winner = some "player1" then m.player1 else m.player2
      { bracket with rounds := advanceToMatch rounds next winnerName m.position }

/-- The brackets reachable from the bracket `start` by any sequence of `updateMatch`
calls. -/
inductive BracketReachable (start : Bracket) : Bracket → Prop
  | init : BracketReachable start start
  | update (b : Bracket) (matchId : Nat) (score1 score2 : Option Int) (winner : Option String) :
      BracketReachable start b →
      BracketReachable start (updateMatch b matchId score1 score2 winner)

/-- The id of the first match of the round with index `k` (round number `k + 1`) in a
bracket of size `bracketSize`: the rounds before it hold `bracketSize / 2`,
`bracketSize / 4`, ... matches, numbered from `1`. -/
def firstId (bracketSize : Nat) : Nat → Nat
  | 0 => 1
  | k + 1 => firstId bracketSize k + bracketSize / 2 ^ (k + 1)

/-- The match that the construction loop leaves at position `i` of the round with index
`k ≥ 1` of a bracket with `numRounds` rounds: empty slots, the link to the next round
(unless the round is the last) and the two sources in the round before. -/
def treeMatch (numRounds bracketSize k i : Nat) : BracketMatch :=
  { id := firstId bracketSize k + i, round := k + 1, position := i,
    player1 := none, player2 := none, score1 := none, score2 := none,
    winner := none, completed := false,
    nextMatchId := if k + 1 < numRounds then some (firstId bracketSize (k + 1) + i / 2) else none,
    sourceMatch1 := some (firstId bracketSize (k - 1) + i * 2),
    sourceMatch2 := some (firstId bracketSize (k - 1) + (i * 2 + 1)) }

/-- The round with index `k ≥ 1` as the construction loop leaves it. -/
def treeRound (numRounds bracketSize k : Nat) : BracketRound :=
  { number := k + 1, name := getRoundName numRounds (k + 1),
    matchList := (List.range (bracketSize / 2 ^ (k + 1))).map (treeMatch numRounds bracketSize k) }

/-- The first round as the construction loop leaves it: the matches of `firstRound`, each
linked to the match of the second round that it feeds (when there is a second round). -/
def treeFirstRound (numRounds bracketSize : Nat) (bracket : List (Option String)) :
    BracketRound :=
  { number := 1, name := getRoundName numRounds 1,
    matchList := (List.range (bracketSize / 2)).map (fun i =>
      { firstRoundMatch bracket i with
        nextMatchId := if 1 < numRounds then some (firstId bracketSize 1 + i / 2) else none }) }

/-- The name that `advanceByeWinners` carries over from a first-round match, if any: the
winning side of a completed match, unless it reads `'BYE'`. -/
def byeWinner (m : BracketMatch) : Option String :=
  if m.completed then
    let winnerName := if m.winner = some "player1" then m.player1 else m.player2
    if winnerName ≠ some "BYE" then winnerName else none
  else none

/-- What the construction loop and the changes of `updateMatch` never touch in a match:
its id, its position and its link to the next round. -/
def skeleton (rounds : List BracketRound) : List (List (Nat × Nat × Option Nat)) :=
  rounds.map (fun round => round.matchList.map (fun m => (m.id, m.position, m.nextMatchId)))

/-- The second round while `advanceByeWinners` runs, when the first `done` matches of the
first round have been looked at: the match at position `i` has received the names carried
over from the first-round matches `2 i` and `2 i + 1` among them. -/
def treeSecondRound (numRounds bracketSize : Nat) (bracket : List (Option String))
    (done : Nat) : BracketRound :=
  { number := 2, name := getRoundName numRounds 2,
    matchList := (List.range (bracketSize / 2 ^ 2)).map (fun i =>
      { treeMatch numRounds bracketSize 1 i with
        player1 := if i * 2 < done then byeWinner (firstRoundMatch bracket (i * 2)) else none,
        player2 :=
          if i * 2 + 1 < done then byeWinner (firstRoundMatch bracket (i * 2 + 1)) else none }) }

/-- The rounds of a freshly generated bracket in closed form: the first round, then (when
the bracket has more than one round) the second round with the bye winners in place and
the still empty rounds above it. -/
def treeRounds (numRounds bracketSize : Nat) (bracket : List (Option String)) :
    List BracketRound :=
  treeFirstRound numRounds bracketSize bracket ::
    (if 2 ≤ numRounds then
      treeSecondRound numRounds bracketSize bracket (bracketSize / 2) ::
        (List.range' 2 (numRounds - 2)).map (treeRound numRounds bracketSize)
    else [])

/-! ## Swiss (`src/lib/swiss.js`) -/

/-- The result of `Array.prototype.sort` with comparator `cmp` (a stable sort): `x` is
put in front of the first element that it does not have to follow. -/
def sortedInsert {α : Type} (cmp : α → α → Int) (x : α) : List α → List α
  | [] => [x]
  | y :: ys => if cmp x y ≤ 0 then x :: y :: ys else y :: sortedInsert cmp x ys

/-- Stable sorting by a JavaScript comparator (negative: first argument comes first). -/
def stableSort {α : Type} (cmp : α → α → Int) : List α → List α
  | [] => []
  | x :: xs => sortedInsert cmp x (stableSort cmp xs)

/-- A player record of a Swiss tournament. Point totals are multiples of `0.5`; `points`
and `buchholz` hold them exactly as a number of half points, so that a win is `2` and a
draw is `1`. -/
structure SwissPlayer where
  name : String
  points : Int
  wins : Int
  losses : Int
  draws : Int
  opponents : List String
  buchholz : Int
deriving DecidableEq, Repr

/-- The state of a Swiss tournament. -/
structure SwissTournament where
  players : List SwissPlayer
  rounds : List Round
  currentRound : Nat
  totalRounds : Int
  completed : Bool
deriving DecidableEq, Repr

/-- The function `createSwissTournament(players, numRounds)`; `none` is an omitted
`numRounds`, and `0` is falsy like it. The default is `Math.ceil(Math.log2(n)) + 1`;
for an empty roster JavaScript computes `-Infinity`, which is represented by `-1` (the
engine only ever compares `totalRounds` with the non-negative `currentRound`). -/
def createSwissTournament (players : List String) (numRounds : Option Int) :
    SwissTournament :=
  let defaultRounds : Int :=
    if players.length = 0 then -1 else (Nat.clog 2 players.length : Int) + 1
  let rounds : Int :=
    match numRounds with
    | none => defaultRounds
    | some r => if r = 0 then defaultRounds else r
  { players := players.map (fun player =>
      { name := player, points := 0, wins := 0, losses := 0, draws := 0,
        opponents := [], buchholz := 0 }),
    rounds := [], currentRound := 0, totalRounds := rounds, completed := false }

/-- The comparator of `generateNextRound`: points descending, then Buchholz. -/
def pairingOrder (a b : SwissPlayer) : Int :=
  if b.points ≠ a.points then b.points - a.points else b.buchholz - a.buchholz

/-- The inner loop over `j` of `generateNextRound`: the first candidate after index `i`
that is not paired yet and that `player1` has not played. -/
def findOpponent (sortedPlayers : List SwissPlayer) (paired : List String)
    (player1 : SwissPlayer) (i : Nat) : Option SwissPlayer :=
  (sortedPlayers.drop (i + 1)).find? (fun candidate =>
    !(paired.contains candidate.name) && !(player1.opponents.contains candidate.name))

/-- One iteration of the outer pairing loop at index `i`; the state is the set `paired`
and the list `matches`. `uuid i` is the identifier drawn for the match made at `i`. -/
def pairStep (uuid : Nat → String) (roundNumber : Nat) (sortedPlayers : List SwissPlayer)
    (st : List String × List Match) (i : Nat) : List String × List Match :=
  match sortedPlayers[i]? with
  | none => st
  | some player1 =>
    if st.1.contains player1.name then st
    else
      match findOpponent sortedPlayers st.1 player1 i with
      | none => st
      | some opponent =>
        (st.1 ++ [player1.name, opponent.name],
         st.2 ++ [newMatch (uuid i) roundNumber (some player1.name) (some opponent.name)])

/-- The pairing loop of `generateNextRound`. -/
def pairAll (uuid : Nat → String) (roundNumber : Nat) (sortedPlayers : List SwissPlayer) :
    List String × List Match :=
  (List.range sortedPlayers.length).foldl (pairStep uuid roundNumber sortedPlayers) ([], [])

/-- The auto-completed match of a bye. -/
def byeMatch (id : String) (roundNumber : Nat) (name : String) : Match :=
  { id := id, round := roundNumber, player1 := some name, player2 := some "BYE",
    score1 := some 1, score2 := some 0, winner := some "player1", completed := true }

/-- The award `points += 1; wins += 1` to the first player called `name`. -/
def awardBye (players : List SwissPlayer) (name : String) : List SwissPlayer :=
  match players.findIdx? (fun p => p.name = name) with
  | none => players
  | some playerIdx =>
    players.modify (fun p => { p with points := p.points + 2, wins := p.wins + 1 }) playerIdx

/-- The function `generateNextRound(tournament)`. `uuid i` is the identifier of the
match made at index `i` of the pairing loop, `uuid sortedPlayers.length` that of the bye
match. The bye award mutates `tournament.players`, which the result shares. -/
def generateNextRound (uuid : Nat → String) (tournament : SwissTournament) :
    SwissTournament :=
  if (tournament.currentRound : Int) ≥ tournament.totalRounds then
    { tournament with completed := true }
  else
    let roundNumber := tournament.currentRound + 1
    let sortedPlayers := stableSort pairingOrder tournament.players
    let st := pairAll uuid roundNumber sortedPlayers
    let paired := st.1
    let matches₀ := st.2
    let bye : Option SwissPlayer :=
      if sortedPlayers.length % 2 = 1 then
        sortedPlayers.find? (fun p => !(paired.contains p.name))
      else none
    match bye with
    | none =>
      { tournament with
        rounds := tournament.rounds ++ [{ number := roundNumber, matchList := matches₀ }],
        currentRound := roundNumber }
    | some byePlayer =>
      { tournament with
        players := awardBye tournament.players byePlayer.name,
        rounds := tournament.rounds ++
          [{ number := roundNumber,
             matchList := matches₀ ++
               [byeMatch (uuid sortedPlayers.length) roundNumber byePlayer.name] }],
        currentRound := roundNumber }

/-- The statements of `recordResult` that update the two players of a found match. -/
def applyResult (players : List SwissPlayer) (m : Match) (winner : Option String) :
    List SwissPlayer :=
  match players.findIdx? (fun p => some p.name = m.player1),
        players.findIdx? (fun p => some p.name = m.player2) with
  | some p1Idx, some p2Idx =>
    if m.player2 ≠ some "BYE" then
      let ps := players.modify
        (fun p => { p with opponents := p.opponents ++ m.player2.toList }) p1Idx
      let ps := ps.modify
        (fun p => { p with opponents := p.opponents ++ m.player1.toList }) p2Idx
      if winner = some "player1" then
        let ps := ps.modify (fun p => { p with points := p.points + 2 }) p1Idx
        let ps := ps.modify (fun p => { p with wins := p.wins + 1 }) p1Idx
        ps.modify (fun p => { p with losses := p.losses + 1 }) p2Idx
      else if winner = some "player2" then
        let ps := ps.modify (fun p => { p with points := p.points + 2 }) p2Idx
        let ps := ps.modify (fun p => { p with wins := p.wins + 1 }) p2Idx
        ps.modify (fun p => { p with losses := p.losses + 1 }) p1Idx
      else
        let ps := ps.modify (fun p => { p with points := p.points + 1 }) p1Idx
        let ps := ps.modify (fun p => { p with points := p.points + 1 }) p2Idx
        let ps := ps.modify (fun p => { p with draws := p.draws + 1 }) p1Idx
        ps.modify (fun p => { p with draws := p.draws + 1 }) p2Idx
    else players
  | _, _ => players

/-- The body of `for (const round of newTournament.rounds)` in `recordResult`: the first
match of the round whose id is `matchId` (the inner loop stops there) is overwritten and
its players are updated. -/
def recordInRound (matchId : String) (score1 score2 : Option Int) (winner : Option String)
    (players : List SwissPlayer) (round : Round) : List SwissPlayer × Round :=
  match round.matchList.findIdx? (fun m => m.id = matchId) with
  | none => (players, round)
  | some k =>
    match round.matchList[k]? with
    | none => (players, round)
    | some m =>
      let m' : Match :=
        { m with score1 := score1, score2 := score2, winner := winner, completed := true }
      (applyResult players m' winner, { round with matchList := round.matchList.set k m' })

/-- The outer loop of `recordResult` over the rounds. -/
def recordInRounds (matchId : String) (score1 score2 : Option Int) (winner : Option String) :
    List SwissPlayer → List Round → List SwissPlayer × List Round
  | players, [] => (players, [])
  | players, round :: rest =>
    let r := recordInRound matchId score1 score2 winner players round
    let rs := recordInRounds matchId score1 score2 winner r.1 rest
    (rs.1, r.2 :: rs.2)

/-- The inner loop of `updateBuchholz` for one player: the sum of the points of the
players found under the names in `opponents`. -/
def buchholzOf (players : List SwissPlayer) (player : SwissPlayer) : Int :=
  player.opponents.foldl (fun buchholz oppName =>
    match players.find? (fun p => p.name = oppName) with
    | some opp => buchholz + opp.points
    | none => buchholz) 0

/-- The function `updateBuchholz(tournament)`, acting on the player array in place, one
player after the other. -/
def updateBuchholz (players : List SwissPlayer) : List SwissPlayer :=
  (List.range players.length).foldl (fun ps i =>
    match ps[i]? with
    | none => ps
    | some player => ps.set i { player with buchholz := buchholzOf ps player }) players

/-- The function `recordResult(tournament, matchId, score1, score2, winner)`. -/
def recordResult (tournament : SwissTournament) (matchId : String)
    (score1 score2 : Option Int) (winner : Option String) : SwissTournament :=
  let r := recordInRounds matchId score1 score2 winner tournament.players tournament.rounds
  { tournament with players := updateBuchholz r.1, rounds := r.2 }

/-- The function `isRoundComplete(tournament)`. -/
def isRoundComplete (tournament : SwissTournament) : Bool :=
  match tournament.rounds.getLast? with
  | none => true
  | some currentRound => currentRound.matchList.all (fun m => m.completed)

/-- The function `isTournamentComplete(tournament)`. -/
def isTournamentComplete (tournament : SwissTournament) : Bool :=
  decide ((tournament.currentRound : Int) ≥ tournament.totalRounds) && isRoundComplete tournament

/-- The tournament states reachable from `createSwissTournament(players, numRounds)` by any
sequence of `generateNextRound` and `recordResult` calls. -/
inductive SwissReachable (players : List String) (numRounds : Option Int) :
    SwissTournament → Prop
  | create : SwissReachable players numRounds (createSwissTournament players numRounds)
  | next (uuid : Nat → String) (t : SwissTournament) :
      SwissReachable players numRounds t →
      SwissReachable players numRounds (generateNextRound uuid t)
  | record (t : SwissTournament) (matchId : String) (score1 score2 : Option Int)
      (winner : Option String) :
      SwissReachable players numRounds t →
      SwissReachable players numRounds (recordResult t matchId score1 score2 winner)

/-- The current points of the player called `name` (nothing if there is none): the term
that one recorded opponent contributes to a Buchholz score. -/
def pointsOfNamed (players : List SwissPlayer) (name : String) : Int :=
  match players.find? (fun p => p.name = name) with
  | some opp => opp.points
  | none => 0

/-- The tournament states reachable from `createSwissTournament(players, numRounds)` when
the engine is driven round by round: `generateNextRound` is called only once the current
round is complete (`isRoundComplete`), the identifiers it draws are distinct from one
another and from those of the matches that exist, and `recordResult` is called only with
an id whose matches are not completed yet. -/
inductive SwissPlayed (players : List String) (numRounds : Option Int) :
    SwissTournament → Prop
  | create : SwissPlayed players numRounds (createSwissTournament players numRounds)
  | next (uuid : Nat → String) (t : SwissTournament) :
      SwissPlayed players numRounds t → isRoundComplete t = true →
      (∀ i j, uuid i = uuid j → i = j) →
      (∀ i, ∀ r ∈ t.rounds, ∀ m ∈ r.matchList, m.id ≠ uuid i) →
      SwissPlayed players numRounds (generateNextRound uuid t)
  | record (t : SwissTournament) (matchId : String) (score1 score2 : Option Int)
      (winner : Option String) :
      SwissPlayed players numRounds t →
      (∀ r ∈ t.rounds, ∀ m ∈ r.matchList, m.id = matchId → m.completed = false) →
      SwissPlayed players numRounds (recordResult t matchId score1 score2 winner)

/-- What the pairing invariants look at in the player list: each name with the
opponents recorded for it. -/
def oppView (players : List SwissPlayer) : List (String × List String) :=
  players.map (fun p => (p.name, p.opponents))

/-- The entry of `oppView` after the match between `a` and `b` has been recorded: `b` is
pushed to the opponents of `a`, and `a` to those of `b`. -/
def pushOpp (a b : String) (x : String × List String) : String × List String :=
  (x.1, (x.2 ++ if x.1 = a then [b] else []) ++ if x.1 = b then [a] else [])

/-- All matches of all rounds, in order. -/
def allMatches (rounds : List Round) : List Match :=
  rounds.flatMap (fun r => r.matchList)

/-- Two matches share no player. -/
def Match.apart (m m' : Match) : Prop :=
  m.player1 ≠ m'.player1 ∧ m.player1 ≠ m'.player2 ∧
  m.player2 ≠ m'.player1 ∧ m.player2 ≠ m'.player2

/-- A match that may still be recorded: it pairs two different players of the roster
neither of whom has the other among the recorded opponents. -/
def PendingOk (view : List (String × List String)) (m : Match) : Prop :=
  ∃ a b, m.player1 = some a ∧ m.player2 = some b ∧ a ≠ b ∧
    (∃ x ∈ view, x.1 = a) ∧ (∃ y ∈ view, y.1 = b) ∧
    (∀ x ∈ view, x.1 = a → b ∉ x.2) ∧ (∀ y ∈ view, y.1 = b → a ∉ y.2)

/-- The invariant of a Swiss tournament that is driven round by round. -/
structure SwissInv (t : SwissTournament) : Prop where
  names : ((oppView t.players).map Prod.fst).Nodup
  oppNodup : ∀ x ∈ oppView t.players, x.2.Nodup
  symm : ∀ x ∈ oppView t.players, ∀ y ∈ oppView t.players, y.1 ∈ x.2 → x.1 ∈ y.2
  ids : ((allMatches t.rounds).map (fun m => m.id)).Nodup
  pendingOk : ∀ m ∈ allMatches t.rounds, m.completed = false → PendingOk (oppView t.players) m
  pendingApart : (allMatches t.rounds).Pairwise
    (fun m m' => m.completed = false → m'.completed = false → Match.apart m m')
  earlier : ∀ r ∈ t.rounds.dropLast, ∀ m ∈ r.matchList, m.completed = true

/-- The invariant of the pairing loop of `generateNextRound` before index `k`: every match
made so far is open, was made at an earlier index between two players of the sorted list
who had not met and are now in `paired`; the matches share no player and no id. -/
def PairInv (uuid : Nat → String) (sortedPlayers : List SwissPlayer) (k : Nat)
    (st : List String × List Match) : Prop :=
  (∀ m ∈ st.2, m.completed = false ∧
    ∃ i j p q, i < k ∧ m.id = uuid i ∧ sortedPlayers[i]? = some p ∧
      sortedPlayers[j]? = some q ∧ i < j ∧ m.player1 = some p.name ∧
      m.player2 = some q.name ∧ q.name ∉ p.opponents ∧ p.name ∈ st.1 ∧ q.name ∈ st.1) ∧
  st.2.Pairwise Match.apart ∧ (st.2.map (fun m => m.id)).Nodup

/-! ## Round robin: standings and head-to-head (`src/lib/roundrobin.js`) -/

/-- An entry `{player, played, wins, losses, pointsFor, pointsAgainst, pointDiff}` of the
standings. -/
structure Standing where
  player : String
  played : Int
  wins : Int
  losses : Int
  pointsFor : Int
  pointsAgainst : Int
  pointDiff : Int
deriving DecidableEq, Repr

/-- The property key under which `stats[x]` looks up a player slot `x`: a name is its own
key, `null` is the key `'null'`. -/
def keyOf (player : Option String) : String :=
  match player with
  | some name => name
  | none => "null"

/-- The assignment `stats[player] = value` on the object `stats`, held as the list of its
own properties in the order of their creation: a new key goes to the end, an old key keeps
its place. (Names are taken to be ordinary property keys: the model is exact for every
roster that does not contain the name `__proto__`.) -/
def setStat (stats : List (String × Standing)) (key : String) (value : Standing) :
    List (String × Standing) :=
  if stats.any (fun e => e.1 = key) then
    stats.map (fun e => if e.1 = key then (key, value) else e)
  else stats ++ [(key, value)]

/-- The statements guarded by `if (stats[key])`: the entry under `key`, if there is one, is
changed by `change`. -/
def updateStat (stats : List (String × Standing)) (key : String)
    (change : Standing → Standing) : List (String × Standing) :=
  stats.map (fun e => if e.1 = key then (e.1, change e.2) else e)

/-- The expression `score || 0` on a score that is `null` or an integer. -/
def orZero (score : Option Int) : Int :=
  match score with
  | some v => v
  | none => 0

/-- The update of `stats[player1]` for a completed match. -/
def tallyFirst (m : Match) (s : Standing) : Standing :=
  { s with
    played := s.played + 1,
    pointsFor := s.pointsFor + orZero m.score1,
    pointsAgainst := s.pointsAgainst + orZero m.score2,
    wins := if m.winner = some "player1" then s.wins + 1 else s.wins,
    losses :=
      if m.winner = some "player1" then s.losses
      else if m.winner = some "player2" then s.losses + 1 else s.losses }

/-- The update of `stats[player2]` for a completed match. -/
def tallySecond (m : Match) (s : Standing) : Standing :=
  { s with
    played := s.played + 1,
    pointsFor := s.pointsFor + orZero m.score2,
    pointsAgainst := s.pointsAgainst + orZero m.score1,
    wins := if m.winner = some "player2" then s.wins + 1 else s.wins,
    losses :=
      if m.winner = some "player2" then s.losses
      else if m.winner = some "player1" then s.losses + 1 else s.losses }

/-- The callback of `matches.forEach` in `calculateStandings`. -/
def tallyMatch (stats : List (String × Standing)) (m : Match) : List (String × Standing) :=
  if m.completed then
    updateStat (updateStat stats (keyOf m.player1) (tallyFirst m)) (keyOf m.player2)
      (tallySecond m)
  else stats

/-- The value of a string of decimal digits, read from the left with `acc` so far. -/
def digitsValue : List Char → Nat → Option Nat
  | [], acc => some acc
  | c :: cs, acc =>
    if '0' ≤ c ∧ c ≤ '9' then digitsValue cs (acc * 10 + (c.toNat - '0'.toNat)) else none

/-- The array index that a property key stands for, if any: the key is the decimal
numeral, without leading zeros, of an integer below `2 ^ 32 - 1`. -/
def arrayIndex? (key : String) : Option Nat :=
  match key.data with
  | [] => none
  | c :: cs =>
    if c = '0' ∧ cs ≠ [] then none
    else
      match digitsValue (c :: cs) 0 with
      | some n => if n < 4294967295 then some n else none
      | none => none

/-- The call `Object.values(stats)`: the values under array-index keys come first, in
ascending order of the index, then the other values in the order of creation. -/
def objectValues (stats : List (String × Standing)) : List Standing :=
  let indexed := stats.filterMap (fun e => (arrayIndex? e.1).map (fun n => (n, e.2)))
  let named := stats.filter (fun e => (arrayIndex? e.1).isNone)
  (stableSort (fun a b => (a.1 : Int) - (b.1 : Int)) indexed).map (fun e => e.2) ++
    named.map (fun e => e.2)

/-- The comparator of the sort in `calculateStandings`: wins, then point difference, then
points for, each descending. -/
def standingsOrder (a b : Standing) : Int :=
  if b.wins ≠ a.wins then b.wins - a.wins
  else if b.pointDiff ≠ a.pointDiff then b.pointDiff - a.pointDiff
  else b.pointsFor - a.pointsFor

/-- The function `calculateStandings(players, matches)`. -/
def calculateStandings (players : List String) (matches₀ : List Match) : List Standing :=
  let stats := players.foldl (fun stats player =>
    setStat stats player
      { player := player, played := 0, wins := 0, losses := 0, pointsFor := 0,
        pointsAgainst := 0, pointDiff := 0 }) []
  let stats := matches₀.foldl tallyMatch stats
  let standings := (objectValues stats).map (fun s =>
    { s with pointDiff := s.pointsFor - s.pointsAgainst })
  stableSort standingsOrder standings

/-- The function `getHeadToHead(matches, player1, player2)`. -/
def getHeadToHead (matches₀ : List Match) (player1 player2 : String) : Option String :=
  match matches₀.find? (fun m =>
      (m.player1 = some player1 && m.player2 = some player2) ||
      (m.player1 = some player2 && m.player2 = some player1)) with
  | none => none
  | some m =>
    if !m.completed then none
    else if m.player1 = some player1 then
      (if m.winner = some "player1" then some player1 else some player2)
    else
      (if m.winner = some "player2" then some player1 else some player2)

/-- The number of wins that the matches of `ms` give to the player under `key`. -/
def winsOf (key : String) (ms : List Match) : Int :=
  (ms.countP (fun m => keyOf m.player1 = key && m.winner = some "player1") : Int) +
    (ms.countP (fun m => keyOf m.player2 = key && m.winner = some "player2") : Int)

/-- The points that the matches of `ms` give to the player under `key`. -/
def pointsForOf (key : String) (ms : List Match) : Int :=
  (ms.map (fun m =>
    (if keyOf m.player1 = key then orZero m.score1 else 0) +
      (if keyOf m.player2 = key then orZero m.score2 else 0))).sum

/-- The points that the matches of `ms` give to the opponents of the player under
`key`. -/
def pointsAgainstOf (key : String) (ms : List Match) : Int :=
  (ms.map (fun m =>
    (if keyOf m.player1 = key then orZero m.score2 else 0) +
      (if keyOf m.player2 = key then orZero m.score1 else 0))).sum

/-- The order of the standings: `a` may stand before `b`. -/
def standsBefore (a b : Standing) : Prop :=
  b.wins < a.wins ∨ (b.wins = a.wins ∧
    (b.pointDiff < a.pointDiff ∨ (b.pointDiff = a.pointDiff ∧ b.pointsFor ≤ a.pointsFor)))

/-- What `tallyMatch` does to the entry under `key`: the update for `player1` if `key` is
that player's key, then the update for `player2` if `key` is that player's key. -/
def tallyEntry (m : Match) (key : String) (s : Standing) : Standing :=
  if m.completed then
    let s1 := if keyOf m.player1 = key then tallyFirst m s else s
    if keyOf m.player2 = key then tallySecond m s1 else s1
  else s

/-! ## Ladder (`src/lib/ladder.js`) -/

/-- An entry `{rank, player, wins, losses, challenges, defenses, lastActive}`. -/
structure LadderEntry where
  rank : Int
  player : String
  wins : Int
  losses : Int
  challenges : Int
  defenses : Int
  lastActive : Option String
deriving DecidableEq, Repr

/-- The function `createLadder(players, randomize)`. -/
def createLadder (rand : Nat → Nat) (players : List String) (randomize : Bool) :
    List LadderEntry :=
  let orderedPlayers := if randomize then shuffleArray rand players else players
  orderedPlayers.mapIdx (fun index player =>
    { rank := (index : Int) + 1, player := player, wins := 0, losses := 0, challenges := 0,
      defenses := 0, lastActive := none })

/-- The function `processChallenge(ladder, challengerRank, defenderRank, challengerWins)`;
`now` is the value of `new Date().toISOString()`. The assignments to the two entries
are applied one after the other, as in the source. -/
def processChallenge (now : String) (ladder : List LadderEntry)
    (challengerRank defenderRank : Int) (challengerWins : Bool) : List LadderEntry :=
  match ladder.findIdx? (fun p => p.rank = challengerRank),
        ladder.findIdx? (fun p => p.rank = defenderRank) with
  | some challengerIdx, some defenderIdx =>
    let newLadder :=
      if challengerWins then
        let l := ladder.modify (fun p =>
          { p with wins := p.wins + 1, challenges := p.challenges + 1,
                   lastActive := some now }) challengerIdx
        let l := l.modify (fun p =>
          { p with losses := p.losses + 1, defenses := p.defenses + 1,
                   lastActive := some now }) defenderIdx
        let l := l.modify (fun p => { p with rank := defenderRank }) challengerIdx
        l.modify (fun p => { p with rank := challengerRank }) defenderIdx
      else
        let l := ladder.modify (fun p =>
          { p with wins := p.wins + 1, defenses := p.defenses + 1,
                   lastActive := some now }) defenderIdx
        l.modify (fun p =>
          { p with losses := p.losses + 1, challenges := p.challenges + 1,
                   lastActive := some now }) challengerIdx
    stableSort (fun a b => a.rank - b.rank) newLadder
  | _, _ => ladder

/-- The function `isValidChallenge(ladder, challengerRank, defenderRank, maxRungs)`. -/
def isValidChallenge (_ladder : List LadderEntry) (challengerRank defenderRank : Int)
    (maxRungs : Int) : Bool :=
  if defenderRank ≥ challengerRank then false
  else if challengerRank - defenderRank > maxRungs then false
  else true

/-- The function `getAvailableTargets(ladder, challengerRank, maxRungs)`. -/
def getAvailableTargets (ladder : List LadderEntry) (challengerRank : Int) (maxRungs : Int) :
    List LadderEntry :=
  ladder.filter (fun p => p.rank < challengerRank && challengerRank - p.rank ≤ maxRungs)

/-- The exchange of the two ranks `c` and `d`: what a successful challenge is claimed to
do to the rank of an entry. -/
def swapRank (c d rank : Int) : Int :=
  if rank = c then d else if rank = d then c else rank


/-- The ladders reachable from a ladder returned by `createLadder` by any sequence of
`processChallenge` calls. -/
inductive LadderReachable : List LadderEntry → Prop
  | create (rand : Nat → Nat) (players : List String) (randomize : Bool) :
      LadderReachable (createLadder rand players randomize)
  | challenge (now : String) (ladder : List LadderEntry) (challengerRank defenderRank : Int)
      (challengerWins : Bool) :
      LadderReachable ladder →
      LadderReachable (processChallenge now ladder challengerRank defenderRank challengerWins)

/-- The tallies that every call of `processChallenge` keeps. -/
def Tallied (l : List LadderEntry) : Prop :=
  (∀ e ∈ l, e.wins + e.losses = e.challenges + e.defenses) ∧
    (l.map (fun e => e.wins)).sum = (l.map (fun e => e.losses)).sum

/-! ## Killer (`src/lib/killer.js`) -/

/-- A player `{name, lives, eliminated}`. -/
structure KillerPlayer where
  name : String
  lives : Int
  eliminated : Bool
deriving DecidableEq, Repr

/-- An entry `{player, action, livesAfter, timestamp}` of the turn history. -/
structure Turn where
  player : String
  action : String
  livesAfter : Int
  timestamp : String
deriving DecidableEq, Repr

/-- The state of a Killer game. -/
structure KillerGame where
  players : List KillerPlayer
  currentPlayerIndex : Nat
  gameOver : Bool
  winner : Option String
  turnHistory : List Turn
deriving DecidableEq, Repr

/-- The function `createKillerGame(players, startingLives)`. -/
def createKillerGame (rand : Nat → Nat) (players : List String) (startingLives : Int) :
    KillerGame :=
  let shuffled := shuffleArray rand players
  { players := shuffled.map (fun name =>
      { name := name, lives := startingLives, eliminated := false }),
    currentPlayerIndex := 0, gameOver := false, winner := none, turnHistory := [] }

/-- The loop `while (players[nextIndex].eliminated && attempts < numPlayers)` of
`findNextActivePlayer`, with `remaining = numPlayers - attempts`. -/
def scanActive (players : List KillerPlayer) : Nat → Nat → Nat
  | 0, nextIndex => nextIndex
  | remaining + 1, nextIndex =>
    if (players[nextIndex]?.map (fun p => p.eliminated)) = some true then
      scanActive players remaining ((nextIndex + 1) % players.length)
    else nextIndex

/-- The function `findNextActivePlayer(gameState)`. -/
def findNextActivePlayer (gameState : KillerGame) : Nat :=
  let numPlayers := gameState.players.length
  scanActive gameState.players numPlayers ((gameState.currentPlayerIndex + 1) % numPlayers)

/-- The function `checkWinner(gameState)`. -/
def checkWinner (gameState : KillerGame) : Option KillerPlayer :=
  let activePlayers := gameState.players.filter (fun p => !p.eliminated)
  if activePlayers.length = 1 then activePlayers.head? else none

/-- The `switch (result)` of `processTurn`, applied to the current player. -/
def applyTurn (currentPlayer : KillerPlayer) (result : String) : KillerPlayer :=
  if result = "miss" ∨ result = "foul" then
    let lives := max 0 (currentPlayer.lives - 1)
    { currentPlayer with lives := lives,
                         eliminated := if lives = 0 then true else currentPlayer.eliminated }
  else if result = "black" then { currentPlayer with lives := currentPlayer.lives + 1 }
  else currentPlayer

/-- The function `processTurn(gameState, result)`; `now` is the value of
`new Date().toISOString()`. The result is `none` when there is no current player (the
source then fails on `currentPlayer.name`). -/
def processTurn (now : String) (gameState : KillerGame) (result : String) :
    Option KillerGame :=
  match gameState.players[gameState.currentPlayerIndex]? with
  | none => none
  | some old =>
    let currentPlayer := applyTurn old result
    let newState : KillerGame :=
      { gameState with
        players := gameState.players.set gameState.currentPlayerIndex currentPlayer,
        turnHistory := gameState.turnHistory ++
          [{ player := currentPlayer.name, action := result,
             livesAfter := currentPlayer.lives, timestamp := now }] }
    match checkWinner newState with
    | some winner => some { newState with gameOver := true, winner := some winner.name }
    | none => some { newState with currentPlayerIndex := findNextActivePlayer newState }

/-- The function `getEliminationOrder(gameState)`. -/
def getEliminationOrder (gameState : KillerGame) : List String :=
  gameState.turnHistory.foldl (fun eliminated turn =>
    if turn.livesAfter = 0 ∧ ¬ eliminated.contains turn.player then
      eliminated ++ [turn.player]
    else eliminated) []

/-- The game states reachable from `createKillerGame(players, startingLives)` by any
sequence of `processTurn` calls (with any `result` string and any clock value). -/
inductive KillerReachable (rand : Nat → Nat) (players : List String) (startingLives : Int) :
    KillerGame → Prop
  | start : KillerReachable rand players startingLives
      (createKillerGame rand players startingLives)
  | turn (now result : String) (s s' : KillerGame) :
      KillerReachable rand players startingLives s → processTurn now s result = some s' →
      KillerReachable rand players startingLives s'

/-- The game states reachable from `createKillerGame(players, startingLives)` by
`processTurn` calls that are each made on a state whose `gameOver` is false. -/
inductive KillerInPlay (rand : Nat → Nat) (players : List String) (startingLives : Int) :
    KillerGame → Prop
  | start : KillerInPlay rand players startingLives
      (createKillerGame rand players startingLives)
  | turn (now result : String) (s s' : KillerGame) :
      KillerInPlay rand players startingLives s → s.gameOver = false →
      processTurn now s result = some s' → KillerInPlay rand players startingLives s'

/-- The invariant behind the end-of-game claims: while the game runs at least two players
are left and the current player is one of them; once it is over exactly one player is
left, `winner` is that player, and the current player is an eliminated one. -/
def KillerInv (s : KillerGame) : Prop :=
  (s.gameOver = false →
    2 ≤ (s.players.filter (fun p => !p.eliminated)).length ∧
    ∃ p, s.players[s.currentPlayerIndex]? = some p ∧ p.eliminated = false) ∧
  (s.gameOver = true →
    ∃ w, s.players.filter (fun p => !p.eliminated) = [w] ∧ s.winner = some w.name ∧
      ∃ p, s.players[s.currentPlayerIndex]? = some p ∧ p.eliminated = true)

/-- The names of the players whose `eliminated` flag is false in `before` and true in
`after` (the two lists hold the same players, index by index). -/
def newlyEliminated (before after : List KillerPlayer) : List String :=
  ((before.zip after).filter (fun x => !x.1.eliminated && x.2.eliminated)).map (fun x => x.2.name)

/-- The game states reachable from `createKillerGame(players, startingLives)` by any
sequence of `processTurn` calls, each with the list of the players eliminated so far, in
the order in which they were eliminated: every call appends the players that it
eliminates. -/
inductive KillerTrace (rand : Nat → Nat) (players : List String) (startingLives : Int) :
    KillerGame → List String → Prop
  | start : KillerTrace rand players startingLives
      (createKillerGame rand players startingLives) []
  | turn (now result : String) (s s' : KillerGame) (log : List String) :
      KillerTrace rand players startingLives s log → processTurn now s result = some s' →
      KillerTrace rand players startingLives s' (log ++ newlyEliminated s.players s'.players)


/-- The field `totalLives` of `getGameStats(gameState)`:
`gameState.players.reduce((sum, p) => sum + p.lives, 0)`. -/
def totalLives (gameState : KillerGame) : Int :=
  gameState.players.foldl (fun sum p => sum + p.lives) 0

/-- The state after `count` calls of `processTurn` in a row, all with the same `result`,
starting from `gameState`; the clock reads `now k` at the call number `k`. -/
def processTurns (now : Nat → String) (result : String) :
    Nat → KillerGame → Option KillerGame
  | 0, gameState => some gameState
  | k + 1, gameState =>
    (processTurns now result k gameState).bind (fun s => processTurn (now k) s result)
/-! ## Properties -/

/-! ### Shuffling -/

theorem swapAt_length (l : List String) (i j : Nat) : (swapAt l i j).length = l.length := by
  unfold swapAt
  split <;> simp

theorem swapAt_mem (l : List String) (i j : Nat) (x : String) (hx : x ∈ swapAt l i j) :
    x ∈ l := by
  unfold swapAt at hx
  split at hx
  · rename_i a b ha hb
    rcases List.mem_or_eq_of_mem_set hx with h | h
    · rcases List.mem_or_eq_of_mem_set h with h | h
      · exact h
      · subst h; exact List.getElem?_mem hb
    · subst h; exact List.getElem?_mem ha
  · exact hx

theorem shuffleLoop_length (rand : Nat → Nat) (i : Nat) (l : List String) :
    (shuffleLoop rand i l).length = l.length := by
  induction i generalizing l with
  | zero => rfl
  | succ i ih => simp only [shuffleLoop, ih, swapAt_length]

theorem shuffleLoop_mem (rand : Nat → Nat) (i : Nat) (l : List String) (x : String)
    (hx : x ∈ shuffleLoop rand i l) : x ∈ l := by
  induction i generalizing l with
  | zero => exact hx
  | succ i ih => exact swapAt_mem _ _ _ _ (ih _ hx)

theorem shuffleArray_length (rand : Nat → Nat) (l : List String) :
    (shuffleArray rand l).length = l.length :=
  shuffleLoop_length rand _ l

theorem shuffleArray_mem (rand : Nat → Nat) (l : List String) (x : String)
    (hx : x ∈ shuffleArray rand l) : x ∈ l :=
  shuffleLoop_mem rand _ l x hx

/-! ### Seed order -/

theorem interleave_length (N : Int) (l : List Int) :
    (interleave N l).length = 2 * l.length := by
  induction l with
  | nil => rfl
  | cons v rest ih => simp only [interleave, List.length_cons, ih]; omega

theorem interleave_count (N : Int) (l : List Int) (s : Int) :
    (interleave N l).count s = l.count s + l.count (N + 1 - s) := by
  induction l with
  | nil => rfl
  | cons v rest ih =>
    simp only [interleave, List.count_cons, ih, beq_iff_eq]
    split_ifs <;> omega

theorem interleave_getElem?_even (N : Int) (l : List Int) (i : Nat) :
    (interleave N l)[2 * i]? = l[i]? := by
  induction l generalizing i with
  | nil => simp [interleave]
  | cons v rest ih =>
    cases i with
    | zero => simp [interleave]
    | succ i =>
      have : 2 * (i + 1) = (2 * i + 1) + 1 := by omega
      simp only [interleave, this, List.getElem?_cons_succ, ih]

theorem interleave_getElem?_odd (N : Int) (l : List Int) (i : Nat) :
    (interleave N l)[2 * i + 1]? = (l[i]?).map (fun v => N + 1 - v) := by
  induction l generalizing i with
  | nil => simp [interleave]
  | cons v rest ih =>
    cases i with
    | zero => simp [interleave]
    | succ i =>
      have : 2 * (i + 1) + 1 = (2 * i + 1 + 1) + 1 := by omega
      simp only [interleave, this, List.getElem?_cons_succ, ih]

theorem generate_succ (fuel : Nat) (k : Nat) (hk : 1 ≤ k) :
    generate (fuel + 1) ((k + 1 : Nat) : Int) =
      (generate fuel (k : Int)).map (interleave (2 ^ (k + 1))) := by
  have h1 : ¬ (((k + 1 : Nat) : Int) = 1) := by omega
  have h2 : ((k + 1 : Nat) : Int) - 1 = (k : Int) := by omega
  simp only [generate, h1, if_false, h2, Int.toNat_ofNat]

/-- The recursion never comes back when it starts at a round below `1`. -/
theorem generate_nonpos (fuel : Nat) (round : Int) (h : round ≤ 0) :
    generate fuel round = none := by
  induction fuel generalizing round with
  | zero => rfl
  | succ fuel ih =>
    have h1 : ¬ (round = 1) := by omega
    simp only [generate, h1, if_false, ih (round - 1) (by omega), Option.map_none']

/-- The order that `generate(k)` returns, `k ≥ 1`, once the stack bound is at least `k`:
its length is `2 ^ k` and it holds each of `1 .. 2 ^ k` once and nothing else. -/
theorem generate_spec (k : Nat) (hk : 1 ≤ k) :
    ∃ l : List Int, (∀ fuel, k ≤ fuel → generate fuel (k : Int) = some l) ∧
      l.length = 2 ^ k ∧
      ∀ s : Int, l.count s = if 1 ≤ s ∧ s ≤ 2 ^ k then 1 else 0 := by
  induction k with
  | zero => omega
  | succ k ih =>
    by_cases hk1 : k = 0
    · subst hk1
      refine ⟨[1, 2], ?_, rfl, ?_⟩
      · intro fuel hf
        obtain ⟨f, rfl⟩ : ∃ f, fuel = f + 1 := ⟨fuel - 1, by omega⟩
        simp [generate]
      · intro s
        simp only [List.count_cons, List.count_nil, beq_iff_eq]
        norm_num
        split_ifs <;> omega
    · obtain ⟨l, hgen, hlen, hcount⟩ := ih (by omega)
      refine ⟨interleave (2 ^ (k + 1)) l, ?_, ?_, ?_⟩
      · intro fuel hf
        obtain ⟨f, rfl⟩ : ∃ f, fuel = f + 1 := ⟨fuel - 1, by omega⟩
        rw [generate_succ f k (by omega), hgen f (by omega)]
        rfl
      · rw [interleave_length, hlen, pow_succ]; omega
      · intro s
        rw [interleave_count, hcount, hcount]
        have hp : (2 : Int) ^ (k + 1) = 2 * 2 ^ k := by rw [pow_succ]; ring
        have hpos : (0 : Int) < 2 ^ k := by positivity
        rw [hp]
        generalize (2 : Int) ^ k = p at hpos ⊢
        split_ifs <;> omega

theorem log2Loop_two_pow (k : Nat) : ∀ fuel, k ≤ fuel → log2Loop fuel (2 ^ k) = k := by
  induction k with
  | zero => intro fuel _; cases fuel <;> simp [log2Loop]
  | succ k ih =>
    intro fuel hf
    obtain ⟨f, rfl⟩ : ∃ f, fuel = f + 1 := ⟨fuel - 1, by omega⟩
    have h1 : ¬ (2 ^ (k + 1) ≤ 1) := by
      have : 0 < 2 ^ k := by positivity
      rw [pow_succ]; omega
    have h2 : 2 ^ (k + 1) / 2 = 2 ^ k := by rw [pow_succ]; omega
    simp only [log2Loop, h1, if_false, h2, ih f (by omega)]

theorem mathLog2_two_pow (k : Nat) : mathLog2 (2 ^ k) = k :=
  log2Loop_two_pow k (2 ^ k) (Nat.lt_two_pow k).le

/-- C4: for every `k ≥ 1`, `generateBracketSeedOrder(2 ^ k)` comes back (with any stack
bound `fuel ≥ k`) with a sequence of length `2 ^ k` in which every seed `1 .. 2 ^ k`
occurs exactly once; for size 8 it is `[1,8,4,5,2,7,3,6]`. -/
theorem C4_seed_order_is_permutation (k : Nat) (hk : 1 ≤ k) :
    (∃ l : List Int, (∀ fuel, k ≤ fuel → generateBracketSeedOrder fuel (2 ^ k) = some l) ∧
      l.length = 2 ^ k ∧ ∀ s : Int, 1 ≤ s → s ≤ 2 ^ k → l.count s = 1) ∧
    generateBracketSeedOrder 3 8 = some [1, 8, 4, 5, 2, 7, 3, 6] := by
  refine ⟨?_, by decide⟩
  obtain ⟨l, hgen, hlen, hcount⟩ := generate_spec k hk
  refine ⟨l, ?_, hlen, ?_⟩
  · intro fuel hf
    unfold generateBracketSeedOrder
    rw [mathLog2_two_pow]; exact hgen fuel hf
  · intro s h1 h2
    rw [hcount s, if_pos ⟨h1, h2⟩]

/-- Witness for C4: the seed order of a bracket of size 16. -/
theorem C4_seed_order_is_permutation_witness :
    (∃ l : List Int, (∀ fuel, 4 ≤ fuel → generateBracketSeedOrder fuel (2 ^ 4) = some l) ∧
      l.length = 2 ^ 4 ∧ ∀ s : Int, 1 ≤ s → s ≤ 2 ^ 4 → l.count s = 1) ∧
    generateBracketSeedOrder 3 8 = some [1, 8, 4, 5, 2, 7, 3, 6] :=
  C4_seed_order_is_permutation 4 (by decide)

/-! ### Bracket size and number of rounds -/

theorem growBracketSize_spec (n : Nat) :
    ∀ fuel i, n ≤ 2 ^ (i + fuel) → (i = 0 ∨ 2 ^ (i - 1) < n) →
      ∃ j, growBracketSize n fuel (2 ^ i) = 2 ^ j ∧ n ≤ 2 ^ j ∧ (j = 0 ∨ 2 ^ (j - 1) < n) := by
  intro fuel
  induction fuel with
  | zero => intro i h1 h2; exact ⟨i, rfl, by simpa using h1, h2⟩
  | succ fuel ih =>
    intro i h1 h2
    by_cases hlt : 2 ^ i < n
    · have h3 : growBracketSize n (fuel + 1) (2 ^ i) = growBracketSize n fuel (2 ^ (i + 1)) := by
        simp only [growBracketSize, hlt, if_true, pow_succ]
      rw [h3]
      exact ih (i + 1) (by rw [show i + 1 + fuel = i + (fuel + 1) by omega]; exact h1)
        (Or.inr (by simpa using hlt))
    · exact ⟨i, by simp only [growBracketSize, hlt, if_false], by omega, h2⟩

/-- The `while` loop of `generateSingleElimination` ends with the smallest power of two
that is at least `n`. -/
theorem bracketSize_spec (n : Nat) :
    ∃ j, growBracketSize n n 1 = 2 ^ j ∧ n ≤ 2 ^ j ∧ (j = 0 ∨ 2 ^ (j - 1) < n) := by
  have h := growBracketSize_spec n n 0 (by simpa using (Nat.lt_two_pow n).le) (Or.inl rfl)
  simpa using h

theorem bracketSize_exponent_le (n j : Nat) (h : j = 0 ∨ 2 ^ (j - 1) < n) : j ≤ n := by
  rcases h with h | h
  · omega
  · have := Nat.lt_two_pow (j - 1)
    omega

theorem bracketSize_minimal (n j : Nat) (h : j = 0 ∨ 2 ^ (j - 1) < n) (j' : Nat)
    (h' : n ≤ 2 ^ j') : 2 ^ j ≤ 2 ^ j' := by
  rcases h with h | h
  · subst h; exact Nat.one_le_two_pow
  · have h1 : 2 ^ (j - 1) < 2 ^ j' := lt_of_lt_of_le h h'
    have h2 : j - 1 < j' := (Nat.pow_lt_pow_iff_right (by omega)).mp h1
    exact Nat.pow_le_pow_right (by omega) (by omega)

/-- The shape of the value returned by `generateSingleElimination` once the seed order
has come back. -/
theorem generateSingleElimination_eq (rand : Nat → Nat) (fuel : Nat) (players : List String)
    (seeded : Bool) (seedOrder : List Int)
    (h : generateBracketSeedOrder fuel (growBracketSize players.length players.length 1) =
      some seedOrder) :
    generateSingleElimination rand fuel players seeded =
      some { type := "single_elimination",
             bracketSize := growBracketSize players.length players.length 1,
             numRounds := mathLog2 (growBracketSize players.length players.length 1),
             rounds := advanceByeWinners
               (laterRounds (mathLog2 (growBracketSize players.length players.length 1))
                 (mathLog2 (growBracketSize players.length players.length 1) - 1) 2
                 (growBracketSize players.length players.length 1 / 2 + 1) []
                 { number := 1,
                   name := getRoundName
                     (mathLog2 (growBracketSize players.length players.length 1)) 1,
                   matchList := firstRound
                     (seedSlots (if seeded then players else shuffleArray rand players) seedOrder)
                     (growBracketSize players.length players.length 1) }),
             players := if seeded then players else shuffleArray rand players } := by
  simp only [generateSingleElimination, h]

/-- With at least two players the seed order comes back; it has the length of the
bracket, holds every seed once, and the bracket size is the least power of two that
holds the roster. -/
theorem seedOrder_of_two_le (players : List String) (hn : 2 ≤ players.length) :
    ∃ j l, 1 ≤ j ∧ growBracketSize players.length players.length 1 = 2 ^ j ∧
      mathLog2 (growBracketSize players.length players.length 1) = j ∧
      players.length ≤ 2 ^ j ∧ 2 ^ (j - 1) < players.length ∧
      (∀ fuel, players.length ≤ fuel →
        generateBracketSeedOrder fuel (growBracketSize players.length players.length 1) =
          some l) ∧
      (∀ fuel, j ≤ fuel → generate fuel (j : Int) = some l) ∧
      l.length = 2 ^ j ∧ ∀ s : Int, l.count s = if 1 ≤ s ∧ s ≤ 2 ^ j then 1 else 0 := by
  obtain ⟨j, hj, hle, hmin⟩ := bracketSize_spec players.length
  have hj1 : 1 ≤ j := by
    rcases Nat.eq_zero_or_pos j with h0 | h0
    · subst h0; simp at hle; omega
    · exact h0
  have hmin' : 2 ^ (j - 1) < players.length := by
    rcases hmin with h | h
    · omega
    · exact h
  obtain ⟨l, hgen, hlen, hcount⟩ := generate_spec j hj1
  refine ⟨j, l, hj1, hj, by rw [hj, mathLog2_two_pow], hle, hmin', ?_, hgen, hlen, hcount⟩
  intro fuel hf
  unfold generateBracketSeedOrder
  rw [hj, mathLog2_two_pow]
  exact hgen fuel (le_trans (bracketSize_exponent_le _ _ hmin) hf)

/-- C3, amended: for every roster of `n ≥ 2` players, `generateSingleElimination` returns
(with any stack bound `fuel ≥ n`) a bracket whose `bracketSize` is the smallest power of
two that is at least `n` and whose `numRounds` is its exponent `log2(bracketSize)`. -/
theorem C3_bracket_size_two_le (rand : Nat → Nat) (players : List String) (seeded : Bool)
    (fuel : Nat) (hn : 2 ≤ players.length) (hf : players.length ≤ fuel) :
    ∃ b, generateSingleElimination rand fuel players seeded = some b ∧
      b.bracketSize = 2 ^ b.numRounds ∧ players.length ≤ b.bracketSize ∧
      ∀ j, players.length ≤ 2 ^ j → b.bracketSize ≤ 2 ^ j := by
  obtain ⟨j, l, hj1, hj, hlog, hle, hmin, hgen, -, -, -⟩ := seedOrder_of_two_le players hn
  refine ⟨_, generateSingleElimination_eq rand fuel players seeded l (hgen fuel hf), ?_, ?_, ?_⟩
  · simp only [hj, mathLog2_two_pow]
  · simp only [hj]; exact hle
  · intro j' hj'
    simp only [hj]
    exact bracketSize_minimal players.length j (Or.inr hmin) j' hj'

/-- Witness for C3: five players give a bracket of size 8 with 3 rounds. -/
theorem C3_bracket_size_two_le_witness :
    ∃ b, generateSingleElimination (fun _ => 0) 5 ["A", "B", "C", "D", "E"] true = some b ∧
      b.bracketSize = 2 ^ b.numRounds ∧ ["A", "B", "C", "D", "E"].length ≤ b.bracketSize ∧
      ∀ j, ["A", "B", "C", "D", "E"].length ≤ 2 ^ j → b.bracketSize ≤ 2 ^ j :=
  C3_bracket_size_two_le (fun _ => 0) ["A", "B", "C", "D", "E"] true 5 (by decide) (by decide)

/-- C3 as stated fails at `n = 1`: for the roster `['A']` the bracket size is `1`, so
`generate(0)` is called, which recurses below `1` for ever; no bracket is returned
whatever the stack bound. -/
theorem C3_single_player_never_returns :
    ¬ ∃ fuel b, generateSingleElimination (fun _ => 0) fuel ["A"] true = some b := by
  rintro ⟨fuel, b, h⟩
  have hg : generateBracketSeedOrder fuel (growBracketSize ["A"].length ["A"].length 1) = none :=
    generate_nonpos fuel _ (by decide)
  simp only [generateSingleElimination, hg] at h
  exact Option.noConfusion h

/-! ### No bye meets a bye in round 1 -/

/-- In the order that `generate(j)` returns, the two seeds of every round-1 pair add up
to `2 ^ j + 1`. -/
theorem generate_pair_sum (j : Nat) (hj : 1 ≤ j) (fuel : Nat) (l : List Int)
    (hl : generate fuel (j : Int) = some l) (i : Nat) (v w : Int)
    (hv : l[2 * i]? = some v) (hw : l[2 * i + 1]? = some w) : v + w = 2 ^ j + 1 := by
  obtain ⟨f, rfl⟩ : ∃ f, fuel = f + 1 := by
    cases fuel with
    | zero => simp [generate] at hl
    | succ f => exact ⟨f, rfl⟩
  by_cases h1 : j = 1
  · subst h1
    simp only [generate, Nat.cast_one, if_true, Option.some.injEq] at hl
    subst hl
    cases i with
    | zero => simp at hv hw; subst hv; subst hw; norm_num
    | succ i =>
      have : 2 * (i + 1) = (2 * i) + 1 + 1 := by omega
      rw [this] at hv
      simp at hv
  · obtain ⟨k, rfl⟩ : ∃ k, j = k + 1 := ⟨j - 1, by omega⟩
    rw [generate_succ f k (by omega)] at hl
    cases hprev : generate f (k : Int) with
    | none => rw [hprev] at hl; simp at hl
    | some prev =>
      rw [hprev] at hl
      simp only [Option.map_some', Option.some.injEq] at hl
      subst hl
      rw [interleave_getElem?_even] at hv
      rw [interleave_getElem?_odd, hv] at hw
      simp only [Option.map_some', Option.some.injEq] at hw
      omega

theorem mem_linkPrevious (ms : List BracketMatch) (matchId : Nat) (m : BracketMatch)
    (hm : m ∈ linkPrevious ms matchId) :
    ∃ m0 ∈ ms, m.id = m0.id ∧ m.round = m0.round ∧ m.player1 = m0.player1 ∧
      m.player2 = m0.player2 ∧
      (m.nextMatchId = m0.nextMatchId ∨ ∃ x, m.nextMatchId = some (matchId + x)) := by
  unfold linkPrevious at hm
  rw [List.mem_mapIdx] at hm
  obtain ⟨i, hi, rfl⟩ := hm
  refine ⟨ms[i], List.getElem_mem hi, ?_⟩
  split_ifs
  · exact ⟨rfl, rfl, rfl, rfl, Or.inr ⟨i / 2, rfl⟩⟩
  · exact ⟨rfl, rfl, rfl, rfl, Or.inl rfl⟩

theorem linkPrevious_length (ms : List BracketMatch) (matchId : Nat) :
    (linkPrevious ms matchId).length = ms.length := by
  unfold linkPrevious; exact List.length_mapIdx

theorem laterRounds_done (numRounds : Nat) (remaining roundNum matchId : Nat)
    (done : List BracketRound) (previous : BracketRound) :
    laterRounds numRounds remaining roundNum matchId done previous =
      done ++ laterRounds numRounds remaining roundNum matchId [] previous := by
  induction remaining generalizing roundNum matchId done previous with
  | zero => simp [laterRounds]
  | succ remaining ih =>
    simp only [laterRounds]
    rw [ih, ih _ _ ([] ++ _)]
    simp

/-- The first of the rounds built by the loop is the round the loop started from, with
at most its `nextMatchId` links set. -/
theorem laterRounds_head (numRounds : Nat) (remaining roundNum matchId : Nat)
    (previous : BracketRound) :
    ∃ r, (laterRounds numRounds remaining roundNum matchId [] previous).head? = some r ∧
      r.matchList.length = previous.matchList.length ∧
      ∀ m ∈ r.matchList, ∃ m0 ∈ previous.matchList, m.id = m0.id ∧ m.round = m0.round ∧
        m.player1 = m0.player1 ∧ m.player2 = m0.player2 ∧
        (m.nextMatchId = m0.nextMatchId ∨ ∃ x, m.nextMatchId = some (matchId + x)) := by
  cases remaining with
  | zero =>
    exact ⟨previous, by simp [laterRounds], rfl,
      fun m hm => ⟨m, hm, rfl, rfl, rfl, rfl, Or.inl rfl⟩⟩
  | succ remaining =>
    refine ⟨{ previous with matchList := linkPrevious previous.matchList matchId }, ?_, ?_, ?_⟩
    · simp only [laterRounds]
      rw [laterRounds_done]
      simp
    · exact linkPrevious_length _ _
    · intro m hm
      exact mem_linkPrevious _ _ m hm

theorem placeWinner_head (rounds : List BracketRound) (r : BracketRound) (next : Nat)
    (w : Option String) (pos : Nat) (hr : rounds.head? = some r)
    (hid : ∀ m ∈ r.matchList, m.id ≠ next) :
    (placeWinner rounds next w pos).head? = some r := by
  cases rounds with
  | nil => simp at hr
  | cons r0 rest =>
    simp only [List.head?_cons, Option.some.injEq] at hr
    subst hr
    simp only [placeWinner, List.map_cons, List.head?_cons, Option.some.injEq]
    have : r0.matchList.map (fun nextMatch =>
        if nextMatch.id = next then
          if pos % 2 = 0 then { nextMatch with player1 := w }
          else { nextMatch with player2 := w }
        else nextMatch) = r0.matchList := by
      conv_rhs => rw [← List.map_id r0.matchList]
      apply List.map_congr_left
      intro m hm
      simp [hid m hm]
    rw [this]

theorem advanceByeStep_head (rounds : List BracketRound) (r : BracketRound) (j : Nat)
    (hr : rounds.head? = some r)
    (hid : ∀ m ∈ r.matchList, ∀ m' ∈ r.matchList, m.nextMatchId ≠ some m'.id) :
    (advanceByeStep rounds j).head? = some r := by
  unfold advanceByeStep
  rw [hr]
  simp only
  cases hm : r.matchList[j]? with
  | none => exact hr
  | some m =>
    simp only
    cases hnext : m.nextMatchId with
    | none => exact hr
    | some next =>
      simp only
      have hp : ∀ w pos, (placeWinner rounds next w pos).head? = some r := by
        intro w pos
        apply placeWinner_head rounds r next _ _ hr
        intro m' hm' heq
        exact hid m (List.getElem?_mem hm) m' hm' (by rw [hnext, heq])
      split_ifs <;> first | exact hr | exact hp _ _

theorem advanceByeWinners_head (rounds : List BracketRound) (r : BracketRound)
    (hr : rounds.head? = some r)
    (hid : ∀ m ∈ r.matchList, ∀ m' ∈ r.matchList, m.nextMatchId ≠ some m'.id) :
    (advanceByeWinners rounds).head? = some r := by
  unfold advanceByeWinners
  rw [hr]
  simp only
  generalize List.range r.matchList.length = js
  induction js generalizing rounds with
  | nil => exact hr
  | cons j js ih =>
    simp only [List.foldl_cons]
    exact ih _ (advanceByeStep_head rounds r j hr hid)

theorem orBye_slot_eq_bye (sp : List String) (hsp : ∀ x ∈ sp, x ≠ "BYE" ∧ x ≠ "") (v : Int)
    (hv : 1 ≤ v)
    (h : orBye (if v ≤ (sp.length : Int) then sp[(v - 1).toNat]? else none) = "BYE") :
    (sp.length : Int) < v := by
  by_contra hlt
  have hle : v ≤ (sp.length : Int) := by omega
  rw [if_pos hle] at h
  have hidx : (v - 1).toNat < sp.length := by omega
  rw [List.getElem?_eq_getElem hidx] at h
  have hmem := hsp _ (List.getElem_mem hidx)
  simp only [orBye, hmem.2, if_false] at h
  exact hmem.1 h

theorem mem_firstRound (bracket : List (Option String)) (bracketSize : Nat) (m : BracketMatch)
    (hm : m ∈ firstRound bracket bracketSize) :
    ∃ i, i < bracketSize / 2 ∧ m = firstRoundMatch bracket i := by
  unfold firstRound at hm
  rw [List.mem_map] at hm
  obtain ⟨i, hi, rfl⟩ := hm
  exact ⟨i, List.mem_range.mp hi, rfl⟩

theorem seed_mem_range (l : List Int) (N : Int)
    (hcount : ∀ s : Int, l.count s = if 1 ≤ s ∧ s ≤ N then 1 else 0) (k : Nat) (v : Int)
    (hv : l[k]? = some v) : 1 ≤ v ∧ v ≤ N := by
  have hmem : v ∈ l := List.getElem?_mem hv
  have hpos : 0 < l.count v := List.count_pos_iff.mpr hmem
  rw [hcount v] at hpos
  by_contra hcon
  rw [if_neg hcon] at hpos
  omega

/-- C2, amended: for every roster of `n ≥ 2` players none of whom is called `'BYE'` or has
the empty name, and whatever the seeding order, the bracket returned by
`generateSingleElimination` has a first round of `bracketSize / 2` matches, all of round
`1`, none of which has both `player1` and `player2` equal to `'BYE'`. -/
theorem C2_no_bye_meets_bye (rand : Nat → Nat) (players : List String) (seeded : Bool)
    (fuel : Nat) (hn : 2 ≤ players.length) (hf : players.length ≤ fuel)
    (hnames : ∀ p ∈ players, p ≠ "BYE" ∧ p ≠ "") :
    ∃ b r, generateSingleElimination rand fuel players seeded = some b ∧
      b.rounds.head? = some r ∧ r.matchList.length = b.bracketSize / 2 ∧
      ∀ m ∈ r.matchList,
        m.round = 1 ∧ ¬ (m.player1 = some "BYE" ∧ m.player2 = some "BYE") := by
  obtain ⟨j, l, hj1, hj, hlog, hle, hmin, hgen, hgen', hlen, hcount⟩ :=
    seedOrder_of_two_le players hn
  have heq := generateSingleElimination_eq rand fuel players seeded l (hgen fuel hf)
  generalize hsp : (if seeded then players else shuffleArray rand players) = sp at heq
  have hsplen : sp.length = players.length := by
    subst hsp; split_ifs
    · rfl
    · exact shuffleArray_length rand players
  have hspmem : ∀ x ∈ sp, x ≠ "BYE" ∧ x ≠ "" := by
    intro x hx
    subst hsp
    split_ifs at hx
    · exact hnames x hx
    · exact hnames x (shuffleArray_mem rand players x hx)
  rw [hj, mathLog2_two_pow] at heq
  obtain ⟨r, hhead, hrlen, hrmem⟩ := laterRounds_head j (j - 1) 2 (2 ^ j / 2 + 1)
    { number := 1, name := getRoundName j 1, matchList := firstRound (seedSlots sp l) (2 ^ j) }
  have hfirst : ∀ m ∈ r.matchList, ∃ i, i < 2 ^ j / 2 ∧ m.id = i + 1 ∧ m.round = 1 ∧
      m.player1 = (firstRoundMatch (seedSlots sp l) i).player1 ∧
      m.player2 = (firstRoundMatch (seedSlots sp l) i).player2 ∧
      (m.nextMatchId = none ∨ ∃ x, m.nextMatchId = some (2 ^ j / 2 + 1 + x)) := by
    intro m hm
    obtain ⟨m0, hm0, h1, h2, h3, h4, h5⟩ := hrmem m hm
    obtain ⟨i, hi, rfl⟩ := mem_firstRound _ _ m0 hm0
    exact ⟨i, hi, h1, h2, h3, h4, h5⟩
  have hid : ∀ m ∈ r.matchList, ∀ m' ∈ r.matchList, m.nextMatchId ≠ some m'.id := by
    intro m hm m' hm' hcon
    obtain ⟨i, -, -, -, -, -, hnext⟩ := hfirst m hm
    obtain ⟨i', hi', hid', -⟩ := hfirst m' hm'
    rcases hnext with h | ⟨x, h⟩
    · rw [h] at hcon; exact Option.noConfusion hcon
    · rw [h, hid'] at hcon
      simp only [Option.some.injEq] at hcon
      omega
  refine ⟨_, r, heq, advanceByeWinners_head _ r hhead hid, ?_, ?_⟩
  · rw [hrlen]; simp [firstRound]
  · intro m hm
    obtain ⟨i, hi, -, hround, hp1, hp2, -⟩ := hfirst m hm
    refine ⟨hround, ?_⟩
    rintro ⟨hb1, hb2⟩
    have hpow : 2 ^ j = 2 * 2 ^ (j - 1) := by
      obtain ⟨k, rfl⟩ : ∃ k, j = k + 1 := ⟨j - 1, by omega⟩
      rw [pow_succ]; simp; ring
    have hi1 : 2 * i < l.length := by omega
    have hi2 : 2 * i + 1 < l.length := by omega
    have hv : l[2 * i]? = some l[2 * i] := List.getElem?_eq_getElem hi1
    have hw : l[2 * i + 1]? = some l[2 * i + 1] := List.getElem?_eq_getElem hi2
    have hsum := generate_pair_sum j hj1 j l (hgen' j le_rfl) i _ _ hv hw
    have hv1 := (seed_mem_range l (2 ^ j) hcount _ _ hv).1
    have hw1 := (seed_mem_range l (2 ^ j) hcount _ _ hw).1
    rw [hb1] at hp1
    rw [hb2] at hp2
    simp only [firstRoundMatch, seedSlots, List.getElem?_map, Nat.mul_comm i 2, hv, hw,
      Option.map_some', Option.join, Option.bind_some, id_eq, Option.some.injEq] at hp1 hp2
    have h1 := orBye_slot_eq_bye sp hspmem _ hv1 hp1.symm
    have h2 := orBye_slot_eq_bye sp hspmem _ hw1 hp2.symm
    have hpow' : (2 : Int) ^ j = 2 * 2 ^ (j - 1) := by exact_mod_cast hpow
    have hmin' : ((2 : Int) ^ (j - 1)) < (players.length : Int) := by exact_mod_cast hmin
    rw [hsplen] at h1 h2
    omega

/-- Witness for C2: five players, shuffled seeding. -/
theorem C2_no_bye_meets_bye_witness :
    ∃ b r, generateSingleElimination (fun i => i) 5 ["A", "B", "C", "D", "E"] false = some b ∧
      b.rounds.head? = some r ∧ r.matchList.length = b.bracketSize / 2 ∧
      ∀ m ∈ r.matchList,
        m.round = 1 ∧ ¬ (m.player1 = some "BYE" ∧ m.player2 = some "BYE") :=
  C2_no_bye_meets_bye (fun i => i) ["A", "B", "C", "D", "E"] false 5 (by decide) (by decide)
    (by decide)

/-- C2 as stated fails for a roster with a player called `'BYE'`: seeded first of three,
that player meets the bye slot, and both sides of the round-1 match read `'BYE'`. -/
theorem C2_player_named_bye_meets_bye :
    ∃ b r m, generateSingleElimination (fun _ => 0) 3 ["BYE", "B", "C"] true = some b ∧
      b.rounds.head? = some r ∧ m ∈ r.matchList ∧ m.round = 1 ∧
      m.player1 = some "BYE" ∧ m.player2 = some "BYE" := by
  refine ⟨_, _, _, rfl, rfl, List.mem_cons_self _ _, ?_⟩
  decide

/-! ### The tree that the construction loop builds -/

theorem pow_div_pow_succ (N k : Nat) (h : k + 1 ≤ N) : 2 ^ N / 2 ^ (k + 1) = 2 ^ (N - (k + 1)) :=
  Nat.pow_div h (by decide)

theorem round_size_even (N k : Nat) (h : k + 2 ≤ N) :
    2 * (2 ^ N / 2 ^ (k + 1) / 2) = 2 ^ N / 2 ^ (k + 1) := by
  rw [pow_div_pow_succ N k (by omega)]
  obtain ⟨e, he⟩ : ∃ e, N - (k + 1) = e + 1 := ⟨N - (k + 2), by omega⟩
  rw [he, pow_succ]
  omega

theorem round_size_half (bs k : Nat) : bs / 2 ^ (k + 1) / 2 = bs / 2 ^ (k + 2) := by
  rw [Nat.div_div_eq_div_mul]
  rfl

/-- The matches pushed for the round with index `k + 1`, when the round before it is
numbered from `firstId bracketSize k`. -/
theorem nextRoundMatches_tree (N bs k : Nat) (prev : List BracketMatch)
    (hlen : prev.length = bs / 2 ^ (k + 1))
    (hid : ∀ i m, prev[i]? = some m → m.id = firstId bs k + i) :
    nextRoundMatches prev (k + 2) (firstId bs (k + 1)) =
      (List.range (bs / 2 ^ (k + 2))).map (fun i =>
        { treeMatch N bs (k + 1) i with nextMatchId := none }) := by
  unfold nextRoundMatches
  rw [hlen, round_size_half]
  apply List.map_congr_left
  intro i hi
  rw [List.mem_range] at hi
  have h2 : i < prev.length / 2 := by rw [hlen, round_size_half]; exact hi
  have hlt1 : i * 2 < prev.length := by omega
  have hlt2 : i * 2 + 1 < prev.length := by omega
  have e1 := hid (i * 2) _ (List.getElem?_eq_getElem hlt1)
  have e2 := hid (i * 2 + 1) _ (List.getElem?_eq_getElem hlt2)
  simp only [treeMatch, List.getElem?_eq_getElem hlt1, List.getElem?_eq_getElem hlt2,
    Option.map_some', e1, e2, Nat.add_sub_cancel]

/-- Linking a round of even length sets the link of every match. -/
theorem linkPrevious_even (ms : List BracketMatch) (matchId : Nat)
    (heven : 2 * (ms.length / 2) = ms.length) :
    linkPrevious ms matchId =
      ms.mapIdx (fun j m => { m with nextMatchId := some (matchId + j / 2) }) := by
  unfold linkPrevious
  rw [heven]
  apply List.ext_getElem?
  intro j
  simp only [List.getElem?_mapIdx]
  cases hj : ms[j]? with
  | none => rfl
  | some m =>
    have hlt : j < ms.length := by
      by_contra hcon
      rw [List.getElem?_eq_none (by omega)] at hj
      exact Option.noConfusion hj
    simp [hlt]

theorem mapIdx_map_range {β : Type} (c : Nat) (g : Nat → BracketMatch)
    (f : Nat → BracketMatch → β) :
    ((List.range c).map g).mapIdx f = (List.range c).map (fun i => f i (g i)) := by
  apply List.ext_getElem?
  intro j
  simp only [List.getElem?_mapIdx, List.getElem?_map]
  by_cases hj : j < c
  · simp [List.getElem?_range hj]
  · rw [List.getElem?_eq_none (by simpa using hj)]
    rfl

/-- The construction loop in closed form: started from a round with index `k` whose
matches are numbered from `firstId bracketSize k` and not linked yet, it returns that
round with its links set, followed by the tree rounds of index `k + 1` and up. -/
theorem laterRounds_tree (N : Nat) :
    ∀ (remaining k : Nat) (prev : BracketRound), k + 1 + remaining = N →
      prev.matchList.length = 2 ^ N / 2 ^ (k + 1) →
      (∀ i m, prev.matchList[i]? = some m → m.id = firstId (2 ^ N) k + i) →
      (∀ m ∈ prev.matchList, m.nextMatchId = none) →
      laterRounds N remaining (k + 2) (firstId (2 ^ N) (k + 1)) [] prev =
        { prev with matchList := prev.matchList.mapIdx (fun j m =>
            { m with nextMatchId :=
                if k + 1 < N then some (firstId (2 ^ N) (k + 1) + j / 2) else none }) } ::
          (List.range' (k + 1) remaining).map (treeRound N (2 ^ N)) := by
  intro remaining
  induction remaining with
  | zero =>
    intro k prev hk hlen hid hnone
    have hN : ¬ k + 1 < N := by omega
    simp only [laterRounds, List.nil_append, List.range'_zero, List.map_nil, hN, if_false]
    congr 1
    have : prev.matchList.mapIdx (fun j m => { m with nextMatchId := none }) =
        prev.matchList := by
      apply List.ext_getElem?
      intro j
      simp only [List.getElem?_mapIdx]
      cases hj : prev.matchList[j]? with
      | none => rfl
      | some m =>
        have := hnone m (List.getElem?_mem hj)
        simp only [Option.map_some', Option.some.injEq]
        cases m
        simp_all
    rw [this]
  | succ remaining ih =>
    intro k prev hk hlen hid hnone
    have hN : k + 1 < N := by omega
    have hfresh := nextRoundMatches_tree N (2 ^ N) k prev.matchList hlen hid
    simp only [laterRounds, List.nil_append]
    rw [laterRounds_done, hfresh]
    simp only [List.length_map, List.length_range, List.singleton_append, hN, if_true]
    have hnext : firstId (2 ^ N) (k + 1) + 2 ^ N / 2 ^ (k + 2) = firstId (2 ^ N) (k + 1 + 1) := rfl
    rw [hnext, ih (k + 1) _ (by omega) (by simp) ?_ ?_]
    · rw [linkPrevious_even _ _ (by rw [hlen]; exact round_size_even N k (by omega))]
      rw [List.range'_succ, List.map_cons]
      congr 1
      simp only [treeRound, mapIdx_map_range, treeMatch]
      rfl
    · intro i m hm
      simp only [List.getElem?_map] at hm
      by_cases hi : i < 2 ^ N / 2 ^ (k + 2)
      · rw [List.getElem?_range hi] at hm
        simp only [Option.map_some', Option.some.injEq] at hm
        subst hm
        rfl
      · rw [List.getElem?_eq_none (by simpa using hi)] at hm
        exact Option.noConfusion hm
    · intro m hm
      simp only [List.mem_map] at hm
      obtain ⟨i, -, rfl⟩ := hm
      rfl
/-! ### Bye winners move on to the second round -/

/-- The rounds as the construction loop of `generateSingleElimination` leaves them. -/
theorem laterRounds_first (N : Nat) (hN : 1 ≤ N) (bracket : List (Option String)) :
    laterRounds N (N - 1) 2 (2 ^ N / 2 + 1) []
        { number := 1, name := getRoundName N 1, matchList := firstRound bracket (2 ^ N) } =
      treeFirstRound N (2 ^ N) bracket :: (List.range' 1 (N - 1)).map (treeRound N (2 ^ N)) := by
  have hid : firstId (2 ^ N) (0 + 1) = 2 ^ N / 2 + 1 := by
    simp only [firstId, Nat.zero_add, pow_one]
    omega
  have h := laterRounds_tree N (N - 1) 0
    { number := 1, name := getRoundName N 1, matchList := firstRound bracket (2 ^ N) }
    (by omega) (by simp [firstRound]) ?_ ?_
  · rw [hid] at h
    rw [h]
    congr 1
    simp only [treeFirstRound, firstRound, mapIdx_map_range, Nat.zero_add]
    simp only [firstId, Nat.zero_add, pow_one, Nat.add_comm 1]
  · intro i m hm
    simp only [firstRound, List.getElem?_map] at hm
    by_cases hi : i < 2 ^ N / 2
    · rw [List.getElem?_range hi] at hm
      simp only [Option.map_some', Option.some.injEq] at hm
      subst hm
      simp only [firstRoundMatch, firstId]
      omega
    · rw [List.getElem?_eq_none (by simpa using hi)] at hm
      exact Option.noConfusion hm
  · intro m hm
    obtain ⟨i, -, rfl⟩ := mem_firstRound _ _ m hm
    rfl

theorem firstId_mono (bs : Nat) (k d : Nat) : firstId bs k ≤ firstId bs (k + d) := by
  induction d with
  | zero => exact le_rfl
  | succ d ih =>
    rw [← Nat.add_assoc]
    simp only [firstId]
    exact le_trans ih (Nat.le_add_right _ _)

/-- A round none of whose matches has the id `next` is left alone by `placeWinner`. -/
theorem placeWinner_round_of_ne (r : BracketRound) (next : Nat) (w : Option String) (pos : Nat)
    (hid : ∀ m ∈ r.matchList, m.id ≠ next) :
    ({ r with matchList := r.matchList.map (fun nextMatch =>
        if nextMatch.id = next then
          if pos % 2 = 0 then { nextMatch with player1 := w }
          else { nextMatch with player2 := w }
        else nextMatch) } : BracketRound) = r := by
  have : r.matchList.map (fun nextMatch =>
      if nextMatch.id = next then
        if pos % 2 = 0 then { nextMatch with player1 := w }
        else { nextMatch with player2 := w }
      else nextMatch) = r.matchList := by
    conv_rhs => rw [← List.map_id r.matchList]
    apply List.map_congr_left
    intro m hm
    simp [hid m hm]
  rw [this]

theorem mem_treeRound (N bs k : Nat) (m : BracketMatch) (hm : m ∈ (treeRound N bs k).matchList) :
    ∃ i, i < bs / 2 ^ (k + 1) ∧ m = treeMatch N bs k i := by
  simp only [treeRound, List.mem_map, List.mem_range] at hm
  obtain ⟨i, hi, rfl⟩ := hm
  exact ⟨i, hi, rfl⟩

theorem half_size_eq (N : Nat) (hN : 2 ≤ N) : 2 ^ N / 2 = 2 * (2 ^ N / 2 ^ 2) := by
  have h1 := round_size_even N 0 (by omega)
  have h2 := round_size_half (2 ^ N) 0
  simp only [Nat.zero_add, pow_one] at h1 h2
  omega

/-- The second round after one more first-round match has been looked at. -/
theorem treeSecondRound_succ (N bs : Nat) (bracket : List (Option String)) (j : Nat) :
    treeSecondRound N bs bracket (j + 1) =
      { treeSecondRound N bs bracket j with
        matchList := (treeSecondRound N bs bracket j).matchList.map (fun nextMatch =>
          if nextMatch.id = firstId bs 1 + j / 2 then
            if j % 2 = 0 then
              { nextMatch with player1 := byeWinner (firstRoundMatch bracket j) }
            else { nextMatch with player2 := byeWinner (firstRoundMatch bracket j) }
          else nextMatch) } := by
  simp only [treeSecondRound, List.map_map]
  congr 1
  apply List.map_congr_left
  intro i _
  simp only [Function.comp, treeMatch]
  split_ifs <;>
    first
    | rfl
    | (exfalso; omega)
    | (have h : i * 2 = j := by omega
       subst h; rfl)
    | (have h : i * 2 + 1 = j := by omega
       subst h; rfl)

/-- The second round does not change when the first-round match looked at carries no
name over. -/
theorem treeSecondRound_succ_none (N bs : Nat) (bracket : List (Option String)) (j : Nat)
    (hw : byeWinner (firstRoundMatch bracket j) = none) :
    treeSecondRound N bs bracket (j + 1) = treeSecondRound N bs bracket j := by
  simp only [treeSecondRound]
  congr 1
  apply List.map_congr_left
  intro i _
  by_cases h1 : i * 2 = j
  · subst h1
    simp [hw]
  · by_cases h2 : i * 2 + 1 = j
    · subst h2
      simp [hw]
      intro h; omega
    · have e1 : (i * 2 < j + 1) = (i * 2 < j) := by
        apply propext; constructor <;> intro h <;> omega
      have e2 : (i * 2 + 1 < j + 1) = (i * 2 + 1 < j) := by
        apply propext; constructor <;> intro h <;> omega
      simp only [e1, e2]

theorem treeFirstRound_getElem? (N bs : Nat) (bracket : List (Option String)) (j : Nat)
    (hj : j < bs / 2) :
    (treeFirstRound N bs bracket).matchList[j]? =
      some { firstRoundMatch bracket j with
        nextMatchId := if 1 < N then some (firstId bs 1 + j / 2) else none } := by
  simp only [treeFirstRound, List.getElem?_map, List.getElem?_range hj, Option.map_some']

/-- One iteration of the loop of `advanceByeWinners` on the tree. -/
theorem advanceByeStep_tree (N : Nat) (hN : 2 ≤ N) (bracket : List (Option String)) (j : Nat)
    (hj : j < 2 ^ N / 2) :
    advanceByeStep (treeFirstRound N (2 ^ N) bracket :: treeSecondRound N (2 ^ N) bracket j ::
        (List.range' 2 (N - 2)).map (treeRound N (2 ^ N))) j =
      treeFirstRound N (2 ^ N) bracket :: treeSecondRound N (2 ^ N) bracket (j + 1) ::
        (List.range' 2 (N - 2)).map (treeRound N (2 ^ N)) := by
  have hhalf := half_size_eq N hN
  have hN1 : 1 < N := by omega
  have hf1 : firstId (2 ^ N) 1 = 1 + 2 ^ N / 2 := by simp [firstId]
  have hf2 : firstId (2 ^ N) 2 = firstId (2 ^ N) 1 + 2 ^ N / 2 ^ 2 := rfl
  simp only [advanceByeStep, List.head?_cons, treeFirstRound_getElem? N (2 ^ N) bracket j hj,
    hN1, if_true]
  by_cases hc : (firstRoundMatch bracket j).completed = true
  · by_cases hb : (if (firstRoundMatch bracket j).winner = some "player1" then
        (firstRoundMatch bracket j).player1 else (firstRoundMatch bracket j).player2) ≠
        some "BYE"
    · have hw : byeWinner (firstRoundMatch bracket j) =
          (if (firstRoundMatch bracket j).winner = some "player1" then
            (firstRoundMatch bracket j).player1 else (firstRoundMatch bracket j).player2) := by
        simp only [byeWinner, hc, if_true, hb, ne_eq, not_false_eq_true]
      rw [if_pos hc, if_pos hb, ← hw]
      have hpos : (firstRoundMatch bracket j).position = j := rfl
      simp only [placeWinner, List.map_cons, hpos]
      rw [placeWinner_round_of_ne, ← treeSecondRound_succ]
      · congr 2
        conv_rhs => rw [← List.map_id ((List.range' 2 (N - 2)).map (treeRound N (2 ^ N)))]
        apply List.map_congr_left
        intro r hr
        simp only [List.mem_map] at hr
        obtain ⟨k, hk, rfl⟩ := hr
        apply placeWinner_round_of_ne
        intro m hm
        obtain ⟨i, -, rfl⟩ := mem_treeRound _ _ _ m hm
        have hk2 : 2 ≤ k := by
          rw [List.mem_range'_1] at hk
          exact hk.1
        have hmono := firstId_mono (2 ^ N) 2 (k - 2)
        rw [show 2 + (k - 2) = k by omega] at hmono
        simp only [treeMatch]
        omega
      · intro m hm
        simp only [treeFirstRound, List.mem_map, List.mem_range] at hm
        obtain ⟨i, hi, rfl⟩ := hm
        simp only [firstRoundMatch]
        omega
    · have hw : byeWinner (firstRoundMatch bracket j) = none := by
        simp only [byeWinner, hc, if_true, hb, if_false]
      rw [if_pos hc, if_neg hb, treeSecondRound_succ_none _ _ _ _ hw]
  · have hw : byeWinner (firstRoundMatch bracket j) = none := by
      simp [byeWinner, hc]
    rw [if_neg hc, treeSecondRound_succ_none _ _ _ _ hw]

theorem advanceBye_fold_tree (N : Nat) (hN : 2 ≤ N) (bracket : List (Option String)) :
    ∀ c, c ≤ 2 ^ N / 2 →
      (List.range c).foldl advanceByeStep
          (treeFirstRound N (2 ^ N) bracket :: treeSecondRound N (2 ^ N) bracket 0 ::
            (List.range' 2 (N - 2)).map (treeRound N (2 ^ N))) =
        treeFirstRound N (2 ^ N) bracket :: treeSecondRound N (2 ^ N) bracket c ::
          (List.range' 2 (N - 2)).map (treeRound N (2 ^ N)) := by
  intro c
  induction c with
  | zero => intro _; rfl
  | succ c ih =>
    intro hc
    rw [List.range_succ, List.foldl_append, ih (by omega)]
    simp only [List.foldl_cons, List.foldl_nil]
    exact advanceByeStep_tree N hN bracket c (by omega)

/-- The rounds of the bracket in closed form, for a bracket with at least two rounds: the
first round, the second round with the bye winners in place, and the empty tree above. -/
theorem advanceByeWinners_tree (N : Nat) (hN : 2 ≤ N) (bracket : List (Option String)) :
    advanceByeWinners
        (treeFirstRound N (2 ^ N) bracket :: (List.range' 1 (N - 1)).map (treeRound N (2 ^ N))) =
      treeFirstRound N (2 ^ N) bracket :: treeSecondRound N (2 ^ N) bracket (2 ^ N / 2) ::
        (List.range' 2 (N - 2)).map (treeRound N (2 ^ N)) := by
  have hsplit : (List.range' 1 (N - 1)).map (treeRound N (2 ^ N)) =
      treeSecondRound N (2 ^ N) bracket 0 ::
        (List.range' 2 (N - 2)).map (treeRound N (2 ^ N)) := by
    obtain ⟨e, he⟩ : ∃ e, N - 1 = e + 1 := ⟨N - 2, by omega⟩
    rw [he, List.range'_succ, List.map_cons, show N - 2 = e by omega]
    congr 1
  rw [hsplit]
  unfold advanceByeWinners
  simp only [List.head?_cons]
  have hlen : (treeFirstRound N (2 ^ N) bracket).matchList.length = 2 ^ N / 2 := by
    simp [treeFirstRound]
  rw [hlen]
  exact advanceBye_fold_tree N hN bracket _ le_rfl

/-- A bracket with a single round is left alone by `advanceByeWinners`. -/
theorem advanceByeWinners_single (N : Nat) (hN : N = 1) (bracket : List (Option String)) :
    advanceByeWinners [treeFirstRound N (2 ^ N) bracket] = [treeFirstRound N (2 ^ N) bracket] := by
  subst hN
  rfl
/-! ### The shape of a generated bracket -/

/-- For at least two players `generateSingleElimination` returns, and what it returns is
the tree in closed form. -/
theorem generateSingleElimination_tree (rand : Nat → Nat) (players : List String)
    (seeded : Bool) (fuel : Nat) (hn : 2 ≤ players.length) (hf : players.length ≤ fuel) :
    ∃ N l, 1 ≤ N ∧ players.length ≤ 2 ^ N ∧ 2 ^ (N - 1) < players.length ∧
      generate N (N : Int) = some l ∧ l.length = 2 ^ N ∧
      (∀ s : Int, l.count s = if 1 ≤ s ∧ s ≤ 2 ^ N then 1 else 0) ∧
      generateSingleElimination rand fuel players seeded =
        some { type := "single_elimination", bracketSize := 2 ^ N, numRounds := N,
               rounds := treeRounds N (2 ^ N)
                 (seedSlots (if seeded then players else shuffleArray rand players) l),
               players := if seeded then players else shuffleArray rand players } := by
  obtain ⟨j, l, hj1, hj, hlog, hle, hmin, hgen, hgen', hlen, hcount⟩ :=
    seedOrder_of_two_le players hn
  refine ⟨j, l, hj1, hle, hmin, hgen' j le_rfl, hlen, hcount, ?_⟩
  rw [generateSingleElimination_eq rand fuel players seeded l (hgen fuel hf), hj,
    mathLog2_two_pow, laterRounds_first j hj1]
  congr 2
  unfold treeRounds
  by_cases h2 : 2 ≤ j
  · rw [if_pos h2]
    exact advanceByeWinners_tree j h2 _
  · rw [if_neg h2]
    have h1 : j = 1 := by omega
    have hnil : (List.range' 1 (j - 1)).map (treeRound j (2 ^ j)) = [] := by
      rw [h1]; rfl
    rw [hnil]
    exact advanceByeWinners_single j h1 _

/-- Every round of the tree, match by match: ids, positions and links. -/
theorem treeRounds_getElem? (N bs : Nat) (bracket : List (Option String)) (k : Nat)
    (hk : k < N) :
    ∃ rd, (treeRounds N bs bracket)[k]? = some rd ∧ rd.number = k + 1 ∧
      rd.matchList.length = bs / 2 ^ (k + 1) ∧
      ∀ i, i < bs / 2 ^ (k + 1) → ∃ m, rd.matchList[i]? = some m ∧
        m.id = firstId bs k + i ∧ m.position = i ∧ m.round = k + 1 ∧
        m.nextMatchId = (if k + 1 < N then some (firstId bs (k + 1) + i / 2) else none) ∧
        (1 ≤ k → m.sourceMatch1 = some (firstId bs (k - 1) + i * 2) ∧
          m.sourceMatch2 = some (firstId bs (k - 1) + (i * 2 + 1))) := by
  unfold treeRounds
  rcases k with _ | _ | k
  · refine ⟨treeFirstRound N bs bracket, by simp, rfl, by simp [treeFirstRound], ?_⟩
    intro i hi
    simp only [Nat.zero_add, pow_one] at hi
    refine ⟨_, treeFirstRound_getElem? N bs bracket i hi, ?_, rfl, rfl, rfl, ?_⟩
    · simp only [firstRoundMatch, firstId]; omega
    · intro h; omega
  · rw [if_pos (by omega)]
    refine ⟨treeSecondRound N bs bracket (bs / 2), by simp, rfl, by simp [treeSecondRound], ?_⟩
    intro i hi
    refine ⟨{ treeMatch N bs 1 i with
        player1 := if i * 2 < bs / 2 then byeWinner (firstRoundMatch bracket (i * 2)) else none,
        player2 :=
          if i * 2 + 1 < bs / 2 then byeWinner (firstRoundMatch bracket (i * 2 + 1))
          else none }, ?_, rfl, rfl, rfl, rfl, ?_⟩
    · simp only [treeSecondRound, List.getElem?_map]
      rw [List.getElem?_range (by simpa using hi)]
      rfl
    · intro _; exact ⟨rfl, rfl⟩
  · rw [if_pos (by omega)]
    refine ⟨treeRound N bs (k + 2), ?_, rfl, by simp [treeRound], ?_⟩
    · simp only [List.getElem?_cons_succ, List.getElem?_map]
      rw [List.getElem?_range' _ _ (by omega)]
      simp only [Option.map_some']
      congr 2
      omega
    · intro i hi
      refine ⟨treeMatch N bs (k + 2) i, ?_, rfl, rfl, rfl, rfl, ?_⟩
      · simp only [treeRound, List.getElem?_map, List.getElem?_range hi, Option.map_some']
      · intro _; exact ⟨rfl, rfl⟩

theorem treeRounds_length (N bs : Nat) (bracket : List (Option String)) (hN : 1 ≤ N) :
    (treeRounds N bs bracket).length = N := by
  unfold treeRounds
  split_ifs with h
  · simp only [List.length_cons, List.length_map, List.length_range']
    omega
  · simp only [List.length_cons, List.length_nil]
    omega

theorem getElem?_lt_of_eq_some {α : Type} (l : List α) (i : Nat) (x : α) (h : l[i]? = some x) :
    i < l.length := by
  by_contra hcon
  rw [List.getElem?_eq_none (by omega)] at h
  exact Option.noConfusion h

/-- The ids of one round of the tree are consecutive. -/
theorem treeRounds_ids (N bs : Nat) (bracket : List (Option String)) (k : Nat) (hk : k < N) :
    ∃ rd, (treeRounds N bs bracket)[k]? = some rd ∧
      rd.matchList.map (fun m => m.id) = List.range' (firstId bs k) (bs / 2 ^ (k + 1)) := by
  obtain ⟨rd, hrd, -, hlen, hm⟩ := treeRounds_getElem? N bs bracket k hk
  refine ⟨rd, hrd, ?_⟩
  apply List.ext_getElem?
  intro i
  by_cases hi : i < bs / 2 ^ (k + 1)
  · obtain ⟨m, hmi, hid, -⟩ := hm i hi
    rw [List.getElem?_map, hmi, List.getElem?_range' _ _ hi]
    simp [hid]
  · rw [List.getElem?_eq_none (by simp; omega), List.getElem?_eq_none (by simp; omega)]

/-- Rounds whose ids are consecutive, one round after the other, have consecutive ids
overall. -/
theorem flat_ids_range (bs : Nat) (R : List BracketRound) :
    ∀ a, (∀ k, k < R.length → ∃ rd, R[k]? = some rd ∧
        rd.matchList.map (fun m => m.id) =
          List.range' (firstId bs (a + k)) (bs / 2 ^ (a + k + 1))) →
      (R.flatMap (fun rd => rd.matchList)).map (fun m => m.id) =
        List.range' (firstId bs a) (firstId bs (a + R.length) - firstId bs a) := by
  induction R with
  | nil => intro a _; simp
  | cons rd rest ih =>
    intro a h
    obtain ⟨rd0, h0, hids⟩ := h 0 (by simp)
    simp only [List.getElem?_cons_zero, Option.some.injEq] at h0
    subst h0
    have hrest := ih (a + 1) (by
      intro k hk
      obtain ⟨rd', h1, h2⟩ := h (k + 1) (by simpa using hk)
      refine ⟨rd', by simpa using h1, ?_⟩
      rw [h2, show a + (k + 1) = a + 1 + k by omega])
    simp only [List.flatMap_cons, List.map_append, hids, hrest, Nat.add_zero]
    have hstep : firstId bs (a + 1) = firstId bs a + bs / 2 ^ (a + 1) := rfl
    have hmono := firstId_mono bs (a + 1) rest.length
    rw [hstep] at hmono
    rw [hstep, List.range'_append_1]
    congr 1
    simp only [List.length_cons]
    rw [show a + (rest.length + 1) = a + 1 + rest.length by omega]
    generalize bs / 2 ^ (a + 1) = q at hmono ⊢
    omega

/-- All matches of the tree have different ids. -/
theorem treeRounds_ids_nodup (N bs : Nat) (bracket : List (Option String)) (hN : 1 ≤ N) :
    (((treeRounds N bs bracket).flatMap (fun rd => rd.matchList)).map (fun m => m.id)).Nodup := by
  rw [flat_ids_range bs (treeRounds N bs bracket) 0 (by
    intro k hk
    rw [treeRounds_length N bs bracket hN] at hk
    simpa using treeRounds_ids N bs bracket k hk)]
  exact List.nodup_range' _ _

/-- C14: for every roster of `n ≥ 2` players, the bracket returned by
`generateSingleElimination` (with any stack bound `fuel ≥ n`) has exactly `numRounds`
rounds; round `r` (`1 ≤ r ≤ numRounds`) carries the number `r` and has exactly
`bracketSize / 2 ^ r` matches; the final round has exactly one match. -/
theorem C14_round_r_has_size_over_two_pow_r (rand : Nat → Nat) (players : List String)
    (seeded : Bool) (fuel : Nat) (hn : 2 ≤ players.length) (hf : players.length ≤ fuel) :
    ∃ b, generateSingleElimination rand fuel players seeded = some b ∧
      b.rounds.length = b.numRounds ∧
      (∀ r, 1 ≤ r → r ≤ b.numRounds → ∃ rd, b.rounds[r - 1]? = some rd ∧ rd.number = r ∧
        rd.matchList.length = b.bracketSize / 2 ^ r) ∧
      ∃ final, b.rounds.getLast? = some final ∧ final.matchList.length = 1 := by
  obtain ⟨N, l, hN, -, -, -, -, -, heq⟩ :=
    generateSingleElimination_tree rand players seeded fuel hn hf
  refine ⟨_, heq, ?_, ?_, ?_⟩
  · exact treeRounds_length N _ _ hN
  · intro r h1 h2
    obtain ⟨rd, hrd, hnum, hlen, -⟩ := treeRounds_getElem? N (2 ^ N)
      (seedSlots (if seeded then players else shuffleArray rand players) l) (r - 1)
      (by simp only at h2; omega)
    rw [show r - 1 + 1 = r by omega] at hnum hlen
    exact ⟨rd, hrd, hnum, hlen⟩
  · obtain ⟨rd, hrd, -, hlen, -⟩ := treeRounds_getElem? N (2 ^ N)
      (seedSlots (if seeded then players else shuffleArray rand players) l) (N - 1) (by omega)
    refine ⟨rd, ?_, ?_⟩
    · simp only [List.getLast?_eq_getElem?, treeRounds_length N _ _ hN]
      exact hrd
    · rw [hlen, show N - 1 + 1 = N by omega]
      exact Nat.div_self (Nat.pos_pow_of_pos N (by decide))

/-- Witness for C14: five players, seeded. -/
theorem C14_round_r_has_size_over_two_pow_r_witness :
    ∃ b, generateSingleElimination (fun _ => 0) 5 ["A", "B", "C", "D", "E"] true = some b ∧
      b.rounds.length = b.numRounds ∧
      (∀ r, 1 ≤ r → r ≤ b.numRounds → ∃ rd, b.rounds[r - 1]? = some rd ∧ rd.number = r ∧
        rd.matchList.length = b.bracketSize / 2 ^ r) ∧
      ∃ final, b.rounds.getLast? = some final ∧ final.matchList.length = 1 :=
  C14_round_r_has_size_over_two_pow_r (fun _ => 0) ["A", "B", "C", "D", "E"] true 5
    (by decide) (by decide)
/-- The match at index `p` of the round with index `k` of the tree. -/
theorem treeRounds_match (N bs : Nat) (bracket : List (Option String)) (hN : 1 ≤ N)
    (k p : Nat) (rd : BracketRound) (m : BracketMatch)
    (hrd : (treeRounds N bs bracket)[k]? = some rd) (hm : rd.matchList[p]? = some m) :
    k < N ∧ p < bs / 2 ^ (k + 1) ∧ m.id = firstId bs k + p ∧ m.position = p ∧
      m.nextMatchId = (if k + 1 < N then some (firstId bs (k + 1) + p / 2) else none) ∧
      (1 ≤ k → m.sourceMatch1 = some (firstId bs (k - 1) + p * 2) ∧
        m.sourceMatch2 = some (firstId bs (k - 1) + (p * 2 + 1))) := by
  have hk : k < N := by
    have := getElem?_lt_of_eq_some _ _ _ hrd
    rwa [treeRounds_length N bs bracket hN] at this
  obtain ⟨rd', hrd', -, hlen, hall⟩ := treeRounds_getElem? N bs bracket k hk
  rw [hrd] at hrd'
  obtain rfl := Option.some.inj hrd'
  have hp : p < bs / 2 ^ (k + 1) := by
    have := getElem?_lt_of_eq_some _ _ _ hm
    rwa [hlen] at this
  obtain ⟨m', hm', h1, h2, -, h3, h4⟩ := hall p hp
  rw [hm] at hm'
  obtain rfl := Option.some.inj hm'
  exact ⟨hk, hp, h1, h2, h3, h4⟩

/-- C15: for every roster of `n ≥ 2` players, in the bracket returned by
`generateSingleElimination` all match ids are distinct, and for the match `m` at index `p`
of the round with index `k` (round number `k + 1`): its `position` is `p`; if the round is
not the last, `nextMatchId` is the id of the match at index `p / 2` of the next round; if
it is the last, `nextMatchId` is not set; and if it is not the first, `sourceMatch1` and
`sourceMatch2` are the ids of the two different matches at indices `2 p` and `2 p + 1` of
the round before. -/
theorem C15_ids_distinct_and_links_follow_the_tree (rand : Nat → Nat)
    (players : List String) (seeded : Bool) (fuel : Nat) (hn : 2 ≤ players.length)
    (hf : players.length ≤ fuel) :
    ∃ b, generateSingleElimination rand fuel players seeded = some b ∧
      ((b.rounds.flatMap (fun rd => rd.matchList)).map (fun m => m.id)).Nodup ∧
      ∀ k rd p m, b.rounds[k]? = some rd → rd.matchList[p]? = some m →
        m.position = p ∧
        (k + 1 < b.numRounds → ∃ rd' m', b.rounds[k + 1]? = some rd' ∧
          rd'.matchList[p / 2]? = some m' ∧ m.nextMatchId = some m'.id) ∧
        (k + 1 = b.numRounds → m.nextMatchId = none) ∧
        (1 ≤ k → ∃ rd0 m1 m2, b.rounds[k - 1]? = some rd0 ∧
          rd0.matchList[2 * p]? = some m1 ∧ rd0.matchList[2 * p + 1]? = some m2 ∧
          m1.id ≠ m2.id ∧ m.sourceMatch1 = some m1.id ∧ m.sourceMatch2 = some m2.id) := by
  obtain ⟨N, l, hN, -, -, -, -, -, heq⟩ :=
    generateSingleElimination_tree rand players seeded fuel hn hf
  refine ⟨_, heq, treeRounds_ids_nodup N _ _ hN, ?_⟩
  intro k rd p m hrd hm
  simp only at hrd
  obtain ⟨hk, hp, hid, hpos, hnext, hsrc⟩ := treeRounds_match N _ _ hN k p rd m hrd hm
  refine ⟨hpos, ?_, ?_, ?_⟩
  · intro hlt
    simp only at hlt
    obtain ⟨rd', hrd', -, -, hall⟩ := treeRounds_getElem? N (2 ^ N)
      (seedSlots (if seeded then players else shuffleArray rand players) l) (k + 1) hlt
    have hp2 : p / 2 < 2 ^ N / 2 ^ (k + 1 + 1) := by
      have h1 := round_size_even N k (by omega)
      have h2 := round_size_half (2 ^ N) k
      rw [← h2]
      omega
    obtain ⟨m', hm', hid', -⟩ := hall (p / 2) hp2
    refine ⟨rd', m', hrd', hm', ?_⟩
    rw [hnext, if_pos hlt, hid']
  · intro heq'
    simp only at heq'
    rw [hnext, if_neg (by omega)]
  · intro hk1
    obtain ⟨e, rfl⟩ : ∃ e, k = e + 1 := ⟨k - 1, by omega⟩
    obtain ⟨rd0, hrd0, -, -, hall⟩ := treeRounds_getElem? N (2 ^ N)
      (seedSlots (if seeded then players else shuffleArray rand players) l) e (by omega)
    have h2 := round_size_half (2 ^ N) e
    have hq1 : 2 * p < 2 ^ N / 2 ^ (e + 1) := by
      rw [← h2] at hp; omega
    have hq2 : 2 * p + 1 < 2 ^ N / 2 ^ (e + 1) := by
      rw [← h2] at hp; omega
    obtain ⟨m1, hm1, hid1, -⟩ := hall (2 * p) hq1
    obtain ⟨m2, hm2, hid2, -⟩ := hall (2 * p + 1) hq2
    obtain ⟨hs1, hs2⟩ := hsrc hk1
    refine ⟨rd0, m1, m2, hrd0, hm1, hm2, by omega, ?_, ?_⟩
    · rw [hs1, hid1, Nat.add_sub_cancel, Nat.mul_comm]
    · rw [hs2, hid2, Nat.add_sub_cancel, Nat.mul_comm p 2]

/-- Witness for C15: five players, seeded. -/
theorem C15_ids_distinct_and_links_follow_the_tree_witness :
    ∃ b, generateSingleElimination (fun _ => 0) 5 ["A", "B", "C", "D", "E"] true = some b ∧
      ((b.rounds.flatMap (fun rd => rd.matchList)).map (fun m => m.id)).Nodup ∧
      ∀ k rd p m, b.rounds[k]? = some rd → rd.matchList[p]? = some m →
        m.position = p ∧
        (k + 1 < b.numRounds → ∃ rd' m', b.rounds[k + 1]? = some rd' ∧
          rd'.matchList[p / 2]? = some m' ∧ m.nextMatchId = some m'.id) ∧
        (k + 1 = b.numRounds → m.nextMatchId = none) ∧
        (1 ≤ k → ∃ rd0 m1 m2, b.rounds[k - 1]? = some rd0 ∧
          rd0.matchList[2 * p]? = some m1 ∧ rd0.matchList[2 * p + 1]? = some m2 ∧
          m1.id ≠ m2.id ∧ m.sourceMatch1 = some m1.id ∧ m.sourceMatch2 = some m2.id) :=
  C15_ids_distinct_and_links_follow_the_tree (fun _ => 0) ["A", "B", "C", "D", "E"] true 5
    (by decide) (by decide)
/-! ### Bye winners reach the second round -/

/-- A slot of the bracket array holds a roster player or nothing. -/
theorem seedSlots_join_mem (sp : List String) (l : List Int) (i : Nat) (x : String)
    (h : ((seedSlots sp l)[i]?).join = some x) : x ∈ sp := by
  simp only [seedSlots, List.getElem?_map] at h
  cases hv : l[i]? with
  | none => rw [hv] at h; simp at h
  | some v =>
    rw [hv] at h
    simp only [Option.map_some', Option.join] at h
    split_ifs at h
    · exact List.getElem?_mem h
    · simp at h

/-- With no roster player called `'BYE'` or `''`, a first-round side reads `'BYE'` exactly
when its slot is empty. -/
theorem orBye_slot (sp : List String) (hsp : ∀ x ∈ sp, x ≠ "BYE" ∧ x ≠ "") (l : List Int)
    (i : Nat) :
    (((seedSlots sp l)[i]?).join = none ∧ orBye ((seedSlots sp l)[i]?).join = "BYE") ∨
      ∃ x, ((seedSlots sp l)[i]?).join = some x ∧ orBye ((seedSlots sp l)[i]?).join = x ∧
        x ≠ "BYE" ∧ x ≠ "" := by
  cases hs : ((seedSlots sp l)[i]?).join with
  | none => exact Or.inl ⟨rfl, rfl⟩
  | some x =>
    have hx := hsp x (seedSlots_join_mem sp l i x hs)
    exact Or.inr ⟨x, rfl, by simp [orBye, hx.2], hx.1, hx.2⟩

/-- C12, amended: for every roster of `n ≥ 3` players none of whom is called `'BYE'` or
has the empty name, in the bracket returned by `generateSingleElimination` every match of
round 1 (at index `p`) in which exactly one side reads `'BYE'` and the other side is
`name` is completed with the side of `name` as `winner`, and `name` stands in the match at
position `p / 2` of round 2: in `player1` when `p` is even, in `player2` when `p` is
odd. -/
theorem C12_bye_winner_is_in_round_two (rand : Nat → Nat) (players : List String)
    (seeded : Bool) (fuel : Nat) (hn : 3 ≤ players.length) (hf : players.length ≤ fuel)
    (hnames : ∀ x ∈ players, x ≠ "BYE" ∧ x ≠ "") :
    ∃ b r1 r2, generateSingleElimination rand fuel players seeded = some b ∧
      b.rounds[0]? = some r1 ∧ b.rounds[1]? = some r2 ∧
      ∀ p m name side, r1.matchList[p]? = some m → name ≠ "BYE" →
        ((m.player1 = some name ∧ m.player2 = some "BYE" ∧ side = "player1") ∨
          (m.player1 = some "BYE" ∧ m.player2 = some name ∧ side = "player2")) →
        m.completed = true ∧ m.winner = some side ∧
        ∃ m', r2.matchList[p / 2]? = some m' ∧ m'.position = p / 2 ∧
          (p % 2 = 0 → m'.player1 = some name) ∧ (p % 2 = 1 → m'.player2 = some name) := by
  obtain ⟨N, l, hN, hle, hmin, -, -, -, heq⟩ :=
    generateSingleElimination_tree rand players seeded fuel (by omega) hf
  generalize hsp : (if seeded then players else shuffleArray rand players) = sp at heq
  have hspmem : ∀ x ∈ sp, x ≠ "BYE" ∧ x ≠ "" := by
    intro x hx
    subst hsp
    split_ifs at hx
    · exact hnames x hx
    · exact hnames x (shuffleArray_mem rand players x hx)
  have hN2 : 2 ≤ N := by
    by_contra hcon
    have h1 : N = 1 := by omega
    subst h1
    simp at hle
    omega
  have hhalf := half_size_eq N hN2
  refine ⟨_, treeFirstRound N (2 ^ N) (seedSlots sp l),
    treeSecondRound N (2 ^ N) (seedSlots sp l) (2 ^ N / 2), heq, by simp [treeRounds],
    by simp [treeRounds, hN2], ?_⟩
  intro p m name side hm hname hside
  have hp : p < 2 ^ N / 2 := by
    have := getElem?_lt_of_eq_some _ _ _ hm
    simpa [treeFirstRound] using this
  rw [treeFirstRound_getElem? N (2 ^ N) _ p hp] at hm
  obtain rfl := Option.some.inj hm
  have hq : p / 2 < 2 ^ N / 2 ^ 2 := by omega
  have hm' : (treeSecondRound N (2 ^ N) (seedSlots sp l) (2 ^ N / 2)).matchList[p / 2]? =
      some { treeMatch N (2 ^ N) 1 (p / 2) with
        player1 := if p / 2 * 2 < 2 ^ N / 2 then
          byeWinner (firstRoundMatch (seedSlots sp l) (p / 2 * 2)) else none,
        player2 := if p / 2 * 2 + 1 < 2 ^ N / 2 then
          byeWinner (firstRoundMatch (seedSlots sp l) (p / 2 * 2 + 1)) else none } := by
    simp only [treeSecondRound, List.getElem?_map, List.getElem?_range hq, Option.map_some']
  have key : (firstRoundMatch (seedSlots sp l) p).completed = true ∧
      (firstRoundMatch (seedSlots sp l) p).winner = some side ∧
      byeWinner (firstRoundMatch (seedSlots sp l) p) = some name := by
    have h1 := orBye_slot sp hspmem l (p * 2)
    have h2 := orBye_slot sp hspmem l (p * 2 + 1)
    simp only [firstRoundMatch, byeWinner, Option.some.injEq] at hside ⊢
    generalize ((seedSlots sp l)[p * 2]?).join = x1 at h1 hside ⊢
    generalize ((seedSlots sp l)[p * 2 + 1]?).join = x2 at h2 hside ⊢
    rcases hside with ⟨e1, e2, rfl⟩ | ⟨e1, e2, rfl⟩
    · rcases h1 with ⟨-, b1⟩ | ⟨x, s1, b1, -, hx0⟩
      · rw [b1] at e1; exact absurd e1.symm hname
      · rcases h2 with ⟨s2, -⟩ | ⟨y, -, b2, hy, -⟩
        · rw [b1] at e1
          subst e1 s1 s2
          simp [orBye, b1, hname, hx0]
        · rw [b2] at e2; exact absurd e2 hy
    · rcases h2 with ⟨-, b2⟩ | ⟨y, s2, b2, -, hy0⟩
      · rw [b2] at e2; exact absurd e2.symm hname
      · rcases h1 with ⟨s1, -⟩ | ⟨x, -, b1, hx, -⟩
        · rw [b2] at e2
          subst e2 s1 s2
          simp [orBye, b2, hname, hy0]
        · rw [b1] at e1; exact absurd e1 hx
  refine ⟨key.1, key.2.1, _, hm', rfl, ?_, ?_⟩
  · intro h0
    have hpp : p / 2 * 2 = p := by omega
    simp only [hpp, hp, if_true]
    exact key.2.2
  · intro h1
    have hpp : p / 2 * 2 + 1 = p := by omega
    simp only [hpp, hp, if_true]
    exact key.2.2

/-- Witness for C12: five players, seeded; seeds 1 to 3 meet a bye. -/
theorem C12_bye_winner_is_in_round_two_witness :
    ∃ b r1 r2, generateSingleElimination (fun _ => 0) 5 ["A", "B", "C", "D", "E"] true = some b ∧
      b.rounds[0]? = some r1 ∧ b.rounds[1]? = some r2 ∧
      ∀ p m name side, r1.matchList[p]? = some m → name ≠ "BYE" →
        ((m.player1 = some name ∧ m.player2 = some "BYE" ∧ side = "player1") ∨
          (m.player1 = some "BYE" ∧ m.player2 = some name ∧ side = "player2")) →
        m.completed = true ∧ m.winner = some side ∧
        ∃ m', r2.matchList[p / 2]? = some m' ∧ m'.position = p / 2 ∧
          (p % 2 = 0 → m'.player1 = some name) ∧ (p % 2 = 1 → m'.player2 = some name) :=
  C12_bye_winner_is_in_round_two (fun _ => 0) ["A", "B", "C", "D", "E"] true 5
    (by decide) (by decide) (by decide)

/-- C12 as stated fails for a roster with a player called `'BYE'`: seeded first of four,
that player meets the fourth seed in a round-1 match that has exactly one `'BYE'` side and
is not completed. -/
theorem C12_player_named_bye_is_not_advanced :
    ∃ b r1 m, generateSingleElimination (fun _ => 0) 4 ["BYE", "B", "C", "D"] true = some b ∧
      b.rounds[0]? = some r1 ∧ r1.matchList[0]? = some m ∧
      m.player1 = some "BYE" ∧ m.player2 = some "D" ∧ m.completed = false ∧
      m.winner = none := by
  refine ⟨_, _, _, rfl, rfl, rfl, ?_⟩
  decide
/-! ### `updateMatch` -/

/-- In a list whose ids are distinct, changing the first match with a given id is changing
every match with that id. -/
theorem modify_findIdx_eq_map (matchId : Nat) (change : BracketMatch → BracketMatch)
    (ms : List BracketMatch) (hnd : (ms.map (fun m => m.id)).Nodup)
    (hex : ∃ m ∈ ms, m.id = matchId) :
    ms.modify change (ms.findIdx (fun m => m.id = matchId)) =
      ms.map (fun x => if x.id = matchId then change x else x) := by
  induction ms with
  | nil => obtain ⟨m, hm, -⟩ := hex; simp at hm
  | cons a rest ih =>
    simp only [List.map_cons, List.nodup_cons, List.mem_map, not_exists, not_and] at hnd
    by_cases ha : a.id = matchId
    · have hrest : rest.map (fun x => if x.id = matchId then change x else x) = rest := by
        conv_rhs => rw [← List.map_id rest]
        apply List.map_congr_left
        intro x hx
        have : x.id ≠ matchId := fun h => hnd.1 x hx (by rw [h, ha])
        simp [this]
      simp [List.findIdx_cons, ha, hrest]
    · have hex' : ∃ m ∈ rest, m.id = matchId := by
        obtain ⟨m, hm, hid⟩ := hex
        rcases List.mem_cons.mp hm with rfl | h
        · exact absurd hid ha
        · exact ⟨m, h, hid⟩
      simp [List.findIdx_cons, ha, ih hnd.2 hex']

/-- The map that changes every match with the id `matchId`. -/
theorem map_change_of_no_match (matchId : Nat) (change : BracketMatch → BracketMatch)
    (rounds : List BracketRound)
    (hno : ∀ rd ∈ rounds, ∀ m ∈ rd.matchList, m.id ≠ matchId) :
    rounds.map (fun rd => ({ rd with matchList := rd.matchList.map (fun x =>
      if x.id = matchId then change x else x) } : BracketRound)) = rounds := by
  conv_rhs => rw [← List.map_id rounds]
  apply List.map_congr_left
  intro rd hrd
  have : rd.matchList.map (fun x => if x.id = matchId then change x else x) = rd.matchList := by
    conv_rhs => rw [← List.map_id rd.matchList]
    apply List.map_congr_left
    intro x hx
    simp [hno rd hrd x hx]
  simp [this]

/-- In rounds whose match ids are all distinct, the scan for the first match with the id
of `m` finds `m` and changes exactly the matches with that id. -/
theorem atFirstMatch_eq_map (change : BracketMatch → BracketMatch)
    (rounds : List BracketRound) (m : BracketMatch)
    (hnd : ((rounds.flatMap (fun rd => rd.matchList)).map (fun x => x.id)).Nodup)
    (hm : m ∈ rounds.flatMap (fun rd => rd.matchList)) :
    atFirstMatch m.id change rounds =
      some (m, rounds.map (fun rd => { rd with matchList := rd.matchList.map (fun x =>
        if x.id = m.id then change x else x) })) := by
  induction rounds with
  | nil => simp at hm
  | cons rd rest ih =>
    simp only [List.flatMap_cons, List.map_append] at hnd
    have hnd1 := (List.nodup_append.mp hnd).1
    have hnd2 := (List.nodup_append.mp hnd).2.1
    have hdis := (List.nodup_append.mp hnd).2.2
    simp only [List.flatMap_cons, List.mem_append] at hm
    unfold atFirstMatch
    cases hfind : rd.matchList.find? (fun x => x.id = m.id) with
    | some m0 =>
      have hm0 : m0 ∈ rd.matchList := List.mem_of_find?_eq_some hfind
      have hid0 : m0.id = m.id := by
        have := List.find?_some hfind
        simpa using this
      have hmm : m0 = m := by
        rcases hm with h | h
        · exact List.inj_on_of_nodup_map hnd1 hm0 h hid0
        · exfalso
          exact hdis (List.mem_map_of_mem (fun x => x.id) hm0)
            (by rw [hid0]; exact List.mem_map_of_mem (fun x => x.id) h)
      subst hmm
      simp only [Option.some.injEq, Prod.mk.injEq, true_and, List.map_cons, List.cons.injEq]
      constructor
      · rw [modify_findIdx_eq_map m0.id change rd.matchList hnd1 ⟨m0, hm0, rfl⟩]
      · symm
        apply map_change_of_no_match
        intro rd' hrd' x hx hcon
        exact hdis (List.mem_map_of_mem (fun x => x.id) hm0)
          (by rw [← hcon]
              exact List.mem_map_of_mem (fun x => x.id)
                (List.mem_flatMap.mpr ⟨rd', hrd', hx⟩))
    | none =>
      have hno : ∀ x ∈ rd.matchList, x.id ≠ m.id := by
        intro x hx
        have := List.find?_eq_none.mp hfind x hx
        simpa using this
      have hm' : m ∈ rest.flatMap (fun rd => rd.matchList) := by
        rcases hm with h | h
        · exact absurd rfl (hno m h)
        · exact h
      simp only [ih hnd2 hm', List.map_cons]
      have : rd.matchList.map (fun x => if x.id = m.id then change x else x) = rd.matchList := by
        conv_rhs => rw [← List.map_id rd.matchList]
        apply List.map_congr_left
        intro x hx
        simp [hno x hx]
      rw [this]

theorem map_modify_of_preserved {β : Type} (trip : BracketMatch → β)
    (change : BracketMatch → BracketMatch) (hc : ∀ x, trip (change x) = trip x)
    (ms : List BracketMatch) (n : Nat) :
    (ms.modify change n).map trip = ms.map trip := by
  apply List.ext_getElem?
  intro i
  simp only [List.getElem?_map, List.getElem?_modify]
  cases ms[i]? with
  | none => by_cases hn : n = i <;> simp [hn]
  | some x => by_cases hn : n = i <;> simp [hn, hc]

/-- A change that keeps id, position and link of a match keeps the skeleton. -/
theorem atFirstMatch_skeleton (matchId : Nat) (change : BracketMatch → BracketMatch)
    (hc : ∀ x, ((change x).id, (change x).position, (change x).nextMatchId) =
      (x.id, x.position, x.nextMatchId))
    (rounds rounds' : List BracketRound) (m : BracketMatch)
    (h : atFirstMatch matchId change rounds = some (m, rounds')) :
    skeleton rounds' = skeleton rounds := by
  induction rounds generalizing rounds' m with
  | nil => simp [atFirstMatch] at h
  | cons rd rest ih =>
    unfold atFirstMatch at h
    cases hfind : rd.matchList.find? (fun x => x.id = matchId) with
    | some m0 =>
      rw [hfind] at h
      simp only [Option.some.injEq, Prod.mk.injEq] at h
      obtain ⟨-, rfl⟩ := h
      simp only [skeleton, List.map_cons, List.cons.injEq, and_true]
      exact map_modify_of_preserved _ change hc _ _
    | none =>
      rw [hfind] at h
      cases hrec : atFirstMatch matchId change rest with
      | none => rw [hrec] at h; simp at h
      | some r =>
        obtain ⟨m1, rest'⟩ := r
        rw [hrec] at h
        simp only [Option.some.injEq, Prod.mk.injEq] at h
        obtain ⟨-, rfl⟩ := h
        simp only [skeleton, List.map_cons, List.cons.injEq, true_and]
        exact ih rest' m1 hrec

theorem advanceToMatch_skeleton (rounds : List BracketRound) (matchId : Nat)
    (playerName : Option String) (sourcePosition : Nat) :
    skeleton (advanceToMatch rounds matchId playerName sourcePosition) = skeleton rounds := by
  unfold advanceToMatch
  cases h2 : atFirstMatch matchId (fun m =>
      if sourcePosition % 2 = 0 then { m with player1 := playerName }
      else { m with player2 := playerName }) rounds with
  | none => rfl
  | some r2 =>
    obtain ⟨m2, rounds2⟩ := r2
    refine atFirstMatch_skeleton matchId _ ?_ rounds rounds2 m2 h2
    intro x
    split_ifs <;> rfl

theorem updateMatch_skeleton (b : Bracket) (matchId : Nat) (score1 score2 : Option Int)
    (winner : Option String) :
    skeleton (updateMatch b matchId score1 score2 winner).rounds = skeleton b.rounds ∧
      (updateMatch b matchId score1 score2 winner).numRounds = b.numRounds := by
  unfold updateMatch
  cases h1 : atFirstMatch matchId (fun m =>
      { m with score1 := score1, score2 := score2, winner := winner, completed := true })
      b.rounds with
  | none => exact ⟨rfl, rfl⟩
  | some r =>
    obtain ⟨m, rounds⟩ := r
    have hs1 := atFirstMatch_skeleton matchId (fun m =>
      { m with score1 := score1, score2 := score2, winner := winner, completed := true })
      (fun _ => rfl) b.rounds rounds m h1
    dsimp only
    cases hnext : m.nextMatchId with
    | none => exact ⟨hs1, rfl⟩
    | some next =>
      dsimp only
      exact ⟨(advanceToMatch_skeleton _ _ _ _).trans hs1, rfl⟩

/-- Every bracket reachable by `updateMatch` calls has the skeleton of the bracket it
started from. -/
theorem bracketReachable_skeleton (start b : Bracket) (h : BracketReachable start b) :
    skeleton b.rounds = skeleton start.rounds ∧ b.numRounds = start.numRounds := by
  induction h with
  | init => exact ⟨rfl, rfl⟩
  | update b matchId score1 score2 winner _ ih =>
    obtain ⟨h1, h2⟩ := updateMatch_skeleton b matchId score1 score2 winner
    exact ⟨h1.trans ih.1, h2.trans ih.2⟩

theorem skeleton_getElem? (R R0 : List BracketRound) (h : skeleton R = skeleton R0)
    (k p : Nat) (rd : BracketRound) (m : BracketMatch) (hrd : R[k]? = some rd)
    (hm : rd.matchList[p]? = some m) :
    ∃ rd0 m0, R0[k]? = some rd0 ∧ rd0.matchList[p]? = some m0 ∧ m0.id = m.id ∧
      m0.position = m.position ∧ m0.nextMatchId = m.nextMatchId := by
  have hk := congrArg (fun s => s[k]?) h
  simp only [skeleton, List.getElem?_map, hrd, Option.map_some'] at hk
  cases hrd0 : R0[k]? with
  | none => rw [hrd0] at hk; simp at hk
  | some rd0 =>
    rw [hrd0] at hk
    simp only [Option.map_some', Option.some.injEq] at hk
    have hp := congrArg (fun s => s[p]?) hk
    simp only [List.getElem?_map, hm, Option.map_some'] at hp
    cases hm0 : rd0.matchList[p]? with
    | none => rw [hm0] at hp; simp at hp
    | some m0 =>
      rw [hm0] at hp
      simp only [Option.map_some', Option.some.injEq, Prod.mk.injEq] at hp
      exact ⟨rd0, m0, rfl, hm0, hp.1.symm, hp.2.1.symm, hp.2.2.symm⟩

theorem flat_ids_of_skeleton (R : List BracketRound) :
    (R.flatMap (fun rd => rd.matchList)).map (fun m => m.id) =
      ((skeleton R).flatMap id).map (fun t => t.1) := by
  induction R with
  | nil => rfl
  | cons rd rest ih =>
    simp only [List.flatMap_cons, List.map_append, ih, skeleton, List.map_cons, id_eq,
      List.map_map]
    rfl

/-- Whenever `generateSingleElimination` returns, the roster has at least two players and
the bracket is the tree in closed form. -/
theorem generateSingleElimination_some (rand : Nat → Nat) (players : List String)
    (seeded : Bool) (fuel : Nat) (b : Bracket)
    (h : generateSingleElimination rand fuel players seeded = some b) :
    ∃ N l, 1 ≤ N ∧
      b = { type := "single_elimination", bracketSize := 2 ^ N, numRounds := N,
            rounds := treeRounds N (2 ^ N)
              (seedSlots (if seeded then players else shuffleArray rand players) l),
            players := if seeded then players else shuffleArray rand players } := by
  have hn : 2 ≤ players.length := by
    by_contra hcon
    have hg : generateBracketSeedOrder fuel
        (growBracketSize players.length players.length 1) = none := by
      have h01 : players.length = 0 ∨ players.length = 1 := by omega
      rcases h01 with h0 | h1
      · rw [h0]; exact generate_nonpos fuel _ (by decide)
      · rw [h1]; exact generate_nonpos fuel _ (by decide)
    simp only [generateSingleElimination, hg] at h
    exact Option.noConfusion h
  obtain ⟨j, l0, hj1, hj, hlog, -, -, -, -, -, -⟩ := seedOrder_of_two_le players hn
  cases hgen : generateBracketSeedOrder fuel
      (growBracketSize players.length players.length 1) with
  | none =>
    simp only [generateSingleElimination, hgen] at h
    exact Option.noConfusion h
  | some l =>
    rw [generateSingleElimination_eq rand fuel players seeded l hgen, hj,
      mathLog2_two_pow, laterRounds_first j hj1] at h
    refine ⟨j, l, hj1, ?_⟩
    rw [← Option.some.inj h]
    congr 1
    unfold treeRounds
    by_cases h2 : 2 ≤ j
    · rw [if_pos h2]
      exact advanceByeWinners_tree j h2 _
    · rw [if_neg h2]
      have h1 : j = 1 := by omega
      have hnil : (List.range' 1 (j - 1)).map (treeRound j (2 ^ j)) = [] := by
        rw [h1]; rfl
      rw [hnil]
      exact advanceByeWinners_single j h1 _

/-- The ids of a map that changes matches without changing their ids. -/
theorem flat_ids_map (g : BracketMatch → BracketMatch) (hg : ∀ x, (g x).id = x.id)
    (rounds : List BracketRound) :
    ((rounds.map (fun rd => ({ rd with matchList := rd.matchList.map g } : BracketRound))).flatMap
        (fun rd => rd.matchList)).map (fun x => x.id) =
      (rounds.flatMap (fun rd => rd.matchList)).map (fun x => x.id) := by
  induction rounds with
  | nil => rfl
  | cons rd rest ih =>
    simp only [List.map_cons, List.flatMap_cons, List.map_append, ih, List.map_map]
    congr 1
    apply List.map_congr_left
    intro x _
    exact hg x
theorem flat_map_rounds (g : BracketMatch → BracketMatch) (rounds : List BracketRound) :
    (rounds.map (fun rd => ({ rd with matchList := rd.matchList.map g } : BracketRound))).flatMap
        (fun rd => rd.matchList) =
      (rounds.flatMap (fun rd => rd.matchList)).map g := by
  induction rounds with
  | nil => rfl
  | cons rd rest ih => simp only [List.map_cons, List.flatMap_cons, List.map_append, ih]

/-- C13: let `b` be a bracket produced by `generateSingleElimination`, possibly after
earlier `updateMatch` calls, `m` its match at index `p` of a round that is not the last
(round index `k`), and `w` one of `'player1'`, `'player2'`. Then `m.position = p`,
`m.nextMatchId` is the id of the match `m'` at index `p / 2` of the next round, all match
ids of `b` are distinct, and `updateMatch(b, m.id, score1, score2, w)` is `b` with exactly
these changes: the match with the id of `m` gets `score1`, `score2`, `winner = w` and
`completed = true`; the match with the id of `m'` gets the name of the winning side of `m`
in `player1` (`p` even) or `player2` (`p` odd); every other match, and every other field
of these two, is unchanged. -/
theorem C13_update_match_sets_result_and_advances_winner (rand : Nat → Nat)
    (players : List String) (seeded : Bool) (fuel : Nat) (start b : Bracket)
    (hstart : generateSingleElimination rand fuel players seeded = some start)
    (hb : BracketReachable start b) (k p : Nat) (rd : BracketRound) (m : BracketMatch)
    (hk : k + 1 < b.numRounds) (hrd : b.rounds[k]? = some rd)
    (hm : rd.matchList[p]? = some m) (score1 score2 : Option Int) (w : String)
    (hw : w = "player1" ∨ w = "player2") :
    ∃ name rd' m',
      ((w = "player1" ∧ name = m.player1) ∨ (w = "player2" ∧ name = m.player2)) ∧
      m.position = p ∧ b.rounds[k + 1]? = some rd' ∧ rd'.matchList[p / 2]? = some m' ∧
      m.nextMatchId = some m'.id ∧ m'.id ≠ m.id ∧
      ((b.rounds.flatMap (fun rd => rd.matchList)).map (fun x => x.id)).Nodup ∧
      updateMatch b m.id score1 score2 (some w) =
        { b with
          rounds := b.rounds.map (fun rd =>
            { rd with
              matchList := rd.matchList.map (fun x =>
                if x.id = m.id then
                  { x with score1 := score1, score2 := score2, winner := some w,
                           completed := true }
                else if x.id = m'.id then
                  if p % 2 = 0 then { x with player1 := name } else { x with player2 := name }
                else x) }) } := by
  obtain ⟨N, l, hN, rfl⟩ := generateSingleElimination_some rand players seeded fuel start hstart
  obtain ⟨hskel, hnum⟩ := bracketReachable_skeleton _ b hb
  simp only at hskel hnum
  rw [hnum] at hk
  generalize seedSlots (if seeded then players else shuffleArray rand players) l = bracket
    at hskel hb
  obtain ⟨rd0, m0, hrd0, hm0, hid0, hpos0, hnext0⟩ :=
    skeleton_getElem? b.rounds _ hskel k p rd m hrd hm
  obtain ⟨-, hp, hid, hpos, hnext, -⟩ := treeRounds_match N _ _ hN k p rd0 m0 hrd0 hm0
  obtain ⟨rd1, hrd1, -, -, hall⟩ := treeRounds_getElem? N (2 ^ N) bracket (k + 1) hk
  have heven := round_size_even N k (by omega)
  have hhalf := round_size_half (2 ^ N) k
  have hp2 : p / 2 < 2 ^ N / 2 ^ (k + 1 + 1) := by
    rw [← hhalf]; omega
  obtain ⟨m1, hm1, hid1, -⟩ := hall (p / 2) hp2
  obtain ⟨rd', m', hrd', hm', hid', -, -⟩ :=
    skeleton_getElem? _ b.rounds hskel.symm (k + 1) (p / 2) rd1 m1 hrd1 hm1
  rw [if_pos hk] at hnext
  have hmid : m.id = firstId (2 ^ N) k + p := by rw [← hid0, hid]
  have hmid' : m'.id = firstId (2 ^ N) (k + 1) + p / 2 := by rw [hid', hid1]
  have hstep : firstId (2 ^ N) (k + 1) = firstId (2 ^ N) k + 2 ^ N / 2 ^ (k + 1) := rfl
  have hne : m'.id ≠ m.id := by
    rw [hmid, hmid', hstep]; omega
  have hmnext : m.nextMatchId = some m'.id := by rw [← hnext0, hnext, hmid']
  have hnd : ((b.rounds.flatMap (fun rd => rd.matchList)).map (fun x => x.id)).Nodup := by
    rw [flat_ids_of_skeleton, hskel, ← flat_ids_of_skeleton]
    exact treeRounds_ids_nodup N _ _ hN
  have hmem : m ∈ b.rounds.flatMap (fun rd => rd.matchList) :=
    List.mem_flatMap.mpr ⟨rd, List.getElem?_mem hrd, List.getElem?_mem hm⟩
  have hmem' : m' ∈ b.rounds.flatMap (fun rd => rd.matchList) :=
    List.mem_flatMap.mpr ⟨rd', List.getElem?_mem hrd', List.getElem?_mem hm'⟩
  refine ⟨if w = "player1" then m.player1 else m.player2, rd', m', ?_, by rw [← hpos0, hpos],
    hrd', hm', hmnext, hne, hnd, ?_⟩
  · rcases hw with rfl | rfl
    · exact Or.inl ⟨rfl, rfl⟩
    · exact Or.inr ⟨rfl, by simp⟩
  · unfold updateMatch
    rw [atFirstMatch_eq_map _ b.rounds m hnd hmem]
    simp only [hmnext]
    congr 1
    unfold advanceToMatch
    have hmem1 : m' ∈ (b.rounds.map (fun rd =>
        ({ rd with
           matchList := rd.matchList.map (fun x =>
             if x.id = m.id then
               { x with score1 := score1, score2 := score2, winner := some w, completed := true }
             else x) } : BracketRound))).flatMap (fun rd => rd.matchList) := by
      rw [flat_map_rounds]
      have := List.mem_map_of_mem (fun x => if x.id = m.id then
          ({ x with score1 := score1, score2 := score2, winner := some w, completed := true } :
            BracketMatch)
          else x) hmem'
      simpa [hne] using this
    have hnd1 : (((b.rounds.map (fun rd =>
        ({ rd with
           matchList := rd.matchList.map (fun x =>
             if x.id = m.id then
               { x with score1 := score1, score2 := score2, winner := some w, completed := true }
             else x) } : BracketRound))).flatMap (fun rd => rd.matchList)).map
          (fun x => x.id)).Nodup := by
      rw [flat_ids_map _ (by intro x; split_ifs <;> rfl)]
      exact hnd
    rw [atFirstMatch_eq_map _ _ m' hnd1 hmem1]
    simp only [List.map_map, hpos0.symm ▸ hpos, Option.some.injEq]
    apply List.map_congr_left
    intro r _
    simp only [Function.comp, List.map_map]
    congr 1
    apply List.map_congr_left
    intro x _
    simp only [Function.comp]
    by_cases h1 : x.id = m.id
    · simp [h1, hne.symm]
    · simp [h1]

/-- Witness for C13: four seeded players; the first match of round 1 is won by
`player1` with 3 to 1. -/
theorem C13_update_match_sets_result_and_advances_winner_witness :
    ∃ start rd m,
      generateSingleElimination (fun _ => 0) 4 ["A", "B", "C", "D"] true = some start ∧
      start.rounds[0]? = some rd ∧ rd.matchList[0]? = some m ∧
      ∃ name rd' m',
        (("player1" = "player1" ∧ name = m.player1) ∨
          ("player1" = "player2" ∧ name = m.player2)) ∧
        m.position = 0 ∧ start.rounds[0 + 1]? = some rd' ∧ rd'.matchList[0 / 2]? = some m' ∧
        m.nextMatchId = some m'.id ∧ m'.id ≠ m.id ∧
        ((start.rounds.flatMap (fun rd => rd.matchList)).map (fun x => x.id)).Nodup ∧
        updateMatch start m.id (some 3) (some 1) (some "player1") =
          { start with
            rounds := start.rounds.map (fun rd =>
              { rd with
                matchList := rd.matchList.map (fun x =>
                  if x.id = m.id then
                    { x with score1 := some 3, score2 := some 1, winner := some "player1",
                             completed := true }
                  else if x.id = m'.id then
                    if 0 % 2 = 0 then { x with player1 := name }
                    else { x with player2 := name }
                  else x) }) } := by
  refine ⟨_, _, _, rfl, rfl, rfl, ?_⟩
  exact C13_update_match_sets_result_and_advances_winner (fun _ => 0) ["A", "B", "C", "D"]
    true 4 _ _ rfl BracketReachable.init 0 0 _ _ (by decide) rfl rfl (some 3) (some 1)
    "player1" (Or.inl rfl)
/-! ### Single elimination: the byes go to the top seeds -/

/-- The seeds at the even positions of the seed order are in the upper half. -/
theorem generate_even_le (j : Nat) (hj : 1 ≤ j) (l : List Int)
    (hl : generate j (j : Int) = some l) (i : Nat) (v : Int) (hv : l[2 * i]? = some v) :
    1 ≤ v ∧ v ≤ 2 ^ (j - 1) := by
  by_cases h1 : j = 1
  · subst h1
    simp only [generate, Nat.cast_one, if_true, Option.some.injEq] at hl
    subst hl
    cases i with
    | zero => simp at hv; subst hv; norm_num
    | succ i =>
      have : 2 * (i + 1) = (2 * i) + 1 + 1 := by omega
      rw [this] at hv
      simp at hv
  · obtain ⟨k, rfl⟩ : ∃ k, j = k + 1 := ⟨j - 1, by omega⟩
    rw [generate_succ k k (by omega)] at hl
    obtain ⟨prev, hprev, -, hcount⟩ := generate_spec k (by omega)
    rw [hprev k le_rfl] at hl
    simp only [Option.map_some', Option.some.injEq] at hl
    subst hl
    rw [interleave_getElem?_even] at hv
    have := seed_mem_range prev (2 ^ k) hcount i v hv
    simpa using this

/-- What the bracket array holds at the position of the seed `v`. -/
theorem seedSlots_join (sp : List String) (l : List Int) (i : Nat) (v : Int)
    (hv : l[i]? = some v) :
    ((seedSlots sp l)[i]?).join =
      if v ≤ (sp.length : Int) then sp[(v - 1).toNat]? else none := by
  simp only [seedSlots, List.getElem?_map, hv, Option.map_some', Option.join]
  rfl

/-- The two sides of the first-round match at index `p`: the seeds `v` and `w` of the
positions `2 p` and `2 p + 1` add up to `bracketSize + 1`, `v` is in the upper half and
its player is `player1`; `player2` is the player of `w`, or `'BYE'` when the roster has
no seed `w`. -/
theorem firstRound_sides (players : List String) (hnames : ∀ x ∈ players, x ≠ "BYE" ∧ x ≠ "")
    (N : Nat) (hN : 1 ≤ N) (l : List Int) (hgen : generate N (N : Int) = some l)
    (hlen : l.length = 2 ^ N)
    (hcount : ∀ s : Int, l.count s = if 1 ≤ s ∧ s ≤ 2 ^ N then 1 else 0)
    (hmin : 2 ^ (N - 1) < players.length) (p : Nat) (hp : p < 2 ^ N / 2) :
    ∃ v w : Int, l[2 * p]? = some v ∧ l[2 * p + 1]? = some w ∧ v + w = 2 ^ N + 1 ∧
      1 ≤ v ∧ v ≤ (players.length : Int) ∧ 1 ≤ w ∧
      (∃ x, players[(v - 1).toNat]? = some x ∧ x ≠ "BYE" ∧
        (firstRoundMatch (seedSlots players l) p).player1 = some x) ∧
      ((players.length : Int) < w →
        (firstRoundMatch (seedSlots players l) p).player2 = some "BYE") ∧
      (w ≤ (players.length : Int) → ∃ y, players[(w - 1).toNat]? = some y ∧ y ≠ "BYE" ∧
        (firstRoundMatch (seedSlots players l) p).player2 = some y) := by
  have h1 : 2 * p < l.length := by rw [hlen]; omega
  have h2 : 2 * p + 1 < l.length := by rw [hlen]; omega
  have hv : l[2 * p]? = some l[2 * p] := List.getElem?_eq_getElem h1
  have hw : l[2 * p + 1]? = some l[2 * p + 1] := List.getElem?_eq_getElem h2
  generalize l[2 * p] = v at hv
  generalize l[2 * p + 1] = w at hw
  have hsum := generate_pair_sum N hN N l hgen p v w hv hw
  have hve := generate_even_le N hN l hgen p v hv
  have hwr := seed_mem_range l (2 ^ N) hcount _ w hw
  have hvn : v ≤ (players.length : Int) := by
    have : ((2 ^ (N - 1) : Nat) : Int) < (players.length : Int) := by exact_mod_cast hmin
    push_cast at this
    omega
  have hs1 := seedSlots_join players l (p * 2) v (by rw [Nat.mul_comm]; exact hv)
  have hs2 := seedSlots_join players l (p * 2 + 1) w (by rw [Nat.mul_comm]; exact hw)
  rw [if_pos hvn] at hs1
  have hvi : (v - 1).toNat < players.length := by omega
  refine ⟨v, w, hv, hw, hsum, hve.1, hvn, hwr.1, ?_, ?_, ?_⟩
  · have hx := hnames _ (List.getElem_mem hvi)
    refine ⟨players[(v - 1).toNat], List.getElem?_eq_getElem hvi, hx.1, ?_⟩
    simp only [firstRoundMatch, hs1, List.getElem?_eq_getElem hvi, orBye, hx.2, if_false]
  · intro hgt
    rw [if_neg (by omega)] at hs2
    simp only [firstRoundMatch, hs2, orBye]
  · intro hle
    rw [if_pos hle] at hs2
    have hwi : (w - 1).toNat < players.length := by omega
    have hy := hnames _ (List.getElem_mem hwi)
    refine ⟨players[(w - 1).toNat], List.getElem?_eq_getElem hwi, hy.1, ?_⟩
    simp only [firstRoundMatch, hs2, List.getElem?_eq_getElem hwi, orBye, hy.2, if_false]

/-- C24, amended: for every roster of `n >= 2` players none of whom is called `'BYE'` or
has the empty name, with `seeded = true`, the bracket has a first round in which
`player1` is always a roster player (never `'BYE'`), and the byes go to the top seeds: the roster player at the
1-based position `s` stands in the first-round slot that the seed order gives to the seed
`s`, and the other side of that match is `'BYE'` if and only if
`s <= bracketSize - n`. -/
theorem C24_byes_go_to_the_top_seeds (rand : Nat → Nat) (players : List String)
    (fuel : Nat) (hn : 2 ≤ players.length) (hf : players.length ≤ fuel)
    (hnames : ∀ x ∈ players, x ≠ "BYE" ∧ x ≠ "") :
    ∃ b r1 l, generateSingleElimination rand fuel players true = some b ∧
      generateBracketSeedOrder fuel b.bracketSize = some l ∧ b.rounds[0]? = some r1 ∧
      (∀ m ∈ r1.matchList, ∃ x ∈ players, m.player1 = some x ∧ x ≠ "BYE") ∧
      ∀ s : Nat, 1 ≤ s → s ≤ players.length →
        ∃ p m x, players[s - 1]? = some x ∧ r1.matchList[p]? = some m ∧
          ((l[2 * p]? = some (s : Int) ∧ m.player1 = some x ∧
              (m.player2 = some "BYE" ↔ s ≤ b.bracketSize - players.length)) ∨
            (l[2 * p + 1]? = some (s : Int) ∧ m.player2 = some x ∧
              m.player1 ≠ some "BYE" ∧ ¬ s ≤ b.bracketSize - players.length)) := by
  obtain ⟨N, l, hN, hle, hmin, hgen, hlen, hcount, heq⟩ :=
    generateSingleElimination_tree rand players true fuel hn hf
  simp only [if_true] at heq
  have hsides := firstRound_sides players hnames N hN l hgen hlen hcount hmin
  have hfirst : ∀ p, p < 2 ^ N / 2 →
      ∃ m, (treeFirstRound N (2 ^ N) (seedSlots players l)).matchList[p]? = some m ∧
        m.player1 = (firstRoundMatch (seedSlots players l) p).player1 ∧
        m.player2 = (firstRoundMatch (seedSlots players l) p).player2 := by
    intro p hp
    exact ⟨_, treeFirstRound_getElem? N (2 ^ N) _ p hp, rfl, rfl⟩
  have hseed : generateBracketSeedOrder fuel (2 ^ N) = some l := by
    unfold generateBracketSeedOrder
    rw [mathLog2_two_pow]
    obtain ⟨l', hl', -, -⟩ := generate_spec N hN
    have e := hl' N le_rfl
    rw [hgen] at e
    rw [hl' fuel (le_trans (bracketSize_exponent_le players.length N (Or.inr hmin)) hf)]
    exact e.symm
  have hpow : 2 ^ N = 2 * 2 ^ (N - 1) := by
    obtain ⟨K, rfl⟩ : ∃ K, N = K + 1 := ⟨N - 1, by omega⟩
    rw [pow_succ, Nat.add_sub_cancel]
    omega
  have hpowZ : (2 : Int) ^ N = ((2 ^ N : Nat) : Int) := by push_cast; rfl
  refine ⟨_, treeFirstRound N (2 ^ N) (seedSlots players l), l, heq, hseed,
    by simp [treeRounds], ?_, ?_⟩
  · intro m hm
    obtain ⟨p, hpm⟩ := List.getElem?_of_mem hm
    have hp : p < 2 ^ N / 2 := by
      have := getElem?_lt_of_eq_some _ _ _ hpm
      simpa [treeFirstRound] using this
    obtain ⟨m', hm', e1, -⟩ := hfirst p hp
    rw [hpm] at hm'
    obtain rfl := Option.some.inj hm'
    obtain ⟨v, w, -, -, -, -, -, -, ⟨x, hxget, hx, hp1⟩, -, -⟩ := hsides p hp
    exact ⟨x, List.getElem?_mem hxget, e1.trans hp1, hx⟩
  · intro s hs1 hsn
    have hsl : (s : Int) ∈ l := by
      rw [← List.count_pos_iff, hcount, if_pos]
      · exact Nat.one_pos
      · rw [hpowZ]
        exact ⟨by exact_mod_cast hs1, by exact_mod_cast le_trans hsn hle⟩
    obtain ⟨idx, hidx⟩ := List.getElem?_of_mem hsl
    have hidxlt : idx < 2 ^ N := by
      rw [← hlen]
      exact getElem?_lt_of_eq_some _ _ _ hidx
    have hp : idx / 2 < 2 ^ N / 2 := by omega
    obtain ⟨m, hm, e1, e2⟩ := hfirst (idx / 2) hp
    obtain ⟨v, w, hv, hw, hsum, hv1, hvn, hw1, ⟨x, hxget, hx, hp1⟩, hbye, hreal⟩ :=
      hsides (idx / 2) hp
    rw [hpowZ] at hsum
    have hH : v ≤ ((2 ^ (N - 1) : Nat) : Int) := by
      push_cast
      exact (generate_even_le N hN l hgen (idx / 2) v hv).2
    have hsi : ((s : Int) - 1).toNat = s - 1 := by omega
    show ∃ p m x, players[s - 1]? = some x ∧ _ ∧
      ((_ ∧ _ ∧ (_ ↔ s ≤ 2 ^ N - players.length)) ∨
        (_ ∧ _ ∧ _ ∧ ¬ s ≤ 2 ^ N - players.length))
    generalize 2 ^ N = B at hsum hle hpow hidxlt hp hm ⊢
    generalize 2 ^ (N - 1) = H at hmin hpow hH
    by_cases hpar : idx % 2 = 0
    · have hi2 : 2 * (idx / 2) = idx := by omega
      rw [hi2, hidx] at hv
      obtain rfl := Option.some.inj hv
      rw [hsi] at hxget
      refine ⟨idx / 2, m, x, hxget, hm, Or.inl ⟨by rw [hi2]; exact hidx, e1.trans hp1, ?_⟩⟩
      rw [e2]
      constructor
      · intro hb
        by_contra hcon
        obtain ⟨y, -, hy, hp2⟩ := hreal (by omega)
        rw [hp2] at hb
        exact hy (Option.some.inj hb)
      · intro hle'
        exact hbye (by omega)
    · have hi2 : 2 * (idx / 2) + 1 = idx := by omega
      rw [hi2, hidx] at hw
      obtain rfl := Option.some.inj hw
      obtain ⟨y, hyget, -, hp2⟩ := hreal (by exact_mod_cast hsn)
      rw [hsi] at hyget
      refine ⟨idx / 2, m, y, hyget, hm,
        Or.inr ⟨by rw [hi2]; exact hidx, e2.trans hp2, ?_, ?_⟩⟩
      · rw [e1, hp1]
        intro hcon
        exact hx (Option.some.inj hcon)
      · omega

/-- Witness for C24: five players, seeded; the bracket has eight slots and the seeds 1 to 3
meet a bye. -/
theorem C24_byes_go_to_the_top_seeds_witness :
    ∃ b r1 l, generateSingleElimination (fun _ => 0) 5 ["A", "B", "C", "D", "E"] true = some b ∧
      generateBracketSeedOrder 5 b.bracketSize = some l ∧ b.rounds[0]? = some r1 ∧
      (∀ m ∈ r1.matchList, ∃ x ∈ ["A", "B", "C", "D", "E"], m.player1 = some x ∧ x ≠ "BYE") ∧
      ∀ s : Nat, 1 ≤ s → s ≤ ["A", "B", "C", "D", "E"].length →
        ∃ p m x, ["A", "B", "C", "D", "E"][s - 1]? = some x ∧ r1.matchList[p]? = some m ∧
          ((l[2 * p]? = some (s : Int) ∧ m.player1 = some x ∧
              (m.player2 = some "BYE" ↔
                s ≤ b.bracketSize - ["A", "B", "C", "D", "E"].length)) ∨
            (l[2 * p + 1]? = some (s : Int) ∧ m.player2 = some x ∧
              m.player1 ≠ some "BYE" ∧
                ¬ s ≤ b.bracketSize - ["A", "B", "C", "D", "E"].length)) :=
  C24_byes_go_to_the_top_seeds (fun _ => 0) ["A", "B", "C", "D", "E"] 5
    (by decide) (by decide) (by decide)

/-- C24 as stated fails for a roster with a player called `'BYE'` or with the empty name.
With `['A','B','C','BYE']`, seeded, the bracket has four slots and no bye
(`bracketSize - n = 0`), and the first seed A meets the fourth seed, the player `'BYE'`:
A is in a round-1 match against `'BYE'`. With `['', 'B']`, seeded, the only match has
`player1 = 'BYE'`. -/
theorem C24_player_named_bye_meets_first_seed :
    (∃ b r1 m, generateSingleElimination (fun _ => 0) 4 ["A", "B", "C", "BYE"] true = some b ∧
      b.bracketSize - ["A", "B", "C", "BYE"].length = 0 ∧
      b.rounds[0]? = some r1 ∧ r1.matchList[0]? = some m ∧
      m.player1 = some "A" ∧ m.player2 = some "BYE") ∧
    (∃ b r1 m, generateSingleElimination (fun _ => 0) 2 ["", "B"] true = some b ∧
      b.rounds[0]? = some r1 ∧ r1.matchList[0]? = some m ∧
      m.player1 = some "BYE" ∧ m.player2 = some "B") := by
  refine ⟨⟨_, _, _, rfl, ?_, rfl, rfl, ?_⟩, ⟨_, _, _, rfl, rfl, rfl, ?_⟩⟩ <;> decide
/-! ### Round robin: the circle method -/

/-- A list predicate that holds at one element of a duplicate-free list, and only
there, is counted once. -/
theorem countP_eq_one_of_unique {α : Type} [DecidableEq α] (l : List α) (q : α → Bool)
    (x0 : α) (hnd : l.Nodup) (hx : x0 ∈ l) (hq : ∀ x ∈ l, q x = true ↔ x = x0) :
    l.countP q = 1 := by
  have h : l.countP q = l.countP (fun x => x == x0) :=
    List.countP_congr (fun x hxl => by rw [hq x hxl]; simp)
  rw [h]
  exact List.count_eq_one_of_mem hnd hx

theorem countP_eq_zero_of_forall {α : Type} (l : List α) (q : α → Bool)
    (hq : ∀ x ∈ l, q x = false) : l.countP q = 0 := by
  rw [List.countP_eq_zero]
  intro x hx
  simp [hq x hx]

/-- Shifting by the round number is injective on positions. -/
theorem shift_inj (L x y k : Nat) (hx : x < L) (hy : y < L)
    (h : (x + k) % L = (y + k) % L) : x = y := by
  have h1 : Nat.ModEq L (k + x) (k + y) := by
    unfold Nat.ModEq; rw [Nat.add_comm k x, Nat.add_comm k y]; exact h
  exact (Nat.ModEq.add_left_cancel' k h1).eq_of_lt_of_lt hx hy

/-- The round in which the participant at index `y` of `rotating` stands at position
`0`. -/
theorem round_of_first (L y : Nat) (hy : y < L) :
    (L - y) % L < L ∧ (y + (L - y) % L) % L = 0 ∧
      ∀ k, k < L → (y + k) % L = 0 → k = (L - y) % L := by
  have hL : 0 < L := by omega
  have h0 : (y + (L - y) % L) % L = 0 := by
    rw [Nat.add_mod, Nat.mod_mod, ← Nat.add_mod]
    rw [show y + (L - y) = L by omega]
    exact Nat.mod_self L
  refine ⟨Nat.mod_lt _ hL, h0, ?_⟩
  intro k hk hk0
  have h1 : Nat.ModEq L (y + k) (y + (L - y) % L) := by
    unfold Nat.ModEq; rw [hk0, h0]
  exact (Nat.ModEq.add_left_cancel' y h1).eq_of_lt_of_lt hk (Nat.mod_lt _ hL)

theorem pos_sum_of_dvd (L x y k : Nat) (hx : x < L) (hy : y < L) (hxy : x ≠ y)
    (hd : (x + y + 2 * k) % L = 0) : (x + k) % L + (y + k) % L = L := by
  have hL : 0 < L := by omega
  have h1 : ((x + k) % L + (y + k) % L) % L = 0 := by
    rw [← Nat.add_mod, show x + k + (y + k) = x + y + 2 * k by ring]; exact hd
  have hpx := Nat.mod_lt (x + k) hL
  have hpy := Nat.mod_lt (y + k) hL
  obtain ⟨c, hc⟩ := Nat.dvd_of_mod_eq_zero h1
  have hc2 : c < 2 := by
    by_contra hcon
    have : L * 2 ≤ L * c := Nat.mul_le_mul_left L (by omega)
    omega
  have hc1 : c ≠ 0 := by
    rintro rfl
    have h2 : (x + k) % L = (y + k) % L := by omega
    exact hxy (shift_inj L x y k hx hy h2)
  have : c = 1 := by omega
  subst this
  omega

theorem dvd_of_pos_sum (L x y k : Nat)
    (h : (x + k) % L + (y + k) % L = L) : (x + y + 2 * k) % L = 0 := by
  rw [show x + y + 2 * k = x + k + (y + k) by ring, Nat.add_mod, h, Nat.mod_self]

/-- Two participants of `rotating` (at indices `x ≠ y`) stand at mirrored positions in
exactly one round. -/
theorem round_of_pair (halfSize L x y : Nat) (hL : L + 1 = 2 * halfSize) (hx : x < L)
    (hy : y < L) (hxy : x ≠ y) :
    ∃ k, k < L ∧ (x + k) % L + (y + k) % L = L ∧
      ∀ k', k' < L → (x + k') % L + (y + k') % L = L → k' = k := by
  have hL0 : 0 < L := by omega
  have hksum : (x + ((2 * L - (x + y)) * halfSize) % L) % L +
      (y + ((2 * L - (x + y)) * halfSize) % L) % L = L := by
    apply pos_sum_of_dvd L x y _ hx hy hxy
    rw [Nat.add_mod, Nat.mul_mod, Nat.mod_mod, ← Nat.mul_mod, ← Nat.add_mod]
    have e : x + y + 2 * ((2 * L - (x + y)) * halfSize) = L * (2 + (2 * L - (x + y))) := by
      have h2 : 2 * halfSize = L + 1 := hL.symm
      have h3 : 2 * ((2 * L - (x + y)) * halfSize) = (2 * L - (x + y)) * (L + 1) := by
        rw [← h2]; ring
      rw [h3]
      have h4 : x + y + (2 * L - (x + y)) = 2 * L := by omega
      have h5 : (2 * L - (x + y)) * (L + 1) = (2 * L - (x + y)) * L + (2 * L - (x + y)) := by
        ring
      rw [h5]
      have h6 : L * (2 + (2 * L - (x + y))) = 2 * L + (2 * L - (x + y)) * L := by ring
      rw [h6]
      omega
    rw [e]
    exact Nat.mul_mod_right _ _
  refine ⟨((2 * L - (x + y)) * halfSize) % L, Nat.mod_lt _ hL0, hksum, ?_⟩
  intro k' hk' hsum
  have d1 := dvd_of_pos_sum L x y _ hksum
  have d2 := dvd_of_pos_sum L x y k' hsum
  have h1 : Nat.ModEq L (x + y + 2 * k') (x + y + 2 * (((2 * L - (x + y)) * halfSize) % L)) := by
    unfold Nat.ModEq; rw [d1, d2]
  have h2 := Nat.ModEq.add_left_cancel' (x + y) h1
  have hcop : L.gcd 2 = 1 := by
    have hodd : L % 2 = 1 := by omega
    have : Nat.Coprime L 2 := by
      rw [Nat.coprime_comm, Nat.Prime.coprime_iff_not_dvd Nat.prime_two]
      omega
    exact this
  exact (Nat.ModEq.cancel_left_of_coprime hcop h2).eq_of_lt_of_lt hk' (Nat.mod_lt _ hL0)

theorem rotateLastToFront_length (l : List (Option String)) :
    (rotateLastToFront l).length = l.length := by
  unfold rotateLastToFront
  cases h : l.getLast? with
  | none => rfl
  | some x =>
    have h2 := List.dropLast_append_getLast? x (by rw [h]; rfl)
    have h3 : (l.dropLast ++ [x]).length = l.length := by rw [h2]
    simp only [List.length_cons]
    simpa using h3

theorem rotateLastToFront_perm (l : List (Option String)) :
    (rotateLastToFront l).Perm l := by
  unfold rotateLastToFront
  cases h : l.getLast? with
  | none => exact List.Perm.refl _
  | some x =>
    have h2 := List.dropLast_append_getLast? x (by rw [h]; rfl)
    have h3 : (x :: l.dropLast).Perm (l.dropLast ++ [x]) :=
      (List.perm_append_singleton x l.dropLast).symm
    simp only
    rw [h2] at h3
    exact h3

theorem rotateLastToFront_getElem? (l : List (Option String)) (j : Nat) (hj : j < l.length) :
    (rotateLastToFront l)[(j + 1) % l.length]? = l[j]? := by
  unfold rotateLastToFront
  cases h : l.getLast? with
  | none =>
    rw [List.getLast?_eq_none_iff] at h
    subst h; simp at hj
  | some x =>
    have h2 := List.dropLast_append_getLast? x (by rw [h]; rfl)
    have hlen : l.dropLast.length + 1 = l.length := by
      have h3 : (l.dropLast ++ [x]).length = l.length := by rw [h2]
      simpa using h3
    simp only
    by_cases hlast : j + 1 = l.length
    · rw [hlast, Nat.mod_self]
      conv_rhs => rw [← h2]
      have : j = l.dropLast.length := by omega
      subst this
      simp
    · have hlt : j + 1 < l.length := by omega
      rw [Nat.mod_eq_of_lt hlt]
      conv_rhs => rw [← h2]
      rw [List.getElem?_cons_succ, List.getElem?_append_left (by omega)]

theorem rotations_length (l : List (Option String)) (k : Nat) :
    (rotateLastToFront^[k] l).length = l.length := by
  induction k with
  | zero => rfl
  | succ k ih => rw [Function.iterate_succ_apply', rotateLastToFront_length, ih]

theorem rotations_perm (l : List (Option String)) (k : Nat) :
    (rotateLastToFront^[k] l).Perm l := by
  induction k with
  | zero => exact List.Perm.refl _
  | succ k ih =>
    rw [Function.iterate_succ_apply']
    exact (rotateLastToFront_perm _).trans ih

/-- After `k` rotations the participant that started at index `x` stands at position
`(x + k) % L`. -/
theorem rotations_getElem? (l : List (Option String)) (k x : Nat) (hx : x < l.length) :
    (rotateLastToFront^[k] l)[(x + k) % l.length]? = l[x]? := by
  induction k with
  | zero => simp [Nat.mod_eq_of_lt hx]
  | succ k ih =>
    rw [Function.iterate_succ_apply']
    have hL : 0 < l.length := by omega
    have h1 : (x + (k + 1)) % l.length =
        ((x + k) % l.length + 1) % (rotateLastToFront^[k] l).length := by
      rw [rotations_length, ← Nat.add_assoc, Nat.add_mod (x + k) 1, Nat.add_mod ((x + k) % _) 1,
        Nat.mod_mod]
    rw [h1, rotateLastToFront_getElem? _ _ (by rw [rotations_length]; exact Nat.mod_lt _ hL), ih]

/-- Where a given participant stands after `k` rotations. -/
theorem rotations_position (l : List (Option String)) (hnd : l.Nodup) (k x : Nat)
    (e : Option String) (hx : l[x]? = some e) (j : Nat) :
    (rotateLastToFront^[k] l)[j]? = some e ↔ (x + k) % l.length = j := by
  have hxl : x < l.length := by
    by_contra hcon
    rw [List.getElem?_eq_none (by omega)] at hx
    exact Option.noConfusion hx
  have hpos := rotations_getElem? l k x hxl
  rw [hx] at hpos
  constructor
  · intro hj
    have hnd' : (rotateLastToFront^[k] l).Nodup := (rotations_perm l k).nodup_iff.mpr hnd
    obtain ⟨h1, h2⟩ := List.getElem?_eq_some_iff.mp hj
    obtain ⟨h3, h4⟩ := List.getElem?_eq_some_iff.mp hpos
    exact ((hnd'.getElem_inj_iff).mp (h4.trans h2.symm))
  · rintro rfl
    exact hpos

theorem nameAt_eq_some (l : List (Option String)) (j : Nat) (a : String) :
    nameAt l j = some a ↔ l[j]? = some (some a) := by
  unfold nameAt
  rw [List.getD_eq_getElem?_getD]
  cases l[j]? <;> simp

theorem nameAt_eq_none_of_lt (l : List (Option String)) (j : Nat) (hj : j < l.length) :
    nameAt l j = none ↔ l[j]? = some none := by
  unfold nameAt
  rw [List.getD_eq_getElem?_getD, List.getElem?_eq_getElem hj]
  simp

theorem roundsLoop_eq (uuid : Nat → Nat → String) (first : Option String) (halfSize : Nat)
    (remaining round : Nat) (rotating : List (Option String)) :
    roundsLoop uuid first halfSize remaining round rotating =
      (List.range remaining).map (fun k =>
        { number := round + k + 1,
          matchList := roundMatches uuid (round + k) first
            (rotateLastToFront^[k] rotating) halfSize }) := by
  induction remaining generalizing round rotating with
  | zero => rfl
  | succ remaining ih =>
    rw [List.range_succ_eq_map]
    simp only [roundsLoop, List.map_cons, List.map_map, Nat.add_zero, Function.iterate_zero,
      id_eq]
    rw [ih]
    congr 1
    apply List.map_congr_left
    intro k _
    simp only [Function.comp, Nat.succ_eq_add_one, Function.iterate_succ_apply]
    have e1 : round + 1 + k = round + (k + 1) := by omega
    rw [e1]

theorem roundMatches_eq_filterMap (uuid : Nat → Nat → String) (round : Nat)
    (first : Option String) (rotating : List (Option String)) (halfSize : Nat)
    (hh : 1 ≤ halfSize) :
    roundMatches uuid round first rotating halfSize =
      (List.range halfSize).filterMap (slotMatch uuid round first rotating) := by
  obtain ⟨h, rfl⟩ : ∃ h, halfSize = h + 1 := ⟨halfSize - 1, by omega⟩
  rw [List.range_eq_range', List.range'_succ, List.filterMap_cons]
  unfold roundMatches
  simp only [Nat.add_sub_cancel, newMatch]
  have hrest : List.filterMap (fun i =>
        if nameAt rotating i ≠ none ∧ nameAt rotating (rotating.length - i) ≠ none then
          some (newMatch (uuid round i) (round + 1) (nameAt rotating i)
            (nameAt rotating (rotating.length - i)))
        else none) (List.range' 1 h) =
      List.filterMap (slotMatch uuid round first rotating) (List.range' 1 h) := by
    apply List.filterMap_congr
    intro i hi
    have hi1 : i ≠ 0 := by
      have := (List.mem_range'_1.mp hi).1
      omega
    simp only [slotMatch, slotPair, hi1, if_false]
  simp only [newMatch] at hrest
  rw [hrest]
  by_cases hc : first ≠ none ∧ nameAt rotating 0 ≠ none
  · simp [slotMatch, slotPair, hc, newMatch]
  · simp [slotMatch, slotPair, hc, newMatch]

theorem isBetween_comm (a b : String) (m : Match) :
    Match.isBetween a b m = Match.isBetween b a m := by
  unfold Match.isBetween
  exact Bool.or_comm _ _

theorem slotMatch_isBetween (uuid : Nat → Nat → String) (round : Nat) (first : Option String)
    (rotating : List (Option String)) (i : Nat) (a b : String) :
    ((slotMatch uuid round first rotating i).map (Match.isBetween a b)).getD false = true ↔
      ((slotPair first rotating i).1 = some a ∧ (slotPair first rotating i).2 = some b) ∨
      ((slotPair first rotating i).1 = some b ∧ (slotPair first rotating i).2 = some a) := by
  unfold slotMatch
  by_cases hc : (slotPair first rotating i).1 ≠ none ∧ (slotPair first rotating i).2 ≠ none
  · simp [hc, Match.isBetween, newMatch]
  · rw [if_neg hc]
    simp only [Option.map_none', Option.getD_none, Bool.false_eq_true, false_iff]
    rintro (⟨h1, h2⟩ | ⟨h1, h2⟩) <;> exact hc (by rw [h1, h2]; simp)

/-- All matches of the schedule, slot by slot. -/
theorem flatMap_roundMatches (uuid : Nat → Nat → String) (first : Option String)
    (rotating : List (Option String)) (halfSize L : Nat) (hh : 1 ≤ halfSize) :
    (List.range L).flatMap (fun k =>
        roundMatches uuid k first (rotateLastToFront^[k] rotating) halfSize) =
      (List.product (List.range L) (List.range halfSize)).filterMap (fun s =>
        slotMatch uuid s.1 first (rotateLastToFront^[s.1] rotating) s.2) := by
  unfold List.product
  rw [List.filterMap_flatMap]
  congr 1
  funext k
  rw [roundMatches_eq_filterMap _ _ _ _ _ hh, List.filterMap_map]
  rfl

/-- The fixed first participant meets each participant of `rotating` exactly once. -/
theorem circle_count_first (uuid : Nat → Nat → String) (p0 : String)
    (rot0 : List (Option String)) (halfSize : Nat) (hL : rot0.length + 1 = 2 * halfSize)
    (hnd : rot0.Nodup) (hp0 : some p0 ∉ rot0) (b : String) (y : Nat)
    (hy : rot0[y]? = some (some b)) :
    ((List.product (List.range rot0.length) (List.range halfSize)).filterMap (fun s =>
        slotMatch uuid s.1 (some p0) (rotateLastToFront^[s.1] rot0) s.2)).countP
      (Match.isBetween p0 b) = 1 := by
  have hyl : y < rot0.length := by
    by_contra hcon
    rw [List.getElem?_eq_none (by omega)] at hy
    exact Option.noConfusion hy
  have hbp : p0 ≠ b := by
    rintro rfl
    exact hp0 (List.getElem?_mem hy)
  have hnot : ∀ k j, ¬ nameAt (rotateLastToFront^[k] rot0) j = some p0 := by
    intro k j hcon
    rw [nameAt_eq_some] at hcon
    exact hp0 ((rotations_perm rot0 k).mem_iff.mp (List.getElem?_mem hcon))
  obtain ⟨hk0, hk1, hk2⟩ := round_of_first rot0.length y hyl
  rw [List.countP_filterMap]
  apply countP_eq_one_of_unique _ _ ((rot0.length - y) % rot0.length, 0)
    (List.Nodup.product (List.nodup_range _) (List.nodup_range _))
  · rw [List.mem_product]
    exact ⟨List.mem_range.mpr hk0, List.mem_range.mpr (by omega)⟩
  · rintro ⟨k, i⟩ hs
    rw [List.mem_product] at hs
    have hk : k < rot0.length := List.mem_range.mp hs.1
    rw [slotMatch_isBetween]
    by_cases hi : i = 0
    · subst hi
      simp only [slotPair, if_true, Option.some.injEq, true_and, Prod.mk.injEq, and_true]
      rw [nameAt_eq_some, rotations_position rot0 hnd k y (some b) hy 0]
      constructor
      · rintro (h | ⟨h, -⟩)
        · exact hk2 k hk h
        · exact absurd h hbp
      · intro h
        subst h
        exact Or.inl hk1
    · simp only [slotPair, hi, if_false, Prod.mk.injEq, and_false, iff_false]
      rintro (⟨h, -⟩ | ⟨-, h⟩) <;> exact hnot _ _ h

/-- Two participants of `rotating` meet exactly once. -/
theorem circle_count_fold (uuid : Nat → Nat → String) (p0 : String)
    (rot0 : List (Option String)) (halfSize : Nat) (hL : rot0.length + 1 = 2 * halfSize)
    (hnd : rot0.Nodup) (hp0 : some p0 ∉ rot0) (a b : String) (x y : Nat)
    (hx : rot0[x]? = some (some a)) (hy : rot0[y]? = some (some b)) (hxy : x ≠ y) :
    ((List.product (List.range rot0.length) (List.range halfSize)).filterMap (fun s =>
        slotMatch uuid s.1 (some p0) (rotateLastToFront^[s.1] rot0) s.2)).countP
      (Match.isBetween a b) = 1 := by
  have hxl : x < rot0.length := by
    by_contra hcon
    rw [List.getElem?_eq_none (by omega)] at hx
    exact Option.noConfusion hx
  have hyl : y < rot0.length := by
    by_contra hcon
    rw [List.getElem?_eq_none (by omega)] at hy
    exact Option.noConfusion hy
  have hap : p0 ≠ a := by
    rintro rfl
    exact hp0 (List.getElem?_mem hx)
  have hbp : p0 ≠ b := by
    rintro rfl
    exact hp0 (List.getElem?_mem hy)
  obtain ⟨k0, hk0, hsum, huniq⟩ := round_of_pair halfSize rot0.length x y hL hxl hyl hxy
  have hL0 : 0 < rot0.length := by omega
  have hpx := Nat.mod_lt (x + k0) hL0
  have hpy := Nat.mod_lt (y + k0) hL0
  rw [List.countP_filterMap]
  apply countP_eq_one_of_unique _ _
    (k0, if (x + k0) % rot0.length < halfSize then (x + k0) % rot0.length
         else (y + k0) % rot0.length)
    (List.Nodup.product (List.nodup_range _) (List.nodup_range _))
  · rw [List.mem_product]
    refine ⟨List.mem_range.mpr hk0, List.mem_range.mpr ?_⟩
    split_ifs <;> omega
  · rintro ⟨k, i⟩ hs
    rw [List.mem_product] at hs
    have hk : k < rot0.length := List.mem_range.mp hs.1
    have hi : i < halfSize := List.mem_range.mp hs.2
    rw [slotMatch_isBetween]
    by_cases hi0 : i = 0
    · subst hi0
      simp only [slotPair, if_true, Option.some.injEq, Prod.mk.injEq]
      constructor
      · rintro (⟨h, -⟩ | ⟨h, -⟩)
        · exact absurd h hap
        · exact absurd h hbp
      · rintro ⟨-, h⟩
        split_ifs at h <;> omega
    · simp only [slotPair, hi0, if_false, Prod.mk.injEq, rotations_length]
      rw [nameAt_eq_some, nameAt_eq_some, nameAt_eq_some, nameAt_eq_some,
        rotations_position rot0 hnd k x (some a) hx, rotations_position rot0 hnd k y (some b) hy,
        rotations_position rot0 hnd k x (some a) hx, rotations_position rot0 hnd k y (some b) hy]
      constructor
      · intro h
        have hs' : (x + k) % rot0.length + (y + k) % rot0.length = rot0.length := by
          rcases h with ⟨h1, h2⟩ | ⟨h1, h2⟩ <;> omega
        have hkk := huniq k hk hs'
        subst hkk
        refine ⟨rfl, ?_⟩
        split_ifs <;> rcases h with ⟨h1, h2⟩ | ⟨h1, h2⟩ <;> omega
      · rintro ⟨rfl, h⟩
        split_ifs at h with hlt
        · left; omega
        · right; omega

theorem slotMatch_isSome (uuid : Nat → Nat → String) (round : Nat) (first : Option String)
    (rotating : List (Option String)) (i : Nat) :
    (slotMatch uuid round first rotating i).isSome = true ↔
      (slotPair first rotating i).1 ≠ none ∧ (slotPair first rotating i).2 ≠ none := by
  unfold slotMatch
  split_ifs with hc
  · simp [hc]
  · simp only [Option.isSome_none, Bool.false_eq_true, false_iff]; exact hc

theorem sum_map_eq_mul (l : List Nat) (g : Nat → Nat) (c : Nat) (h : ∀ k ∈ l, g k = c) :
    (l.map g).sum = l.length * c := by
  induction l with
  | nil => simp
  | cons k l ih =>
    simp only [List.map_cons, List.sum_cons, List.length_cons]
    rw [h k (List.mem_cons_self _ _), ih (fun k' hk' => h k' (List.mem_cons_of_mem _ hk'))]
    ring

/-- Without a bye placeholder every slot of a round yields a match. -/
theorem round_length_full (uuid : Nat → Nat → String) (p0 : String)
    (rot0 : List (Option String)) (halfSize : Nat) (hL : rot0.length + 1 = 2 * halfSize)
    (hfull : ∀ e ∈ rot0, e ≠ none) (k : Nat) :
    (roundMatches uuid k (some p0) (rotateLastToFront^[k] rot0) halfSize).length =
      halfSize := by
  have hall : ∀ j, j < rot0.length → nameAt (rotateLastToFront^[k] rot0) j ≠ none := by
    intro j hj hcon
    rw [nameAt_eq_none_of_lt _ _ (by rw [rotations_length]; exact hj)] at hcon
    exact hfull none ((rotations_perm rot0 k).mem_iff.mp (List.getElem?_mem hcon)) rfl
  rw [roundMatches_eq_filterMap _ _ _ _ _ (by omega), List.length_filterMap_eq_countP]
  conv_rhs => rw [← List.length_range halfSize]
  rw [List.countP_eq_length]
  intro i hi
  have hi' : i < halfSize := List.mem_range.mp hi
  rw [slotMatch_isSome]
  by_cases hi0 : i = 0
  · subst hi0
    simp only [slotPair, if_true]
    exact ⟨by simp, hall 0 (by omega)⟩
  · simp only [slotPair, hi0, if_false, rotations_length]
    exact ⟨hall i (by omega), hall _ (by omega)⟩

/-- With the bye placeholder among the rotating participants, exactly one slot of each
round is dropped. -/
theorem round_length_bye (uuid : Nat → Nat → String) (p0 : String)
    (rot0 : List (Option String)) (halfSize : Nat) (hL : rot0.length + 1 = 2 * halfSize)
    (hnd : rot0.Nodup) (z : Nat) (hz : rot0[z]? = some none) (k : Nat) :
    (roundMatches uuid k (some p0) (rotateLastToFront^[k] rot0) halfSize).length =
      halfSize - 1 := by
  have hL0 : 0 < rot0.length := by
    by_contra hcon
    rw [List.getElem?_eq_none (by omega)] at hz
    exact Option.noConfusion hz
  have hj0 := Nat.mod_lt (z + k) hL0
  rw [roundMatches_eq_filterMap _ _ _ _ _ (by omega), List.length_filterMap_eq_countP]
  have hsplit := List.length_eq_countP_add_countP
    (fun i => (slotMatch uuid k (some p0) (rotateLastToFront^[k] rot0) i).isSome)
    (List.range halfSize)
  rw [List.length_range] at hsplit
  have hone : List.countP (fun i =>
      decide ¬ (slotMatch uuid k (some p0) (rotateLastToFront^[k] rot0) i).isSome = true)
      (List.range halfSize) = 1 := by
    apply countP_eq_one_of_unique _ _
      (if (z + k) % rot0.length = 0 then 0
       else if (z + k) % rot0.length < halfSize then (z + k) % rot0.length
       else rot0.length - (z + k) % rot0.length) (List.nodup_range _)
    · rw [List.mem_range]
      split_ifs <;> omega
    · intro i hi
      have hi' : i < halfSize := List.mem_range.mp hi
      rw [decide_eq_true_iff, slotMatch_isSome]
      by_cases hi0 : i = 0
      · subst hi0
        simp only [slotPair, if_true, ne_eq, not_and, not_not]
        rw [nameAt_eq_none_of_lt _ _ (by rw [rotations_length]; omega),
          rotations_position rot0 hnd k z none hz 0]
        constructor
        · intro h
          have := h (by simp)
          split_ifs
          omega
        · intro h _
          split_ifs at h <;> omega
      · simp only [slotPair, hi0, if_false, rotations_length, ne_eq, not_and, not_not]
        rw [nameAt_eq_none_of_lt _ _ (by rw [rotations_length]; omega),
          nameAt_eq_none_of_lt _ _ (by rw [rotations_length]; omega),
          rotations_position rot0 hnd k z none hz, rotations_position rot0 hnd k z none hz]
        constructor
        · intro h
          by_cases hc : (z + k) % rot0.length = i
          · split_ifs <;> omega
          · have := h hc
            split_ifs <;> omega
        · intro h hne
          split_ifs at h <;> omega
  omega

/-- The matches of the schedule of a roster `p0 :: rest` with at least two players. -/
theorem schedule_matchList (uuid : Nat → Nat → String) (p0 : String) (rest : List String)
    (hrest : 1 ≤ rest.length) :
    (generateRoundRobinSchedule uuid (p0 :: rest)).matchList =
      (List.range (rest.map some ++ if rest.length % 2 = 0 then [none] else []).length).flatMap
        (fun k => roundMatches uuid k (some p0)
          (rotateLastToFront^[k] (rest.map some ++ if rest.length % 2 = 0 then [none] else []))
          (((rest.map some ++ if rest.length % 2 = 0 then [none] else []).length + 1) / 2)) := by
  unfold generateRoundRobinSchedule
  have h2 : ¬ ((p0 :: rest).length < 2) := by simp only [List.length_cons]; omega
  rw [if_neg h2]
  simp only [roundsLoop_eq, List.flatMap_map, Nat.zero_add]
  by_cases hodd : rest.length % 2 = 0
  · have h1 : (rest.length + 1) % 2 = 1 := by omega
    simp only [List.length_cons, h1, hodd, if_true, List.map_cons, List.cons_append,
      List.drop_succ_cons, List.drop_zero, List.getD_cons_zero, nameAt, Nat.add_sub_cancel]
  · have h1 : ¬ ((rest.length + 1) % 2 = 1) := by omega
    simp only [List.length_cons, h1, hodd, if_false, List.map_cons, List.drop_succ_cons,
      List.drop_zero, List.getD_cons_zero, nameAt, Nat.add_sub_cancel, List.append_nil]

theorem rotating_index_of_mem (rest : List String) (extra : List (Option String)) (a : String)
    (ha : a ∈ rest) :
    ∃ x : Nat, (rest.map some ++ extra : List (Option String))[x]? = some (some a) := by
  obtain ⟨x, hx⟩ := List.mem_iff_getElem?.mp ha
  refine ⟨x, ?_⟩
  have hxl : x < rest.length := by
    by_contra hcon
    rw [List.getElem?_eq_none (by omega)] at hx
    exact Option.noConfusion hx
  rw [List.getElem?_append_left (by simpa using hxl), List.getElem?_map, hx]
  rfl

theorem rotating_nodup (rest : List String) (hnd : rest.Nodup) :
    (rest.map some ++ if rest.length % 2 = 0 then [none] else []).Nodup := by
  have h1 : (rest.map (some : String → Option String)).Nodup :=
    hnd.map (Option.some_injective String)
  split_ifs
  · rw [List.nodup_append]
    refine ⟨h1, List.nodup_singleton _, ?_⟩
    intro e he he'
    rw [List.mem_singleton] at he'
    subst he'
    simp at he
  · simpa using h1

/-- The count `n * (n - 1) / 2` written with the number of rounds and the half size. -/
theorem pair_count_even (n : Nat) (hn : n % 2 = 0) : (n - 1) * (n / 2) = n * (n - 1) / 2 := by
  obtain ⟨c, rfl⟩ : ∃ c, n = 2 * c := ⟨n / 2, by omega⟩
  rw [Nat.mul_div_cancel_left c (by omega), Nat.mul_assoc, Nat.mul_div_cancel_left _ (by omega),
    Nat.mul_comm]

theorem pair_count_odd (n : Nat) (hn : n % 2 = 1) :
    n * ((n + 1) / 2 - 1) = n * (n - 1) / 2 := by
  obtain ⟨c, rfl⟩ : ∃ c, n = 2 * c + 1 := ⟨n / 2, by omega⟩
  have h1 : (2 * c + 1 + 1) / 2 - 1 = c := by omega
  have h2 : (2 * c + 1) * (2 * c + 1 - 1) = 2 * ((2 * c + 1) * c) := by
    rw [Nat.add_sub_cancel]; ring
  rw [h1, h2, Nat.mul_div_cancel_left _ (by omega)]

/-- C1: for every roster of `n` distinct (non-null) players the flattened match list of
`generateRoundRobinSchedule` has exactly `n * (n - 1) / 2` entries, every unordered pair of
distinct roster players is the pair of exactly one match, and for `n < 2` the schedule is
empty. -/
theorem C1_round_robin_pairs_once (uuid : Nat → Nat → String) (players : List String)
    (hnd : players.Nodup) :
    (generateRoundRobinSchedule uuid players).matchList.length =
        players.length * (players.length - 1) / 2 ∧
      (∀ a ∈ players, ∀ b ∈ players, a ≠ b →
        (generateRoundRobinSchedule uuid players).matchList.countP (Match.isBetween a b) = 1) ∧
      (players.length < 2 →
        generateRoundRobinSchedule uuid players = { rounds := [], matchList := [] }) := by
  have hsmall : players.length < 2 →
      generateRoundRobinSchedule uuid players = { rounds := [], matchList := [] } := by
    intro h
    unfold generateRoundRobinSchedule
    rw [if_pos h]
  by_cases hlt : players.length < 2
  · refine ⟨?_, ?_, hsmall⟩
    · rw [hsmall hlt]
      have : players.length = 0 ∨ players.length = 1 := by omega
      rcases this with h | h <;> simp [h]
    · intro a ha b hb hab
      exfalso
      rcases players with _ | ⟨p, _ | ⟨q, t⟩⟩
      · simp at ha
      · rw [List.mem_singleton] at ha hb
        exact hab (ha.trans hb.symm)
      · simp only [List.length_cons] at hlt
        omega
  · refine ⟨?_, ?_, fun h => absurd h hlt⟩
    all_goals
      obtain ⟨p0, rest, rfl⟩ : ∃ p0 rest, players = p0 :: rest := by
        cases players with
        | nil => simp at hlt
        | cons p0 rest => exact ⟨p0, rest, rfl⟩
      have hrest : 1 ≤ rest.length := by simp only [List.length_cons] at hlt; omega
      have hp0 : p0 ∉ rest := (List.nodup_cons.mp hnd).1
      have hrnd : rest.Nodup := (List.nodup_cons.mp hnd).2
      rw [schedule_matchList uuid p0 rest hrest]
      have hrot := rotating_nodup rest hrnd
      have hnotin : some p0 ∉ (rest.map some ++ if rest.length % 2 = 0 then [none] else []) := by
        intro hcon
        rw [List.mem_append] at hcon
        rcases hcon with h | h
        · rw [List.mem_map] at h
          obtain ⟨q, hq, hqe⟩ := h
          exact hp0 (Option.some.inj hqe ▸ hq)
        · split_ifs at h <;> simp at h
      have hL : (rest.map some ++ if rest.length % 2 = 0 then [none] else []).length + 1 =
          2 * (((rest.map some ++ if rest.length % 2 = 0 then [none] else []).length + 1) / 2) := by
        split_ifs with hpar
        · simp only [List.length_append, List.length_map, List.length_singleton]; omega
        · simp only [List.append_nil, List.length_map]; omega
    · -- the number of matches
      rw [List.length_flatMap]
      by_cases hpar : rest.length % 2 = 0
      · have hz : (rest.map some ++ if rest.length % 2 = 0 then [none] else [])[rest.length]? =
            some none := by
          rw [if_pos hpar, List.getElem?_append_right (by simp)]
          simp
        refine (sum_map_eq_mul _ _ _
          (fun k _ => round_length_bye uuid p0 _ _ hL hrot _ hz k)).trans ?_
        simp only [List.length_range, if_pos hpar, List.length_append, List.length_map,
          List.length_singleton, List.length_cons, Nat.add_sub_cancel]
        exact pair_count_odd (rest.length + 1) (by omega)
      · have hfull : ∀ e ∈ (rest.map some ++ if rest.length % 2 = 0 then [none] else []),
            e ≠ none := by
          intro e he
          rw [if_neg hpar, List.append_nil, List.mem_map] at he
          obtain ⟨q, -, rfl⟩ := he
          simp
        refine (sum_map_eq_mul _ _ _
          (fun k _ => round_length_full uuid p0 _ _ hL hfull k)).trans ?_
        simp only [List.length_range, if_neg hpar, List.append_nil, List.length_map,
          List.length_cons, Nat.add_sub_cancel]
        have := pair_count_even (rest.length + 1) (by omega)
        simpa using this
    · -- every pair once
      intro a ha b hb hab
      rw [flatMap_roundMatches _ _ _ _ _ (by omega)]
      rw [List.mem_cons] at ha hb
      rcases ha with rfl | ha <;> rcases hb with rfl | hb
      · exact absurd rfl hab
      · obtain ⟨y, hy⟩ := rotating_index_of_mem rest _ b hb
        exact circle_count_first uuid a _ _ hL hrot hnotin b y hy
      · obtain ⟨x, hx⟩ := rotating_index_of_mem rest _ a ha
        have hcomm : Match.isBetween a b = Match.isBetween b a := by
          funext m; exact isBetween_comm a b m
        rw [hcomm]
        exact circle_count_first uuid b _ _ hL hrot hnotin a x hx
      · obtain ⟨x, hx⟩ := rotating_index_of_mem rest _ a ha
        obtain ⟨y, hy⟩ := rotating_index_of_mem rest _ b hb
        have hxy : x ≠ y := by
          rintro rfl
          rw [hx] at hy
          exact hab (Option.some.inj (Option.some.inj hy))
        exact circle_count_fold uuid p0 _ _ hL hrot hnotin a b x y hx hy hxy

/-- Witness for C1: the roster of five players `A` to `E`. -/
theorem C1_round_robin_pairs_once_witness :
    (generateRoundRobinSchedule (fun _ _ => "id") ["A", "B", "C", "D", "E"]).matchList.length =
        ["A", "B", "C", "D", "E"].length * (["A", "B", "C", "D", "E"].length - 1) / 2 ∧
      (∀ a ∈ ["A", "B", "C", "D", "E"], ∀ b ∈ ["A", "B", "C", "D", "E"], a ≠ b →
        (generateRoundRobinSchedule (fun _ _ => "id")
          ["A", "B", "C", "D", "E"]).matchList.countP (Match.isBetween a b) = 1) ∧
      (["A", "B", "C", "D", "E"].length < 2 →
        generateRoundRobinSchedule (fun _ _ => "id") ["A", "B", "C", "D", "E"] =
          { rounds := [], matchList := [] }) :=
  C1_round_robin_pairs_once (fun _ _ => "id") ["A", "B", "C", "D", "E"] (by decide)

/-! ### Round robin: the rounds of the schedule -/

/-- The rounds of the schedule of a roster `p0 :: rest` with at least two players. -/
theorem schedule_rounds (uuid : Nat → Nat → String) (p0 : String) (rest : List String)
    (hrest : 1 ≤ rest.length) :
    (generateRoundRobinSchedule uuid (p0 :: rest)).rounds =
      (List.range (rest.map some ++ if rest.length % 2 = 0 then [none] else []).length).map
        (fun k =>
          { number := k + 1,
            matchList :=
              roundMatches uuid k (some p0)
                (rotateLastToFront^[k]
                  (rest.map some ++ if rest.length % 2 = 0 then [none] else []))
                (((rest.map some ++ if rest.length % 2 = 0 then [none] else []).length + 1) /
                  2) }) := by
  unfold generateRoundRobinSchedule
  have h2 : ¬ ((p0 :: rest).length < 2) := by simp only [List.length_cons]; omega
  rw [if_neg h2]
  simp only [roundsLoop_eq, Nat.zero_add]
  by_cases hodd : rest.length % 2 = 0
  · have h1 : (rest.length + 1) % 2 = 1 := by omega
    simp only [List.length_cons, h1, hodd, if_true, List.map_cons, List.cons_append,
      List.drop_succ_cons, List.drop_zero, List.getD_cons_zero, nameAt, Nat.add_sub_cancel]
  · have h1 : ¬ ((rest.length + 1) % 2 = 1) := by omega
    simp only [List.length_cons, h1, hodd, if_false, List.map_cons, List.drop_succ_cons,
      List.drop_zero, List.getD_cons_zero, nameAt, Nat.add_sub_cancel, List.append_nil]

theorem nameAt_mem (l : List (Option String)) (i : Nat) (hi : i < l.length) :
    nameAt l i ∈ l := by
  unfold nameAt
  rw [List.getD_eq_getElem _ _ hi]
  exact List.getElem_mem hi

theorem nameAt_inj (l : List (Option String)) (hnd : l.Nodup) (i j : Nat) (hi : i < l.length)
    (hj : j < l.length) (h : nameAt l i = nameAt l j) : i = j := by
  unfold nameAt at h
  rw [List.getD_eq_getElem _ _ hi, List.getD_eq_getElem _ _ hj] at h
  exact (hnd.getElem_inj_iff).mp h

/-- The participants of the slots of one round are all different: the fixed participant
and the entries of `rotating` at the indices `0`, and `i`, `rotating.length - i` for
`1 ≤ i < halfSize`. -/
theorem slots_nodup (first : Option String) (rotating : List (Option String))
    (halfSize : Nat) (hL : rotating.length + 1 = 2 * halfSize) (hnd : rotating.Nodup)
    (hfirst : first ∉ rotating) :
    ((List.range halfSize).flatMap (fun i =>
      [(slotPair first rotating i).1, (slotPair first rotating i).2])).Nodup := by
  rw [List.nodup_flatMap]
  constructor
  · intro i hi
    rw [List.mem_range] at hi
    by_cases hi0 : i = 0
    · subst hi0
      simp only [slotPair, if_true, List.nodup_cons, List.mem_singleton, List.not_mem_nil,
        not_false_eq_true, List.nodup_nil, and_true]
      intro hcon
      exact hfirst (hcon ▸ nameAt_mem rotating 0 (by omega))
    · simp only [slotPair, hi0, if_false, List.nodup_cons, List.mem_singleton,
        List.not_mem_nil, not_false_eq_true, List.nodup_nil, and_true]
      intro hcon
      have := nameAt_inj rotating hnd _ _ (by omega) (by omega) hcon
      omega
  · refine List.Pairwise.imp_of_mem ?_ (List.pairwise_lt_range halfSize)
    intro a b ha hb hab
    rw [List.mem_range] at ha hb
    have hb0 : b ≠ 0 := by omega
    intro x hxa hxb
    simp only [slotPair, hb0, if_false, List.mem_cons, List.not_mem_nil, or_false] at hxb
    by_cases ha0 : a = 0
    · subst ha0
      simp only [slotPair, if_true, List.mem_cons, List.not_mem_nil, or_false] at hxa
      rcases hxa with rfl | rfl
      · rcases hxb with h | h
        · exact hfirst (h ▸ nameAt_mem rotating b (by omega))
        · exact hfirst (h ▸ nameAt_mem rotating _ (by omega))
      · rcases hxb with h | h
        · have := nameAt_inj rotating hnd _ _ (by omega) (by omega) h
          omega
        · have := nameAt_inj rotating hnd _ _ (by omega) (by omega) h
          omega
    · simp only [slotPair, ha0, if_false, List.mem_cons, List.not_mem_nil, or_false] at hxa
      rcases hxa with rfl | rfl <;> rcases hxb with h | h
      all_goals
        have := nameAt_inj rotating hnd _ _ (by omega) (by omega) h
        omega

theorem flatMap_sublist {α β : Type} (l : List α) (f g : α → List β)
    (h : ∀ a ∈ l, (f a).Sublist (g a)) : (l.flatMap f).Sublist (l.flatMap g) := by
  induction l with
  | nil => exact List.Sublist.refl _
  | cons a l ih =>
    rw [List.flatMap_cons, List.flatMap_cons]
    exact (h a (List.mem_cons_self _ _)).append
      (ih (fun b hb => h b (List.mem_cons_of_mem _ hb)))

/-- Within one round no name is used twice, and every match has two names of the
participants. -/
theorem roundMatches_names (uuid : Nat → Nat → String) (round : Nat) (first : Option String)
    (rotating : List (Option String)) (halfSize : Nat)
    (hL : rotating.length + 1 = 2 * halfSize) (hnd : rotating.Nodup)
    (hfirst : first ∉ rotating) :
    ((roundMatches uuid round first rotating halfSize).flatMap
        (fun m => m.player1.toList ++ m.player2.toList)).Nodup ∧
      ∀ m ∈ roundMatches uuid round first rotating halfSize,
        ∃ a b, m.player1 = some a ∧ m.player2 = some b ∧
          (some a = first ∨ some a ∈ rotating) ∧ some b ∈ rotating := by
  have hh : 1 ≤ halfSize := by omega
  rw [roundMatches_eq_filterMap _ _ _ _ _ hh]
  constructor
  · apply List.Nodup.of_map some
    have hsub : (((List.range halfSize).filterMap (slotMatch uuid round first rotating)).flatMap
        (fun m => m.player1.toList ++ m.player2.toList)).map some =
        (List.range halfSize).flatMap (fun i =>
          match slotMatch uuid round first rotating i with
          | some m => (m.player1.toList ++ m.player2.toList).map some
          | none => []) := by
      generalize List.range halfSize = ks
      induction ks with
      | nil => rfl
      | cons k ks ih =>
        rw [List.filterMap_cons, List.flatMap_cons]
        cases hk : slotMatch uuid round first rotating k with
        | none => simpa using ih
        | some m =>
          rw [List.flatMap_cons, List.map_append, ih]
    rw [hsub]
    refine (flatMap_sublist _ _ _ ?_).nodup (slots_nodup first rotating halfSize hL hnd hfirst)
    intro i _
    unfold slotMatch
    split_ifs with hc
    · obtain ⟨h1, h2⟩ := hc
      obtain ⟨a, ha⟩ := Option.ne_none_iff_exists'.mp h1
      obtain ⟨b, hb⟩ := Option.ne_none_iff_exists'.mp h2
      simp only [newMatch, ha, hb, Option.toList_some, List.singleton_append, List.map_cons,
        List.map_nil]
      exact List.Sublist.refl _
    · exact List.nil_sublist _
  · intro m hm
    rw [List.mem_filterMap] at hm
    obtain ⟨i, hi, hsm⟩ := hm
    rw [List.mem_range] at hi
    unfold slotMatch at hsm
    split_ifs at hsm with hc
    obtain ⟨h1, h2⟩ := hc
    obtain ⟨a, ha⟩ := Option.ne_none_iff_exists'.mp h1
    obtain ⟨b, hb⟩ := Option.ne_none_iff_exists'.mp h2
    rw [Option.some.injEq] at hsm
    subst hsm
    refine ⟨a, b, ha, hb, ?_, ?_⟩
    · rw [← ha]
      by_cases hi0 : i = 0
      · left; simp [slotPair, hi0]
      · right
        simp only [slotPair, hi0, if_false]
        exact nameAt_mem rotating i (by omega)
    · rw [← hb]
      by_cases hi0 : i = 0
      · simp only [slotPair, hi0, if_true]
        exact nameAt_mem rotating 0 (by omega)
      · simp only [slotPair, hi0, if_false]
        exact nameAt_mem rotating _ (by omega)

/-- C26. For a roster of `n >= 2` distinct players, `generateRoundRobinSchedule` returns
`n - 1` rounds when `n` is even and `n` rounds when `n` is odd; in each round no player
appears in more than one match, every match is between two players of the roster, and the
round has exactly `floor(n / 2)` matches (so with `n` odd exactly one player sits out). -/
theorem C26_rounds_pair_everyone_at_most_once (uuid : Nat → Nat → String)
    (players : List String) (hn : 2 ≤ players.length) (hnd : players.Nodup) :
    (generateRoundRobinSchedule uuid players).rounds.length =
        (if players.length % 2 = 0 then players.length - 1 else players.length) ∧
      ∀ r ∈ (generateRoundRobinSchedule uuid players).rounds,
        (r.matchList.flatMap (fun m => m.player1.toList ++ m.player2.toList)).Nodup ∧
        (∀ m ∈ r.matchList, ∃ a ∈ players, ∃ b ∈ players,
          m.player1 = some a ∧ m.player2 = some b) ∧
        r.matchList.length = players.length / 2 := by
  obtain ⟨p0, rest, rfl⟩ : ∃ p0 rest, players = p0 :: rest := by
    cases players with
    | nil => simp at hn
    | cons p0 rest => exact ⟨p0, rest, rfl⟩
  have hrest : 1 ≤ rest.length := by simp only [List.length_cons] at hn; omega
  have hp0 : p0 ∉ rest := (List.nodup_cons.mp hnd).1
  have hrnd : rest.Nodup := (List.nodup_cons.mp hnd).2
  rw [schedule_rounds uuid p0 rest hrest]
  have hrot := rotating_nodup rest hrnd
  have hmemR : ∀ a : String,
      some a ∈ (rest.map some ++ if rest.length % 2 = 0 then [none] else []) → a ∈ rest := by
    intro a hcon
    rw [List.mem_append] at hcon
    rcases hcon with h | h
    · rw [List.mem_map] at h
      obtain ⟨q, hq, hqe⟩ := h
      exact Option.some.inj hqe ▸ hq
    · split_ifs at h <;> simp at h
  have hnotin : some p0 ∉ (rest.map some ++ if rest.length % 2 = 0 then [none] else []) :=
    fun hcon => hp0 (hmemR p0 hcon)
  have hL : (rest.map some ++ if rest.length % 2 = 0 then [none] else []).length + 1 =
      2 * (((rest.map some ++ if rest.length % 2 = 0 then [none] else []).length + 1) / 2) := by
    split_ifs with hpar
    · simp only [List.length_append, List.length_map, List.length_singleton]; omega
    · simp only [List.append_nil, List.length_map]; omega
  constructor
  · rw [List.length_map, List.length_range]
    by_cases hpar : rest.length % 2 = 0
    · have h1 : ¬ (rest.length + 1) % 2 = 0 := by omega
      simp only [if_pos hpar, List.length_append, List.length_map, List.length_singleton,
        List.length_cons, List.length_nil, if_neg h1]
    · have h1 : (rest.length + 1) % 2 = 0 := by omega
      simp only [if_neg hpar, List.append_nil, List.length_map, List.length_cons, if_pos h1,
        Nat.add_sub_cancel]
  · intro r hr
    rw [List.mem_map] at hr
    obtain ⟨k, -, rfl⟩ := hr
    have hperm := rotations_perm (rest.map some ++ if rest.length % 2 = 0 then [none] else []) k
    obtain ⟨hno, hroster⟩ := roundMatches_names uuid k (some p0)
      (rotateLastToFront^[k] (rest.map some ++ if rest.length % 2 = 0 then [none] else []))
      (((rest.map some ++ if rest.length % 2 = 0 then [none] else []).length + 1) / 2)
      (by rw [rotations_length]; exact hL) (hperm.nodup_iff.mpr hrot)
      (fun hcon => hnotin (hperm.mem_iff.mp hcon))
    refine ⟨hno, ?_, ?_⟩
    · intro m hm
      obtain ⟨a, b, h1, h2, ha, hb⟩ := hroster m hm
      refine ⟨a, ?_, b, ?_, h1, h2⟩
      · rcases ha with ha | ha
        · rw [Option.some.inj ha]
          exact List.mem_cons_self _ _
        · exact List.mem_cons_of_mem _ (hmemR a (hperm.mem_iff.mp ha))
      · exact List.mem_cons_of_mem _ (hmemR b (hperm.mem_iff.mp hb))
    · show (roundMatches uuid k (some p0) _ _).length = _
      by_cases hpar : rest.length % 2 = 0
      · have hz : (rest.map some ++ if rest.length % 2 = 0 then [none] else [])[rest.length]? =
            some none := by
          rw [if_pos hpar, List.getElem?_append_right (by simp)]
          simp
        rw [round_length_bye uuid p0 _ _ hL hrot _ hz k]
        simp only [if_pos hpar, List.length_append, List.length_map, List.length_singleton,
          List.length_cons, List.length_nil]
        omega
      · have hfull : ∀ e ∈ (rest.map some ++ if rest.length % 2 = 0 then [none] else []),
            e ≠ none := by
          intro e he
          rw [if_neg hpar, List.append_nil, List.mem_map] at he
          obtain ⟨q, -, rfl⟩ := he
          simp
        rw [round_length_full uuid p0 _ _ hL hfull k]
        simp only [if_neg hpar, List.append_nil, List.length_map, List.length_cons]

/-- Witness for C26: five players give five rounds of two matches, four players give three
rounds of two matches. -/
theorem C26_rounds_pair_everyone_at_most_once_witness :
    ((generateRoundRobinSchedule (fun _ _ => "id") ["A", "B", "C", "D", "E"]).rounds.length =
        (if ["A", "B", "C", "D", "E"].length % 2 = 0 then ["A", "B", "C", "D", "E"].length - 1
          else ["A", "B", "C", "D", "E"].length) ∧
      ∀ r ∈ (generateRoundRobinSchedule (fun _ _ => "id") ["A", "B", "C", "D", "E"]).rounds,
        (r.matchList.flatMap (fun m => m.player1.toList ++ m.player2.toList)).Nodup ∧
        (∀ m ∈ r.matchList, ∃ a ∈ ["A", "B", "C", "D", "E"], ∃ b ∈ ["A", "B", "C", "D", "E"],
          m.player1 = some a ∧ m.player2 = some b) ∧
        r.matchList.length = ["A", "B", "C", "D", "E"].length / 2) ∧
    (generateRoundRobinSchedule (fun _ _ => "id") ["A", "B", "C", "D", "E"]).rounds.map
      (fun r => r.matchList.map (fun m => (m.player1, m.player2))) =
      [[(some "A", some "B"), (some "D", some "E")],
       [(some "B", some "E"), (some "C", some "D")],
       [(some "A", some "E"), (some "B", some "C")],
       [(some "A", some "D"), (some "E", some "C")],
       [(some "A", some "C"), (some "D", some "B")]] :=
  ⟨C26_rounds_pair_everyone_at_most_once (fun _ _ => "id") ["A", "B", "C", "D", "E"]
    (by decide) (by decide), by decide⟩
/-! ### Ladder: a successful challenge swaps the two ranks -/

theorem sortedInsert_perm {α : Type} (cmp : α → α → Int) (x : α) (l : List α) :
    (sortedInsert cmp x l).Perm (x :: l) := by
  induction l with
  | nil => exact List.Perm.refl _
  | cons y ys ih =>
    unfold sortedInsert
    split_ifs
    · exact List.Perm.refl _
    · exact (List.Perm.cons y ih).trans (List.Perm.swap x y ys)

/-- Sorting rearranges, it neither adds nor drops. -/
theorem stableSort_perm {α : Type} (cmp : α → α → Int) (l : List α) :
    (stableSort cmp l).Perm l := by
  induction l with
  | nil => exact List.Perm.refl _
  | cons x xs ih =>
    unfold stableSort
    exact (sortedInsert_perm cmp x _).trans (List.Perm.cons x ih)

theorem swapRank_involutive (c d : Int) : Function.Involutive (swapRank c d) := by
  intro r
  unfold swapRank
  split_ifs <;> simp_all

theorem swapRank_mem (c d : Int) (l : List Int) (hc : c ∈ l) (hd : d ∈ l) (r : Int) :
    swapRank c d r ∈ l ↔ r ∈ l := by
  unfold swapRank
  split_ifs with h1 h2
  · subst h1; exact ⟨fun _ => hc, fun _ => hd⟩
  · subst h2; exact ⟨fun _ => hd, fun _ => hc⟩
  · exact Iff.rfl

/-- Exchanging two ranks that are both present keeps the ranks a rearrangement of what they
were. -/
theorem map_swapRank_perm (c d : Int) (l : List Int) (hnd : l.Nodup) (hc : c ∈ l)
    (hd : d ∈ l) : (l.map (swapRank c d)).Perm l := by
  rw [List.perm_iff_count]
  intro r
  have hinj := (swapRank_involutive c d).injective
  have h1 : List.count r (l.map (swapRank c d)) = List.count (swapRank c d r) l := by
    conv_lhs => rw [← swapRank_involutive c d r]
    exact List.count_map_of_injective l _ hinj _
  rw [h1, List.count_eq_of_nodup hnd, List.count_eq_of_nodup hnd]
  simp only [swapRank_mem c d l hc hd r]

theorem findIdx?_rank (ladder : List LadderEntry) (c : Int)
    (hnd : (ladder.map (fun e => e.rank)).Nodup) (hc : c ∈ ladder.map (fun e => e.rank)) :
    ∃ i, ladder.findIdx? (fun p => p.rank = c) = some i ∧
      ∀ j e, ladder[j]? = some e → (e.rank = c ↔ j = i) := by
  obtain ⟨e0, he0, hr0⟩ := List.mem_map.mp hc
  have hex : ∃ x, x ∈ ladder ∧ (fun p : LadderEntry => decide (p.rank = c)) x = true :=
    ⟨e0, he0, by simpa using hr0⟩
  refine ⟨_, List.findIdx?_eq_some_of_exists hex, ?_⟩
  have hlt := List.findIdx_lt_length_of_exists hex
  have hp := List.findIdx_getElem (w := hlt)
  simp only [decide_eq_true_eq] at hp
  intro j e hj
  obtain ⟨hjl, hje⟩ := List.getElem?_eq_some_iff.mp hj
  constructor
  · intro hrank
    have hj2 : j < (ladder.map (fun e => e.rank)).length := by simpa using hjl
    have hi2 : List.findIdx (fun p => decide (p.rank = c)) ladder <
        (ladder.map (fun e => e.rank)).length := by simpa using hlt
    have h1 : (ladder.map (fun e => e.rank))[j] =
        (ladder.map (fun e => e.rank))[List.findIdx (fun p => decide (p.rank = c)) ladder] := by
      simp only [List.getElem_map, hje, hrank, hp]
    exact (hnd.getElem_inj_iff).mp h1
  · rintro rfl
    rw [← hje]; exact hp

/-- C6: for every ladder whose ranks are a permutation of `1..N` and every pair of ranks
`c`, `d` present in it, `processChallenge(ladder, c, d, true)` returns a ladder in which
the entry that held rank `c` holds rank `d`, the entry that held rank `d` holds rank `c`,
every other entry keeps its rank (the players with their ranks are those of the input
with `c` and `d` exchanged), and the ranks are still a permutation of `1..N`. -/
theorem C6_challenge_won_swaps_ranks (now : String) (ladder : List LadderEntry) (N : Nat)
    (c d : Int)
    (hperm : (ladder.map (fun e => e.rank)).Perm ((List.range' 1 N).map (fun (k : Nat) => (k : Int))))
    (hc : c ∈ ladder.map (fun e => e.rank)) (hd : d ∈ ladder.map (fun e => e.rank)) :
    ((processChallenge now ladder c d true).map (fun e => (e.player, e.rank))).Perm
        (ladder.map (fun e => (e.player, swapRank c d e.rank))) ∧
      ((processChallenge now ladder c d true).map (fun e => e.rank)).Perm
        ((List.range' 1 N).map (fun (k : Nat) => (k : Int))) := by
  have hnd : (ladder.map (fun e => e.rank)).Nodup := by
    rw [hperm.nodup_iff]
    exact (List.nodup_range' 1 N).map (fun a b h => by exact_mod_cast h)
  obtain ⟨ci, hci, hcu⟩ := findIdx?_rank ladder c hnd hc
  obtain ⟨di, hdi, hdu⟩ := findIdx?_rank ladder d hnd hd
  have hpairs : ((((ladder.modify (fun p =>
        { p with wins := p.wins + 1, challenges := p.challenges + 1,
                 lastActive := some now }) ci).modify (fun p =>
        { p with losses := p.losses + 1, defenses := p.defenses + 1,
                 lastActive := some now }) di).modify
        (fun p => { p with rank := d }) ci).modify
        (fun p => { p with rank := c }) di).map (fun e => (e.player, e.rank)) =
      ladder.map (fun e => (e.player, swapRank c d e.rank)) := by
    apply List.ext_getElem?
    intro j
    simp only [List.getElem?_map, List.getElem?_modify]
    cases hj : ladder[j]? with
    | none => simp
    | some e =>
      have h1 := hcu j e hj
      have h2 := hdu j e hj
      simp only [Option.map_eq_map, Option.map_some', Option.some.injEq, Prod.mk.injEq]
      unfold swapRank
      by_cases hjc : ci = j <;> by_cases hjd : di = j
      · have e1 : e.rank = c := h1.mpr hjc.symm
        have e2 : e.rank = d := h2.mpr hjd.symm
        simp [hjc, hjd, e1, ← e2]
      · have e1 : e.rank = c := h1.mpr hjc.symm
        simp [hjc, hjd, e1]
      · have e2 : e.rank = d := h2.mpr hjd.symm
        have e1 : ¬ e.rank = c := fun h => hjc (h1.mp h).symm
        simp [hjc, hjd, e2, e1]
        split_ifs with h
        · exact h.symm
        · rfl
      · have e1 : ¬ e.rank = c := fun h => hjc (h1.mp h).symm
        have e2 : ¬ e.rank = d := fun h => hjd (h2.mp h).symm
        simp [hjc, hjd, e1, e2]
  have hres : processChallenge now ladder c d true =
      stableSort (fun a b => a.rank - b.rank) ((((ladder.modify (fun p =>
        { p with wins := p.wins + 1, challenges := p.challenges + 1,
                 lastActive := some now }) ci).modify (fun p =>
        { p with losses := p.losses + 1, defenses := p.defenses + 1,
                 lastActive := some now }) di).modify
        (fun p => { p with rank := d }) ci).modify
        (fun p => { p with rank := c }) di) := by
    simp only [processChallenge, hci, hdi, if_true]
  have hfirst : ((processChallenge now ladder c d true).map (fun e => (e.player, e.rank))).Perm
      (ladder.map (fun e => (e.player, swapRank c d e.rank))) := by
    rw [hres, ← hpairs]
    exact (stableSort_perm _ _).map _
  refine ⟨hfirst, ?_⟩
  have h1 := hfirst.map Prod.snd
  simp only [List.map_map] at h1
  have h2 : (Prod.snd ∘ fun e : LadderEntry => (e.player, e.rank)) = fun e => e.rank := rfl
  have h3 : (Prod.snd ∘ fun e : LadderEntry => (e.player, swapRank c d e.rank)) =
      (swapRank c d) ∘ (fun e => e.rank) := rfl
  rw [h2, h3, ← List.map_map] at h1
  exact (h1.trans (map_swapRank_perm c d _ hnd hc hd)).trans hperm

/-- Witness for C6: rank 3 beats rank 1 on a ladder of four. -/
theorem C6_challenge_won_swaps_ranks_witness :
    ((processChallenge "t" (createLadder (fun i => i) ["A", "B", "C", "D"] false) 3 1 true).map
        (fun e => (e.player, e.rank))).Perm
        ((createLadder (fun i => i) ["A", "B", "C", "D"] false).map
          (fun e => (e.player, swapRank 3 1 e.rank))) ∧
      ((processChallenge "t" (createLadder (fun i => i) ["A", "B", "C", "D"] false) 3 1 true).map
        (fun e => e.rank)).Perm ((List.range' 1 4).map (fun (k : Nat) => (k : Int))) :=
  C6_challenge_won_swaps_ranks "t" (createLadder (fun i => i) ["A", "B", "C", "D"] false) 4 3 1
    (by decide) (by decide) (by decide)

/-! ### Round robin: standings -/

/-- Insertion by a comparator that is total and transitive keeps a list ordered. -/
theorem sortedInsert_pairwise {α : Type} (cmp : α → α → Int)
    (htotal : ∀ a b, cmp a b ≤ 0 ∨ cmp b a ≤ 0)
    (htrans : ∀ a b c, cmp a b ≤ 0 → cmp b c ≤ 0 → cmp a c ≤ 0) (x : α) (l : List α)
    (hl : l.Pairwise (fun a b => cmp a b ≤ 0)) :
    (sortedInsert cmp x l).Pairwise (fun a b => cmp a b ≤ 0) := by
  induction l with
  | nil => simp [sortedInsert]
  | cons y ys ih =>
    rw [List.pairwise_cons] at hl
    unfold sortedInsert
    split_ifs with h
    · rw [List.pairwise_cons]
      refine ⟨?_, List.pairwise_cons.mpr hl⟩
      intro z hz
      rcases List.mem_cons.mp hz with rfl | hz
      · exact h
      · exact htrans _ _ _ h (hl.1 z hz)
    · rw [List.pairwise_cons]
      refine ⟨?_, ih hl.2⟩
      intro z hz
      rcases List.mem_cons.mp ((sortedInsert_perm cmp x ys).mem_iff.mp hz) with rfl | hz
      · rcases htotal z y with h' | h'
        · exact absurd h' h
        · exact h'
      · exact hl.1 z hz

theorem stableSort_pairwise {α : Type} (cmp : α → α → Int)
    (htotal : ∀ a b, cmp a b ≤ 0 ∨ cmp b a ≤ 0)
    (htrans : ∀ a b c, cmp a b ≤ 0 → cmp b c ≤ 0 → cmp a c ≤ 0) (l : List α) :
    (stableSort cmp l).Pairwise (fun a b => cmp a b ≤ 0) := by
  induction l with
  | nil => simp [stableSort]
  | cons x xs ih => exact sortedInsert_pairwise cmp htotal htrans x _ ih

theorem standingsOrder_le_iff (a b : Standing) : standingsOrder a b ≤ 0 ↔ standsBefore a b := by
  unfold standingsOrder standsBefore
  split_ifs with h1 h2
  · constructor
    · intro h; left; omega
    · rintro (h | ⟨h, -⟩)
      · omega
      · exact absurd h h1
  · have e1 : b.wins = a.wins := by simpa using h1
    constructor
    · intro h; right; exact ⟨e1, Or.inl (by omega)⟩
    · rintro (h | ⟨-, h | ⟨h, -⟩⟩)
      · omega
      · omega
      · exact absurd h h2
  · have e1 : b.wins = a.wins := by simpa using h1
    have e2 : b.pointDiff = a.pointDiff := by simpa using h2
    constructor
    · intro h; right; exact ⟨e1, Or.inr ⟨e2, by omega⟩⟩
    · rintro (h | ⟨-, h | ⟨-, h⟩⟩) <;> omega

theorem standsBefore_total (a b : Standing) : standsBefore a b ∨ standsBefore b a := by
  unfold standsBefore
  omega

theorem standsBefore_trans (a b c : Standing) (h1 : standsBefore a b) (h2 : standsBefore b c) :
    standsBefore a c := by
  unfold standsBefore at *
  omega

/-- The loop `players.forEach(...)` on a roster of distinct names creates one entry per
player, in roster order. -/
theorem initial_stats (zero : String → Standing) (players : List String) :
    ∀ acc : List (String × Standing), players.Nodup →
      (∀ p ∈ players, ∀ e ∈ acc, e.1 ≠ p) →
      players.foldl (fun stats player => setStat stats player (zero player)) acc =
        acc ++ players.map (fun p => (p, zero p)) := by
  induction players with
  | nil => intro acc _ _; simp
  | cons p rest ih =>
    intro acc hnd hacc
    rw [List.nodup_cons] at hnd
    have hnew : setStat acc p (zero p) = acc ++ [(p, zero p)] := by
      unfold setStat
      rw [if_neg]
      simp only [List.any_eq_true, decide_eq_true_eq, not_exists, not_and]
      intro e he
      exact hacc p (List.mem_cons_self _ _) e he
    rw [List.foldl_cons, hnew, ih _ hnd.2]
    · simp
    · intro q hq e he
      rcases List.mem_append.mp he with h | h
      · exact hacc q (List.mem_cons_of_mem _ hq) e h
      · rw [List.mem_singleton] at h
        subst h
        intro hcon
        have hpq : p = q := hcon
        exact hnd.1 (hpq ▸ hq)

theorem tallyMatch_eq_map (stats : List (String × Standing)) (m : Match) :
    tallyMatch stats m = stats.map (fun e => (e.1, tallyEntry m e.1 e.2)) := by
  unfold tallyMatch tallyEntry
  split_ifs with hc
  · simp only [updateStat, List.map_map]
    apply List.map_congr_left
    intro e _
    obtain ⟨k, s⟩ := e
    simp only [Function.comp]
    by_cases h1 : k = keyOf m.player1
    · subst h1
      by_cases h2 : keyOf m.player1 = keyOf m.player2
      · simp [h2]
      · simp [h2, Ne.symm h2]
    · by_cases h2 : k = keyOf m.player2
      · subst h2
        simp [h1, Ne.symm h1]
      · simp [h1, h2, Ne.symm h1, Ne.symm h2]
  · simp

/-- The loop `matches.forEach(...)`, entry by entry. -/
theorem tally_fold (ms : List Match) :
    ∀ stats : List (String × Standing),
      ms.foldl tallyMatch stats =
        stats.map (fun e => (e.1, ms.foldl (fun s m => tallyEntry m e.1 s) e.2)) := by
  induction ms with
  | nil => intro stats; simp
  | cons m rest ih =>
    intro stats
    rw [List.foldl_cons, ih, tallyMatch_eq_map, List.map_map]
    rfl

theorem winsOf_cons (key : String) (m : Match) (ms : List Match) :
    winsOf key (m :: ms) =
      winsOf key ms +
        ((if keyOf m.player1 = key ∧ m.winner = some "player1" then 1 else 0) +
          (if keyOf m.player2 = key ∧ m.winner = some "player2" then 1 else 0)) := by
  unfold winsOf
  simp only [List.countP_cons, Bool.and_eq_true, decide_eq_true_eq]
  push_cast
  split_ifs <;> omega

theorem pointsForOf_cons (key : String) (m : Match) (ms : List Match) :
    pointsForOf key (m :: ms) =
      pointsForOf key ms +
        ((if keyOf m.player1 = key then orZero m.score1 else 0) +
          (if keyOf m.player2 = key then orZero m.score2 else 0)) := by
  unfold pointsForOf
  rw [List.map_cons, List.sum_cons]
  omega

theorem pointsAgainstOf_cons (key : String) (m : Match) (ms : List Match) :
    pointsAgainstOf key (m :: ms) =
      pointsAgainstOf key ms +
        ((if keyOf m.player1 = key then orZero m.score2 else 0) +
          (if keyOf m.player2 = key then orZero m.score1 else 0)) := by
  unfold pointsAgainstOf
  rw [List.map_cons, List.sum_cons]
  omega

theorem tallyEntry_wins (m : Match) (key : String) (s : Standing) (hc : m.completed = true) :
    (tallyEntry m key s).wins =
      s.wins + ((if keyOf m.player1 = key ∧ m.winner = some "player1" then 1 else 0) +
        (if keyOf m.player2 = key ∧ m.winner = some "player2" then 1 else 0)) := by
  unfold tallyEntry
  rw [if_pos hc]
  by_cases k1 : keyOf m.player1 = key <;> by_cases k2 : keyOf m.player2 = key <;>
    by_cases w1 : m.winner = some "player1" <;> by_cases w2 : m.winner = some "player2" <;>
    simp [k1, k2, w1, w2, tallyFirst, tallySecond]

theorem tallyEntry_pointsFor (m : Match) (key : String) (s : Standing)
    (hc : m.completed = true) :
    (tallyEntry m key s).pointsFor =
      s.pointsFor + ((if keyOf m.player1 = key then orZero m.score1 else 0) +
        (if keyOf m.player2 = key then orZero m.score2 else 0)) := by
  unfold tallyEntry
  rw [if_pos hc]
  by_cases k1 : keyOf m.player1 = key <;> by_cases k2 : keyOf m.player2 = key <;>
    (simp only [k1, k2, if_true, if_false, tallyFirst, tallySecond]; omega)

theorem tallyEntry_pointsAgainst (m : Match) (key : String) (s : Standing)
    (hc : m.completed = true) :
    (tallyEntry m key s).pointsAgainst =
      s.pointsAgainst + ((if keyOf m.player1 = key then orZero m.score2 else 0) +
        (if keyOf m.player2 = key then orZero m.score1 else 0)) := by
  unfold tallyEntry
  rw [if_pos hc]
  by_cases k1 : keyOf m.player1 = key <;> by_cases k2 : keyOf m.player2 = key <;>
    (simp only [k1, k2, if_true, if_false, tallyFirst, tallySecond]; omega)

theorem tallyEntry_player (m : Match) (key : String) (s : Standing) :
    (tallyEntry m key s).player = s.player := by
  unfold tallyEntry
  split_ifs <;> rfl

/-- The entry of a player after the loop over the matches: only completed matches
count. -/
theorem tally_fields (key : String) (ms : List Match) :
    ∀ s : Standing,
      (ms.foldl (fun s m => tallyEntry m key s) s).player = s.player ∧
      (ms.foldl (fun s m => tallyEntry m key s) s).wins =
        s.wins + winsOf key (ms.filter (fun m => m.completed)) ∧
      (ms.foldl (fun s m => tallyEntry m key s) s).pointsFor =
        s.pointsFor + pointsForOf key (ms.filter (fun m => m.completed)) ∧
      (ms.foldl (fun s m => tallyEntry m key s) s).pointsAgainst =
        s.pointsAgainst + pointsAgainstOf key (ms.filter (fun m => m.completed)) := by
  induction ms with
  | nil => intro s; simp [winsOf, pointsForOf, pointsAgainstOf]
  | cons m rest ih =>
    intro s
    rw [List.foldl_cons]
    obtain ⟨h1, h2, h3, h4⟩ := ih (tallyEntry m key s)
    rw [h1, h2, h3, h4, tallyEntry_player]
    by_cases hc : m.completed = true
    · rw [List.filter_cons, if_pos hc, winsOf_cons, pointsForOf_cons, pointsAgainstOf_cons,
        tallyEntry_wins m key s hc, tallyEntry_pointsFor m key s hc,
        tallyEntry_pointsAgainst m key s hc]
      refine ⟨rfl, ?_, ?_, ?_⟩ <;> omega
    · have hs : tallyEntry m key s = s := by
        unfold tallyEntry; rw [if_neg hc]
      rw [List.filter_cons, if_neg hc, hs]
      exact ⟨rfl, rfl, rfl, rfl⟩

/-- The values that `Object.values` lists are the values of the entries, in some
order. -/
theorem objectValues_perm (stats : List (String × Standing)) :
    (objectValues stats).Perm (stats.map (fun e => e.2)) := by
  unfold objectValues
  simp only
  refine ((((stableSort_perm _ _).map _).append_right _).trans ?_)
  induction stats with
  | nil => simp
  | cons e rest ih =>
    cases hk : arrayIndex? e.1 with
    | none =>
      simp only [List.filterMap_cons, hk, Option.map_none', List.filter_cons, Option.isNone_none,
        if_true, List.map_cons]
      exact List.perm_middle.trans (ih.cons _)
    | some n =>
      simp only [List.filterMap_cons, hk, Option.map_some', List.filter_cons,
        Option.isNone_some, List.map_cons, List.cons_append]
      exact ih.cons _

/-- C19: for every roster of distinct players and every match list with integer (or
missing) scores, the list returned by `calculateStandings` has one entry per roster
player, each with `wins`, `pointsFor` and `pointsAgainst` computed from the completed
matches only and `pointDiff = pointsFor - pointsAgainst`, and it is ordered by wins
descending, then `pointDiff` descending, then `pointsFor` descending. -/
theorem C19_standings_sorted_by_wins_diff_points (players : List String)
    (hnd : players.Nodup) (matchList : List Match) :
    (calculateStandings players matchList).Pairwise standsBefore ∧
      ((calculateStandings players matchList).map (fun s => s.player)).Perm players ∧
      ∀ s ∈ calculateStandings players matchList,
        s.wins = winsOf s.player (matchList.filter (fun m => m.completed)) ∧
        s.pointsFor = pointsForOf s.player (matchList.filter (fun m => m.completed)) ∧
        s.pointsAgainst = pointsAgainstOf s.player (matchList.filter (fun m => m.completed)) ∧
        s.pointDiff = s.pointsFor - s.pointsAgainst := by
  have hinit := initial_stats (fun player =>
    { player := player, played := 0, wins := 0, losses := 0, pointsFor := 0,
      pointsAgainst := 0, pointDiff := 0 }) players [] hnd (by simp)
  have hperm : (calculateStandings players matchList).Perm
      (players.map (fun p =>
        let s := matchList.foldl (fun s m => tallyEntry m p s)
          { player := p, played := 0, wins := 0, losses := 0, pointsFor := 0,
            pointsAgainst := 0, pointDiff := 0 }
        { s with pointDiff := s.pointsFor - s.pointsAgainst })) := by
    unfold calculateStandings
    simp only
    rw [hinit, tally_fold]
    refine (stableSort_perm _ _).trans ?_
    refine ((objectValues_perm _).map _).trans ?_
    simp only [List.nil_append, List.map_map]
    exact List.Perm.refl _
  have hmem : ∀ s ∈ calculateStandings players matchList,
      s.wins = winsOf s.player (matchList.filter (fun m => m.completed)) ∧
      s.pointsFor = pointsForOf s.player (matchList.filter (fun m => m.completed)) ∧
      s.pointsAgainst = pointsAgainstOf s.player (matchList.filter (fun m => m.completed)) ∧
      s.pointDiff = s.pointsFor - s.pointsAgainst := by
    intro s hs
    obtain ⟨p, -, rfl⟩ := List.mem_map.mp (hperm.mem_iff.mp hs)
    obtain ⟨h1, h2, h3, h4⟩ := tally_fields p matchList
      { player := p, played := 0, wins := 0, losses := 0, pointsFor := 0,
        pointsAgainst := 0, pointDiff := 0 }
    simp only at h1 h2 h3 h4 ⊢
    rw [h1, h2, h3, h4]
    simp
  refine ⟨?_, ?_, hmem⟩
  · have hsorted := stableSort_pairwise standingsOrder
      (fun a b => by
        rw [standingsOrder_le_iff, standingsOrder_le_iff]; exact standsBefore_total a b)
      (fun a b c h1 h2 => by
        rw [standingsOrder_le_iff] at h1 h2 ⊢; exact standsBefore_trans a b c h1 h2)
      ((objectValues (matchList.foldl tallyMatch
        (players.foldl (fun stats player =>
          setStat stats player
            { player := player, played := 0, wins := 0, losses := 0, pointsFor := 0,
              pointsAgainst := 0, pointDiff := 0 }) []))).map (fun s =>
        { s with pointDiff := s.pointsFor - s.pointsAgainst }))
    exact hsorted.imp (fun h => (standingsOrder_le_iff _ _).mp h)
  · refine (hperm.map _).trans ?_
    rw [List.map_map]
    have hid : players.map ((fun s : Standing => s.player) ∘ fun p =>
        let s := matchList.foldl (fun s m => tallyEntry m p s)
          { player := p, played := 0, wins := 0, losses := 0, pointsFor := 0,
            pointsAgainst := 0, pointDiff := 0 }
        { s with pointDiff := s.pointsFor - s.pointsAgainst }) = players := by
      conv_rhs => rw [← List.map_id players]
      apply List.map_congr_left
      intro p _
      exact (tally_fields p matchList _).1
    rw [hid]

/-- Witness for C19: three players; A beats B 3 to 1, B beats C 2 to 0, and the match
between A and C is not played yet. -/
theorem C19_standings_sorted_by_wins_diff_points_witness :
    ((calculateStandings ["A", "B", "C"]
        [{ id := "m1", round := 1, player1 := some "A", player2 := some "B", score1 := some 3,
           score2 := some 1, winner := some "player1", completed := true },
         { id := "m2", round := 2, player1 := some "B", player2 := some "C", score1 := some 2,
           score2 := some 0, winner := some "player1", completed := true },
         { id := "m3", round := 3, player1 := some "A", player2 := some "C", score1 := some 5,
           score2 := some 0, winner := none, completed := false }]).Pairwise standsBefore ∧
      ((calculateStandings ["A", "B", "C"]
        [{ id := "m1", round := 1, player1 := some "A", player2 := some "B", score1 := some 3,
           score2 := some 1, winner := some "player1", completed := true },
         { id := "m2", round := 2, player1 := some "B", player2 := some "C", score1 := some 2,
           score2 := some 0, winner := some "player1", completed := true },
         { id := "m3", round := 3, player1 := some "A", player2 := some "C", score1 := some 5,
           score2 := some 0, winner := none, completed := false }]).map
        (fun s => s.player)).Perm ["A", "B", "C"] ∧
      ∀ s ∈ calculateStandings ["A", "B", "C"]
        [{ id := "m1", round := 1, player1 := some "A", player2 := some "B", score1 := some 3,
           score2 := some 1, winner := some "player1", completed := true },
         { id := "m2", round := 2, player1 := some "B", player2 := some "C", score1 := some 2,
           score2 := some 0, winner := some "player1", completed := true },
         { id := "m3", round := 3, player1 := some "A", player2 := some "C", score1 := some 5,
           score2 := some 0, winner := none, completed := false }],
        s.wins = winsOf s.player
          (([{ id := "m1", round := 1, player1 := some "A", player2 := some "B",
               score1 := some 3, score2 := some 1, winner := some "player1", completed := true },
             { id := "m2", round := 2, player1 := some "B", player2 := some "C",
               score1 := some 2, score2 := some 0, winner := some "player1", completed := true },
             { id := "m3", round := 3, player1 := some "A", player2 := some "C",
               score1 := some 5, score2 := some 0, winner := none, completed := false }] :
            List Match).filter (fun m => m.completed)) ∧
        s.pointsFor = pointsForOf s.player
          (([{ id := "m1", round := 1, player1 := some "A", player2 := some "B",
               score1 := some 3, score2 := some 1, winner := some "player1", completed := true },
             { id := "m2", round := 2, player1 := some "B", player2 := some "C",
               score1 := some 2, score2 := some 0, winner := some "player1", completed := true },
             { id := "m3", round := 3, player1 := some "A", player2 := some "C",
               score1 := some 5, score2 := some 0, winner := none, completed := false }] :
            List Match).filter (fun m => m.completed)) ∧
        s.pointsAgainst = pointsAgainstOf s.player
          (([{ id := "m1", round := 1, player1 := some "A", player2 := some "B",
               score1 := some 3, score2 := some 1, winner := some "player1", completed := true },
             { id := "m2", round := 2, player1 := some "B", player2 := some "C",
               score1 := some 2, score2 := some 0, winner := some "player1", completed := true },
             { id := "m3", round := 3, player1 := some "A", player2 := some "C",
               score1 := some 5, score2 := some 0, winner := none, completed := false }] :
            List Match).filter (fun m => m.completed)) ∧
        s.pointDiff = s.pointsFor - s.pointsAgainst) ∧
    calculateStandings ["A", "B", "C"]
        [{ id := "m1", round := 1, player1 := some "A", player2 := some "B", score1 := some 3,
           score2 := some 1, winner := some "player1", completed := true },
         { id := "m2", round := 2, player1 := some "B", player2 := some "C", score1 := some 2,
           score2 := some 0, winner := some "player1", completed := true },
         { id := "m3", round := 3, player1 := some "A", player2 := some "C", score1 := some 5,
           score2 := some 0, winner := none, completed := false }] =
      [{ player := "A", played := 1, wins := 1, losses := 0, pointsFor := 3,
         pointsAgainst := 1, pointDiff := 2 },
       { player := "B", played := 2, wins := 1, losses := 1, pointsFor := 3,
         pointsAgainst := 3, pointDiff := 0 },
       { player := "C", played := 1, wins := 0, losses := 1, pointsFor := 0,
         pointsAgainst := 2, pointDiff := -2 }] :=
  ⟨C19_standings_sorted_by_wins_diff_points ["A", "B", "C"] (by decide) _, by decide⟩
/-! ### Round robin: head to head -/

theorem getHeadToHead_eq (ms : List Match) (a b : String) :
    getHeadToHead ms a b =
      match ms.find? (Match.isBetween a b) with
      | none => none
      | some m =>
        if !m.completed then none
        else if m.player1 = some a then
          (if m.winner = some "player1" then some a else some b)
        else
          (if m.winner = some "player2" then some a else some b) := rfl

theorem find?_isBetween (ms : List Match) (a b : String) (m : Match)
    (h : ms.find? (Match.isBetween a b) = some m) :
    (m.player1 = some a ∧ m.player2 = some b) ∨ (m.player1 = some b ∧ m.player2 = some a) := by
  have := List.find?_some h
  simpa [Match.isBetween] using this

/-- C20, amended: for every match list and players `a` and `b`, `getHeadToHead(matches, a,
b)` returns `null` when there is no match between `a` and `b` or the first such match is
not completed; when that match is completed with `winner` `'player1'` or `'player2'`, it
returns the name of the player who won it, and the result does not depend on the order of
the arguments `a` and `b`. -/
theorem C20_head_to_head_names_the_winner (ms : List Match) (a b : String) :
    (ms.find? (Match.isBetween a b) = none → getHeadToHead ms a b = none) ∧
      (∀ m, ms.find? (Match.isBetween a b) = some m →
        (m.completed = false → getHeadToHead ms a b = none) ∧
        (m.completed = true → m.winner = some "player1" →
          getHeadToHead ms a b = m.player1) ∧
        (m.completed = true → m.winner = some "player2" →
          getHeadToHead ms a b = m.player2)) ∧
      ((∀ m, ms.find? (Match.isBetween a b) = some m → m.completed = true →
          m.winner = some "player1" ∨ m.winner = some "player2") →
        getHeadToHead ms a b = getHeadToHead ms b a) := by
  have hcomm : Match.isBetween b a = Match.isBetween a b := by
    funext m; exact isBetween_comm b a m
  rw [getHeadToHead_eq ms a b, getHeadToHead_eq ms b a, hcomm]
  refine ⟨?_, ?_, ?_⟩
  · intro h; rw [h]
  · intro m hm
    have hbetween := find?_isBetween ms a b m hm
    rw [hm]
    refine ⟨?_, ?_, ?_⟩
    · intro hc; simp [hc]
    · intro hc hw
      rcases hbetween with ⟨h1, h2⟩ | ⟨h1, h2⟩
      · simp [hc, hw, h1]
      · by_cases hab : b = a
        · simp [hc, hw, h1, hab]
        · simp [hc, hw, h1, hab]
    · intro hc hw
      rcases hbetween with ⟨h1, h2⟩ | ⟨h1, h2⟩
      · simp [hc, hw, h1, h2]
      · by_cases hab : b = a
        · simp [hc, hw, h1, h2, hab]
        · simp [hc, hw, h1, h2, hab]
  · intro hwin
    cases hm : ms.find? (Match.isBetween a b) with
    | none => rfl
    | some m =>
      have hbetween := find?_isBetween ms a b m hm
      by_cases hc : m.completed = true
      · by_cases hab : b = a
        · subst hab; rfl
        · have hba : ¬ a = b := fun h => hab h.symm
          rcases hwin m hm hc with hw | hw <;> rcases hbetween with ⟨h1, h2⟩ | ⟨h1, h2⟩ <;>
            simp [hc, hw, h1, hab, hba]
      · simp [hc]

/-- Witness for C20: A has beaten B; asked either way round, the answer is A. -/
theorem C20_head_to_head_names_the_winner_witness :
    getHeadToHead
        [{ id := "m1", round := 1, player1 := some "A", player2 := some "B", score1 := some 3,
           score2 := some 1, winner := some "player1", completed := true }] "A" "B" =
      getHeadToHead
        [{ id := "m1", round := 1, player1 := some "A", player2 := some "B", score1 := some 3,
           score2 := some 1, winner := some "player1", completed := true }] "B" "A" :=
  (C20_head_to_head_names_the_winner
    [{ id := "m1", round := 1, player1 := some "A", player2 := some "B", score1 := some 3,
       score2 := some 1, winner := some "player1", completed := true }] "A" "B").2.2
    (by decide)

/-- C20 as stated fails for a completed match that nobody won: for a drawn match between
A and B the result is the second argument, so it names a player who did not win and it
depends on the order of the arguments. -/
theorem C20_drawn_match_names_second_argument :
    getHeadToHead
        [{ id := "m1", round := 1, player1 := some "A", player2 := some "B", score1 := some 2,
           score2 := some 2, winner := some "draw", completed := true }] "A" "B" = some "B" ∧
      getHeadToHead
        [{ id := "m1", round := 1, player1 := some "A", player2 := some "B", score1 := some 2,
           score2 := some 2, winner := some "draw", completed := true }] "B" "A" = some "A" := by
  decide
/-! ### Ladder: the targets of a challenge, and the tallies of the entries -/

/-- C21. `getAvailableTargets(ladder, challengerRank, maxRungs)` is the ladder filtered, in
ladder order, by `isValidChallenge(ladder, challengerRank, p.rank, maxRungs)`, and that
test holds exactly when `p.rank < challengerRank` and
`challengerRank - p.rank <= maxRungs`. -/
theorem C21_available_targets_are_the_valid_challenges (ladder : List LadderEntry)
    (challengerRank maxRungs : Int) :
    getAvailableTargets ladder challengerRank maxRungs =
        ladder.filter (fun p => isValidChallenge ladder challengerRank p.rank maxRungs) ∧
      ∀ p : LadderEntry, isValidChallenge ladder challengerRank p.rank maxRungs = true ↔
        (p.rank < challengerRank ∧ challengerRank - p.rank ≤ maxRungs) := by
  have key : ∀ p : LadderEntry, isValidChallenge ladder challengerRank p.rank maxRungs = true ↔
      (p.rank < challengerRank ∧ challengerRank - p.rank ≤ maxRungs) := by
    intro p
    unfold isValidChallenge
    by_cases h1 : p.rank ≥ challengerRank
    · rw [if_pos h1]
      exact ⟨fun h => Bool.noConfusion h, fun h => absurd h.1 (by omega)⟩
    · rw [if_neg h1]
      by_cases h2 : challengerRank - p.rank > maxRungs
      · rw [if_pos h2]
        exact ⟨fun h => Bool.noConfusion h, fun h => absurd h.2 (by omega)⟩
      · rw [if_neg h2]
        exact ⟨fun _ => ⟨by omega, by omega⟩, fun _ => rfl⟩
  refine ⟨?_, key⟩
  unfold getAvailableTargets
  apply List.filter_congr
  intro p _
  rw [Bool.eq_iff_iff, key p]
  simp

/-- Changing one entry in range adds to a sum over the entries what it adds to the
entry. -/
theorem sum_map_modify (g : LadderEntry → Int) (f : LadderEntry → LadderEntry) (d : Int)
    (hf : ∀ p, g (f p) = g p + d) :
    ∀ (l : List LadderEntry) (i : Nat), i < l.length →
      ((l.modify f i).map g).sum = (l.map g).sum + d
  | [], _, h => absurd h (Nat.not_lt_zero _)
  | a :: l, 0, _ => by
    simp only [List.modify_zero_cons, List.map_cons, List.sum_cons, hf]
    omega
  | a :: l, i + 1, h => by
    have ih := sum_map_modify g f d hf l i (Nat.lt_of_succ_lt_succ h)
    simp only [List.modify_succ_cons, List.map_cons, List.sum_cons, ih]
    omega

/-- Changing one entry leaves a sum over the entries alone when it leaves the summand of
the entry alone. -/
theorem sum_map_modify_same (g : LadderEntry → Int) (f : LadderEntry → LadderEntry)
    (hf : ∀ p, g (f p) = g p) (l : List LadderEntry) (i : Nat) :
    ((l.modify f i).map g).sum = (l.map g).sum := by
  congr 1
  apply List.ext_getElem?
  intro n
  simp only [List.getElem?_map, List.getElem?_modify]
  cases l[n]? with
  | none => rfl
  | some a => by_cases hn : i = n <;> simp [hn, hf]

/-- A property of the entries that the change keeps holds after the change. -/
theorem forall_mem_modify (P : LadderEntry → Prop) (f : LadderEntry → LadderEntry)
    (hf : ∀ p, P p → P (f p)) (l : List LadderEntry) (i : Nat) (h : ∀ e ∈ l, P e) :
    ∀ e ∈ l.modify f i, P e := by
  intro e he
  obtain ⟨n, hn⟩ := List.getElem?_of_mem he
  rw [List.getElem?_modify] at hn
  cases hl : l[n]? with
  | none => rw [hl] at hn; exact Option.noConfusion hn
  | some a =>
    rw [hl] at hn
    have ha := h a (List.getElem?_mem hl)
    by_cases hi : i = n
    · simp only [hi, if_true, Option.map_eq_map, Option.map_some', Option.some.injEq] at hn
      subst hn
      exact hf a ha
    · simp only [hi, if_false, Option.map_eq_map, Option.map_some', Option.some.injEq] at hn
      subst hn
      exact ha

theorem findIdx?_lt (ladder : List LadderEntry) (p : LadderEntry → Bool) (i : Nat)
    (h : ladder.findIdx? p = some i) : i < ladder.length := by
  rw [List.findIdx?_eq_some_iff_getElem] at h
  exact h.1

/-- Every entry of a new ladder has all four tallies at zero. -/
theorem createLadder_fresh (rand : Nat → Nat) (players : List String) (randomize : Bool) :
    ∀ e ∈ createLadder rand players randomize,
      e.wins = 0 ∧ e.losses = 0 ∧ e.challenges = 0 ∧ e.defenses = 0 := by
  unfold createLadder
  generalize (if randomize then shuffleArray rand players else players) = ordered
  intro e he
  obtain ⟨n, hn⟩ := List.getElem?_of_mem he
  dsimp only at hn
  rw [List.getElem?_mapIdx] at hn
  cases ho : ordered[n]? with
  | none => rw [ho] at hn; exact Option.noConfusion hn
  | some a =>
    rw [ho] at hn
    simp only [Option.map_some', Option.some.injEq] at hn
    subst hn
    exact ⟨rfl, rfl, rfl, rfl⟩

theorem tallied_createLadder (rand : Nat → Nat) (players : List String) (randomize : Bool) :
    Tallied (createLadder rand players randomize) := by
  have hfresh := createLadder_fresh rand players randomize
  constructor
  · intro e he
    obtain ⟨h1, h2, h3, h4⟩ := hfresh e he
    rw [h1, h2, h3, h4]
  · have hw : ((createLadder rand players randomize).map (fun e => e.wins)).sum = 0 := by
      apply List.sum_eq_zero
      intro x hx
      rw [List.mem_map] at hx
      obtain ⟨e, he, rfl⟩ := hx
      exact (hfresh e he).1
    have hl : ((createLadder rand players randomize).map (fun e => e.losses)).sum = 0 := by
      apply List.sum_eq_zero
      intro x hx
      rw [List.mem_map] at hx
      obtain ⟨e, he, rfl⟩ := hx
      exact (hfresh e he).2.1
    rw [hw, hl]

theorem tallied_perm (l l' : List LadderEntry) (hp : l'.Perm l) (h : Tallied l) :
    Tallied l' :=
  ⟨fun e he => h.1 e (hp.mem_iff.mp he), by
    rw [(hp.map _).sum_eq, (hp.map _).sum_eq]
    exact h.2⟩

theorem tallied_processChallenge (now : String) (ladder : List LadderEntry) (c d : Int)
    (w : Bool) (h : Tallied ladder) : Tallied (processChallenge now ladder c d w) := by
  unfold processChallenge
  cases hc : ladder.findIdx? (fun p => p.rank = c) with
  | none => exact h
  | some ci =>
    cases hd : ladder.findIdx? (fun p => p.rank = d) with
    | none => exact h
    | some di =>
      have hci := findIdx?_lt _ _ _ hc
      have hdi := findIdx?_lt _ _ _ hd
      dsimp only
      apply tallied_perm _ _ (stableSort_perm _ _)
      have hkeep := forall_mem_modify
        (fun e => e.wins + e.losses = e.challenges + e.defenses)
      cases w with
      | true =>
        simp only [if_true]
        constructor
        · refine hkeep _ ?_ _ _ (hkeep _ ?_ _ _ (hkeep _ ?_ _ _ (hkeep _ ?_ _ _ h.1)))
          · exact fun p hp => hp
          · exact fun p hp => hp
          · intro p hp
            show p.wins + (p.losses + 1) = p.challenges + (p.defenses + 1)
            have hp' : p.wins + p.losses = p.challenges + p.defenses := hp
            omega
          · intro p hp
            show p.wins + 1 + p.losses = p.challenges + 1 + p.defenses
            have hp' : p.wins + p.losses = p.challenges + p.defenses := hp
            omega
        · rw [sum_map_modify_same (fun e => e.wins) _ ?_, sum_map_modify_same (fun e => e.wins) _ ?_,
            sum_map_modify_same (fun e => e.wins) _ ?_,
            sum_map_modify (fun e => e.wins) _ 1 ?_ _ _ hci,
            sum_map_modify_same (fun e => e.losses) _ ?_,
            sum_map_modify_same (fun e => e.losses) _ ?_,
            sum_map_modify (fun e => e.losses) _ 1 ?_ _ _ ?_,
            sum_map_modify_same (fun e => e.losses) _ ?_, h.2]
          all_goals first
            | (intro _; rfl)
            | (rw [List.length_modify]; exact hdi)
      | false =>
        simp only [Bool.false_eq_true, if_false]
        constructor
        · refine hkeep _ ?_ _ _ (hkeep _ ?_ _ _ h.1)
          · intro p hp
            show p.wins + (p.losses + 1) = p.challenges + 1 + p.defenses
            have hp' : p.wins + p.losses = p.challenges + p.defenses := hp
            omega
          · intro p hp
            show p.wins + 1 + p.losses = p.challenges + (p.defenses + 1)
            have hp' : p.wins + p.losses = p.challenges + p.defenses := hp
            omega
        · rw [sum_map_modify_same (fun e => e.wins) _ ?_,
            sum_map_modify (fun e => e.wins) _ 1 ?_ _ _ hdi,
            sum_map_modify (fun e => e.losses) _ 1 ?_ _ _ ?_,
            sum_map_modify_same (fun e => e.losses) _ ?_, h.2]
          all_goals first
            | (intro _; rfl)
            | (rw [List.length_modify]; exact hci)

/-- C27. In every ladder reachable from `createLadder` by `processChallenge` calls (any
ranks, any outcome), every entry has `wins + losses = challenges + defenses`, and the
wins of all entries add up to the losses of all entries. -/
theorem C27_reachable_ladder_keeps_tallies (ladder : List LadderEntry)
    (h : LadderReachable ladder) :
    (∀ e ∈ ladder, e.wins + e.losses = e.challenges + e.defenses) ∧
      (ladder.map (fun e => e.wins)).sum = (ladder.map (fun e => e.losses)).sum := by
  induction h with
  | create rand players randomize => exact tallied_createLadder rand players randomize
  | challenge now l c d w _ ih => exact tallied_processChallenge now l c d w ih

theorem C27_reachable_ladder_keeps_tallies_witness :
    LadderReachable
        (processChallenge "t2" (processChallenge "t1"
          (createLadder (fun _ => 0) ["A", "B", "C"] false) 3 1 true) 2 2 false) ∧
      ((∀ e ∈ processChallenge "t2" (processChallenge "t1"
          (createLadder (fun _ => 0) ["A", "B", "C"] false) 3 1 true) 2 2 false,
          e.wins + e.losses = e.challenges + e.defenses) ∧
        ((processChallenge "t2" (processChallenge "t1"
          (createLadder (fun _ => 0) ["A", "B", "C"] false) 3 1 true) 2 2 false).map
            (fun e => e.wins)).sum =
        ((processChallenge "t2" (processChallenge "t1"
          (createLadder (fun _ => 0) ["A", "B", "C"] false) 3 1 true) 2 2 false).map
            (fun e => e.losses)).sum) :=
  ⟨LadderReachable.challenge _ _ _ _ _ (LadderReachable.challenge _ _ _ _ _
      (LadderReachable.create _ _ _)),
    C27_reachable_ladder_keeps_tallies _
      (LadderReachable.challenge _ _ _ _ _ (LadderReachable.challenge _ _ _ _ _
        (LadderReachable.create _ _ _)))⟩
/-! ### Killer: elimination and the end of the game -/

theorem countP_set_active (l : List KillerPlayer) (i : Nat) (old new : KillerPlayer)
    (hi : l[i]? = some old) :
    (l.set i new).countP (fun p => !p.eliminated) + (if old.eliminated then 0 else 1) =
      l.countP (fun p => !p.eliminated) + (if new.eliminated then 0 else 1) := by
  induction l generalizing i with
  | nil => simp at hi
  | cons x xs ih =>
    cases i with
    | zero =>
      simp only [List.getElem?_cons_zero, Option.some.injEq] at hi
      subst hi
      simp only [List.set_cons_zero, List.countP_cons]
      cases x.eliminated <;> cases new.eliminated <;> simp
    | succ i =>
      simp only [List.getElem?_cons_succ] at hi
      have := ih i hi
      simp only [List.set_cons_succ, List.countP_cons]
      omega

theorem filter_set_eliminated (l : List KillerPlayer) (i : Nat) (old new : KillerPlayer)
    (hi : l[i]? = some old) (ho : old.eliminated = true) (hn : new.eliminated = true) :
    (l.set i new).filter (fun p => !p.eliminated) = l.filter (fun p => !p.eliminated) := by
  induction l generalizing i with
  | nil => simp at hi
  | cons x xs ih =>
    cases i with
    | zero =>
      simp only [List.getElem?_cons_zero, Option.some.injEq] at hi
      subst hi
      simp [List.filter_cons, ho, hn]
    | succ i =>
      simp only [List.getElem?_cons_succ] at hi
      simp only [List.set_cons_succ, List.filter_cons, ih i hi]

/-- The bounded scan finds a non-eliminated player when one lies within its reach. -/
theorem scanActive_spec (players : List KillerPlayer) :
    ∀ remaining nextIndex, nextIndex < players.length →
      (∃ t p, t < remaining ∧ players[(nextIndex + t) % players.length]? = some p ∧
        p.eliminated = false) →
      ∃ p, players[scanActive players remaining nextIndex]? = some p ∧
        p.eliminated = false := by
  intro remaining
  induction remaining with
  | zero => rintro _ _ ⟨t, _, ht, _⟩; omega
  | succ remaining ih =>
    intro nextIndex hlt hex
    have hn : 0 < players.length := by omega
    obtain ⟨q, hq⟩ : ∃ q, players[nextIndex]? = some q :=
      ⟨players[nextIndex], List.getElem?_eq_getElem hlt⟩
    unfold scanActive
    by_cases helim : q.eliminated = true
    · have hcond : (players[nextIndex]?.map (fun p => p.eliminated)) = some true := by
        rw [hq]; simp [helim]
      rw [if_pos hcond]
      apply ih _ (Nat.mod_lt _ hn)
      obtain ⟨t, p, ht, hp, hpe⟩ := hex
      have ht0 : t ≠ 0 := by
        rintro rfl
        rw [Nat.add_zero, Nat.mod_eq_of_lt hlt, hq] at hp
        rw [Option.some.inj hp] at helim
        rw [hpe] at helim
        exact Bool.noConfusion helim
      refine ⟨t - 1, p, by omega, ?_, hpe⟩
      rw [Nat.add_mod, Nat.mod_mod, ← Nat.add_mod]
      rw [show nextIndex + 1 + (t - 1) = nextIndex + t by omega]
      exact hp
    · have hcond : ¬ (players[nextIndex]?.map (fun p => p.eliminated)) = some true := by
        rw [hq]; simpa using helim
      rw [if_neg hcond]
      exact ⟨q, hq, by simpa using helim⟩

theorem findNextActivePlayer_active (s : KillerGame)
    (hex : ∃ p ∈ s.players, p.eliminated = false) :
    ∃ p, s.players[findNextActivePlayer s]? = some p ∧ p.eliminated = false := by
  obtain ⟨p, hp, hpe⟩ := hex
  obtain ⟨a, ha⟩ := List.mem_iff_getElem?.mp hp
  have hal : a < s.players.length := by
    by_contra hcon
    rw [List.getElem?_eq_none (by omega)] at ha
    exact Option.noConfusion ha
  have hn : 0 < s.players.length := by omega
  unfold findNextActivePlayer
  apply scanActive_spec s.players _ _ (Nat.mod_lt _ hn)
  refine ⟨(a + s.players.length - (s.currentPlayerIndex + 1) % s.players.length) %
    s.players.length, p, Nat.mod_lt _ hn, ?_, hpe⟩
  have hstart := Nat.mod_lt (s.currentPlayerIndex + 1) hn
  generalize (s.currentPlayerIndex + 1) % s.players.length = c at hstart ⊢
  have key : (c + (a + s.players.length - c) % s.players.length) % s.players.length = a := by
    rw [Nat.add_mod, Nat.mod_mod, ← Nat.add_mod,
      show c + (a + s.players.length - c) = a + s.players.length by omega,
      Nat.add_mod_right, Nat.mod_eq_of_lt hal]
  rw [key]
  exact ha

theorem applyTurn_name (q : KillerPlayer) (result : String) :
    (applyTurn q result).name = q.name := by
  unfold applyTurn
  split_ifs <;> rfl

theorem applyTurn_eliminated_of (q : KillerPlayer) (result : String)
    (h : q.eliminated = true) : (applyTurn q result).eliminated = true := by
  unfold applyTurn
  split_ifs <;> simp [h]

/-- One turn on a live player keeps `eliminated` in step with `lives = 0`. -/
theorem applyTurn_alive (q : KillerPlayer) (result : String) (he : q.eliminated = false)
    (hl : 1 ≤ q.lives) :
    0 ≤ (applyTurn q result).lives ∧
      ((applyTurn q result).eliminated = true ↔ (applyTurn q result).lives = 0) := by
  unfold applyTurn
  split_ifs with h1 h2
  · simp only
    have hmax : max 0 (q.lives - 1) = q.lives - 1 := max_eq_right (by omega)
    rw [hmax]
    refine ⟨by omega, ?_⟩
    split_ifs with h3
    · simp [h3]
    · simp [he, h3]
  · simp only [he]
    refine ⟨by omega, ?_⟩
    constructor
    · intro h; exact Bool.noConfusion h
    · intro h; omega
  · rw [he]
    refine ⟨by omega, ?_⟩
    constructor
    · intro h; exact Bool.noConfusion h
    · intro h; omega

theorem createKillerGame_inv (rand : Nat → Nat) (players : List String) (startingLives : Int)
    (hn : 2 ≤ players.length) : KillerInv (createKillerGame rand players startingLives) := by
  have hlen := shuffleArray_length rand players
  constructor
  · intro _
    simp only [createKillerGame]
    constructor
    · rw [List.filter_eq_self.mpr]
      · simp only [List.length_map, hlen]; exact hn
      · intro p hp
        obtain ⟨q, -, rfl⟩ := List.mem_map.mp hp
        rfl
    · have h0 : 0 < (shuffleArray rand players).length := by omega
      refine ⟨{ name := (shuffleArray rand players)[0], lives := startingLives,
                eliminated := false }, ?_, rfl⟩
      rw [List.getElem?_map, List.getElem?_eq_getElem h0]
      rfl
  · intro h
    simp [createKillerGame] at h

/-- Every call of `processTurn` keeps the invariant, whether the game is over or not. -/
theorem processTurn_inv (now result : String) (s s' : KillerGame) (hinv : KillerInv s)
    (hstep : processTurn now s result = some s') : KillerInv s' := by
  unfold processTurn at hstep
  cases hold : s.players[s.currentPlayerIndex]? with
  | none => rw [hold] at hstep; exact Option.noConfusion hstep
  | some old =>
    rw [hold] at hstep
    simp only at hstep
    have hidx : s.currentPlayerIndex < s.players.length := by
      by_contra hcon
      rw [List.getElem?_eq_none (by omega)] at hold
      exact Option.noConfusion hold
    have hcur : (s.players.set s.currentPlayerIndex (applyTurn old result))[s.currentPlayerIndex]? =
        some (applyTurn old result) := by
      rw [List.getElem?_set_self hidx]
    have hcount := countP_set_active s.players s.currentPlayerIndex old (applyTurn old result) hold
    rw [List.countP_eq_length_filter, List.countP_eq_length_filter] at hcount
    cases hgo : s.gameOver with
    | true =>
      obtain ⟨w, hw, hwin, p, hp, hpe⟩ := hinv.2 hgo
      rw [hold] at hp
      have hoe : old.eliminated = true := by rw [Option.some.inj hp]; exact hpe
      have hne := applyTurn_eliminated_of old result hoe
      have hfil := filter_set_eliminated s.players s.currentPlayerIndex old
        (applyTurn old result) hold hoe hne
      simp only [checkWinner, hfil, hw, List.length_singleton, if_true, List.head?_cons,
        Option.some.injEq] at hstep
      subst hstep
      constructor
      · intro h; simp at h
      · intro _
        exact ⟨w, by simp only [hfil, hw], rfl, _, hcur, hne⟩
    | false =>
      obtain ⟨h2, p, hp, hpe⟩ := hinv.1 hgo
      rw [hold] at hp
      have hoe : old.eliminated = false := by rw [Option.some.inj hp]; exact hpe
      rw [hoe] at hcount
      simp only [Bool.false_eq_true, if_false] at hcount
      by_cases hone : ((s.players.set s.currentPlayerIndex (applyTurn old result)).filter
          (fun p => !p.eliminated)).length = 1
      · obtain ⟨w, hw⟩ := List.length_eq_one.mp hone
        simp only [checkWinner, hw, List.length_singleton, if_true, List.head?_cons,
          Option.some.injEq] at hstep
        subst hstep
        have hne : (applyTurn old result).eliminated = true := by
          by_contra hcon
          rw [if_neg hcon] at hcount
          omega
        constructor
        · intro h; simp at h
        · intro _
          exact ⟨w, hw, rfl, _, hcur, hne⟩
      · simp only [checkWinner, hone, if_false, Option.some.injEq] at hstep
        subst hstep
        have hge : 2 ≤ ((s.players.set s.currentPlayerIndex (applyTurn old result)).filter
            (fun p => !p.eliminated)).length := by
          split_ifs at hcount <;> omega
        constructor
        · intro _
          refine ⟨hge, ?_⟩
          apply findNextActivePlayer_active
          obtain ⟨q, hq⟩ := List.exists_mem_of_length_pos (by omega : 0 <
            ((s.players.set s.currentPlayerIndex (applyTurn old result)).filter
              (fun p => !p.eliminated)).length)
          rw [List.mem_filter] at hq
          exact ⟨q, hq.1, by simpa using hq.2⟩
        · intro h
          simp only [hgo] at h
          exact Bool.noConfusion h

theorem killerReachable_inv (rand : Nat → Nat) (players : List String) (startingLives : Int)
    (hn : 2 ≤ players.length) (s : KillerGame)
    (hs : KillerReachable rand players startingLives s) : KillerInv s := by
  induction hs with
  | start => exact createKillerGame_inv rand players startingLives hn
  | turn now result s s' _ hstep ih => exact processTurn_inv now result s s' ih hstep

theorem killerInPlay_reachable (rand : Nat → Nat) (players : List String) (startingLives : Int)
    (s : KillerGame) (hs : KillerInPlay rand players startingLives s) :
    KillerReachable rand players startingLives s := by
  induction hs with
  | start => exact KillerReachable.start
  | turn now result s s' _ _ hstep ih => exact KillerReachable.turn now result s s' ih hstep

/-- C8: in every Killer game state reachable from `createKillerGame` with at least two
players by any sequence of `processTurn` calls, `gameOver` is true if and only if exactly
one player is non-eliminated, and when `gameOver` is true `winner` is the name of that
player. -/
theorem C8_game_over_iff_sole_survivor (rand : Nat → Nat) (players : List String)
    (startingLives : Int) (hn : 2 ≤ players.length) (s : KillerGame)
    (hs : KillerReachable rand players startingLives s) :
    (s.gameOver = true ↔ (s.players.filter (fun p => !p.eliminated)).length = 1) ∧
      (s.gameOver = true →
        ∃ w, s.players.filter (fun p => !p.eliminated) = [w] ∧ s.winner = some w.name) := by
  have hinv := killerReachable_inv rand players startingLives hn s hs
  refine ⟨⟨?_, ?_⟩, ?_⟩
  · intro h
    obtain ⟨w, hw, -⟩ := hinv.2 h
    rw [hw]; rfl
  · intro h
    by_contra hcon
    have h2 := (hinv.1 (by simpa using hcon)).1
    omega
  · intro h
    obtain ⟨w, hw, hwin, -⟩ := hinv.2 h
    exact ⟨w, hw, hwin⟩

/-- Witness for C8: the state after the first player of a two-player, one-life game has missed. -/
theorem C8_game_over_iff_sole_survivor_witness :
    (({ players := [{ name := "A", lives := 0, eliminated := true },
                    { name := "B", lives := 1, eliminated := false }],
        currentPlayerIndex := 0, gameOver := true, winner := some "B",
        turnHistory := [{ player := "A", action := "miss", livesAfter := 0,
                          timestamp := "t" }] } : KillerGame).gameOver = true ↔
      (({ players := [{ name := "A", lives := 0, eliminated := true },
                      { name := "B", lives := 1, eliminated := false }],
          currentPlayerIndex := 0, gameOver := true, winner := some "B",
          turnHistory := [{ player := "A", action := "miss", livesAfter := 0,
                            timestamp := "t" }] } : KillerGame).players.filter
        (fun p => !p.eliminated)).length = 1) ∧
      (({ players := [{ name := "A", lives := 0, eliminated := true },
                      { name := "B", lives := 1, eliminated := false }],
          currentPlayerIndex := 0, gameOver := true, winner := some "B",
          turnHistory := [{ player := "A", action := "miss", livesAfter := 0,
                            timestamp := "t" }] } : KillerGame).gameOver = true →
        ∃ w, ({ players := [{ name := "A", lives := 0, eliminated := true },
                            { name := "B", lives := 1, eliminated := false }],
                currentPlayerIndex := 0, gameOver := true, winner := some "B",
                turnHistory := [{ player := "A", action := "miss", livesAfter := 0,
                                  timestamp := "t" }] } : KillerGame).players.filter
            (fun p => !p.eliminated) = [w] ∧
          ({ players := [{ name := "A", lives := 0, eliminated := true },
                         { name := "B", lives := 1, eliminated := false }],
             currentPlayerIndex := 0, gameOver := true, winner := some "B",
             turnHistory := [{ player := "A", action := "miss", livesAfter := 0,
                               timestamp := "t" }] } : KillerGame).winner = some w.name) :=
  C8_game_over_iff_sole_survivor (fun i => i) ["A", "B"] 1 (by decide) _
    (KillerReachable.turn "t" "miss" _ _ KillerReachable.start (by decide))

theorem processTurn_players (now result : String) (s s' : KillerGame)
    (hstep : processTurn now s result = some s') :
    ∃ old, s.players[s.currentPlayerIndex]? = some old ∧
      s'.players = s.players.set s.currentPlayerIndex (applyTurn old result) := by
  unfold processTurn at hstep
  cases hold : s.players[s.currentPlayerIndex]? with
  | none => rw [hold] at hstep; exact Option.noConfusion hstep
  | some old =>
    rw [hold] at hstep
    simp only at hstep
    refine ⟨old, rfl, ?_⟩
    split at hstep <;> (simp only [Option.some.injEq] at hstep; subst hstep; rfl)

/-- C7, amended: in every Killer game state reachable from `createKillerGame(players,
startingLives)` with at least two players and `startingLives ≥ 1` by `processTurn` calls
(any result) that are each made while `gameOver` is false, every player satisfies
`eliminated = true` if and only if `lives = 0`. -/
theorem C7_eliminated_iff_no_lives (rand : Nat → Nat) (players : List String)
    (startingLives : Int) (hn : 2 ≤ players.length) (hl : 1 ≤ startingLives) (s : KillerGame)
    (hs : KillerInPlay rand players startingLives s) :
    ∀ p ∈ s.players, (p.eliminated = true ↔ p.lives = 0) := by
  have hstrong : ∀ p ∈ s.players, 0 ≤ p.lives ∧ (p.eliminated = true ↔ p.lives = 0) := by
    induction hs with
    | start =>
      intro p hp
      simp only [createKillerGame, List.mem_map] at hp
      obtain ⟨q, -, rfl⟩ := hp
      simp only
      refine ⟨by omega, ?_⟩
      constructor
      · intro h; exact Bool.noConfusion h
      · intro h; omega
    | turn now result s s' hprev hgo hstep ih =>
      have hinv := killerReachable_inv rand players startingLives hn s
        (killerInPlay_reachable rand players startingLives s hprev)
      obtain ⟨-, q, hq, hqe⟩ := hinv.1 hgo
      obtain ⟨old, hold, hplayers⟩ := processTurn_players now result s s' hstep
      rw [hq] at hold
      obtain rfl := Option.some.inj hold
      have hqmem : q ∈ s.players := List.getElem?_mem hq
      have hq1 : 1 ≤ q.lives := by
        have h0 := ih q hqmem
        have hne : q.lives ≠ 0 := fun h => by
          have := h0.2.mpr h
          rw [hqe] at this
          exact Bool.noConfusion this
        omega
      intro p hp
      rw [hplayers] at hp
      rcases List.mem_or_eq_of_mem_set hp with h | h
      · exact ih p h
      · subst h
        exact applyTurn_alive q result hqe hq1
  exact fun p hp => (hstrong p hp).2

/-- Witness for C7: player `A` after one miss in a two-player game with two lives each. -/
theorem C7_eliminated_iff_no_lives_witness :
    (({ name := "A", lives := 1, eliminated := false } : KillerPlayer).eliminated = true ↔
      ({ name := "A", lives := 1, eliminated := false } : KillerPlayer).lives = 0) :=
  C7_eliminated_iff_no_lives (fun i => i) ["A", "B"] 2 (by decide) (by decide)
    { players := [{ name := "A", lives := 1, eliminated := false },
                  { name := "B", lives := 2, eliminated := false }],
      currentPlayerIndex := 1, gameOver := false, winner := none,
      turnHistory := [{ player := "A", action := "miss", livesAfter := 1, timestamp := "t" }] }
    (KillerInPlay.turn "t" "miss" _ _ KillerInPlay.start (by decide) (by decide))
    { name := "A", lives := 1, eliminated := false } (List.mem_cons_self _ _)

/-- C7 as stated fails in two ways. After the game is over, `processTurn` still acts on
the current player, who is the one just eliminated: `'black'` gives that player a life
back while `eliminated` stays true. And with a single player the game never ends: the
player is eliminated by a miss, remains the current player, and `'black'` does the same. -/
theorem C7_black_revives_eliminated_player :
    (∃ s1 s2 p, processTurn "t1" (createKillerGame (fun i => i) ["A", "B"] 1) "miss" = some s1 ∧
        s1.gameOver = true ∧ processTurn "t2" s1 "black" = some s2 ∧
        p ∈ s2.players ∧ p.eliminated = true ∧ p.lives = 1) ∧
      (∃ s1 s2 p, processTurn "t1" (createKillerGame (fun i => i) ["A"] 1) "miss" = some s1 ∧
        s1.gameOver = false ∧ processTurn "t2" s1 "black" = some s2 ∧
        p ∈ s2.players ∧ p.eliminated = true ∧ p.lives = 1) := by
  constructor
  · refine ⟨_, _, _, rfl, ?_, rfl, List.mem_cons_self _ _, ?_, ?_⟩ <;> decide
  · refine ⟨_, _, _, rfl, ?_, rfl, List.mem_cons_self _ _, ?_, ?_⟩ <;> decide

/-! ### Killer: whose turn is next -/

/-- The bounded scan stops at the first non-eliminated player on its way. -/
theorem scanActive_first (players : List KillerPlayer) :
    ∀ remaining nextIndex d, nextIndex < players.length → d < remaining →
      (players[(nextIndex + d) % players.length]?.map (fun p => p.eliminated)) = some false →
      (∀ d', d' < d →
        (players[(nextIndex + d') % players.length]?.map (fun p => p.eliminated)) = some true) →
      scanActive players remaining nextIndex = (nextIndex + d) % players.length := by
  intro remaining
  induction remaining with
  | zero => intro _ d _ hd; omega
  | succ remaining ih =>
    intro nextIndex d hlt hd hact hbefore
    unfold scanActive
    cases d with
    | zero =>
      simp only [Nat.add_zero, Nat.mod_eq_of_lt hlt] at hact ⊢
      rw [if_neg (by rw [hact]; simp)]
    | succ d =>
      have h0 := hbefore 0 (by omega)
      rw [Nat.add_zero, Nat.mod_eq_of_lt hlt] at h0
      rw [if_pos h0]
      have hn : 0 < players.length := by omega
      have hshift : ∀ e, ((nextIndex + 1) % players.length + e) % players.length =
          (nextIndex + (e + 1)) % players.length := by
        intro e
        rw [Nat.add_mod, Nat.mod_mod, ← Nat.add_mod]
        congr 1
        omega
      rw [ih ((nextIndex + 1) % players.length) d (Nat.mod_lt _ hn) (by omega)
        (by rw [hshift]; exact hact)
        (by intro d' hd'; rw [hshift]; exact hbefore (d' + 1) (by omega))]
      exact hshift d

/-- Among at least two non-eliminated players there is one away from any given index. -/
theorem exists_other_active (l : List KillerPlayer) (c : Nat)
    (h2 : 2 ≤ (l.filter (fun p => !p.eliminated)).length) :
    ∃ a x, a ≠ c ∧ l[a]? = some x ∧ x.eliminated = false := by
  rw [← List.countP_eq_length_filter] at h2
  by_cases hc : c < l.length
  · obtain ⟨dead, hdead⟩ : ∃ q : KillerPlayer, q.eliminated = true :=
      ⟨{ l[c] with eliminated := true }, rfl⟩
    have hset := countP_set_active l c l[c] dead (List.getElem?_eq_getElem hc)
    rw [hdead] at hset
    have hpos : 0 < (l.set c dead).countP (fun p => !p.eliminated) := by
      split_ifs at hset <;> omega
    obtain ⟨x, hx, hxa⟩ := List.countP_pos_iff.mp hpos
    obtain ⟨a, ha⟩ := List.mem_iff_getElem?.mp hx
    have hac : a ≠ c := by
      rintro rfl
      rw [List.getElem?_set_self (by simpa using hc)] at ha
      obtain rfl := Option.some.inj ha
      simp [hdead] at hxa
    rw [List.getElem?_set_ne (Ne.symm hac)] at ha
    exact ⟨a, x, hac, ha, by simpa using hxa⟩
  · have hpos : 0 < l.countP (fun p => !p.eliminated) := by omega
    obtain ⟨x, hx, hxa⟩ := List.countP_pos_iff.mp hpos
    obtain ⟨a, ha⟩ := List.mem_iff_getElem?.mp hx
    have hal := getElem?_lt_of_eq_some _ _ _ ha
    exact ⟨a, x, by omega, ha, by simpa using hxa⟩

theorem mod_ne_of_offset (c d n : Nat) (hc : c < n) (hd : d + 2 ≤ n) : (c + 1 + d) % n ≠ c := by
  by_cases h : c + 1 + d < n
  · rw [Nat.mod_eq_of_lt h]; omega
  · rw [Nat.mod_eq_sub_mod (by omega), Nat.mod_eq_of_lt (by omega)]
    omega

/-- C17: for every Killer game state reachable from `createKillerGame` with at least two
players in which `gameOver` is false, `processTurn(state, result)` returns a state, and if
`gameOver` is false in it then its `currentPlayerIndex` is the first index, scanning
cyclically from the old `currentPlayerIndex + 1`, whose player is non-eliminated, and it
differs from the old `currentPlayerIndex`. -/
theorem C17_turn_passes_to_next_active_player (rand : Nat → Nat) (players : List String)
    (startingLives : Int) (hn : 2 ≤ players.length) (s : KillerGame)
    (hs : KillerReachable rand players startingLives s) (hgo : s.gameOver = false)
    (now result : String) :
    ∃ s', processTurn now s result = some s' ∧
      (s'.gameOver = false →
        ∃ d, d < s'.players.length ∧
          s'.currentPlayerIndex = (s.currentPlayerIndex + 1 + d) % s'.players.length ∧
          (∃ p, s'.players[s'.currentPlayerIndex]? = some p ∧ p.eliminated = false) ∧
          (∀ d', d' < d → ∃ q,
            s'.players[(s.currentPlayerIndex + 1 + d') % s'.players.length]? = some q ∧
              q.eliminated = true) ∧
          s'.currentPlayerIndex ≠ s.currentPlayerIndex) := by
  have hinv := killerReachable_inv rand players startingLives hn s hs
  obtain ⟨-, old, hold, -⟩ := hinv.1 hgo
  have hc : s.currentPlayerIndex < s.players.length := getElem?_lt_of_eq_some _ _ _ hold
  cases hst : processTurn now s result with
  | none => simp [processTurn, hold] at hst; split at hst <;> simp at hst
  | some s' =>
    refine ⟨s', rfl, ?_⟩
    intro hgo'
    have hinv' := processTurn_inv now result s s' hinv hst
    obtain ⟨h2, -⟩ := hinv'.1 hgo'
    obtain ⟨old', hold', hplayers⟩ := processTurn_players now result s s' hst
    have hlen : s'.players.length = s.players.length := by rw [hplayers]; simp
    have hcur : s'.currentPlayerIndex =
        scanActive s'.players s'.players.length
          ((s.currentPlayerIndex + 1) % s'.players.length) := by
      unfold processTurn at hst
      rw [hold] at hst
      simp only at hst
      split at hst
      · simp only [Option.some.injEq] at hst
        subst hst
        simp at hgo'
      · simp only [Option.some.injEq] at hst
        subst hst
        rfl
    obtain ⟨a, x, hac, hax, hxa⟩ := exists_other_active s'.players s.currentPlayerIndex h2
    have hal : a < s'.players.length := getElem?_lt_of_eq_some _ _ _ hax
    have hex : ∃ d, (s'.players[(s.currentPlayerIndex + 1 + d) % s'.players.length]?.map
        (fun p => p.eliminated)) = some false ∧ d + 2 ≤ s'.players.length := by
      by_cases hlt : s.currentPlayerIndex < a
      · refine ⟨a - s.currentPlayerIndex - 1, ?_, by omega⟩
        rw [show s.currentPlayerIndex + 1 + (a - s.currentPlayerIndex - 1) = a by omega,
          Nat.mod_eq_of_lt hal, hax]
        simp [hxa]
      · refine ⟨a + s'.players.length - 1 - s.currentPlayerIndex, ?_, by omega⟩
        rw [show s.currentPlayerIndex + 1 + (a + s'.players.length - 1 - s.currentPlayerIndex) =
          a + s'.players.length by omega, Nat.add_mod_right, Nat.mod_eq_of_lt hal, hax]
        simp [hxa]
    have hfound := Nat.find_spec hex
    have hmin := fun d' (h : d' < Nat.find hex) => Nat.find_min hex h
    have hbefore : ∀ d', d' < Nat.find hex →
        (s'.players[(s.currentPlayerIndex + 1 + d') % s'.players.length]?.map
          (fun p => p.eliminated)) = some true := by
      intro d' hd'
      have hnot := hmin d' hd'
      have hidx : (s.currentPlayerIndex + 1 + d') % s'.players.length < s'.players.length :=
        Nat.mod_lt _ (by omega)
      rw [List.getElem?_eq_getElem hidx] at hnot ⊢
      simp only [Option.map_some', Option.some.injEq, not_and] at hnot ⊢
      by_contra hcon
      exact hnot (by simpa using hcon) (by omega)
    have hshift : ∀ e, ((s.currentPlayerIndex + 1) % s'.players.length + e) %
        s'.players.length = (s.currentPlayerIndex + 1 + e) % s'.players.length := by
      intro e
      rw [Nat.add_mod, Nat.mod_mod, ← Nat.add_mod]
    have hscan := scanActive_first s'.players s'.players.length
      ((s.currentPlayerIndex + 1) % s'.players.length) (Nat.find hex)
      (Nat.mod_lt _ (by omega)) (by omega)
      (by rw [hshift]; exact hfound.1)
      (by intro d' hd'
          rw [hshift]
          exact hbefore d' hd')
    rw [hshift, ← hcur] at hscan
    refine ⟨Nat.find hex, by omega, hscan, ?_, ?_, ?_⟩
    · rw [hscan]
      have h1 := hfound.1
      cases hp : s'.players[(s.currentPlayerIndex + 1 + Nat.find hex) % s'.players.length]? with
      | none => rw [hp] at h1; simp at h1
      | some p =>
        rw [hp] at h1
        exact ⟨p, rfl, by simpa using h1⟩
    · intro d' hd'
      have h1 := hbefore d' hd'
      cases hq : s'.players[(s.currentPlayerIndex + 1 + d') % s'.players.length]? with
      | none => rw [hq] at h1; simp at h1
      | some q =>
        rw [hq] at h1
        exact ⟨q, rfl, by simpa using h1⟩
    · rw [hscan]
      exact mod_ne_of_offset _ _ _ (by omega) hfound.2

/-- Witness for C17: three players with one life each; the first misses and is out, the
turn passes to the second. -/
theorem C17_turn_passes_to_next_active_player_witness :
    ∃ s', processTurn "t" (createKillerGame (fun i => i) ["A", "B", "C"] 1) "miss" = some s' ∧
      (s'.gameOver = false →
        ∃ d, d < s'.players.length ∧
          s'.currentPlayerIndex =
            ((createKillerGame (fun i => i) ["A", "B", "C"] 1).currentPlayerIndex + 1 + d) %
              s'.players.length ∧
          (∃ p, s'.players[s'.currentPlayerIndex]? = some p ∧ p.eliminated = false) ∧
          (∀ d', d' < d → ∃ q,
            s'.players[((createKillerGame (fun i => i) ["A", "B", "C"] 1).currentPlayerIndex +
              1 + d') % s'.players.length]? = some q ∧ q.eliminated = true) ∧
          s'.currentPlayerIndex ≠
            (createKillerGame (fun i => i) ["A", "B", "C"] 1).currentPlayerIndex) :=
  C17_turn_passes_to_next_active_player (fun i => i) ["A", "B", "C"] 1 (by decide) _
    KillerReachable.start rfl "t" "miss"
/-! ### Killer: the elimination order -/

theorem swapAt_perm (l : List String) (i j : Nat) : (swapAt l i j).Perm l := by
  unfold swapAt
  split
  · rename_i a b ha hb
    have hi : i < l.length := getElem?_lt_of_eq_some _ _ _ ha
    have hj : j < l.length := getElem?_lt_of_eq_some _ _ _ hb
    have hj' : j < (l.set i b).length := by simpa using hj
    have e1 : l[i] = a := by
      rw [List.getElem?_eq_getElem hi] at ha; exact Option.some.inj ha
    have e2 : l[j] = b := by
      rw [List.getElem?_eq_getElem hj] at hb; exact Option.some.inj hb
    have e3 : (l.set i b)[j] = b := by
      rw [List.getElem_set]
      split_ifs
      · rfl
      · exact e2
    rw [List.perm_iff_count]
    intro x
    rw [List.count_set _ _ _ _ hj', List.count_set _ _ _ _ hi, e1, e3]
    have hle : (if (a == x) = true then 1 else 0) ≤ l.count x := by
      split_ifs with h
      · have hax : a = x := by simpa using h
        exact List.count_pos_iff.mpr (hax ▸ e1 ▸ List.getElem_mem hi)
      · omega
    split_ifs at hle ⊢ <;> omega
  · exact List.Perm.refl _

theorem shuffleArray_perm (rand : Nat → Nat) (l : List String) :
    (shuffleArray rand l).Perm l := by
  unfold shuffleArray
  generalize l.length - 1 = i
  induction i generalizing l with
  | zero => exact List.Perm.refl _
  | succ i ih => exact (ih _).trans (swapAt_perm _ _ _)

theorem newlyEliminated_self (l : List KillerPlayer) : newlyEliminated l l = [] := by
  induction l with
  | nil => rfl
  | cons x xs ih =>
    unfold newlyEliminated at ih ⊢
    simp only [List.zip_cons_cons, List.filter_cons]
    cases x.eliminated <;> simpa using ih

/-- A turn eliminates at most the player who takes it. -/
theorem newlyEliminated_set (l : List KillerPlayer) (c : Nat) (old new : KillerPlayer)
    (hold : l[c]? = some old) :
    newlyEliminated l (l.set c new) =
      if old.eliminated = false ∧ new.eliminated = true then [new.name] else [] := by
  induction l generalizing c with
  | nil => simp at hold
  | cons x xs ih =>
    cases c with
    | zero =>
      simp only [List.getElem?_cons_zero, Option.some.injEq] at hold
      subst hold
      have := newlyEliminated_self xs
      unfold newlyEliminated at this ⊢
      simp only [List.set_cons_zero, List.zip_cons_cons, List.filter_cons]
      cases x.eliminated <;> cases new.eliminated <;> simp [this]
    | succ c =>
      simp only [List.getElem?_cons_succ] at hold
      have := ih c hold
      unfold newlyEliminated at this ⊢
      simp only [List.set_cons_succ, List.zip_cons_cons, List.filter_cons]
      cases x.eliminated <;> simpa using this

/-- What one turn does to the lives and the flag of a player who has no negative lives
and is eliminated when the lives are zero. -/
theorem applyTurn_flags (q : KillerPlayer) (result : String) (h0 : 0 ≤ q.lives)
    (hz : q.lives = 0 → q.eliminated = true) :
    0 ≤ (applyTurn q result).lives ∧
      ((applyTurn q result).lives = 0 → (applyTurn q result).eliminated = true) ∧
      ((applyTurn q result).eliminated = true → q.eliminated = false →
        (applyTurn q result).lives = 0) := by
  unfold applyTurn
  split_ifs with h1 h2
  · simp only
    refine ⟨le_max_left _ _, ?_, ?_⟩
    · intro h; simp [h]
    · intro h hq
      by_contra hcon
      rw [if_neg hcon, hq] at h
      exact Bool.noConfusion h
  · simp only
    refine ⟨by omega, ?_, ?_⟩
    · intro h; omega
    · intro h hq; rw [hq] at h; exact Bool.noConfusion h
  · refine ⟨h0, hz, ?_⟩
    intro h hq; rw [hq] at h; exact Bool.noConfusion h

theorem processTurn_history (now result : String) (s s' : KillerGame)
    (hstep : processTurn now s result = some s') :
    ∃ old, s.players[s.currentPlayerIndex]? = some old ∧
      s'.turnHistory = s.turnHistory ++
        [{ player := old.name, action := result, livesAfter := (applyTurn old result).lives,
           timestamp := now }] := by
  unfold processTurn at hstep
  cases hold : s.players[s.currentPlayerIndex]? with
  | none => rw [hold] at hstep; exact Option.noConfusion hstep
  | some old =>
    rw [hold] at hstep
    simp only at hstep
    refine ⟨old, rfl, ?_⟩
    rw [← applyTurn_name old result]
    split at hstep <;> (simp only [Option.some.injEq] at hstep; subst hstep; rfl)

theorem map_ne_of_index {α β : Type} (f : α → β) (l : List α) (hnd : (l.map f).Nodup)
    (i j : Nat) (a b : α) (hi : l[i]? = some a) (hj : l[j]? = some b) (hij : i ≠ j) :
    f a ≠ f b := by
  obtain ⟨hil, hie⟩ := List.getElem?_eq_some_iff.mp hi
  obtain ⟨hjl, hje⟩ := List.getElem?_eq_some_iff.mp hj
  intro hcon
  have hi2 : i < (l.map f).length := by simpa using hil
  have hj2 : j < (l.map f).length := by simpa using hjl
  have h1 : (l.map f)[i] = (l.map f)[j] := by
    simp only [List.getElem_map, hie, hje, hcon]
  exact hij ((hnd.getElem_inj_iff).mp h1)

/-- The invariant behind the elimination order: the order computed from the turn history
is the log, which has no duplicates and holds exactly the names of the eliminated
players; no player has negative lives, a player without lives is eliminated, and the
names are distinct. -/
theorem killerTrace_inv (rand : Nat → Nat) (players : List String) (startingLives : Int)
    (hnd : players.Nodup) (hl : 1 ≤ startingLives) (s : KillerGame) (log : List String)
    (h : KillerTrace rand players startingLives s log) :
    getEliminationOrder s = log ∧ log.Nodup ∧
      (∀ p ∈ s.players, (p.eliminated = true ↔ p.name ∈ log)) ∧
      (∀ p ∈ s.players, 0 ≤ p.lives ∧ (p.lives = 0 → p.eliminated = true)) ∧
      (s.players.map (fun p => p.name)).Nodup ∧
      ∀ x ∈ log, x ∈ s.players.map (fun p => p.name) := by
  induction h with
  | start =>
    refine ⟨rfl, List.nodup_nil, ?_, ?_, ?_, by simp⟩
    · intro p hp
      simp only [createKillerGame, List.mem_map] at hp
      obtain ⟨q, -, rfl⟩ := hp
      simp
    · intro p hp
      simp only [createKillerGame, List.mem_map] at hp
      obtain ⟨q, -, rfl⟩ := hp
      simp only
      exact ⟨by omega, fun h => by omega⟩
    · simp only [createKillerGame, List.map_map]
      have : ((fun p : KillerPlayer => p.name) ∘ fun name =>
          ({ name := name, lives := startingLives, eliminated := false } : KillerPlayer)) =
          id := rfl
      rw [this, List.map_id]
      exact (shuffleArray_perm rand players).nodup_iff.mpr hnd
  | turn now result s s' log _ hstep ih =>
    obtain ⟨hord, hlognd, helim, hlives, hnames, hsub⟩ := ih
    obtain ⟨old, hold, hplayers⟩ := processTurn_players now result s s' hstep
    obtain ⟨old', hold', hhist⟩ := processTurn_history now result s s' hstep
    rw [hold] at hold'
    obtain rfl := Option.some.inj hold'
    have holdmem : old ∈ s.players := List.getElem?_mem hold
    obtain ⟨hn0, hnz, hne⟩ := applyTurn_flags old result (hlives old holdmem).1
      (hlives old holdmem).2
    have hname := applyTurn_name old result
    have hkeep := applyTurn_eliminated_of old result
    have hnewly := newlyEliminated_set s.players s.currentPlayerIndex old
      (applyTurn old result) hold
    rw [← hplayers] at hnewly
    have hord' : getEliminationOrder s' =
        if (applyTurn old result).lives = 0 ∧ ¬ log.contains old.name then log ++ [old.name]
        else log := by
      unfold getEliminationOrder at hord ⊢
      rw [hhist, List.foldl_append, hord]
      rfl
    have hcontains : log.contains old.name = true ↔ old.eliminated = true := by
      rw [helim old holdmem]
      simp
    have hcases : (old.eliminated = false ∧ (applyTurn old result).eliminated = true ∧
          getEliminationOrder s' = log ++ [old.name] ∧
          newlyEliminated s.players s'.players = [old.name]) ∨
        ((applyTurn old result).eliminated = old.eliminated ∧
          getEliminationOrder s' = log ∧ newlyEliminated s.players s'.players = []) := by
      by_cases he : old.eliminated = true
      · right
        have hc : log.contains old.name = true := hcontains.mpr he
        refine ⟨by rw [hkeep he, he], ?_, ?_⟩
        · rw [hord', if_neg (fun h => h.2 hc)]
        · rw [hnewly, if_neg (by simp [he])]
      · have he' : old.eliminated = false := by simpa using he
        have hc : ¬ log.contains old.name = true := fun h => he (hcontains.mp h)
        by_cases hz : (applyTurn old result).lives = 0
        · left
          refine ⟨he', hnz hz, ?_, ?_⟩
          · rw [hord', if_pos ⟨hz, hc⟩]
          · rw [hnewly, if_pos ⟨he', hnz hz⟩, hname]
        · right
          have hne' : (applyTurn old result).eliminated = false := by
            by_contra hcon
            exact hz (hne (by simpa using hcon) he')
          refine ⟨by rw [hne', he'], ?_, ?_⟩
          · rw [hord', if_neg (fun h => hz h.1)]
          · rw [hnewly, if_neg (by simp [hne'])]
    have hnames' : s'.players.map (fun p => p.name) = s.players.map (fun p => p.name) := by
      rw [hplayers]
      apply List.ext_getElem?
      intro j
      simp only [List.getElem?_map, List.getElem?_set]
      by_cases hj : s.currentPlayerIndex = j
      · subst hj
        simp [hold, hname, getElem?_lt_of_eq_some _ _ _ hold]
      · simp [hj]
    have hother : ∀ p ∈ s'.players, p = applyTurn old result ∨
        (p ∈ s.players ∧ p.name ≠ old.name) := by
      intro p hp
      obtain ⟨j, hj⟩ := List.mem_iff_getElem?.mp hp
      rw [hplayers] at hj
      by_cases hjc : s.currentPlayerIndex = j
      · subst hjc
        rw [List.getElem?_set_self (getElem?_lt_of_eq_some _ _ _ hold)] at hj
        exact Or.inl (Option.some.inj hj).symm
      · rw [List.getElem?_set_ne hjc] at hj
        refine Or.inr ⟨List.getElem?_mem hj, ?_⟩
        exact map_ne_of_index (fun p : KillerPlayer => p.name) s.players hnames j
          s.currentPlayerIndex p old hj hold (Ne.symm hjc)
    have hlives' : ∀ p ∈ s'.players, 0 ≤ p.lives ∧ (p.lives = 0 → p.eliminated = true) := by
      intro p hp
      rcases hother p hp with rfl | ⟨hps, -⟩
      · exact ⟨hn0, hnz⟩
      · exact hlives p hps
    rcases hcases with ⟨he, hnew, ho, hn⟩ | ⟨hsame, ho, hn⟩
    · rw [hn]
      have hnotin : old.name ∉ log := by
        intro hin
        have := (helim old holdmem).mpr hin
        rw [he] at this
        exact Bool.noConfusion this
      refine ⟨ho, ?_, ?_, hlives', by rw [hnames']; exact hnames, ?_⟩
      · rw [List.nodup_append]
        refine ⟨hlognd, List.nodup_singleton _, ?_⟩
        intro x hx hx'
        rw [List.mem_singleton] at hx'
        exact hnotin (hx' ▸ hx)
      · intro p hp
        rcases hother p hp with rfl | ⟨hps, hpn⟩
        · simp [hnew, hname]
        · rw [helim p hps]
          simp [hpn]
      · intro x hx
        rw [hnames']
        rcases List.mem_append.mp hx with h | h
        · exact hsub x h
        · rw [List.mem_singleton] at h
          subst h
          exact List.mem_map_of_mem _ holdmem
    · rw [hn, List.append_nil]
      refine ⟨ho, hlognd, ?_, hlives', by rw [hnames']; exact hnames,
        by rw [hnames']; exact hsub⟩
      intro p hp
      rcases hother p hp with rfl | ⟨hps, -⟩
      · rw [hsame, hname]
        exact helim old holdmem
      · exact helim p hps

theorem killerReachable_trace (rand : Nat → Nat) (players : List String) (startingLives : Int)
    (s : KillerGame) (hs : KillerReachable rand players startingLives s) :
    ∃ log, KillerTrace rand players startingLives s log := by
  induction hs with
  | start => exact ⟨[], KillerTrace.start⟩
  | turn now result s s' _ hstep ih =>
    obtain ⟨log, hlog⟩ := ih
    exact ⟨_, KillerTrace.turn now result s s' log hlog hstep⟩

/-- C18: for every Killer game state reachable from `createKillerGame` with distinctly
named players and `startingLives ≥ 1` by any sequence of `processTurn` calls,
`getEliminationOrder(state)` contains no duplicates, its members are exactly the names of
the players with `eliminated = true`, and it is the list of the eliminated players in the
order in which they were eliminated (the log of the trace that leads to the state). -/
theorem C18_elimination_order_lists_eliminated_in_order (rand : Nat → Nat)
    (players : List String) (startingLives : Int) (hnd : players.Nodup)
    (hl : 1 ≤ startingLives) (s : KillerGame)
    (hs : KillerReachable rand players startingLives s) :
    (getEliminationOrder s).Nodup ∧
      (∀ name, name ∈ getEliminationOrder s ↔
        ∃ p ∈ s.players, p.name = name ∧ p.eliminated = true) ∧
      (∃ log, KillerTrace rand players startingLives s log) ∧
      ∀ log, KillerTrace rand players startingLives s log → getEliminationOrder s = log := by
  obtain ⟨log, hlog⟩ := killerReachable_trace rand players startingLives s hs
  obtain ⟨hord, hlognd, helim, -, -, hsub⟩ :=
    killerTrace_inv rand players startingLives hnd hl s log hlog
  refine ⟨hord ▸ hlognd, ?_, ⟨log, hlog⟩, ?_⟩
  · intro name
    rw [hord]
    constructor
    · intro hin
      obtain ⟨p, hp, hpn⟩ := List.mem_map.mp (hsub name hin)
      exact ⟨p, hp, hpn, (helim p hp).mpr (hpn ▸ hin)⟩
    · rintro ⟨p, hp, rfl, hpe⟩
      exact (helim p hp).mp hpe
  · intro log' hlog'
    exact (killerTrace_inv rand players startingLives hnd hl s log' hlog').1

/-- Witness for C18: the state after the first player of a two-player, one-life game has
missed. -/
theorem C18_elimination_order_lists_eliminated_in_order_witness :
    (getEliminationOrder
        { players := [{ name := "A", lives := 0, eliminated := true },
                      { name := "B", lives := 1, eliminated := false }],
          currentPlayerIndex := 0, gameOver := true, winner := some "B",
          turnHistory := [{ player := "A", action := "miss", livesAfter := 0,
                            timestamp := "t" }] }).Nodup ∧
      (∀ name, name ∈ getEliminationOrder
          { players := [{ name := "A", lives := 0, eliminated := true },
                        { name := "B", lives := 1, eliminated := false }],
            currentPlayerIndex := 0, gameOver := true, winner := some "B",
            turnHistory := [{ player := "A", action := "miss", livesAfter := 0,
                              timestamp := "t" }] } ↔
        ∃ p ∈ ({ players := [{ name := "A", lives := 0, eliminated := true },
                             { name := "B", lives := 1, eliminated := false }],
                 currentPlayerIndex := 0, gameOver := true, winner := some "B",
                 turnHistory := [{ player := "A", action := "miss", livesAfter := 0,
                                   timestamp := "t" }] } : KillerGame).players,
          p.name = name ∧ p.eliminated = true) ∧
      (∃ log, KillerTrace (fun i => i) ["A", "B"] 1
        { players := [{ name := "A", lives := 0, eliminated := true },
                      { name := "B", lives := 1, eliminated := false }],
          currentPlayerIndex := 0, gameOver := true, winner := some "B",
          turnHistory := [{ player := "A", action := "miss", livesAfter := 0,
                            timestamp := "t" }] } log) ∧
      ∀ log, KillerTrace (fun i => i) ["A", "B"] 1
        { players := [{ name := "A", lives := 0, eliminated := true },
                      { name := "B", lives := 1, eliminated := false }],
          currentPlayerIndex := 0, gameOver := true, winner := some "B",
          turnHistory := [{ player := "A", action := "miss", livesAfter := 0,
                            timestamp := "t" }] } log →
        getEliminationOrder
          { players := [{ name := "A", lives := 0, eliminated := true },
                        { name := "B", lives := 1, eliminated := false }],
            currentPlayerIndex := 0, gameOver := true, winner := some "B",
            turnHistory := [{ player := "A", action := "miss", livesAfter := 0,
                              timestamp := "t" }] } = log :=
  C18_elimination_order_lists_eliminated_in_order (fun i => i) ["A", "B"] 1 (by decide)
    (by decide) _ (KillerReachable.turn "t" "miss" _ _ KillerReachable.start (by decide))
/-! ### Killer: one miss for every player -/

/-- The players after the first `k` of them have missed once: `names` in order, the first
`k` with one life less than `lives`, nobody eliminated. -/
theorem missed_getElem? (names : List String) (lives : Int) (k i : Nat) :
    (names.mapIdx (fun j name =>
        ({ name := name, lives := if j < k then lives - 1 else lives,
           eliminated := false } : KillerPlayer)))[i]? =
      names[i]?.map (fun name =>
        ({ name := name, lives := if i < k then lives - 1 else lives,
           eliminated := false } : KillerPlayer)) := by
  rw [List.getElem?_mapIdx]

theorem totalLives_eq_sum (s : KillerGame) :
    totalLives s = (s.players.map (fun p => p.lives)).sum := by
  unfold totalLives
  have h : ∀ (l : List KillerPlayer) (a : Int),
      l.foldl (fun sum p => sum + p.lives) a = a + (l.map (fun p => p.lives)).sum := by
    intro l
    induction l with
    | nil => intro a; simp
    | cons p l ih =>
      intro a
      rw [List.foldl_cons, ih, List.map_cons, List.sum_cons]
      omega
  rw [h, zero_add]

theorem sum_lives_const (l : List KillerPlayer) (c : Int) (h : ∀ p ∈ l, p.lives = c) :
    (l.map (fun p => p.lives)).sum = l.length * c := by
  induction l with
  | nil => simp
  | cons p l ih =>
    rw [List.map_cons, List.sum_cons, ih (fun q hq => h q (List.mem_cons_of_mem _ hq)),
      h p (List.mem_cons_self _ _), List.length_cons]
    push_cast
    ring

/-- One miss by the player number `k` of a game in which the players before have missed
once and the others not yet. -/
theorem processTurn_miss (now : String) (names : List String) (lives : Int) (k : Nat)
    (s : KillerGame) (hn : 2 ≤ names.length) (hL : 2 ≤ lives) (hk : k < names.length)
    (hplayers : s.players = names.mapIdx (fun j name =>
        ({ name := name, lives := if j < k then lives - 1 else lives,
           eliminated := false } : KillerPlayer)))
    (hcur : s.currentPlayerIndex = k) :
    ∃ s', processTurn now s "miss" = some s' ∧
      s'.players = names.mapIdx (fun j name =>
        ({ name := name, lives := if j < k + 1 then lives - 1 else lives,
           eliminated := false } : KillerPlayer)) ∧
      s'.currentPlayerIndex = (k + 1) % names.length ∧ s'.gameOver = s.gameOver := by
  have hlen : s.players.length = names.length := by rw [hplayers, List.length_mapIdx]
  have hget : s.players[k]? = some { name := names[k], lives := lives, eliminated := false } := by
    rw [hplayers, missed_getElem?, List.getElem?_eq_getElem hk]
    simp
  have hset : s.players.set k
      (applyTurn { name := names[k], lives := lives, eliminated := false } "miss") =
      names.mapIdx (fun j name =>
        ({ name := name, lives := if j < k + 1 then lives - 1 else lives,
           eliminated := false } : KillerPlayer)) := by
    apply List.ext_getElem?
    intro i
    rw [missed_getElem?, List.getElem?_set, hplayers, missed_getElem?]
    by_cases hi : k = i
    · subst hi
      have hm : max 0 (lives - 1) = lives - 1 := max_eq_right (by omega)
      have hz : ¬ lives - 1 = 0 := by omega
      simp [applyTurn, hk, hm, hz, List.length_mapIdx]
    · simp only [hi, if_false]
      cases names[i]? with
      | none => rfl
      | some a =>
        have : (i < k ↔ i < k + 1) := by omega
        simp [this]
  have hall : ∀ p ∈ names.mapIdx (fun j name =>
        ({ name := name, lives := if j < k + 1 then lives - 1 else lives,
           eliminated := false } : KillerPlayer)), p.eliminated = false := by
    intro p hp
    obtain ⟨i, hi⟩ := List.getElem?_of_mem hp
    rw [missed_getElem?] at hi
    cases hni : names[i]? with
    | none => rw [hni] at hi; exact Option.noConfusion hi
    | some a =>
      rw [hni] at hi
      simp only [Option.map_some', Option.some.injEq] at hi
      subst hi
      rfl
  have hwin : ∀ (g : KillerGame), g.players = names.mapIdx (fun j name =>
        ({ name := name, lives := if j < k + 1 then lives - 1 else lives,
           eliminated := false } : KillerPlayer)) → checkWinner g = none := by
    intro g hg
    unfold checkWinner
    have hf : g.players.filter (fun p => !p.eliminated) = g.players := by
      rw [List.filter_eq_self]
      intro p hp
      rw [hg] at hp
      rw [hall p hp]
      rfl
    simp only [hf]
    rw [if_neg]
    rw [hg, List.length_mapIdx]
    omega
  have hnext : ∀ (g : KillerGame), g.players = names.mapIdx (fun j name =>
        ({ name := name, lives := if j < k + 1 then lives - 1 else lives,
           eliminated := false } : KillerPlayer)) → g.currentPlayerIndex = k →
        findNextActivePlayer g = (k + 1) % names.length := by
    intro g hg hgc
    unfold findNextActivePlayer
    have hgl : g.players.length = names.length := by rw [hg, List.length_mapIdx]
    simp only [hgl, hgc]
    obtain ⟨m, hm⟩ : ∃ m, names.length = m + 1 := ⟨names.length - 1, by omega⟩
    rw [hm]
    unfold scanActive
    rw [if_neg]
    intro hcon
    cases hq : g.players[(k + 1) % (m + 1)]? with
    | none => rw [hq] at hcon; exact Option.noConfusion hcon
    | some q =>
      rw [hq] at hcon
      simp only [Option.map_some', Option.some.injEq] at hcon
      have := hall q (by rw [← hg]; exact List.getElem?_mem hq)
      rw [this] at hcon
      exact Bool.noConfusion hcon
  unfold processTurn
  rw [hcur, hget]
  dsimp only
  rw [hwin _ hset]
  exact ⟨_, rfl, hset, hnext _ hset rfl, rfl⟩

/-- The first `k` misses of a new game, for `k` up to the number of players. -/
theorem processTurns_miss (rand : Nat → Nat) (now : Nat → String) (players : List String)
    (lives : Int) (hn : 2 ≤ players.length) (hL : 2 ≤ lives) :
    ∀ k, k ≤ players.length →
      ∃ s, processTurns now "miss" k (createKillerGame rand players lives) = some s ∧
        s.players = (shuffleArray rand players).mapIdx (fun j name =>
          ({ name := name, lives := if j < k then lives - 1 else lives,
             eliminated := false } : KillerPlayer)) ∧
        s.currentPlayerIndex = k % players.length ∧ s.gameOver = false := by
  intro k
  induction k with
  | zero =>
    intro _
    refine ⟨_, rfl, ?_, by simp [createKillerGame], rfl⟩
    apply List.ext_getElem?
    intro i
    rw [missed_getElem?]
    simp [createKillerGame]
  | succ k ih =>
    intro hk
    obtain ⟨s, hs, hp, hc, hg⟩ := ih (by omega)
    have hlen : (shuffleArray rand players).length = players.length := shuffleArray_length _ _
    rw [Nat.mod_eq_of_lt (by omega)] at hc
    obtain ⟨s', hs', hp', hc', hg'⟩ := processTurn_miss (now k) (shuffleArray rand players)
      lives k s (by omega) hL (by omega) hp hc
    refine ⟨s', ?_, hp', ?_, ?_⟩
    · simp only [processTurns, hs, Option.some_bind, hs']
    · rw [hc', hlen]
    · rw [hg', hg]

/-- C22. With `n >= 2` players and `L >= 2` starting lives, `n` calls of `processTurn`
with result `'miss'` in a row on the state returned by `createKillerGame(players, L)` all
return, and leave every player with `L - 1` lives, nobody eliminated, `gameOver` false and
the total of the lives lower by `n`; the players are those of the new game. -/
theorem C22_one_miss_each_takes_one_life_each (rand : Nat → Nat) (now : Nat → String)
    (players : List String) (startingLives : Int) (hn : 2 ≤ players.length)
    (hL : 2 ≤ startingLives) :
    ∃ s, processTurns now "miss" players.length
        (createKillerGame rand players startingLives) = some s ∧
      s.players.map (fun p => p.name) =
        (createKillerGame rand players startingLives).players.map (fun p => p.name) ∧
      (∀ p ∈ s.players, p.lives = startingLives - 1 ∧ p.eliminated = false) ∧
      s.gameOver = false ∧
      totalLives s =
        totalLives (createKillerGame rand players startingLives) - (players.length : Int) := by
  obtain ⟨s, hs, hp, -, hg⟩ :=
    processTurns_miss rand now players startingLives hn hL players.length (le_refl _)
  have hlen : (shuffleArray rand players).length = players.length := shuffleArray_length _ _
  have hall : ∀ p ∈ s.players, p.lives = startingLives - 1 ∧ p.eliminated = false := by
    intro p hmem
    obtain ⟨i, hi⟩ := List.getElem?_of_mem hmem
    rw [hp, missed_getElem?] at hi
    cases hni : (shuffleArray rand players)[i]? with
    | none => rw [hni] at hi; exact Option.noConfusion hi
    | some a =>
      have hlt : i < players.length := by
        rw [← hlen]
        exact getElem?_lt_of_eq_some _ _ _ hni
      rw [hni] at hi
      simp only [Option.map_some', Option.some.injEq, hlt, if_true] at hi
      subst hi
      exact ⟨rfl, rfl⟩
  refine ⟨s, hs, ?_, hall, hg, ?_⟩
  · rw [hp]
    apply List.ext_getElem?
    intro i
    simp only [List.getElem?_map, missed_getElem?, createKillerGame, Option.map_map]
    rfl
  · rw [totalLives_eq_sum, totalLives_eq_sum, sum_lives_const _ _ (fun p hmem => (hall p hmem).1),
      sum_lives_const _ startingLives, hp]
    · simp only [createKillerGame, List.length_mapIdx, List.length_map, hlen]
      ring
    · intro p hmem
      simp only [createKillerGame, List.mem_map] at hmem
      obtain ⟨a, -, rfl⟩ := hmem
      rfl

theorem C22_one_miss_each_takes_one_life_each_witness :
    ∃ s, processTurns (fun _ => "t") "miss" 4
        (createKillerGame (fun _ => 0) ["A", "B", "C", "D"] 3) = some s ∧
      s.players.map (fun p => p.name) =
        (createKillerGame (fun _ => 0) ["A", "B", "C", "D"] 3).players.map (fun p => p.name) ∧
      (∀ p ∈ s.players, p.lives = 3 - 1 ∧ p.eliminated = false) ∧
      s.gameOver = false ∧
      totalLives s = totalLives (createKillerGame (fun _ => 0) ["A", "B", "C", "D"] 3) - 4 :=
  C22_one_miss_each_takes_one_life_each (fun _ => 0) (fun _ => "t") ["A", "B", "C", "D"] 3
    (by decide) (by decide)
/-! ### Swiss: completion of the tournament -/

theorem recordInRounds_length (matchId : String) (score1 score2 : Option Int)
    (winner : Option String) (players : List SwissPlayer) (rounds : List Round) :
    (recordInRounds matchId score1 score2 winner players rounds).2.length = rounds.length := by
  induction rounds generalizing players with
  | nil => rfl
  | cons r rest ih => simp only [recordInRounds, List.length_cons, ih]

theorem generateNextRound_cases (uuid : Nat → String) (t : SwissTournament) :
    (generateNextRound uuid t).totalRounds = t.totalRounds ∧
      (((t.currentRound : Int) ≥ t.totalRounds ∧
          (generateNextRound uuid t).currentRound = t.currentRound ∧
          (generateNextRound uuid t).rounds = t.rounds) ∨
        (¬ ((t.currentRound : Int) ≥ t.totalRounds) ∧
          (generateNextRound uuid t).currentRound = t.currentRound + 1 ∧
          ∃ r, (generateNextRound uuid t).rounds = t.rounds ++ [r])) := by
  unfold generateNextRound
  by_cases h : (t.currentRound : Int) ≥ t.totalRounds
  · rw [if_pos h]
    exact ⟨rfl, Or.inl ⟨h, rfl, rfl⟩⟩
  · rw [if_neg h]
    simp only
    split
    · exact ⟨rfl, Or.inr ⟨h, rfl, _, rfl⟩⟩
    · exact ⟨rfl, Or.inr ⟨h, rfl, _, rfl⟩⟩

/-- In every reachable state the round counter is the number of rounds generated and
has not passed `totalRounds` (when that is positive). -/
theorem swissReachable_round_counter (players : List String) (numRounds : Option Int)
    (hpos : 1 ≤ (createSwissTournament players numRounds).totalRounds) (t : SwissTournament)
    (ht : SwissReachable players numRounds t) :
    t.currentRound = t.rounds.length ∧ (t.currentRound : Int) ≤ t.totalRounds ∧
      1 ≤ t.totalRounds := by
  induction ht with
  | create =>
    refine ⟨rfl, ?_, hpos⟩
    have : ((createSwissTournament players numRounds).currentRound : Int) = 0 := rfl
    omega
  | next uuid t _ ih =>
    obtain ⟨h1, h2, h3⟩ := ih
    obtain ⟨ht, hc | hc⟩ := generateNextRound_cases uuid t
    · obtain ⟨-, hcur, hrounds⟩ := hc
      rw [ht, hcur, hrounds]
      exact ⟨h1, h2, h3⟩
    · obtain ⟨hlt, hcur, r, hrounds⟩ := hc
      rw [ht, hcur, hrounds]
      refine ⟨by simp [h1], ?_, h3⟩
      push_cast
      omega
  | record t matchId score1 score2 winner _ ih =>
    obtain ⟨h1, h2, h3⟩ := ih
    refine ⟨?_, h2, h3⟩
    simp only [recordResult, recordInRounds_length]
    exact h1

/-- C10, amended: for every Swiss tournament state reachable from a
`createSwissTournament` call whose round count is positive (a positive `numRounds`, or
the default of a non-empty roster) by `generateNextRound` and `recordResult` calls,
`isTournamentComplete(tournament)` is true if and only if `currentRound = totalRounds`
and every match of the last round is completed. -/
theorem C10_complete_iff_last_round_done (players : List String) (numRounds : Option Int)
    (hpos : 1 ≤ (createSwissTournament players numRounds).totalRounds) (t : SwissTournament)
    (ht : SwissReachable players numRounds t) :
    isTournamentComplete t = true ↔
      ((t.currentRound : Int) = t.totalRounds ∧
        ∃ r, t.rounds.getLast? = some r ∧ ∀ m ∈ r.matchList, m.completed = true) := by
  obtain ⟨h1, h2, h3⟩ := swissReachable_round_counter players numRounds hpos t ht
  unfold isTournamentComplete isRoundComplete
  rw [Bool.and_eq_true, decide_eq_true_iff]
  constructor
  · rintro ⟨hge, hall⟩
    have heq : (t.currentRound : Int) = t.totalRounds := by omega
    refine ⟨heq, ?_⟩
    cases hlast : t.rounds.getLast? with
    | none =>
      rw [List.getLast?_eq_none_iff] at hlast
      rw [hlast] at h1
      simp only [List.length_nil] at h1
      rw [h1] at heq
      simp at heq
      omega
    | some r =>
      rw [hlast] at hall
      exact ⟨r, rfl, fun m hm => List.all_eq_true.mp hall m hm⟩
  · rintro ⟨heq, r, hlast, hall⟩
    refine ⟨by omega, ?_⟩
    rw [hlast]
    exact List.all_eq_true.mpr hall

/-- Witness for C10: a one-round tournament of two players after its round has been generated. -/
theorem C10_complete_iff_last_round_done_witness :
    isTournamentComplete (generateNextRound (fun _ => "m")
        (createSwissTournament ["A", "B"] (some 1))) = true ↔
      (((generateNextRound (fun _ => "m")
          (createSwissTournament ["A", "B"] (some 1))).currentRound : Int) =
        (generateNextRound (fun _ => "m")
          (createSwissTournament ["A", "B"] (some 1))).totalRounds ∧
        ∃ r, (generateNextRound (fun _ => "m")
          (createSwissTournament ["A", "B"] (some 1))).rounds.getLast? = some r ∧
          ∀ m ∈ r.matchList, m.completed = true) :=
  C10_complete_iff_last_round_done ["A", "B"] (some 1) (by decide) _
    (SwissReachable.next _ _ SwissReachable.create)

/-- C10 as stated fails when `createSwissTournament` is given a negative round count:
`currentRound >= totalRounds` holds from the start and there is no round, so
`isTournamentComplete` is true while `currentRound` is not `totalRounds`. -/
theorem C10_negative_round_count_complete_at_once :
    isTournamentComplete (createSwissTournament ["A", "B"] (some (-1))) = true ∧
      ((createSwissTournament ["A", "B"] (some (-1))).currentRound : Int) ≠
        (createSwissTournament ["A", "B"] (some (-1))).totalRounds := by
  decide

/-! ### Swiss: the Buchholz recomputation -/

theorem foldl_points_eq (players : List SwissPlayer) (opps : List String) (acc : Int) :
    opps.foldl (fun buchholz oppName =>
        match players.find? (fun p => p.name = oppName) with
        | some opp => buchholz + opp.points
        | none => buchholz) acc =
      acc + (opps.map (pointsOfNamed players)).sum := by
  induction opps generalizing acc with
  | nil => simp
  | cons o rest ih =>
    simp only [List.foldl_cons, List.map_cons, List.sum_cons, ih, pointsOfNamed]
    cases players.find? (fun p => p.name = o) with
    | none => simp
    | some opp => simp only; ring

theorem buchholzOf_eq_sum (players : List SwissPlayer) (player : SwissPlayer) :
    buchholzOf players player = (player.opponents.map (pointsOfNamed players)).sum := by
  unfold buchholzOf
  rw [foldl_points_eq]
  simp

/-- Looking up the points of a name only depends on the names and points of the list. -/
theorem pointsOfNamed_congr (ps qs : List SwissPlayer)
    (h : ps.map (fun p => (p.name, p.points)) = qs.map (fun p => (p.name, p.points)))
    (name : String) : pointsOfNamed ps name = pointsOfNamed qs name := by
  induction ps generalizing qs with
  | nil =>
    cases qs with
    | nil => rfl
    | cons q qs => simp at h
  | cons p ps ih =>
    cases qs with
    | nil => simp at h
    | cons q qs =>
      simp only [List.map_cons, List.cons.injEq, Prod.mk.injEq] at h
      obtain ⟨⟨hn, hp⟩, hrest⟩ := h
      have := ih qs hrest
      unfold pointsOfNamed at this ⊢
      simp only [List.find?_cons, hn]
      by_cases hq : q.name = name
      · simp [hq, hp]
      · simp only [hq, decide_False]
        exact this

theorem buchholzOf_congr (ps qs : List SwissPlayer)
    (h : ps.map (fun p => (p.name, p.points)) = qs.map (fun p => (p.name, p.points)))
    (player : SwissPlayer) : buchholzOf ps player = buchholzOf qs player := by
  rw [buchholzOf_eq_sum, buchholzOf_eq_sum]
  congr 1
  apply List.map_congr_left
  intro o _
  exact pointsOfNamed_congr ps qs h o

/-- The in-place loop of `updateBuchholz`, after it has handled the first `n`
players. -/
theorem updateBuchholz_upto (ps : List SwissPlayer) (n : Nat) :
    (List.range n).foldl (fun qs i =>
        match qs[i]? with
        | none => qs
        | some player => qs.set i { player with buchholz := buchholzOf qs player }) ps =
      ps.mapIdx (fun i p => if i < n then { p with buchholz := buchholzOf ps p } else p) := by
  induction n with
  | zero =>
    simp only [List.range_zero, List.foldl_nil, Nat.not_lt_zero, if_false]
    apply List.ext_getElem?
    intro i
    rw [List.getElem?_mapIdx]
    cases ps[i]? <;> rfl
  | succ n ih =>
    rw [List.range_succ, List.foldl_append, ih, List.foldl_cons, List.foldl_nil]
    have hnp : (ps.mapIdx (fun i p =>
          if i < n then { p with buchholz := buchholzOf ps p } else p)).map
            (fun p => (p.name, p.points)) = ps.map (fun p => (p.name, p.points)) := by
      apply List.ext_getElem?
      intro i
      simp only [List.getElem?_map, List.getElem?_mapIdx]
      cases ps[i]? with
      | none => rfl
      | some p => simp only [Option.map_some']; split_ifs <;> rfl
    rw [List.getElem?_mapIdx]
    cases hn : ps[n]? with
    | none =>
      simp only [Option.map_none']
      apply List.ext_getElem?
      intro i
      simp only [List.getElem?_mapIdx]
      cases hi : ps[i]? with
      | none => rfl
      | some p =>
        have hin : i < ps.length := by
          by_contra hcon
          rw [List.getElem?_eq_none (by omega)] at hi
          exact Option.noConfusion hi
        have hnn : ps.length ≤ n := by
          by_contra hcon
          rw [List.getElem?_eq_getElem (by omega)] at hn
          exact Option.noConfusion hn
        simp only [Option.map_some']
        rw [if_pos (by omega), if_pos (by omega)]
    | some p =>
      simp only [Option.map_some', lt_irrefl, if_false]
      apply List.ext_getElem?
      intro i
      rw [List.getElem?_set]
      simp only [List.getElem?_mapIdx, List.length_mapIdx]
      have hnl : n < ps.length := by
        by_contra hcon
        rw [List.getElem?_eq_none (by omega)] at hn
        exact Option.noConfusion hn
      by_cases hin : n = i
      · subst hin
        rw [if_pos rfl, if_pos hnl, hn]
        simp only [Option.map_some', Nat.lt_succ_self, if_true]
        rw [buchholzOf_congr _ _ hnp]
      · rw [if_neg hin]
        cases ps[i]? with
        | none => rfl
        | some q =>
          simp only [Option.map_some']
          by_cases hlt : i < n
          · rw [if_pos hlt, if_pos (by omega)]
          · rw [if_neg hlt, if_neg (by omega)]

theorem updateBuchholz_eq_map (ps : List SwissPlayer) :
    updateBuchholz ps = ps.map (fun p => { p with buchholz := buchholzOf ps p }) := by
  unfold updateBuchholz
  rw [updateBuchholz_upto]
  apply List.ext_getElem?
  intro i
  simp only [List.getElem?_mapIdx, List.getElem?_map]
  cases hi : ps[i]? with
  | none => rfl
  | some p =>
    have hin : i < ps.length := by
      by_contra hcon
      rw [List.getElem?_eq_none (by omega)] at hi
      exact Option.noConfusion hi
    simp only [Option.map_some', hin, if_true]

/-- C9: for every Swiss tournament state and every call `recordResult(tournament, matchId,
score1, score2, winner)`, in the returned state every player's `buchholz` equals the sum of
the current points of the players named in that player's `opponents` list. -/
theorem C9_buchholz_is_sum_of_opponent_points (tournament : SwissTournament) (matchId : String)
    (score1 score2 : Option Int) (winner : Option String) :
    ∀ p ∈ (recordResult tournament matchId score1 score2 winner).players,
      p.buchholz = (p.opponents.map (pointsOfNamed
        (recordResult tournament matchId score1 score2 winner).players)).sum := by
  intro p hp
  simp only [recordResult] at hp ⊢
  generalize (recordInRounds matchId score1 score2 winner tournament.players
    tournament.rounds).1 = ps at hp ⊢
  rw [updateBuchholz_eq_map] at hp ⊢
  obtain ⟨q, hq, rfl⟩ := List.mem_map.mp hp
  simp only
  rw [buchholzOf_eq_sum]
  congr 1
  apply List.map_congr_left
  intro o _
  apply pointsOfNamed_congr
  simp only [List.map_map]
  rfl

/-- Witness for C9: player `B` after losing the only match of round 1 to `A`; the Buchholz
score is the two half points of `A`. -/
theorem C9_buchholz_is_sum_of_opponent_points_witness :
    ({ name := "B", points := 0, wins := 0, losses := 1, draws := 0, opponents := ["A"],
       buchholz := 2 } : SwissPlayer).buchholz =
      (({ name := "B", points := 0, wins := 0, losses := 1, draws := 0, opponents := ["A"],
          buchholz := 2 } : SwissPlayer).opponents.map (pointsOfNamed
        (recordResult
          (generateNextRound (fun _ => "m1") (createSwissTournament ["A", "B"] (some 2)))
          "m1" (some 2) (some 1) (some "player1")).players)).sum :=
  C9_buchholz_is_sum_of_opponent_points
    (generateNextRound (fun _ => "m1") (createSwissTournament ["A", "B"] (some 2)))
    "m1" (some 2) (some 1) (some "player1")
    { name := "B", points := 0, wins := 0, losses := 1, draws := 0, opponents := ["A"],
      buchholz := 2 }
    (by decide)

/-! ### Swiss: no opponent is recorded twice -/

theorem oppView_modify (players : List SwissPlayer) (f : SwissPlayer → SwissPlayer) (i : Nat)
    (hf : ∀ p, (f p).name = p.name ∧ (f p).opponents = p.opponents) :
    oppView (players.modify f i) = oppView players := by
  unfold oppView
  apply List.ext_getElem?
  intro j
  simp only [List.getElem?_map, List.getElem?_modify]
  cases players[j]? with
  | none => rfl
  | some p =>
    simp only [Option.map_eq_map, Option.map_some', Option.some.injEq]
    split_ifs
    · rw [(hf p).1, (hf p).2]
    · rfl

theorem oppView_updateBuchholz (players : List SwissPlayer) :
    oppView (updateBuchholz players) = oppView players := by
  rw [updateBuchholz_eq_map]
  unfold oppView
  rw [List.map_map]
  rfl

theorem oppView_awardBye (players : List SwissPlayer) (name : String) :
    oppView (awardBye players name) = oppView players := by
  unfold awardBye
  split
  · rfl
  · exact oppView_modify _ _ _ (fun p => ⟨rfl, rfl⟩)

/-- The index that `findIndex` returns for a name of a roster without duplicate names. -/
theorem findIdx?_name (players : List SwissPlayer)
    (hnd : ((oppView players).map Prod.fst).Nodup) (a : String)
    (ha : ∃ x ∈ oppView players, x.1 = a) :
    ∃ i, players.findIdx? (fun p => some p.name = some a) = some i ∧
      ∀ j p, players[j]? = some p → (p.name = a ↔ j = i) := by
  have hnames : (oppView players).map Prod.fst = players.map (fun p => p.name) := by
    unfold oppView; rw [List.map_map]; rfl
  rw [hnames] at hnd
  obtain ⟨x, hx, hxa⟩ := ha
  obtain ⟨p0, hp0, rfl⟩ := List.mem_map.mp hx
  simp only at hxa
  have hex : ∃ x, x ∈ players ∧
      (fun p : SwissPlayer => decide (some p.name = some a)) x = true :=
    ⟨p0, hp0, by simpa using hxa⟩
  refine ⟨_, List.findIdx?_eq_some_of_exists hex, ?_⟩
  have hlt := List.findIdx_lt_length_of_exists hex
  have hp : players[List.findIdx (fun p => decide (some p.name = some a)) players].name = a :=
    Option.some.inj (of_decide_eq_true (List.findIdx_getElem (w := hlt)))
  intro j p hj
  obtain ⟨hjl, hje⟩ := List.getElem?_eq_some_iff.mp hj
  constructor
  · intro hname
    have hj2 : j < (players.map (fun p => p.name)).length := by simpa using hjl
    have hi2 : List.findIdx (fun p => decide (some p.name = some a)) players <
        (players.map (fun p => p.name)).length := by simpa using hlt
    have h1 : (players.map (fun p => p.name))[j] =
        (players.map (fun p => p.name))[
          List.findIdx (fun p => decide (some p.name = some a)) players] := by
      simp only [List.getElem_map, hje, hname, hp]
    exact (hnd.getElem_inj_iff).mp h1
  · rintro rfl
    rw [← hje]; exact hp

/-- What `recordResult` adds to the opponents of the player called `name`, for a match
between `a` and `b`. -/
theorem oppView_push (players : List SwissPlayer) (a b : String) (i1 i2 : Nat)
    (h1 : ∀ j p, players[j]? = some p → (p.name = a ↔ j = i1))
    (h2 : ∀ j p, players[j]? = some p → (p.name = b ↔ j = i2)) :
    oppView ((players.modify (fun p => { p with opponents := p.opponents ++ [b] }) i1).modify
        (fun p => { p with opponents := p.opponents ++ [a] }) i2) =
      (oppView players).map (fun x =>
        (x.1, (x.2 ++ if x.1 = a then [b] else []) ++ if x.1 = b then [a] else [])) := by
  unfold oppView
  apply List.ext_getElem?
  intro j
  simp only [List.getElem?_map, List.getElem?_modify]
  cases hj : players[j]? with
  | none => rfl
  | some p =>
    have e1 := h1 j p hj
    have e2 := h2 j p hj
    simp only [Option.map_eq_map, Option.map_some', Option.some.injEq]
    by_cases c1 : i1 = j <;> by_cases c2 : i2 = j
    · have n1 : p.name = a := e1.mpr c1.symm
      have n2 : p.name = b := e2.mpr c2.symm
      simp [c1, c2, n1, ← n2]
    · have n1 : p.name = a := e1.mpr c1.symm
      have n2 : ¬ p.name = b := fun h => c2 (e2.mp h).symm
      rw [n1] at n2
      simp [c1, c2, n1, n2]
    · have n1 : ¬ p.name = a := fun h => c1 (e1.mp h).symm
      have n2 : p.name = b := e2.mpr c2.symm
      rw [n2] at n1
      simp [c1, c2, n1, n2]
    · have n1 : ¬ p.name = a := fun h => c1 (e1.mp h).symm
      have n2 : ¬ p.name = b := fun h => c2 (e2.mp h).symm
      simp [c1, c2, n1, n2]

/-- The effect of `recordResult` on names and opponents, for a match between two
different players `a` and `b` of a roster without duplicate names. -/
theorem oppView_applyResult (players : List SwissPlayer) (m : Match) (winner : Option String)
    (a b : String) (hnd : ((oppView players).map Prod.fst).Nodup)
    (hm1 : m.player1 = some a) (hm2 : m.player2 = some b)
    (ha : ∃ x ∈ oppView players, x.1 = a) (hb : ∃ y ∈ oppView players, y.1 = b) :
    oppView (applyResult players m winner) =
      if b = "BYE" then oppView players
      else (oppView players).map (fun x =>
        (x.1, (x.2 ++ if x.1 = a then [b] else []) ++ if x.1 = b then [a] else [])) := by
  obtain ⟨i1, hi1, hu1⟩ := findIdx?_name players hnd a ha
  obtain ⟨i2, hi2, hu2⟩ := findIdx?_name players hnd b hb
  unfold applyResult
  rw [hm1, hm2, hi1, hi2]
  simp only [Option.toList_some, ne_eq, Option.some.injEq]
  by_cases hbye : b = "BYE"
  · simp [hbye]
  · rw [if_pos hbye, if_neg hbye]
    have hpush := oppView_push players a b i1 i2 hu1 hu2
    have step : ∀ (l : List SwissPlayer) (f : SwissPlayer → SwissPlayer) (i : Nat)
        (rhs : List (String × List String)),
        (∀ p, (f p).name = p.name ∧ (f p).opponents = p.opponents) → oppView l = rhs →
        oppView (l.modify f i) = rhs :=
      fun l f i rhs hf h => (oppView_modify l f i hf).trans h
    split_ifs
    · refine step _ _ _ _ ?_ (step _ _ _ _ ?_ (step _ _ _ _ ?_ hpush)) <;>
        exact fun p => ⟨rfl, rfl⟩
    · refine step _ _ _ _ ?_ (step _ _ _ _ ?_ (step _ _ _ _ ?_ hpush)) <;>
        exact fun p => ⟨rfl, rfl⟩
    · refine step _ _ _ _ ?_ (step _ _ _ _ ?_ (step _ _ _ _ ?_
        (step _ _ _ _ ?_ hpush))) <;> exact fun p => ⟨rfl, rfl⟩

theorem recordInRound_of_no_match (matchId : String) (score1 score2 : Option Int)
    (winner : Option String) (players : List SwissPlayer) (round : Round)
    (h : ∀ m ∈ round.matchList, m.id ≠ matchId) :
    recordInRound matchId score1 score2 winner players round = (players, round) := by
  unfold recordInRound
  have hnone : round.matchList.findIdx? (fun m => decide (m.id = matchId)) = none := by
    rw [List.findIdx?_eq_none_iff]
    intro m hm
    simpa using h m hm
  rw [hnone]

theorem recordInRounds_of_no_match (matchId : String) (score1 score2 : Option Int)
    (winner : Option String) (players : List SwissPlayer) (rounds : List Round)
    (h : ∀ r ∈ rounds, ∀ m ∈ r.matchList, m.id ≠ matchId) :
    recordInRounds matchId score1 score2 winner players rounds = (players, rounds) := by
  induction rounds generalizing players with
  | nil => rfl
  | cons r rest ih =>
    simp only [recordInRounds]
    rw [recordInRound_of_no_match _ _ _ _ _ _ (h r (List.mem_cons_self _ _))]
    simp only
    rw [ih players (fun r' hr' => h r' (List.mem_cons_of_mem _ hr'))]

theorem recordInRound_at (matchId : String) (score1 score2 : Option Int)
    (winner : Option String) (players : List SwissPlayer) (round : Round)
    (ms1 ms2 : List Match) (m : Match) (hr : round.matchList = ms1 ++ m :: ms2)
    (hid : m.id = matchId) (h1 : ∀ m' ∈ ms1, m'.id ≠ matchId) :
    recordInRound matchId score1 score2 winner players round =
      (applyResult players
          { m with score1 := score1, score2 := score2, winner := winner, completed := true }
          winner,
        { round with matchList := ms1 ++
          { m with score1 := score1, score2 := score2, winner := winner, completed := true } ::
            ms2 }) := by
  unfold recordInRound
  have hidx : round.matchList.findIdx? (fun m => decide (m.id = matchId)) =
      some ms1.length := by
    rw [hr, List.findIdx?_append]
    have hnone : ms1.findIdx? (fun m => decide (m.id = matchId)) = none := by
      rw [List.findIdx?_eq_none_iff]
      intro m' hm'
      simpa using h1 m' hm'
    rw [hnone]
    simp [List.findIdx?_cons, hid]
  have hget : round.matchList[ms1.length]? = some m := by
    rw [hr, List.getElem?_append_right (Nat.le_refl _), Nat.sub_self, List.getElem?_cons_zero]
  rw [hidx]
  simp only [hget]
  congr 2
  rw [hr]
  simp

theorem recordInRounds_append (matchId : String) (score1 score2 : Option Int)
    (winner : Option String) (players : List SwissPlayer) (pre rest : List Round) :
    recordInRounds matchId score1 score2 winner players (pre ++ rest) =
      ((recordInRounds matchId score1 score2 winner
          (recordInRounds matchId score1 score2 winner players pre).1 rest).1,
        (recordInRounds matchId score1 score2 winner players pre).2 ++
          (recordInRounds matchId score1 score2 winner
            (recordInRounds matchId score1 score2 winner players pre).1 rest).2) := by
  induction pre generalizing players with
  | nil => rfl
  | cons r pre ih =>
    rw [List.cons_append]
    simp only [recordInRounds]
    rw [ih]
    rfl

/-- The effect of `recordResult` when exactly one match carries the id. -/
theorem recordInRounds_at (matchId : String) (score1 score2 : Option Int)
    (winner : Option String) (players : List SwissPlayer) (pre post : List Round)
    (round : Round) (ms1 ms2 : List Match) (m : Match)
    (hr : round.matchList = ms1 ++ m :: ms2) (hid : m.id = matchId)
    (hpre : ∀ r ∈ pre, ∀ m' ∈ r.matchList, m'.id ≠ matchId)
    (h1 : ∀ m' ∈ ms1, m'.id ≠ matchId)
    (hpost : ∀ r ∈ post, ∀ m' ∈ r.matchList, m'.id ≠ matchId) :
    recordInRounds matchId score1 score2 winner players (pre ++ round :: post) =
      (applyResult players
          { m with score1 := score1, score2 := score2, winner := winner, completed := true }
          winner,
        pre ++ { round with matchList := ms1 ++
          { m with score1 := score1, score2 := score2, winner := winner, completed := true } ::
            ms2 } :: post) := by
  rw [recordInRounds_append, recordInRounds_of_no_match _ _ _ _ _ pre hpre]
  simp only [recordInRounds]
  rw [recordInRound_at matchId score1 score2 winner players round ms1 ms2 m hr hid h1]
  simp only
  rw [recordInRounds_of_no_match _ _ _ _ _ post hpost]

/-- Recording never reopens a match: rounds before the last stay complete. -/
theorem recordInRounds_earlier (matchId : String) (score1 score2 : Option Int)
    (winner : Option String) (players : List SwissPlayer) (rounds : List Round)
    (h : ∀ r ∈ rounds.dropLast, ∀ m ∈ r.matchList, m.completed = true) :
    ∀ r ∈ (recordInRounds matchId score1 score2 winner players rounds).2.dropLast,
      ∀ m ∈ r.matchList, m.completed = true := by
  induction rounds generalizing players with
  | nil => intro r hr; simp [recordInRounds] at hr
  | cons r0 rest ih =>
    intro r hr m hm
    simp only [recordInRounds] at hr
    have hlen := recordInRounds_length matchId score1 score2 winner
      (recordInRound matchId score1 score2 winner players r0).1 rest
    cases rest with
    | nil => simp [recordInRounds] at hr
    | cons r1 rest' =>
      have hne : (recordInRounds matchId score1 score2 winner
          (recordInRound matchId score1 score2 winner players r0).1 (r1 :: rest')).2 ≠ [] := by
        intro hcon
        rw [hcon] at hlen
        simp at hlen
      rw [List.dropLast_cons_of_ne_nil hne, List.mem_cons] at hr
      rw [List.dropLast_cons_of_ne_nil (by simp)] at h
      rcases hr with rfl | hr
      · have h0 := h r0 (List.mem_cons_self _ _)
        unfold recordInRound at hm
        split at hm
        · exact h0 m hm
        · split at hm
          · exact h0 m hm
          · simp only at hm
            rcases List.mem_or_eq_of_mem_set hm with h' | h'
            · exact h0 m h'
            · rw [h']
      · exact ih _ (fun r' hr' => h r' (List.mem_cons_of_mem _ hr')) r hr m hm

theorem pairwise_replace {α : Type} (R : α → α → Prop) (X Y : List α) (m m' : α)
    (h : (X ++ m :: Y).Pairwise R) (hl : ∀ z, R z m') (hr : ∀ z, R m' z) :
    (X ++ m' :: Y).Pairwise R := by
  rw [List.pairwise_append] at h ⊢
  obtain ⟨hX, hmY, hXY⟩ := h
  rw [List.pairwise_cons] at hmY ⊢
  refine ⟨hX, ⟨fun z _ => hr z, hmY.2⟩, ?_⟩
  intro x hx y hy
  rw [List.mem_cons] at hy
  rcases hy with rfl | hy
  · exact hl x
  · exact hXY x hx y (List.mem_cons_of_mem _ hy)

theorem allMatches_append_cons (pre post : List Round) (r : Round) :
    allMatches (pre ++ r :: post) = allMatches pre ++ r.matchList ++ allMatches post := by
  simp [allMatches, List.flatMap_append, List.flatMap_cons]

theorem pushOpp_fst (a b : String) (view : List (String × List String)) :
    (view.map (pushOpp a b)).map Prod.fst = view.map Prod.fst := by
  rw [List.map_map]
  rfl

theorem pushOpp_mem_snd (a b : String) (x : String × List String) (c : String) :
    c ∈ (pushOpp a b x).2 ↔ c ∈ x.2 ∨ (x.1 = a ∧ c = b) ∨ (x.1 = b ∧ c = a) := by
  unfold pushOpp
  simp only [List.mem_append]
  by_cases h1 : x.1 = a <;> by_cases h2 : x.1 = b <;> simp [h1, h2] <;> tauto

theorem pushOpp_of_ne (a b : String) (x : String × List String) (h1 : x.1 ≠ a)
    (h2 : x.1 ≠ b) : pushOpp a b x = x := by
  unfold pushOpp
  simp [h1, h2]

/-- Recording a pending match keeps the opponents lists free of duplicates and
symmetric. -/
theorem pushOpp_view (a b : String) (view : List (String × List String))
    (hab : a ≠ b) (hno : ∀ x ∈ view, x.2.Nodup)
    (hsymm : ∀ x ∈ view, ∀ y ∈ view, y.1 ∈ x.2 → x.1 ∈ y.2)
    (ha : ∀ x ∈ view, x.1 = a → b ∉ x.2) (hb : ∀ y ∈ view, y.1 = b → a ∉ y.2) :
    (∀ x ∈ view.map (pushOpp a b), x.2.Nodup) ∧
      (∀ x ∈ view.map (pushOpp a b), ∀ y ∈ view.map (pushOpp a b), y.1 ∈ x.2 → x.1 ∈ y.2) := by
  constructor
  · intro x' hx'
    obtain ⟨x, hx, rfl⟩ := List.mem_map.mp hx'
    by_cases h1 : x.1 = a
    · have h2 : ¬ x.1 = b := fun h => hab (h1.symm.trans h)
      have e : (pushOpp a b x).2 = x.2 ++ [b] := by
        unfold pushOpp
        rw [if_pos h1, if_neg h2, List.append_nil]
      rw [e, List.nodup_append]
      refine ⟨hno x hx, List.nodup_singleton _, ?_⟩
      intro c hc hc'
      rw [List.mem_singleton] at hc'
      subst hc'
      exact ha x hx h1 hc
    · by_cases h2 : x.1 = b
      · have e : (pushOpp a b x).2 = x.2 ++ [a] := by
          unfold pushOpp
          rw [if_neg h1, if_pos h2, List.append_nil]
        rw [e, List.nodup_append]
        refine ⟨hno x hx, List.nodup_singleton _, ?_⟩
        intro c hc hc'
        rw [List.mem_singleton] at hc'
        subst hc'
        exact hb x hx h2 hc
      · rw [pushOpp_of_ne a b x h1 h2]
        exact hno x hx
  · intro x' hx' y' hy' hmem
    obtain ⟨x, hx, rfl⟩ := List.mem_map.mp hx'
    obtain ⟨y, hy, rfl⟩ := List.mem_map.mp hy'
    rw [pushOpp_mem_snd] at hmem ⊢
    have e1 : (pushOpp a b x).1 = x.1 := rfl
    have e2 : (pushOpp a b y).1 = y.1 := rfl
    rw [e2] at hmem
    rw [e1]
    rcases hmem with h | ⟨h1, h2⟩ | ⟨h1, h2⟩
    · exact Or.inl (hsymm x hx y hy h)
    · exact Or.inr (Or.inr ⟨h2, h1⟩)
    · exact Or.inr (Or.inl ⟨h2, h1⟩)

/-- A pending match that shares no player with the recorded one stays recordable. -/
theorem pendingOk_pushOpp (a b : String) (view : List (String × List String)) (m : Match)
    (hm : PendingOk view m) (h1 : m.player1 ≠ some a) (h2 : m.player1 ≠ some b)
    (h3 : m.player2 ≠ some a) (h4 : m.player2 ≠ some b) :
    PendingOk (view.map (pushOpp a b)) m := by
  obtain ⟨a2, b2, hp1, hp2, hne, ⟨x, hx, hxa⟩, ⟨y, hy, hyb⟩, hxno, hyno⟩ := hm
  rw [hp1] at h1 h2
  rw [hp2] at h3 h4
  have n1 : a2 ≠ a := fun h => h1 (by rw [h])
  have n2 : a2 ≠ b := fun h => h2 (by rw [h])
  have n3 : b2 ≠ a := fun h => h3 (by rw [h])
  have n4 : b2 ≠ b := fun h => h4 (by rw [h])
  refine ⟨a2, b2, hp1, hp2, hne, ⟨pushOpp a b x, List.mem_map_of_mem _ hx, hxa⟩,
    ⟨pushOpp a b y, List.mem_map_of_mem _ hy, hyb⟩, ?_, ?_⟩
  · intro x' hx' hx'a
    obtain ⟨x0, hx0, rfl⟩ := List.mem_map.mp hx'
    have e : (pushOpp a b x0).1 = x0.1 := rfl
    rw [e] at hx'a
    rw [pushOpp_of_ne a b x0 (by rw [hx'a]; exact n1) (by rw [hx'a]; exact n2)]
    exact hxno x0 hx0 hx'a
  · intro y' hy' hy'b
    obtain ⟨y0, hy0, rfl⟩ := List.mem_map.mp hy'
    have e : (pushOpp a b y0).1 = y0.1 := rfl
    rw [e] at hy'b
    rw [pushOpp_of_ne a b y0 (by rw [hy'b]; exact n3) (by rw [hy'b]; exact n4)]
    exact hyno y0 hy0 hy'b

/-- Recording a result on a match that is not completed yet keeps the invariant. -/
theorem recordResult_inv (t : SwissTournament) (matchId : String) (score1 score2 : Option Int)
    (winner : Option String) (hinv : SwissInv t)
    (hpre : ∀ r ∈ t.rounds, ∀ m ∈ r.matchList, m.id = matchId → m.completed = false) :
    SwissInv (recordResult t matchId score1 score2 winner) := by
  have hearlier := recordInRounds_earlier matchId score1 score2 winner t.players t.rounds
    hinv.earlier
  by_cases hex : ∃ r ∈ t.rounds, ∃ m ∈ r.matchList, m.id = matchId
  · obtain ⟨r, hr, m, hm, hid⟩ := hex
    obtain ⟨pre, post, hrounds⟩ := List.append_of_mem hr
    obtain ⟨ms1, ms2, hms⟩ := List.append_of_mem hm
    have hall : allMatches t.rounds =
        (allMatches pre ++ ms1) ++ m :: (ms2 ++ allMatches post) := by
      rw [hrounds, allMatches_append_cons, hms]
      simp
    have hids := hinv.ids
    rw [hall, List.map_append, List.map_cons, List.nodup_append, List.nodup_cons] at hids
    obtain ⟨-, ⟨hmY, -⟩, hXY⟩ := hids
    have hX : ∀ m' ∈ allMatches pre ++ ms1, m'.id ≠ matchId := by
      intro m' hm' hcon
      exact hXY (List.mem_map_of_mem (fun m => m.id) hm') (by
        rw [hcon, ← hid]; exact List.mem_cons_self _ _)
    have hY : ∀ m' ∈ ms2 ++ allMatches post, m'.id ≠ matchId := by
      intro m' hm' hcon
      apply hmY
      rw [hid, ← hcon]
      exact List.mem_map_of_mem (fun m => m.id) hm'
    have hpre' : ∀ r ∈ pre, ∀ m' ∈ r.matchList, m'.id ≠ matchId := by
      intro r' hr' m' hm'
      apply hX
      rw [List.mem_append]
      left
      unfold allMatches
      rw [List.mem_flatMap]
      exact ⟨r', hr', hm'⟩
    have hpost' : ∀ r ∈ post, ∀ m' ∈ r.matchList, m'.id ≠ matchId := by
      intro r' hr' m' hm'
      apply hY
      rw [List.mem_append]
      right
      unfold allMatches
      rw [List.mem_flatMap]
      exact ⟨r', hr', hm'⟩
    have hms1 : ∀ m' ∈ ms1, m'.id ≠ matchId := fun m' hm' =>
      hX m' (List.mem_append_right _ hm')
    have hpend : m.completed = false := hpre r hr m hm hid
    have hmall : m ∈ allMatches t.rounds := by
      rw [hall]; exact List.mem_append_right _ (List.mem_cons_self _ _)
    obtain ⟨a, b, hp1, hp2, hab, hxa, hyb, hano, hbno⟩ := hinv.pendingOk m hmall hpend
    have hrec := recordInRounds_at matchId score1 score2 winner t.players pre post r ms1 ms2 m
      hms hid hpre' hms1 hpost'
    rw [← hrounds] at hrec
    have hview : oppView (recordResult t matchId score1 score2 winner).players =
        if b = "BYE" then oppView t.players else (oppView t.players).map (pushOpp a b) := by
      simp only [recordResult, hrec, oppView_updateBuchholz]
      exact oppView_applyResult t.players _ winner a b hinv.names hp1 hp2 hxa hyb
    have hroundsNew : (recordResult t matchId score1 score2 winner).rounds =
        pre ++ { r with matchList := ms1 ++
          { m with score1 := score1, score2 := score2, winner := winner, completed := true } ::
            ms2 } :: post := by
      simp only [recordResult, hrec]
    have hallNew : allMatches (recordResult t matchId score1 score2 winner).rounds =
        (allMatches pre ++ ms1) ++
          { m with score1 := score1, score2 := score2, winner := winner, completed := true } ::
            (ms2 ++ allMatches post) := by
      rw [hroundsNew, allMatches_append_cons]
      simp
    have hapart : ∀ m2 ∈ allMatches (recordResult t matchId score1 score2 winner).rounds,
        m2.completed = false →
        m2 ∈ allMatches t.rounds ∧ m2.player1 ≠ some a ∧ m2.player1 ≠ some b ∧
          m2.player2 ≠ some a ∧ m2.player2 ≠ some b := by
      intro m2 hm2 hpend2
      rw [hallNew, List.mem_append, List.mem_cons] at hm2
      have hpw := hinv.pendingApart
      rw [hall, List.pairwise_append, List.pairwise_cons] at hpw
      obtain ⟨-, ⟨hmY', -⟩, hXm⟩ := hpw
      rcases hm2 with h | h | h
      · have hap := hXm m2 h m (List.mem_cons_self _ _) hpend2 hpend
        unfold Match.apart at hap
        rw [hp1, hp2] at hap
        exact ⟨by rw [hall]; exact List.mem_append_left _ h, hap.1, hap.2.1, hap.2.2.1, hap.2.2.2⟩
      · rw [h] at hpend2
        exact Bool.noConfusion hpend2
      · have hap := hmY' m2 h hpend hpend2
        unfold Match.apart at hap
        rw [hp1, hp2] at hap
        exact ⟨by rw [hall]; exact List.mem_append_right _ (List.mem_cons_of_mem _ h),
          fun e => hap.1 e.symm, fun e => hap.2.2.1 e.symm, fun e => hap.2.1 e.symm,
          fun e => hap.2.2.2 e.symm⟩
    have hpushed := pushOpp_view a b (oppView t.players) hab hinv.oppNodup hinv.symm hano hbno
    constructor
    · rw [hview]
      split_ifs
      · exact hinv.names
      · rw [pushOpp_fst]; exact hinv.names
    · rw [hview]
      split_ifs
      · exact hinv.oppNodup
      · exact hpushed.1
    · rw [hview]
      split_ifs
      · exact hinv.symm
      · exact hpushed.2
    · rw [hallNew, List.map_append, List.map_cons]
      have := hinv.ids
      rw [hall, List.map_append, List.map_cons] at this
      exact this
    · intro m2 hm2 hpend2
      obtain ⟨hold, n1, n2, n3, n4⟩ := hapart m2 hm2 hpend2
      rw [hview]
      split_ifs
      · exact hinv.pendingOk m2 hold hpend2
      · exact pendingOk_pushOpp a b _ m2 (hinv.pendingOk m2 hold hpend2) n1 n2 n3 n4
    · rw [hallNew]
      have := hinv.pendingApart
      rw [hall] at this
      apply pairwise_replace _ _ _ m _ this
      · intro z _ h; exact Bool.noConfusion h
      · intro z h; exact Bool.noConfusion h
    · simpa only [recordResult] using hearlier
  · have hno : ∀ r ∈ t.rounds, ∀ m ∈ r.matchList, m.id ≠ matchId := by
      intro r hr m hm hcon
      exact hex ⟨r, hr, m, hm, hcon⟩
    have hrec := recordInRounds_of_no_match matchId score1 score2 winner t.players t.rounds hno
    have hview : oppView (recordResult t matchId score1 score2 winner).players =
        oppView t.players := by
      simp only [recordResult, hrec, oppView_updateBuchholz]
    have hroundsNew : (recordResult t matchId score1 score2 winner).rounds = t.rounds := by
      simp only [recordResult, hrec]
    constructor
    · rw [hview]; exact hinv.names
    · rw [hview]; exact hinv.oppNodup
    · rw [hview]; exact hinv.symm
    · rw [hroundsNew]; exact hinv.ids
    · rw [hview, hroundsNew]; exact hinv.pendingOk
    · rw [hroundsNew]; exact hinv.pendingApart
    · rw [hroundsNew]; exact hinv.earlier

theorem pairInv_weaken (uuid : Nat → String) (sorted : List SwissPlayer) (k : Nat)
    (st : List String × List Match) (h : PairInv uuid sorted k st) :
    PairInv uuid sorted (k + 1) st := by
  obtain ⟨h1, h2, h3⟩ := h
  refine ⟨?_, h2, h3⟩
  intro m hm
  obtain ⟨hc, i, j, p, q, hi, rest⟩ := h1 m hm
  exact ⟨hc, i, j, p, q, by omega, rest⟩

/-- One iteration of the pairing loop keeps its invariant. -/
theorem pairStep_inv (uuid : Nat → String) (roundNumber : Nat) (sorted : List SwissPlayer)
    (hinj : ∀ i j, uuid i = uuid j → i = j) (k : Nat) (st : List String × List Match)
    (h : PairInv uuid sorted k st) :
    PairInv uuid sorted (k + 1) (pairStep uuid roundNumber sorted st k) := by
  unfold pairStep
  cases hp : sorted[k]? with
  | none => exact pairInv_weaken uuid sorted k st h
  | some p =>
    simp only
    by_cases hpaired : st.1.contains p.name = true
    · rw [if_pos hpaired]; exact pairInv_weaken uuid sorted k st h
    · rw [if_neg hpaired]
      cases hq : findOpponent sorted st.1 p k with
      | none => exact pairInv_weaken uuid sorted k st h
      | some q =>
        simp only
        unfold findOpponent at hq
        have hpred := List.find?_some hq
        have hmem := List.mem_of_find?_eq_some hq
        simp only [Bool.and_eq_true, Bool.not_eq_true', List.contains_eq_any_beq,
          List.any_eq_false, beq_iff_eq] at hpred
        have hqp : q.name ∉ st.1 := fun hc => hpred.1 _ hc rfl
        have hqo : q.name ∉ p.opponents := fun hc => hpred.2 _ hc rfl
        have hpp : p.name ∉ st.1 := by
          intro hc
          apply hpaired
          simp only [List.contains_eq_any_beq, List.any_eq_true, beq_iff_eq]
          exact ⟨p.name, hc, rfl⟩
        obtain ⟨j', hj'⟩ := List.mem_iff_getElem?.mp hmem
        rw [List.getElem?_drop] at hj'
        obtain ⟨h1, h2, h3⟩ := h
        refine ⟨?_, ?_, ?_⟩
        · intro m hm
          rw [List.mem_append, List.mem_singleton] at hm
          rcases hm with hm | rfl
          · obtain ⟨hc, i, j, p', q', hi, hid, hsi, hsj, hij, hm1, hm2, hno, hin1, hin2⟩ := h1 m hm
            exact ⟨hc, i, j, p', q', by omega, hid, hsi, hsj, hij, hm1, hm2, hno,
              List.mem_append_left _ hin1, List.mem_append_left _ hin2⟩
          · refine ⟨rfl, k, k + 1 + j', p, q, by omega, rfl, hp, hj', by omega, rfl, rfl, hqo,
              ?_, ?_⟩
            · simp
            · simp
        · rw [List.pairwise_append]
          refine ⟨h2, List.pairwise_singleton _ _, ?_⟩
          intro m hm m' hm'
          rw [List.mem_singleton] at hm'
          subst hm'
          obtain ⟨-, i, j, p', q', -, -, -, -, -, hm1, hm2, -, hin1, hin2⟩ := h1 m hm
          unfold Match.apart
          simp only [newMatch, hm1, hm2, ne_eq, Option.some.injEq]
          refine ⟨?_, ?_, ?_, ?_⟩
          · intro e; rw [e] at hin1; exact hpp hin1
          · intro e; rw [e] at hin1; exact hqp hin1
          · intro e; rw [e] at hin2; exact hpp hin2
          · intro e; rw [e] at hin2; exact hqp hin2
        · rw [List.map_append, List.nodup_append]
          refine ⟨h3, List.nodup_singleton _, ?_⟩
          intro x hx hx'
          simp only [List.map_cons, List.map_nil, List.mem_singleton, newMatch] at hx'
          obtain ⟨m, hm, rfl⟩ := List.mem_map.mp hx
          obtain ⟨-, i, -, -, -, hi, hid, -⟩ := h1 m hm
          rw [hid] at hx'
          have := hinj _ _ hx'
          omega

/-- The pairing loop as a whole. -/
theorem pairAll_inv (uuid : Nat → String) (roundNumber : Nat) (sorted : List SwissPlayer)
    (hinj : ∀ i j, uuid i = uuid j → i = j) :
    PairInv uuid sorted sorted.length (pairAll uuid roundNumber sorted) := by
  unfold pairAll
  have key : ∀ k, PairInv uuid sorted k
      ((List.range k).foldl (pairStep uuid roundNumber sorted) ([], [])) := by
    intro k
    induction k with
    | zero =>
      refine ⟨?_, List.Pairwise.nil, List.nodup_nil⟩
      intro m hm
      simp at hm
    | succ k ih =>
      rw [List.range_succ, List.foldl_append, List.foldl_cons, List.foldl_nil]
      exact pairStep_inv uuid roundNumber sorted hinj k _ ih
  exact key sorted.length

theorem allMatches_concat (rounds : List Round) (r : Round) :
    allMatches (rounds ++ [r]) = allMatches rounds ++ r.matchList := by
  simp [allMatches, List.flatMap_append, List.flatMap_cons]

theorem name_ne_of_index (l : List SwissPlayer) (hnd : ((oppView l).map Prod.fst).Nodup)
    (i j : Nat) (p q : SwissPlayer) (hi : l[i]? = some p) (hj : l[j]? = some q) (hij : i ≠ j) :
    p.name ≠ q.name := by
  have hnames : (oppView l).map Prod.fst = l.map (fun p => p.name) := by
    unfold oppView; rw [List.map_map]; rfl
  rw [hnames] at hnd
  obtain ⟨hil, hie⟩ := List.getElem?_eq_some_iff.mp hi
  obtain ⟨hjl, hje⟩ := List.getElem?_eq_some_iff.mp hj
  intro hcon
  have hi2 : i < (l.map (fun p => p.name)).length := by simpa using hil
  have hj2 : j < (l.map (fun p => p.name)).length := by simpa using hjl
  have h1 : (l.map (fun p => p.name))[i] = (l.map (fun p => p.name))[j] := by
    simp only [List.getElem_map, hie, hje, hcon]
  exact hij ((hnd.getElem_inj_iff).mp h1)

/-- When every round so far is complete, every match so far is completed. -/
theorem all_completed_of_round_complete (t : SwissTournament) (hinv : SwissInv t)
    (hc : isRoundComplete t = true) : ∀ m ∈ allMatches t.rounds, m.completed = true := by
  intro m hm
  unfold allMatches at hm
  rw [List.mem_flatMap] at hm
  obtain ⟨r, hr, hmr⟩ := hm
  unfold isRoundComplete at hc
  cases hlast : t.rounds.getLast? with
  | none =>
    rw [List.getLast?_eq_none_iff] at hlast
    rw [hlast] at hr
    simp at hr
  | some last =>
    rw [hlast] at hc
    simp only at hc
    have hsplit := List.dropLast_append_getLast? last (by rw [hlast]; rfl)
    rw [← hsplit, List.mem_append, List.mem_singleton] at hr
    rcases hr with hr | rfl
    · exact hinv.earlier r hr m hmr
    · exact List.all_eq_true.mp hc m hmr

/-- Appending a round of fresh matches, open only where they pair two players who have not
met and share no player, keeps the invariant. -/
theorem inv_append_round (t t' : SwissTournament) (M : List Match) (num : Nat)
    (hinv : SwissInv t) (hallc : ∀ m ∈ allMatches t.rounds, m.completed = true)
    (hview : oppView t'.players = oppView t.players)
    (hrounds : t'.rounds = t.rounds ++ [{ number := num, matchList := M }])
    (hids : (M.map (fun m => m.id)).Nodup)
    (hfresh : ∀ m ∈ M, ∀ m' ∈ allMatches t.rounds, m'.id ≠ m.id)
    (hok : ∀ m ∈ M, m.completed = false → PendingOk (oppView t.players) m)
    (hapart : M.Pairwise
      (fun m m' => m.completed = false → m'.completed = false → Match.apart m m')) :
    SwissInv t' := by
  have hall : allMatches t'.rounds = allMatches t.rounds ++ M := by
    rw [hrounds, allMatches_concat]
  constructor
  · rw [hview]; exact hinv.names
  · rw [hview]; exact hinv.oppNodup
  · rw [hview]; exact hinv.symm
  · rw [hall, List.map_append, List.nodup_append]
    refine ⟨hinv.ids, hids, ?_⟩
    intro x hx hx'
    obtain ⟨m', hm', rfl⟩ := List.mem_map.mp hx
    obtain ⟨m, hm, hmid⟩ := List.mem_map.mp hx'
    exact hfresh m hm m' hm' hmid.symm
  · intro m hm hpend
    rw [hall, List.mem_append] at hm
    rw [hview]
    rcases hm with hm | hm
    · rw [hallc m hm] at hpend
      exact Bool.noConfusion hpend
    · exact hok m hm hpend
  · rw [hall, List.pairwise_append]
    refine ⟨hinv.pendingApart, hapart, ?_⟩
    intro m hm m' _ hpend
    rw [hallc m hm] at hpend
    exact Bool.noConfusion hpend
  · rw [hrounds, List.dropLast_concat]
    intro r hr m hm
    apply hallc
    unfold allMatches
    rw [List.mem_flatMap]
    exact ⟨r, hr, hm⟩

/-- The matches made by the pairing loop can all be recorded. -/
theorem pairAll_pendingOk (uuid : Nat → String) (roundNumber : Nat) (t : SwissTournament)
    (hinv : SwissInv t) (hinj : ∀ i j, uuid i = uuid j → i = j) :
    ∀ m ∈ (pairAll uuid roundNumber (stableSort pairingOrder t.players)).2,
      PendingOk (oppView t.players) m := by
  intro m hm
  have hperm := stableSort_perm pairingOrder t.players
  have hvperm : (oppView (stableSort pairingOrder t.players)).Perm (oppView t.players) :=
    hperm.map _
  have hsnames : ((oppView (stableSort pairingOrder t.players)).map Prod.fst).Nodup :=
    ((hvperm.map Prod.fst).nodup_iff).mpr hinv.names
  obtain ⟨h1, -, -⟩ := pairAll_inv uuid roundNumber (stableSort pairingOrder t.players) hinj
  obtain ⟨-, i, j, p, q, -, -, hsi, hsj, hij, hm1, hm2, hno, -, -⟩ := h1 m hm
  have hp : p ∈ t.players := hperm.mem_iff.mp (List.getElem?_mem hsi)
  have hq : q ∈ t.players := hperm.mem_iff.mp (List.getElem?_mem hsj)
  have hxp : (p.name, p.opponents) ∈ oppView t.players :=
    List.mem_map_of_mem (fun p => (p.name, p.opponents)) hp
  have hxq : (q.name, q.opponents) ∈ oppView t.players :=
    List.mem_map_of_mem (fun p => (p.name, p.opponents)) hq
  have huniq := List.inj_on_of_nodup_map hinv.names
  refine ⟨p.name, q.name, hm1, hm2,
    name_ne_of_index _ hsnames i j p q hsi hsj (by omega), ⟨_, hxp, rfl⟩, ⟨_, hxq, rfl⟩, ?_, ?_⟩
  · intro x hx hxa
    have := huniq hx hxp hxa
    rw [this]
    exact hno
  · intro y hy hyb
    have := huniq hy hxq hyb
    rw [this]
    intro hcon
    exact hno (hinv.symm _ hxq _ hxp hcon)

/-- Generating the next round once the current one is complete, with fresh ids, keeps the
invariant. -/
theorem generateNextRound_inv (uuid : Nat → String) (t : SwissTournament) (hinv : SwissInv t)
    (hc : isRoundComplete t = true) (hinj : ∀ i j, uuid i = uuid j → i = j)
    (hfresh : ∀ i, ∀ r ∈ t.rounds, ∀ m ∈ r.matchList, m.id ≠ uuid i) :
    SwissInv (generateNextRound uuid t) := by
  have hallc := all_completed_of_round_complete t hinv hc
  have hfresh' : ∀ i, ∀ m' ∈ allMatches t.rounds, m'.id ≠ uuid i := by
    intro i m' hm'
    unfold allMatches at hm'
    rw [List.mem_flatMap] at hm'
    obtain ⟨r, hr, hmr⟩ := hm'
    exact hfresh i r hr m' hmr
  obtain ⟨h1, h2, h3⟩ := pairAll_inv uuid (t.currentRound + 1)
    (stableSort pairingOrder t.players) hinj
  have hok := pairAll_pendingOk uuid (t.currentRound + 1) t hinv hinj
  have hapart : (pairAll uuid (t.currentRound + 1) (stableSort pairingOrder t.players)).2.Pairwise
      (fun m m' => m.completed = false → m'.completed = false → Match.apart m m') :=
    h2.imp (fun h _ _ => h)
  unfold generateNextRound
  by_cases hge : (t.currentRound : Int) ≥ t.totalRounds
  · rw [if_pos hge]
    exact ⟨hinv.names, hinv.oppNodup, hinv.symm, hinv.ids, hinv.pendingOk, hinv.pendingApart,
      hinv.earlier⟩
  · rw [if_neg hge]
    simp only
    split
    · refine inv_append_round t _ _ (t.currentRound + 1) hinv hallc rfl rfl h3 ?_
        (fun m hm _ => hok m hm) hapart
      intro m hm m' hm'
      obtain ⟨-, i, -, -, -, -, hid, -⟩ := h1 m hm
      rw [hid]
      exact hfresh' i m' hm'
    · rename_i byePlayer _
      refine inv_append_round t _ _ (t.currentRound + 1) hinv hallc
        (oppView_awardBye _ _) rfl ?_ ?_ ?_ ?_
      · rw [List.map_append, List.nodup_append]
        refine ⟨h3, List.nodup_singleton _, ?_⟩
        intro x hx hx'
        simp only [List.map_cons, List.map_nil, List.mem_singleton, byeMatch] at hx'
        obtain ⟨m, hm, rfl⟩ := List.mem_map.mp hx
        obtain ⟨-, i, -, -, -, hi, hid, -⟩ := h1 m hm
        rw [hid] at hx'
        have := hinj _ _ hx'
        omega
      · intro m hm m' hm'
        rw [List.mem_append, List.mem_singleton] at hm
        rcases hm with hm | rfl
        · obtain ⟨-, i, -, -, -, -, hid, -⟩ := h1 m hm
          rw [hid]
          exact hfresh' i m' hm'
        · exact hfresh' _ m' hm'
      · intro m hm hpend
        rw [List.mem_append, List.mem_singleton] at hm
        rcases hm with hm | rfl
        · exact hok m hm
        · exact Bool.noConfusion hpend
      · rw [List.pairwise_append]
        refine ⟨hapart, List.pairwise_singleton _ _, ?_⟩
        intro m _ m' hm' _ hpend
        rw [List.mem_singleton] at hm'
        subst hm'
        exact Bool.noConfusion hpend

theorem createSwissTournament_inv (players : List String) (numRounds : Option Int)
    (hnd : players.Nodup) : SwissInv (createSwissTournament players numRounds) := by
  have hview : oppView (createSwissTournament players numRounds).players =
      players.map (fun n => (n, [])) := by
    simp only [createSwissTournament, oppView, List.map_map]
    rfl
  constructor
  · rw [hview, List.map_map]
    have e : (Prod.fst ∘ fun n : String => (n, ([] : List String))) = id := rfl
    rw [e, List.map_id]
    exact hnd
  · rw [hview]
    intro x hx
    obtain ⟨n, -, rfl⟩ := List.mem_map.mp hx
    exact List.nodup_nil
  · rw [hview]
    intro x hx y _ hmem
    obtain ⟨n, -, rfl⟩ := List.mem_map.mp hx
    simp at hmem
  · exact List.nodup_nil
  · intro m hm
    simp [createSwissTournament, allMatches] at hm
  · exact List.Pairwise.nil
  · intro r hr
    simp [createSwissTournament] at hr

theorem swissPlayed_inv (players : List String) (numRounds : Option Int) (hnd : players.Nodup)
    (t : SwissTournament) (ht : SwissPlayed players numRounds t) : SwissInv t := by
  induction ht with
  | create => exact createSwissTournament_inv players numRounds hnd
  | next uuid t _ hc hinj hfresh ih => exact generateNextRound_inv uuid t ih hc hinj hfresh
  | record t matchId score1 score2 winner _ hpre ih =>
    exact recordResult_inv t matchId score1 score2 winner ih hpre

/-- C5, amended: for every Swiss tournament state reachable from `createSwissTournament`
(distinct player names) by `generateNextRound` calls, each made when the current round is
complete and drawing fresh match ids, and `recordResult` calls, each on a match that is not
completed yet, no player's `opponents` list contains the same name twice. -/
theorem C5_no_duplicate_opponents (players : List String) (numRounds : Option Int)
    (hnd : players.Nodup) (t : SwissTournament) (ht : SwissPlayed players numRounds t) :
    ∀ p ∈ t.players, p.opponents.Nodup := by
  intro p hp
  have hinv := swissPlayed_inv players numRounds hnd t ht
  exact hinv.oppNodup (p.name, p.opponents)
    (List.mem_map_of_mem (fun p => (p.name, p.opponents)) hp)

theorem replicate_id_injective (i j : Nat)
    (h : String.mk (List.replicate i 'm') = String.mk (List.replicate j 'm')) : i = j := by
  have h1 : List.replicate i 'm' = List.replicate j 'm' := congrArg String.data h
  have h2 := congrArg List.length h1
  simpa using h2

/-- Witness for C5: player `A` after round 1 of a two-player tournament has been generated and its match recorded. -/
theorem C5_no_duplicate_opponents_witness :
    ({ name := "A", points := 2, wins := 1, losses := 0, draws := 0, opponents := ["B"],
       buchholz := 0 } : SwissPlayer).opponents.Nodup :=
  C5_no_duplicate_opponents ["A", "B"] (some 2) (by decide)
    (recordResult
      (generateNextRound (fun i => String.mk (List.replicate i 'm'))
        (createSwissTournament ["A", "B"] (some 2)))
      (String.mk (List.replicate 0 'm')) (some 2) (some 1) (some "player1"))
    (SwissPlayed.record _ _ _ _ _
      (SwissPlayed.next _ _ SwissPlayed.create (by decide) replicate_id_injective
        (fun _ _ hr => absurd hr (List.not_mem_nil _)))
      (by decide))
    { name := "A", points := 2, wins := 1, losses := 0, draws := 0, opponents := ["B"],
      buchholz := 0 }
    (by decide)

/-- C5 as stated fails in two ways. `recordResult` does not look at `completed`, so
recording the same match a second time pushes each player to the other's `opponents`
again. And `generateNextRound` does not wait for the results: called twice in a row it
pairs the same two players twice, and recording both matches does the same. -/
theorem C5_opponent_recorded_twice :
    (∃ p ∈ (recordResult
          (recordResult
            (generateNextRound (fun _ => "m1") (createSwissTournament ["A", "B"] (some 2)))
            "m1" (some 2) (some 1) (some "player1"))
          "m1" (some 2) (some 1) (some "player1")).players,
        p.opponents = ["B", "B"]) ∧
      (∃ p ∈ (recordResult
          (recordResult
            (generateNextRound (fun _ => "m2")
              (generateNextRound (fun _ => "m1") (createSwissTournament ["A", "B"] (some 2))))
            "m1" (some 2) (some 1) (some "player1"))
          "m2" (some 0) (some 2) (some "player2")).players,
        p.opponents = ["B", "B"]) := by
  constructor
  · exact ⟨_, List.mem_cons_self _ _, by decide⟩
  · exact ⟨_, List.mem_cons_self _ _, by decide⟩

/-! ### Swiss: the bye of an odd roster -/

theorem names_modify (players : List SwissPlayer) (f : SwissPlayer → SwissPlayer) (i : Nat)
    (hf : ∀ p, (f p).name = p.name) :
    (players.modify f i).map (fun p => p.name) = players.map (fun p => p.name) := by
  apply List.ext_getElem?
  intro j
  simp only [List.getElem?_map, List.getElem?_modify]
  cases players[j]? with
  | none => by_cases h : i = j <;> simp [h]
  | some p => by_cases h : i = j <;> simp [h, hf]

theorem names_awardBye (players : List SwissPlayer) (name : String) :
    (awardBye players name).map (fun p => p.name) = players.map (fun p => p.name) := by
  unfold awardBye
  split
  · rfl
  · exact names_modify _ _ _ (fun _ => rfl)

theorem names_applyResult (players : List SwissPlayer) (m : Match) (winner : Option String) :
    (applyResult players m winner).map (fun p => p.name) = players.map (fun p => p.name) := by
  unfold applyResult
  split
  · split_ifs
    · simp (disch := intro _; rfl) only [names_modify]
    · simp (disch := intro _; rfl) only [names_modify]
    · simp (disch := intro _; rfl) only [names_modify]
    · rfl
  · rfl

theorem names_recordInRounds (matchId : String) (score1 score2 : Option Int)
    (winner : Option String) (rounds : List Round) :
    ∀ players, (recordInRounds matchId score1 score2 winner players rounds).1.map
      (fun p => p.name) = players.map (fun p => p.name) := by
  induction rounds with
  | nil => intro players; rfl
  | cons r rest ih =>
    intro players
    simp only [recordInRounds]
    rw [ih]
    unfold recordInRound
    split
    · rfl
    · split
      · rfl
      · exact names_applyResult _ _ _

theorem names_generateNextRound (uuid : Nat → String) (t : SwissTournament) :
    (generateNextRound uuid t).players.map (fun p => p.name) =
      t.players.map (fun p => p.name) := by
  unfold generateNextRound
  split_ifs
  · rfl
  · simp only
    split
    · rfl
    · exact names_awardBye _ _

/-- In every reachable state the players are those of the roster, in its order. -/
theorem swissReachable_names (players : List String) (numRounds : Option Int)
    (t : SwissTournament) (ht : SwissReachable players numRounds t) :
    t.players.map (fun p => p.name) = players := by
  induction ht with
  | create =>
    simp only [createSwissTournament, List.map_map]
    exact List.map_id players
  | next uuid t _ ih => rw [names_generateNextRound, ih]
  | record t matchId score1 score2 winner _ ih =>
    simp only [recordResult, updateBuchholz_eq_map, List.map_map, Function.comp]
    exact (names_recordInRounds matchId score1 score2 winner t.rounds t.players).trans ih

/-- One iteration of the pairing loop, seen from the names: the paired names stay distinct
names of the sorted list, they come in pairs, and every match made has a player of the
sorted list as `player2`. -/
theorem pairStep_paired (uuid : Nat → String) (roundNumber : Nat) (sorted : List SwissPlayer)
    (hnd : (sorted.map (fun p => p.name)).Nodup) (k : Nat) (st : List String × List Match)
    (h : st.1.Nodup ∧ st.1.length % 2 = 0 ∧ (∀ x ∈ st.1, x ∈ sorted.map (fun p => p.name)) ∧
      ∀ m ∈ st.2, ∃ q ∈ sorted, m.player2 = some q.name) :
    (pairStep uuid roundNumber sorted st k).1.Nodup ∧
      (pairStep uuid roundNumber sorted st k).1.length % 2 = 0 ∧
      (∀ x ∈ (pairStep uuid roundNumber sorted st k).1, x ∈ sorted.map (fun p => p.name)) ∧
      ∀ m ∈ (pairStep uuid roundNumber sorted st k).2, ∃ q ∈ sorted, m.player2 = some q.name := by
  unfold pairStep
  cases hp : sorted[k]? with
  | none => exact h
  | some p =>
    simp only
    by_cases hpaired : st.1.contains p.name = true
    · rw [if_pos hpaired]; exact h
    · rw [if_neg hpaired]
      cases hq : findOpponent sorted st.1 p k with
      | none => exact h
      | some q =>
        simp only
        unfold findOpponent at hq
        have hpred := List.find?_some hq
        have hmem := List.mem_of_find?_eq_some hq
        simp only [Bool.and_eq_true, Bool.not_eq_true', List.contains_eq_any_beq,
          List.any_eq_false, beq_iff_eq] at hpred
        have hqp : q.name ∉ st.1 := fun hc => hpred.1 _ hc rfl
        have hpp : p.name ∉ st.1 := by
          intro hc
          apply hpaired
          simp only [List.contains_eq_any_beq, List.any_eq_true, beq_iff_eq]
          exact ⟨p.name, hc, rfl⟩
        obtain ⟨j', hj'⟩ := List.mem_iff_getElem?.mp hmem
        rw [List.getElem?_drop] at hj'
        have hne : p.name ≠ q.name := by
          apply name_ne_of_index sorted ?_ k (k + 1 + j') p q hp hj' (by omega)
          have : (oppView sorted).map Prod.fst = sorted.map (fun p => p.name) := by
            unfold oppView; rw [List.map_map]; rfl
          rw [this]; exact hnd
        obtain ⟨h1, h2, h3, h4⟩ := h
        refine ⟨?_, ?_, ?_, ?_⟩
        · rw [List.nodup_append]
          refine ⟨h1, ?_, ?_⟩
          · simp [hne]
          · intro x hx hx'
            simp only [List.mem_cons, List.mem_singleton, List.not_mem_nil, or_false] at hx'
            rcases hx' with rfl | rfl
            · exact hpp hx
            · exact hqp hx
        · simp only [List.length_append, List.length_cons, List.length_nil]
          omega
        · intro x hx
          simp only [List.mem_append, List.mem_cons, List.mem_singleton, List.not_mem_nil,
            or_false] at hx
          rcases hx with hx | rfl | rfl
          · exact h3 x hx
          · exact List.mem_map_of_mem _ (List.getElem?_mem hp)
          · exact List.mem_map_of_mem _ (List.getElem?_mem hj')
        · intro m hm
          rw [List.mem_append, List.mem_singleton] at hm
          rcases hm with hm | rfl
          · exact h4 m hm
          · exact ⟨q, List.getElem?_mem hj', rfl⟩

theorem pairAll_paired (uuid : Nat → String) (roundNumber : Nat) (sorted : List SwissPlayer)
    (hnd : (sorted.map (fun p => p.name)).Nodup) :
    (pairAll uuid roundNumber sorted).1.Nodup ∧
      (pairAll uuid roundNumber sorted).1.length % 2 = 0 ∧
      (∀ x ∈ (pairAll uuid roundNumber sorted).1, x ∈ sorted.map (fun p => p.name)) ∧
      ∀ m ∈ (pairAll uuid roundNumber sorted).2, ∃ q ∈ sorted, m.player2 = some q.name := by
  unfold pairAll
  generalize List.range sorted.length = ks
  have key : ∀ st : List String × List Match,
      (st.1.Nodup ∧ st.1.length % 2 = 0 ∧ (∀ x ∈ st.1, x ∈ sorted.map (fun p => p.name)) ∧
        ∀ m ∈ st.2, ∃ q ∈ sorted, m.player2 = some q.name) →
      ((ks.foldl (pairStep uuid roundNumber sorted) st).1.Nodup ∧
        (ks.foldl (pairStep uuid roundNumber sorted) st).1.length % 2 = 0 ∧
        (∀ x ∈ (ks.foldl (pairStep uuid roundNumber sorted) st).1,
          x ∈ sorted.map (fun p => p.name)) ∧
        ∀ m ∈ (ks.foldl (pairStep uuid roundNumber sorted) st).2,
          ∃ q ∈ sorted, m.player2 = some q.name) := by
    induction ks with
    | nil => intro st h; exact h
    | cons k ks ih =>
      intro st h
      rw [List.foldl_cons]
      exact ih _ (pairStep_paired uuid roundNumber sorted hnd k st h)
  exact key ([], []) ⟨List.nodup_nil, rfl, by simp, by simp⟩

/-- With an odd number of distinct names, some player is left unpaired by the loop. -/
theorem exists_unpaired (sorted : List SwissPlayer) (paired : List String)
    (hnd : (sorted.map (fun p => p.name)).Nodup) (hodd : sorted.length % 2 = 1)
    (hp : paired.Nodup) (heven : paired.length % 2 = 0)
    (hsub : ∀ x ∈ paired, x ∈ sorted.map (fun p => p.name)) :
    ∃ p, sorted.find? (fun p => !(paired.contains p.name)) = some p ∧ p ∈ sorted ∧
      p.name ∉ paired := by
  cases hf : sorted.find? (fun p => !(paired.contains p.name)) with
  | some p =>
    refine ⟨p, rfl, List.mem_of_find?_eq_some hf, ?_⟩
    have := List.find?_some hf
    simpa using this
  | none =>
    exfalso
    rw [List.find?_eq_none] at hf
    have hall : ∀ x ∈ sorted.map (fun p => p.name), x ∈ paired := by
      intro x hx
      obtain ⟨p, hp', rfl⟩ := List.mem_map.mp hx
      have := hf p hp'
      simpa using this
    have h1 : (sorted.map (fun p => p.name)).length ≤ paired.length :=
      (List.Nodup.subperm hnd hall).length_le
    have h2 : paired.length ≤ (sorted.map (fun p => p.name)).length :=
      (List.Nodup.subperm hp hsub).length_le
    rw [List.length_map] at h1 h2
    omega

theorem modify_findIdx_name (f : SwissPlayer → SwissPlayer) (a : String)
    (players : List SwissPlayer) (hnd : (players.map (fun p => p.name)).Nodup)
    (ha : a ∈ players.map (fun p => p.name)) :
    players.modify f (players.findIdx (fun p => p.name = a)) =
      players.map (fun q => if q.name = a then f q else q) := by
  induction players with
  | nil => simp at ha
  | cons x rest ih =>
    simp only [List.map_cons, List.nodup_cons] at hnd
    by_cases hx : x.name = a
    · have hrest : rest.map (fun q => if q.name = a then f q else q) = rest := by
        conv_rhs => rw [← List.map_id rest]
        apply List.map_congr_left
        intro q hq
        have : q.name ≠ a := by
          intro h
          exact hnd.1 (by rw [hx, ← h]; exact List.mem_map_of_mem _ hq)
        simp [this]
      simp [List.findIdx_cons, hx, hrest]
    · have ha' : a ∈ rest.map (fun p => p.name) := by
        simp only [List.map_cons, List.mem_cons] at ha
        rcases ha with h | h
        · exact absurd h.symm hx
        · exact h
      simp [List.findIdx_cons, hx, ih hnd.2 ha']

/-- The bye award in a roster without duplicate names: the player called `name` gets one
point and one win, nobody else changes. -/
theorem awardBye_eq_map (players : List SwissPlayer)
    (hnd : (players.map (fun p => p.name)).Nodup) (name : String)
    (ha : name ∈ players.map (fun p => p.name)) :
    awardBye players name =
      players.map (fun q =>
        if q.name = name then { q with points := q.points + 2, wins := q.wins + 1 } else q) := by
  unfold awardBye
  have hex : ∃ x, x ∈ players ∧ (fun p : SwissPlayer => decide (p.name = name)) x = true := by
    obtain ⟨p, hp, hn⟩ := List.mem_map.mp ha
    exact ⟨p, hp, by simpa using hn⟩
  rw [List.findIdx?_eq_some_of_exists hex]
  exact modify_findIdx_name _ name players hnd ha

/-- C11, amended: for every reachable Swiss tournament state with an odd number of
distinct players none of whom is called `'BYE'`, and `currentRound < totalRounds`, the
round appended by `generateNextRound` contains exactly one match with `player2 = 'BYE'`;
that match has `score1 = 1`, `score2 = 0`, `winner = 'player1'` and `completed = true`,
and its `player1` gains exactly one point (two half points) and one win, while that
player's other fields, the opponents list among them, and all other players are
unchanged. -/
theorem C11_odd_roster_gets_one_bye (players : List String) (numRounds : Option Int)
    (hnd : players.Nodup) (hodd : players.length % 2 = 1) (hbye : "BYE" ∉ players)
    (t : SwissTournament) (ht : SwissReachable players numRounds t)
    (hlt : (t.currentRound : Int) < t.totalRounds) (uuid : Nat → String) :
    ∃ r m p, (generateNextRound uuid t).rounds = t.rounds ++ [r] ∧
      r.matchList.filter (fun x => x.player2 = some "BYE") = [m] ∧
      m.score1 = some 1 ∧ m.score2 = some 0 ∧ m.winner = some "player1" ∧
      m.completed = true ∧ p ∈ t.players ∧ m.player1 = some p.name ∧
      (generateNextRound uuid t).players =
        t.players.map (fun q =>
          if q.name = p.name then { q with points := q.points + 2, wins := q.wins + 1 }
          else q) := by
  have hnames := swissReachable_names players numRounds t ht
  have hperm := stableSort_perm pairingOrder t.players
  have hsnames : ((stableSort pairingOrder t.players).map (fun p => p.name)).Perm players := by
    rw [← hnames]; exact hperm.map _
  have hsnd : ((stableSort pairingOrder t.players).map (fun p => p.name)).Nodup :=
    hsnames.nodup_iff.mpr hnd
  have hslen : (stableSort pairingOrder t.players).length % 2 = 1 := by
    have := hsnames.length_eq
    rw [List.length_map] at this
    rw [this]; exact hodd
  obtain ⟨hp1, hp2, hp3, hp4⟩ :=
    pairAll_paired uuid (t.currentRound + 1) (stableSort pairingOrder t.players) hsnd
  obtain ⟨p, hfind, hpmem, -⟩ := exists_unpaired (stableSort pairingOrder t.players)
    (pairAll uuid (t.currentRound + 1) (stableSort pairingOrder t.players)).1 hsnd hslen
    hp1 hp2 hp3
  have hpt : p ∈ t.players := hperm.mem_iff.mp hpmem
  have hfilter : (pairAll uuid (t.currentRound + 1) (stableSort pairingOrder t.players)).2.filter
      (fun x => x.player2 = some "BYE") = [] := by
    rw [List.filter_eq_nil_iff]
    intro m hm
    obtain ⟨q, hq, hm2⟩ := hp4 m hm
    have hqn : q.name ∈ players := hsnames.mem_iff.mp (List.mem_map_of_mem _ hq)
    rw [hm2]
    simp only [Option.some.injEq, decide_eq_true_eq]
    intro h
    exact hbye (h ▸ hqn)
  refine ⟨{ number := t.currentRound + 1,
            matchList := (pairAll uuid (t.currentRound + 1)
              (stableSort pairingOrder t.players)).2 ++
              [byeMatch (uuid (stableSort pairingOrder t.players).length) (t.currentRound + 1)
                p.name] },
    byeMatch (uuid (stableSort pairingOrder t.players).length) (t.currentRound + 1)
    p.name, p, ?_, ?_, rfl, rfl, rfl, rfl, hpt, rfl, ?_⟩
  · unfold generateNextRound
    rw [if_neg (by omega)]
    simp only [hslen, if_true, hfind]
  · simp only [List.filter_append, hfilter, List.nil_append]
    simp [byeMatch]
  · unfold generateNextRound
    rw [if_neg (by omega)]
    simp only [hslen, if_true, hfind]
    apply awardBye_eq_map
    · rw [hnames]; exact hnd
    · exact List.mem_map_of_mem _ hpt

/-- Witness for C11: `createSwissTournament(['A','B','C'], 2)`; round 1 pairs A with B and
gives C the bye. -/
theorem C11_odd_roster_gets_one_bye_witness :
    (∃ r m p,
      (generateNextRound (fun i => String.mk (List.replicate i 'm'))
        (createSwissTournament ["A", "B", "C"] (some 2))).rounds =
          (createSwissTournament ["A", "B", "C"] (some 2)).rounds ++ [r] ∧
      r.matchList.filter (fun x => x.player2 = some "BYE") = [m] ∧
      m.score1 = some 1 ∧ m.score2 = some 0 ∧ m.winner = some "player1" ∧
      m.completed = true ∧ p ∈ (createSwissTournament ["A", "B", "C"] (some 2)).players ∧
      m.player1 = some p.name ∧
      (generateNextRound (fun i => String.mk (List.replicate i 'm'))
        (createSwissTournament ["A", "B", "C"] (some 2))).players =
        (createSwissTournament ["A", "B", "C"] (some 2)).players.map (fun q =>
          if q.name = p.name then { q with points := q.points + 2, wins := q.wins + 1 }
          else q)) ∧
    (generateNextRound (fun i => String.mk (List.replicate i 'm'))
      (createSwissTournament ["A", "B", "C"] (some 2))).rounds =
      [{ number := 1,
         matchList := [newMatch "" 1 (some "A") (some "B"), byeMatch "mmm" 1 "C"] }] :=
  ⟨C11_odd_roster_gets_one_bye ["A", "B", "C"] (some 2) (by decide) (by decide) (by decide)
    _ SwissReachable.create (by decide) _, by decide⟩

/-- C11 as stated fails for a roster with a player called `'BYE'`: in
`createSwissTournament(['A','BYE','C'], 2)` round 1 pairs A with the player `'BYE'` and
gives C the bye, so two matches have `player2 = 'BYE'`, one of them not completed. -/
theorem C11_player_named_bye_makes_two_bye_matches :
    ∃ r, (generateNextRound (fun i => String.mk (List.replicate i 'm'))
        (createSwissTournament ["A", "BYE", "C"] (some 2))).rounds = [r] ∧
      (r.matchList.filter (fun x => x.player2 = some "BYE")).length = 2 ∧
      ∃ m ∈ r.matchList, m.player1 = some "A" ∧ m.player2 = some "BYE" ∧
        m.completed = false ∧ m.score1 = none := by
  refine ⟨_, rfl, ?_, _, List.mem_cons_self _ _, ?_⟩ <;> decide
/-! ### Swiss: recording under an unknown match id -/

theorem map_eq_self_iff {α : Type} (f : α → α) (l : List α) :
    l.map f = l ↔ ∀ x ∈ l, f x = x := by
  induction l with
  | nil => simp
  | cons a rest ih => simp [ih]

/-- C16, amended: for every Swiss tournament state (the reachable ones among them) and
every `matchId` that is not the id of any match in any round,
`recordResult(tournament, matchId, score1, score2, winner)` leaves every round and match
and every player's points, wins, losses, draws and opponents unchanged, and sets every
player's `buchholz` to the sum of the current points of the listed opponents. The state
returned equals the input exactly when every stored `buchholz` already was that sum; this
is so, in particular, when the input was itself returned by `recordResult`. -/
theorem C16_unknown_id_only_refreshes_buchholz (t : SwissTournament) (matchId : String)
    (score1 score2 : Option Int) (winner : Option String)
    (hid : ∀ r ∈ t.rounds, ∀ m ∈ r.matchList, m.id ≠ matchId) :
    recordResult t matchId score1 score2 winner =
        { t with players := t.players.map (fun p =>
            { p with buchholz := (p.opponents.map (pointsOfNamed t.players)).sum }) } ∧
      (recordResult t matchId score1 score2 winner = t ↔
        ∀ p ∈ t.players, p.buchholz = (p.opponents.map (pointsOfNamed t.players)).sum) ∧
      ∀ t0 id0 a b c, t = recordResult t0 id0 a b c →
        recordResult t matchId score1 score2 winner = t := by
  have hrec : recordResult t matchId score1 score2 winner =
      { t with players := t.players.map (fun p =>
          { p with buchholz := (p.opponents.map (pointsOfNamed t.players)).sum }) } := by
    unfold recordResult
    rw [recordInRounds_of_no_match matchId score1 score2 winner t.players t.rounds hid]
    simp only [updateBuchholz_eq_map, buchholzOf_eq_sum]
  have hiff : recordResult t matchId score1 score2 winner = t ↔
      ∀ p ∈ t.players, p.buchholz = (p.opponents.map (pointsOfNamed t.players)).sum := by
    rw [hrec]
    constructor
    · intro h p hp
      have hpl := congrArg SwissTournament.players h
      simp only at hpl
      have := (map_eq_self_iff _ _).mp hpl p hp
      exact (congrArg SwissPlayer.buchholz this).symm
    · intro h
      have hpl : t.players.map (fun p =>
          { p with buchholz := (p.opponents.map (pointsOfNamed t.players)).sum }) =
          t.players := by
        rw [map_eq_self_iff]
        intro p hp
        rw [← h p hp]
      rw [hpl]
  refine ⟨hrec, hiff, ?_⟩
  intro t0 id0 a b c ht0
  rw [hiff]
  intro p hp
  subst ht0
  simp only [recordResult] at hp ⊢
  generalize (recordInRounds id0 a b c t0.players t0.rounds).1 = ps at hp ⊢
  rw [updateBuchholz_eq_map] at hp ⊢
  obtain ⟨q, hq, rfl⟩ := List.mem_map.mp hp
  simp only
  rw [buchholzOf_eq_sum]
  congr 1
  apply List.map_congr_left
  intro o _
  apply pointsOfNamed_congr
  simp only [List.map_map]
  rfl

/-- Witness for C16: two players, round 1 generated, the id `'x'` is unknown. -/
theorem C16_unknown_id_only_refreshes_buchholz_witness :
    recordResult (generateNextRound (fun _ => "m1") (createSwissTournament ["A", "B"] (some 2)))
        "x" (some 1) (some 0) (some "player1") =
        { generateNextRound (fun _ => "m1") (createSwissTournament ["A", "B"] (some 2)) with
          players := (generateNextRound (fun _ => "m1")
            (createSwissTournament ["A", "B"] (some 2))).players.map (fun p =>
              { p with buchholz := (p.opponents.map (pointsOfNamed
                (generateNextRound (fun _ => "m1")
                  (createSwissTournament ["A", "B"] (some 2))).players)).sum }) } ∧
      (recordResult (generateNextRound (fun _ => "m1")
          (createSwissTournament ["A", "B"] (some 2)))
          "x" (some 1) (some 0) (some "player1") =
          generateNextRound (fun _ => "m1") (createSwissTournament ["A", "B"] (some 2)) ↔
        ∀ p ∈ (generateNextRound (fun _ => "m1")
            (createSwissTournament ["A", "B"] (some 2))).players,
          p.buchholz = (p.opponents.map (pointsOfNamed
            (generateNextRound (fun _ => "m1")
              (createSwissTournament ["A", "B"] (some 2))).players)).sum) ∧
      ∀ t0 id0 a b c,
        generateNextRound (fun _ => "m1") (createSwissTournament ["A", "B"] (some 2)) =
          recordResult t0 id0 a b c →
        recordResult (generateNextRound (fun _ => "m1")
          (createSwissTournament ["A", "B"] (some 2)))
          "x" (some 1) (some 0) (some "player1") =
          generateNextRound (fun _ => "m1") (createSwissTournament ["A", "B"] (some 2)) :=
  C16_unknown_id_only_refreshes_buchholz
    (generateNextRound (fun _ => "m1") (createSwissTournament ["A", "B"] (some 2)))
    "x" (some 1) (some 0) (some "player1") (by decide)

/-- C16 as stated fails after a bye: with `['A','B','C']`, A beats B in round 1 while C
has the bye; round 2 pairs A with C and gives B the bye, which raises the points of B
without touching the stored Buchholz score of A (whose opponent B is). The state is
reachable, the id `'x'` is unknown in it, and `recordResult` under that id returns a
state in which the Buchholz score of A has changed from `0` to one point (two half
points). -/
theorem C16_unknown_id_changes_buchholz_after_bye :
    SwissReachable ["A", "B", "C"] (some 2)
        (generateNextRound (fun i => String.mk (List.replicate (i + 5) 'm'))
          (recordResult
            (generateNextRound (fun i => String.mk (List.replicate (i + 1) 'm'))
              (createSwissTournament ["A", "B", "C"] (some 2)))
            "m" (some 1) (some 0) (some "player1"))) ∧
      (∀ r ∈ (generateNextRound (fun i => String.mk (List.replicate (i + 5) 'm'))
          (recordResult
            (generateNextRound (fun i => String.mk (List.replicate (i + 1) 'm'))
              (createSwissTournament ["A", "B", "C"] (some 2)))
            "m" (some 1) (some 0) (some "player1"))).rounds,
        ∀ m ∈ r.matchList, m.id ≠ "x") ∧
      ((generateNextRound (fun i => String.mk (List.replicate (i + 5) 'm'))
          (recordResult
            (generateNextRound (fun i => String.mk (List.replicate (i + 1) 'm'))
              (createSwissTournament ["A", "B", "C"] (some 2)))
            "m" (some 1) (some 0) (some "player1"))).players.map
        (fun p => (p.name, p.buchholz)) = [("A", 0), ("B", 2), ("C", 0)]) ∧
      ((recordResult
          (generateNextRound (fun i => String.mk (List.replicate (i + 5) 'm'))
            (recordResult
              (generateNextRound (fun i => String.mk (List.replicate (i + 1) 'm'))
                (createSwissTournament ["A", "B", "C"] (some 2)))
              "m" (some 1) (some 0) (some "player1")))
          "x" none none none).players.map
        (fun p => (p.name, p.buchholz)) = [("A", 2), ("B", 2), ("C", 0)]) := by
  refine ⟨SwissReachable.next _ _ (SwissReachable.record _ _ _ _ _
    (SwissReachable.next _ _ SwissReachable.create)), ?_, ?_, ?_⟩ <;> decide
/-! ### Swiss: who gets the bye when several players are left unpaired -/

/-- C23 fails on the code. With `createSwissTournament(['A','B','C'], 4)`, A beats B in
round 1 (C has the bye), A beats C in round 2 (B has the bye) and B beats C in round 3 (A
has the bye). The state is reachable and every pair has met, so the pairing loop of the
fourth round pairs nobody: all three players are left unpaired, in the sort order A (3
points), B (2 points), C (1 point). The lowest ranked of them is C, and the bye match of
the appended round is for A, the first of the sort order. -/
theorem C23_bye_goes_to_first_unpaired_player :
    SwissReachable ["A", "B", "C"] (some 4)
        (recordResult (generateNextRound (fun i => String.mk (List.replicate (i + 1) 'c'))
          (recordResult (generateNextRound (fun i => String.mk (List.replicate (i + 1) 'b'))
            (recordResult (generateNextRound (fun i => String.mk (List.replicate (i + 1) 'a'))
              (createSwissTournament ["A", "B", "C"] (some 4)))
              "a" (some 1) (some 0) (some "player1")))
            "b" (some 1) (some 0) (some "player1")))
          "cc" (some 1) (some 0) (some "player1")) ∧
      (((stableSort pairingOrder
        (recordResult (generateNextRound (fun i => String.mk (List.replicate (i + 1) 'c'))
          (recordResult (generateNextRound (fun i => String.mk (List.replicate (i + 1) 'b'))
            (recordResult (generateNextRound (fun i => String.mk (List.replicate (i + 1) 'a'))
              (createSwissTournament ["A", "B", "C"] (some 4)))
              "a" (some 1) (some 0) (some "player1")))
            "b" (some 1) (some 0) (some "player1")))
          "cc" (some 1) (some 0) (some "player1")).players).filter
        (fun p => !((pairAll (fun i => String.mk (List.replicate (i + 1) 'd')) 4
          (stableSort pairingOrder
        (recordResult (generateNextRound (fun i => String.mk (List.replicate (i + 1) 'c'))
          (recordResult (generateNextRound (fun i => String.mk (List.replicate (i + 1) 'b'))
            (recordResult (generateNextRound (fun i => String.mk (List.replicate (i + 1) 'a'))
              (createSwissTournament ["A", "B", "C"] (some 4)))
              "a" (some 1) (some 0) (some "player1")))
            "b" (some 1) (some 0) (some "player1")))
          "cc" (some 1) (some 0) (some "player1")).players)).1.contains p.name))).map
        (fun p => (p.name, p.points)) = [("A", 6), ("B", 4), ("C", 2)]) ∧
      ((generateNextRound (fun i => String.mk (List.replicate (i + 1) 'd'))
        (recordResult (generateNextRound (fun i => String.mk (List.replicate (i + 1) 'c'))
          (recordResult (generateNextRound (fun i => String.mk (List.replicate (i + 1) 'b'))
            (recordResult (generateNextRound (fun i => String.mk (List.replicate (i + 1) 'a'))
              (createSwissTournament ["A", "B", "C"] (some 4)))
              "a" (some 1) (some 0) (some "player1")))
            "b" (some 1) (some 0) (some "player1")))
          "cc" (some 1) (some 0) (some "player1"))).rounds.getLast?.map
        (fun r => r.matchList.map (fun m => (m.player1, m.player2))) =
          some [(some "A", some "BYE")]) := by
  refine ⟨SwissReachable.record _ _ _ _ _ (SwissReachable.next _ _
    (SwissReachable.record _ _ _ _ _ (SwissReachable.next _ _
      (SwissReachable.record _ _ _ _ _ (SwissReachable.next _ _ SwissReachable.create))))),
    ?_, ?_⟩ <;> decide
/-! ### Swiss: the round that `generateNextRound` appends -/

/-- Recording a match keeps the opponents lists symmetric. -/
theorem symm_pushOpp (a b : String) (view : List (String × List String))
    (hsymm : ∀ x ∈ view, ∀ y ∈ view, y.1 ∈ x.2 → x.1 ∈ y.2) :
    ∀ x ∈ view.map (pushOpp a b), ∀ y ∈ view.map (pushOpp a b), y.1 ∈ x.2 → x.1 ∈ y.2 := by
  intro x' hx' y' hy' hmem
  obtain ⟨x, hx, rfl⟩ := List.mem_map.mp hx'
  obtain ⟨y, hy, rfl⟩ := List.mem_map.mp hy'
  rw [pushOpp_mem_snd] at hmem ⊢
  have e1 : (pushOpp a b x).1 = x.1 := rfl
  have e2 : (pushOpp a b y).1 = y.1 := rfl
  rw [e2] at hmem
  rw [e1]
  rcases hmem with h | ⟨h1, h2⟩ | ⟨h1, h2⟩
  · exact Or.inl (hsymm x hx y hy h)
  · exact Or.inr (Or.inr ⟨h2, h1⟩)
  · exact Or.inr (Or.inl ⟨h2, h1⟩)

theorem oppView_fst (players : List SwissPlayer) :
    (oppView players).map Prod.fst = players.map (fun p => p.name) := by
  unfold oppView
  rw [List.map_map]
  rfl

/-- The player updates of `recordResult` keep the opponents lists symmetric, whatever the
match. -/
theorem symm_applyResult (players : List SwissPlayer) (m : Match) (winner : Option String)
    (hnd : (players.map (fun p => p.name)).Nodup)
    (hsymm : ∀ x ∈ oppView players, ∀ y ∈ oppView players, y.1 ∈ x.2 → x.1 ∈ y.2) :
    ∀ x ∈ oppView (applyResult players m winner),
      ∀ y ∈ oppView (applyResult players m winner), y.1 ∈ x.2 → x.1 ∈ y.2 := by
  cases h1 : players.findIdx? (fun p => some p.name = m.player1) with
  | none =>
    have e : applyResult players m winner = players := by
      unfold applyResult
      rw [h1]
    rw [e]
    exact hsymm
  | some i1 =>
    cases h2 : players.findIdx? (fun p => some p.name = m.player2) with
    | none =>
      have e : applyResult players m winner = players := by
        unfold applyResult
        rw [h1, h2]
      rw [e]
      exact hsymm
    | some i2 =>
      rw [List.findIdx?_eq_some_iff_getElem] at h1 h2
      obtain ⟨hi1, hp1, -⟩ := h1
      obtain ⟨hi2, hp2, -⟩ := h2
      have hm1 : m.player1 = some players[i1].name := (of_decide_eq_true hp1).symm
      have hm2 : m.player2 = some players[i2].name := (of_decide_eq_true hp2).symm
      have hview := oppView_applyResult players m winner players[i1].name players[i2].name
        (by rw [oppView_fst]; exact hnd) hm1 hm2
        ⟨(players[i1].name, players[i1].opponents),
          List.mem_map_of_mem _ (List.getElem_mem hi1), rfl⟩
        ⟨(players[i2].name, players[i2].opponents),
          List.mem_map_of_mem _ (List.getElem_mem hi2), rfl⟩
      rw [hview]
      split_ifs
      · exact hsymm
      · exact symm_pushOpp _ _ _ hsymm

theorem symm_recordInRounds (matchId : String) (score1 score2 : Option Int)
    (winner : Option String) (rounds : List Round) :
    ∀ players : List SwissPlayer, (players.map (fun p => p.name)).Nodup →
      (∀ x ∈ oppView players, ∀ y ∈ oppView players, y.1 ∈ x.2 → x.1 ∈ y.2) →
      ∀ x ∈ oppView (recordInRounds matchId score1 score2 winner players rounds).1,
        ∀ y ∈ oppView (recordInRounds matchId score1 score2 winner players rounds).1,
          y.1 ∈ x.2 → x.1 ∈ y.2 := by
  induction rounds with
  | nil => intro players _ h; exact h
  | cons r rest ih =>
    intro players hnd hsymm
    simp only [recordInRounds]
    apply ih
    · unfold recordInRound
      split
      · exact hnd
      · split
        · exact hnd
        · rw [names_applyResult]
          exact hnd
    · unfold recordInRound
      split
      · exact hsymm
      · split
        · exact hsymm
        · exact symm_applyResult _ _ _ hnd hsymm

theorem oppView_generateNextRound (uuid : Nat → String) (t : SwissTournament) :
    oppView (generateNextRound uuid t).players = oppView t.players := by
  unfold generateNextRound
  split_ifs
  · rfl
  · simp only
    split
    · rfl
    · exact oppView_awardBye _ _

/-- In every reachable state of a roster of distinct names, a player is among the
recorded opponents of another exactly when that other is among theirs. -/
theorem swissReachable_symm (players : List String) (numRounds : Option Int)
    (hnd : players.Nodup) (t : SwissTournament) (ht : SwissReachable players numRounds t) :
    ∀ x ∈ oppView t.players, ∀ y ∈ oppView t.players, y.1 ∈ x.2 → x.1 ∈ y.2 := by
  induction ht with
  | create =>
    intro x hx y _ hmem
    simp only [createSwissTournament, oppView, List.map_map, List.mem_map,
      Function.comp] at hx
    obtain ⟨a, -, rfl⟩ := hx
    exact absurd hmem (List.not_mem_nil _)
  | next uuid t _ ih =>
    rw [oppView_generateNextRound]
    exact ih
  | record t matchId score1 score2 winner ht ih =>
    simp only [recordResult, oppView_updateBuchholz]
    apply symm_recordInRounds _ _ _ _ _ _ _ ih
    rw [swissReachable_names players numRounds t ht]
    exact hnd

/-- One iteration of the pairing loop, seen from the matches: their players, in order, are
the names in `paired`, and each match pairs two players of the sorted list the first of
whom has not the second among the recorded opponents. -/
theorem pairStep_matches (uuid : Nat → String) (roundNumber : Nat) (sorted : List SwissPlayer)
    (k : Nat) (st : List String × List Match)
    (h : st.2.flatMap (fun m => m.player1.toList ++ m.player2.toList) = st.1 ∧
      ∀ m ∈ st.2, ∃ p ∈ sorted, ∃ q ∈ sorted,
        m.player1 = some p.name ∧ m.player2 = some q.name ∧ q.name ∉ p.opponents) :
    (pairStep uuid roundNumber sorted st k).2.flatMap
        (fun m => m.player1.toList ++ m.player2.toList) =
        (pairStep uuid roundNumber sorted st k).1 ∧
      ∀ m ∈ (pairStep uuid roundNumber sorted st k).2, ∃ p ∈ sorted, ∃ q ∈ sorted,
        m.player1 = some p.name ∧ m.player2 = some q.name ∧ q.name ∉ p.opponents := by
  unfold pairStep
  cases hp : sorted[k]? with
  | none => exact h
  | some p =>
    simp only
    by_cases hpaired : st.1.contains p.name = true
    · rw [if_pos hpaired]; exact h
    · rw [if_neg hpaired]
      cases hq : findOpponent sorted st.1 p k with
      | none => exact h
      | some q =>
        simp only
        unfold findOpponent at hq
        have hpred := List.find?_some hq
        have hmem := List.mem_of_mem_drop (List.mem_of_find?_eq_some hq)
        simp only [Bool.and_eq_true, Bool.not_eq_true', List.contains_eq_any_beq,
          List.any_eq_false, beq_iff_eq] at hpred
        have hnew : q.name ∉ p.opponents := fun hc => hpred.2 _ hc rfl
        obtain ⟨h1, h2⟩ := h
        constructor
        · rw [List.flatMap_append, h1]
          simp [newMatch]
        · intro m hm
          rw [List.mem_append, List.mem_singleton] at hm
          rcases hm with hm | rfl
          · exact h2 m hm
          · exact ⟨p, List.getElem?_mem hp, q, hmem, rfl, rfl, hnew⟩

theorem pairAll_matches (uuid : Nat → String) (roundNumber : Nat) (sorted : List SwissPlayer) :
    (pairAll uuid roundNumber sorted).2.flatMap
        (fun m => m.player1.toList ++ m.player2.toList) =
        (pairAll uuid roundNumber sorted).1 ∧
      ∀ m ∈ (pairAll uuid roundNumber sorted).2, ∃ p ∈ sorted, ∃ q ∈ sorted,
        m.player1 = some p.name ∧ m.player2 = some q.name ∧ q.name ∉ p.opponents := by
  unfold pairAll
  generalize List.range sorted.length = ks
  have key : ∀ st : List String × List Match,
      (st.2.flatMap (fun m => m.player1.toList ++ m.player2.toList) = st.1 ∧
        ∀ m ∈ st.2, ∃ p ∈ sorted, ∃ q ∈ sorted,
          m.player1 = some p.name ∧ m.player2 = some q.name ∧ q.name ∉ p.opponents) →
      ((ks.foldl (pairStep uuid roundNumber sorted) st).2.flatMap
          (fun m => m.player1.toList ++ m.player2.toList) =
          (ks.foldl (pairStep uuid roundNumber sorted) st).1 ∧
        ∀ m ∈ (ks.foldl (pairStep uuid roundNumber sorted) st).2, ∃ p ∈ sorted, ∃ q ∈ sorted,
          m.player1 = some p.name ∧ m.player2 = some q.name ∧ q.name ∉ p.opponents) := by
    induction ks with
    | nil => intro st h; exact h
    | cons k ks ih =>
      intro st h
      rw [List.foldl_cons]
      exact ih _ (pairStep_matches uuid roundNumber sorted k st h)
  exact key ([], []) ⟨rfl, by simp⟩
/-- C25, amended: for every Swiss tournament state reachable from `createSwissTournament`
(distinct player names, none of them `'BYE'`) by `generateNextRound` and `recordResult`
calls, and `currentRound < totalRounds`, `generateNextRound` appends one round; in it no
name appears in more than one match (the names of all its matches, the `'BYE'` of a bye
match included, are distinct), and every match whose `player2` is not `'BYE'` pairs two
players of the tournament neither of whom has the other in their opponents list. -/
theorem C25_appended_round_has_no_repeat_and_no_rematch (players : List String)
    (numRounds : Option Int) (hnd : players.Nodup) (hbye : "BYE" ∉ players)
    (t : SwissTournament) (ht : SwissReachable players numRounds t)
    (hlt : (t.currentRound : Int) < t.totalRounds) (uuid : Nat → String) :
    ∃ r, (generateNextRound uuid t).rounds = t.rounds ++ [r] ∧
      (r.matchList.flatMap (fun m => m.player1.toList ++ m.player2.toList)).Nodup ∧
      ∀ m ∈ r.matchList, m.player2 ≠ some "BYE" →
        ∃ p ∈ (generateNextRound uuid t).players, ∃ q ∈ (generateNextRound uuid t).players,
          m.player1 = some p.name ∧ m.player2 = some q.name ∧
          q.name ∉ p.opponents ∧ p.name ∉ q.opponents := by
  have hnames := swissReachable_names players numRounds t ht
  have hsymm := swissReachable_symm players numRounds hnd t ht
  have hperm := stableSort_perm pairingOrder t.players
  have hsnames : ((stableSort pairingOrder t.players).map (fun p => p.name)).Perm players := by
    rw [← hnames]; exact hperm.map _
  have hsnd : ((stableSort pairingOrder t.players).map (fun p => p.name)).Nodup :=
    hsnames.nodup_iff.mpr hnd
  obtain ⟨hp1, -, hp3, -⟩ :=
    pairAll_paired uuid (t.currentRound + 1) (stableSort pairingOrder t.players) hsnd
  obtain ⟨hflat, hmatch⟩ :=
    pairAll_matches uuid (t.currentRound + 1) (stableSort pairingOrder t.players)
  have hview := oppView_generateNextRound uuid t
  have hold : ∀ p ∈ t.players, ∃ p' ∈ (generateNextRound uuid t).players,
      p'.name = p.name ∧ p'.opponents = p.opponents := by
    intro p hp
    have hmem : (p.name, p.opponents) ∈ oppView (generateNextRound uuid t).players := by
      rw [hview]
      exact List.mem_map_of_mem _ hp
    obtain ⟨p', hp', he⟩ := List.mem_map.mp hmem
    simp only [Prod.mk.injEq] at he
    exact ⟨p', hp', he.1, he.2⟩
  have hpairs : ∀ m ∈ (pairAll uuid (t.currentRound + 1)
      (stableSort pairingOrder t.players)).2,
      ∃ p ∈ (generateNextRound uuid t).players, ∃ q ∈ (generateNextRound uuid t).players,
        m.player1 = some p.name ∧ m.player2 = some q.name ∧
        q.name ∉ p.opponents ∧ p.name ∉ q.opponents := by
    intro m hm
    obtain ⟨p, hp, q, hq, hm1, hm2, hnew⟩ := hmatch m hm
    have hpt : p ∈ t.players := hperm.mem_iff.mp hp
    have hqt : q ∈ t.players := hperm.mem_iff.mp hq
    have hback : p.name ∉ q.opponents := fun hc =>
      hnew (hsymm (q.name, q.opponents) (List.mem_map_of_mem _ hqt)
        (p.name, p.opponents) (List.mem_map_of_mem _ hpt) hc)
    obtain ⟨p', hp', hpn, hpo⟩ := hold p hpt
    obtain ⟨q', hq', hqn, hqo⟩ := hold q hqt
    exact ⟨p', hp', q', hq', by rw [hpn]; exact hm1, by rw [hqn]; exact hm2,
      by rw [hqn, hpo]; exact hnew, by rw [hpn, hqo]; exact hback⟩
  have hrounds : ∃ r, (generateNextRound uuid t).rounds = t.rounds ++ [r] ∧
      (r.matchList = (pairAll uuid (t.currentRound + 1)
          (stableSort pairingOrder t.players)).2 ∨
        ∃ b ∈ stableSort pairingOrder t.players,
          b.name ∉ (pairAll uuid (t.currentRound + 1)
            (stableSort pairingOrder t.players)).1 ∧
          r.matchList = (pairAll uuid (t.currentRound + 1)
            (stableSort pairingOrder t.players)).2 ++
            [byeMatch (uuid (stableSort pairingOrder t.players).length)
              (t.currentRound + 1) b.name]) := by
    unfold generateNextRound
    rw [if_neg (by omega)]
    dsimp only
    split
    · exact ⟨_, rfl, Or.inl rfl⟩
    · rename_i b hb
      refine ⟨_, rfl, Or.inr ⟨b, ?_, ?_, rfl⟩⟩
      · split_ifs at hb
        exact List.mem_of_find?_eq_some hb
      · split_ifs at hb
        have := List.find?_some hb
        simpa using this
  obtain ⟨r, hr, hcases⟩ := hrounds
  refine ⟨r, hr, ?_, ?_⟩
  · rcases hcases with h | ⟨b, hb, hbp, h⟩
    · rw [h, hflat]
      exact hp1
    · rw [h, List.flatMap_append, hflat]
      have hbn : b.name ∈ players := hsnames.mem_iff.mp (List.mem_map_of_mem _ hb)
      have hbyep : "BYE" ∉ (pairAll uuid (t.currentRound + 1)
          (stableSort pairingOrder t.players)).1 := fun hc =>
        hbye (hsnames.mem_iff.mp (hp3 _ hc))
      have hne : b.name ≠ "BYE" := fun hc => hbye (hc ▸ hbn)
      rw [List.nodup_append]
      refine ⟨hp1, by simp [byeMatch, hne], ?_⟩
      intro x hx hx'
      simp only [byeMatch, List.flatMap_cons, List.flatMap_nil, Option.toList_some,
        List.append_nil, List.cons_append, List.nil_append, List.mem_cons,
        List.not_mem_nil, or_false] at hx'
      rcases hx' with rfl | rfl
      · exact hbp hx
      · exact hbyep hx
  · intro m hm hnb
    rcases hcases with h | ⟨b, -, -, h⟩
    · rw [h] at hm
      exact hpairs m hm
    · rw [h, List.mem_append, List.mem_singleton] at hm
      rcases hm with hm | rfl
      · exact hpairs m hm
      · exact absurd rfl hnb

/-- Witness for C25: `createSwissTournament(['A','B','C'], 2)`; round 1 pairs A with B and
gives C the bye. -/
theorem C25_appended_round_has_no_repeat_and_no_rematch_witness :
    ∃ r, (generateNextRound (fun i => String.mk (List.replicate (i + 1) 'm'))
        (createSwissTournament ["A", "B", "C"] (some 2))).rounds =
          (createSwissTournament ["A", "B", "C"] (some 2)).rounds ++ [r] ∧
      (r.matchList.flatMap (fun m => m.player1.toList ++ m.player2.toList)).Nodup ∧
      ∀ m ∈ r.matchList, m.player2 ≠ some "BYE" →
        ∃ p ∈ (generateNextRound (fun i => String.mk (List.replicate (i + 1) 'm'))
            (createSwissTournament ["A", "B", "C"] (some 2))).players,
          ∃ q ∈ (generateNextRound (fun i => String.mk (List.replicate (i + 1) 'm'))
            (createSwissTournament ["A", "B", "C"] (some 2))).players,
          m.player1 = some p.name ∧ m.player2 = some q.name ∧
          q.name ∉ p.opponents ∧ p.name ∉ q.opponents :=
  C25_appended_round_has_no_repeat_and_no_rematch ["A", "B", "C"] (some 2) (by decide)
    (by decide) _ SwissReachable.create (by decide) _

/-- C25 as stated fails for a roster with a player called `'BYE'`: in
`createSwissTournament(['A','BYE','C'], 2)` round 1 pairs A with the player `'BYE'` and
gives C the bye against `'BYE'`, so the name `'BYE'` of a player appears in two matches
of the round. -/
theorem C25_player_named_bye_appears_in_two_matches :
    SwissReachable ["A", "BYE", "C"] (some 2) (createSwissTournament ["A", "BYE", "C"] (some 2)) ∧
      (generateNextRound (fun i => String.mk (List.replicate (i + 1) 'm'))
        (createSwissTournament ["A", "BYE", "C"] (some 2))).rounds.map
          (fun r => r.matchList.map (fun m => (m.player1, m.player2))) =
        [[(some "A", some "BYE"), (some "C", some "BYE")]] := by
  refine ⟨SwissReachable.create, ?_⟩
  decide

end IronShot
